import Mathlib

/-!
# Link-cut tree (`Node.h`, `OpTreeNode.h`)

Shallow embedding of the pointer program.  A pointer `Node*` is an `Option Nat`
(`none` is `nullptr`), the heap is a record of field maps indexed by node
identity, and every method is a function on heaps.  A method returns `none`
when the C++ code would dereference `nullptr` or when a loop runs out of fuel.
-/

set_option linter.unusedTactic false
set_option linter.unreachableTactic false
set_option linter.unnecessarySeqFocus false
set_option linter.unusedVariables false
set_option linter.unusedSectionVars false

namespace LinkCutTree

/-- Flag positions of `Node<T>::flagType` (`std::bitset<4> _flags`). -/
inductive flagType where
  | IS_LEFT_CHILD
  | IS_RIGHT_CHILD
  | HAS_LEFT_CHILD
  | HAS_RIGHT_CHILD
  deriving DecidableEq, Repr

/-- Flag positions of `OpTreeNode<T>::flagType` (`std::bitset<6> _flags`). -/
inductive OpFlagType where
  | IS_LEFT_CHILD
  | IS_RIGHT_CHILD
  | IS_ONLY_CHILD
  | HAS_LEFT_CHILD
  | HAS_RIGHT_CHILD
  | HAS_ONLY_CHILD
  deriving DecidableEq, Repr

/-- The heap: one map per private field of `Node<T>` (`_left`, `_right`,
`_parent`, `_isRoot`, `_flags`) and the shadowing `_flags` of `OpTreeNode<T>`.
The payload `_key` and `_id` are never read by the algorithms. -/
structure Heap where
  left : Nat → Option Nat
  right : Nat → Option Nat
  parent : Nat → Option Nat
  isRoot : Nat → Bool
  flags : Nat → flagType → Bool
  opFlags : Nat → OpFlagType → Bool

/-- Every node freshly constructed: `_left(nullptr), _right(nullptr),
_parent(nullptr), _isRoot(true), _flags(0)`. -/
def fresh : Heap where
  left := fun _ => none
  right := fun _ => none
  parent := fun _ => none
  isRoot := fun _ => true
  flags := fun _ _ => false
  opFlags := fun _ _ => false

namespace Heap

/-- Assignment `x->_left = v`. -/
def setLeft (s : Heap) (x : Nat) (v : Option Nat) : Heap :=
  { s with left := Function.update s.left x v }

/-- Assignment `x->_right = v`. -/
def setRight (s : Heap) (x : Nat) (v : Option Nat) : Heap :=
  { s with right := Function.update s.right x v }

/-- Assignment `x->_parent = v`. -/
def setParent (s : Heap) (x : Nat) (v : Option Nat) : Heap :=
  { s with parent := Function.update s.parent x v }

/-- Assignment `x->_isRoot = b`. -/
def setIsRoot (s : Heap) (x : Nat) (b : Bool) : Heap :=
  { s with isRoot := Function.update s.isRoot x b }

/-- `Node<T>::setFlag`: `_flags.set(aType, aValue)` on node `x`. -/
def setFlag (s : Heap) (x : Nat) (t : flagType) (b : Bool) : Heap :=
  { s with flags := Function.update s.flags x (Function.update (s.flags x) t b) }

/-- `Node<T>::getFlag`. -/
def getFlag (s : Heap) (x : Nat) (t : flagType) : Bool := s.flags x t

/-- `OpTreeNode<T>::setFlag`. -/
def setOpFlag (s : Heap) (x : Nat) (t : OpFlagType) (b : Bool) : Heap :=
  { s with opFlags := Function.update s.opFlags x (Function.update (s.opFlags x) t b) }

/-- `OpTreeNode<T>::getFlag`. -/
def getOpFlag (s : Heap) (x : Nat) (t : OpFlagType) : Bool := s.opFlags x t

end Heap

/-- `Node<T>::rotR` with `this = x`. -/
def rotR (s : Heap) (x : Nat) : Option Heap := do
  -- _left->_parent = _parent;
  let l ← s.left x
  let s := s.setParent l (s.parent x)
  -- if (_parent) { if (_parent->_left == this) ...; if (_parent->_right == this) ...; }
  let s := match s.parent x with
    | none => s
    | some p =>
      let s1 := if s.left p = some x then s.setLeft p (s.left x) else s
      if s1.right p = some x then s1.setRight p (s1.left x) else s1
  -- _parent = _left;
  let s := s.setParent x (s.left x)
  -- if (_left->_right) { _left->_right->_parent = this; _left = _left->_right; } else { _left = nullptr; }
  let l ← s.left x
  let s ← match s.right l with
    | some lr =>
      let s1 := s.setParent lr (some x)
      (s1.left x).map fun l1 => s1.setLeft x (s1.right l1)
    | none => some (s.setLeft x none)
  -- _parent->_right = this;
  let p ← s.parent x
  let s := s.setRight p (some x)
  -- if (_isRoot) { _isRoot = false; _parent->_isRoot = true; }
  if s.isRoot x then
    let s := s.setIsRoot x false
    let p ← s.parent x
    pure (s.setIsRoot p true)
  else pure s

/-- `Node<T>::rotL` with `this = x`. -/
def rotL (s : Heap) (x : Nat) : Option Heap := do
  -- _right->_parent = _parent;
  let r ← s.right x
  let s := s.setParent r (s.parent x)
  -- if (_parent) { if (_parent->_right == this) ...; if (_parent->_left == this) ...; }
  let s := match s.parent x with
    | none => s
    | some p =>
      let s1 := if s.right p = some x then s.setRight p (s.right x) else s
      if s1.left p = some x then s1.setLeft p (s1.right x) else s1
  -- _parent = _right;
  let s := s.setParent x (s.right x)
  -- if (_right->_left) { _right->_left->_parent = this; _right = _right->_left; } else { _right = nullptr; }
  let r ← s.right x
  let s ← match s.left r with
    | some rl =>
      let s1 := s.setParent rl (some x)
      (s1.right x).map fun r1 => s1.setRight x (s1.left r1)
    | none => some (s.setRight x none)
  -- _parent->_left = this;
  let p ← s.parent x
  let s := s.setLeft p (some x)
  -- if (_isRoot) { _isRoot = false; _parent->_isRoot = true; }
  if s.isRoot x then
    let s := s.setIsRoot x false
    let p ← s.parent x
    pure (s.setIsRoot p true)
  else pure s

/-- One iteration of the body of the `while (!_isRoot)` loop of
`Node<T>::splay` with `this = x`; `&&` is short-circuit, and `_parent` is
read again after every rotation. -/
def splayStep (s : Heap) (x : Nat) : Option Heap := do
  let p ← s.parent x
  -- zig
  if s.isRoot p then
    if s.left p = some x then rotR s p else rotL s p
  else
    -- lefthanded zigzig
    let c1 ← if s.left p = some x then (s.parent p).map fun g => decide (s.left g = some p)
             else some false
    if c1 then
      let g ← s.parent p
      let s ← rotR s g
      let p ← s.parent x
      rotR s p
    else
      -- righthanded zigzig
      let c2 ← if s.right p = some x then (s.parent p).map fun g => decide (s.right g = some p)
               else some false
      if c2 then
        let g ← s.parent p
        let s ← rotL s g
        let p ← s.parent x
        rotL s p
      else
        -- lefthanded zigzag
        let c3 ← if s.right p = some x then (s.parent p).map fun g => decide (s.left g = some p)
                 else some false
        if c3 then
          let s ← rotL s p
          let p ← s.parent x
          rotR s p
        else
          -- righthanded zigzag
          let s ← rotR s p
          let p ← s.parent x
          rotL s p

/-- `Node<T>::splay` with `this = x`: `while (!_isRoot) { ... }`, at most
`fuel` iterations. -/
def splay : Nat → Heap → Nat → Option Heap
  | 0, _, _ => none
  | fuel + 1, s, x =>
    if s.isRoot x then some s
    else (splayStep s x).bind fun s1 => splay fuel s1 x

/-- The `while (_parent) { ... }` loop of `Node<T>::expose` with `this = v`;
`k` bounds the iterations of this loop and `fuel` those of each `splay`. -/
def exposeLoop (fuel : Nat) : Nat → Heap → Nat → Option Heap
  | 0, _, _ => none
  | k + 1, s, v =>
    match s.parent v with
    | none => some s
    | some p => do
      -- _parent->splay();
      let s ← splay fuel s p
      -- if (_parent->_right) { _parent->_right->_isRoot = true; }
      let p ← s.parent v
      let s := match s.right p with
        | some r => s.setIsRoot r true
        | none => s
      -- _parent->_right = this;
      let p ← s.parent v
      let s := s.setRight p (some v)
      -- _isRoot = false;
      let s := s.setIsRoot v false
      -- splay();
      let s ← splay fuel s v
      exposeLoop fuel k s v

/-- `Node<T>::expose` with `this = v`. -/
def expose (fuel : Nat) (s : Heap) (v : Nat) : Option Heap := do
  -- splay();
  let s ← splay fuel s v
  -- if (_right) { _right->_isRoot = true; _right = nullptr; }
  let s := match s.right v with
    | some r => (s.setIsRoot r true).setRight v none
    | none => s
  exposeLoop fuel fuel s v

/-- The loop `while (lRoot->_left) lRoot = lRoot->_left;`. -/
def leftmost : Nat → Heap → Nat → Option Nat
  | 0, _, _ => none
  | fuel + 1, s, x =>
    match s.left x with
    | some l => leftmost fuel s l
    | none => some x

/-- The loop `while (lTemp->_right) lTemp = lTemp->_right;`. -/
def rightmost : Nat → Heap → Nat → Option Nat
  | 0, _, _ => none
  | fuel + 1, s, x =>
    match s.right x with
    | some r => rightmost fuel s r
    | none => some x

/-- `Node<T>::findRoot` with `this = v`: the heap after the call and the
returned node. -/
def findRoot (fuel : Nat) (s : Heap) (v : Nat) : Option (Heap × Nat) := do
  let s ← expose fuel s v
  let r ← leftmost fuel s v
  let s ← splay fuel s r
  pure (s, r)

/-- The `while (true)` loop of `Node<T>::findParent`: the returned pointer. -/
def climb : Nat → Heap → Nat → Option (Option Nat)
  | 0, _, _ => none
  | fuel + 1, s, t =>
    if s.isRoot t then some (s.parent t)
    else
      match s.parent t with
      | none => none
      | some p => if s.right p = some t then some (some p) else climb fuel s p

/-- `Node<T>::findParent` with `this = v`: the returned pointer (the method
writes no field). -/
def findParent (fuel : Nat) (s : Heap) (v : Nat) : Option (Option Nat) :=
  match s.left v with
  | some l => (rightmost fuel s l).map some
  | none =>
    match s.parent v with
    | some _ => climb fuel s v
    | none => some none

/-- `Node<T>::lowestCommonAncestor`'s final loop
`while (!lLca->_isRoot) lLca = lLca->_parent;`. -/
def auxTop : Nat → Heap → Nat → Option Nat
  | 0, _, _ => none
  | fuel + 1, s, x =>
    if s.isRoot x then some x
    else (s.parent x).bind fun p => auxTop fuel s p

/-- `Node<T>::lowestCommonAncestor` with `this = u`, `aOther = v`: the heap
after the call and the returned pointer. -/
def lowestCommonAncestor (fuel : Nat) (s : Heap) (u v : Nat) :
    Option (Heap × Option Nat) := do
  let (s, lRoot) ← findRoot fuel s u
  let (s, oRoot) ← findRoot fuel s v
  if lRoot ≠ oRoot then pure (s, none)
  else if lRoot = u ∨ v = u then pure (s, some u)
  else if lRoot = v then pure (s, some v)
  else
    let s ← expose fuel s u
    let s ← expose fuel s v
    let t ← auxTop fuel s u
    pure (s, s.parent t)

/-- `Node<T>::path` with `this = v`: the nodes handed to `aFunction`, in call
order (`do { aFunction(lTemp); } while ((lTemp = lTemp->findParent()) != nullptr)`). -/
def path : Nat → Heap → Nat → Option (List Nat)
  | 0, _, _ => none
  | fuel + 1, s, v =>
    match findParent (fuel + 1) s v with
    | none => none
    | some none => some [v]
    | some (some p) => (path fuel s p).map fun l => v :: l

/-- `Node<T>::link` with `this = v`. -/
def link (fuel : Nat) (s : Heap) (v other : Nat) : Option (Heap × Bool) := do
  let s ← expose fuel s v
  if (s.left v).isSome then pure (s, false)
  else
    let s ← expose fuel s other
    let s := s.setLeft v (some other)
    let s := s.setParent other (some v)
    let s := s.setIsRoot other false
    pure (s, true)

/-- `Node<T>::linkLeft` with `this = v`. -/
def linkLeft (fuel : Nat) (s : Heap) (v other : Nat) : Option (Heap × Bool) :=
  if s.getFlag other .HAS_LEFT_CHILD then some (s, false)
  else do
    let (s, ok) ← link fuel s v other
    if !ok then pure (s, false)
    else
      let s := s.setFlag other .HAS_LEFT_CHILD true
      let s := s.setFlag v .IS_LEFT_CHILD true
      pure (s, true)

/-- `Node<T>::linkRight` with `this = v`. -/
def linkRight (fuel : Nat) (s : Heap) (v other : Nat) : Option (Heap × Bool) :=
  if s.getFlag other .HAS_RIGHT_CHILD then some (s, false)
  else do
    let (s, ok) ← link fuel s v other
    if !ok then pure (s, false)
    else
      let s := s.setFlag other .HAS_RIGHT_CHILD true
      let s := s.setFlag v .IS_RIGHT_CHILD true
      pure (s, true)

/-- `Node<T>::cut` with `this = v`. -/
def cut (fuel : Nat) (s : Heap) (v : Nat) : Option Heap := do
  let s ← expose fuel s v
  match s.left v with
  | none => pure s
  | some _ =>
    let lParent ← (← findParent fuel s v)
    let s := if s.getFlag lParent .HAS_LEFT_CHILD && s.getFlag v .IS_LEFT_CHILD then
        (s.setFlag lParent .HAS_LEFT_CHILD false).setFlag v .IS_LEFT_CHILD false
      else s
    let s := if s.getFlag lParent .HAS_RIGHT_CHILD && s.getFlag v .IS_RIGHT_CHILD then
        (s.setFlag lParent .HAS_RIGHT_CHILD false).setFlag v .IS_RIGHT_CHILD false
      else s
    -- _left->_isRoot = true; _left->_parent = nullptr; _left = nullptr;
    let l ← s.left v
    let s := s.setIsRoot l true
    let l ← s.left v
    let s := s.setParent l none
    pure (s.setLeft v none)

/-- `OpTreeNode<T>::linkLeft` with `this = v`. -/
def opLinkLeft (fuel : Nat) (s : Heap) (v other : Nat) : Option (Heap × Bool) :=
  if s.getOpFlag other .HAS_LEFT_CHILD then some (s, false)
  else do
    let (s, ok) ← link fuel s v other
    if !ok then pure (s, false)
    else
      let s := s.setOpFlag other .HAS_LEFT_CHILD true
      let s := s.setOpFlag v .IS_LEFT_CHILD true
      pure (s, true)

/-- `OpTreeNode<T>::linkRight` with `this = v`. -/
def opLinkRight (fuel : Nat) (s : Heap) (v other : Nat) : Option (Heap × Bool) :=
  if s.getOpFlag other .HAS_RIGHT_CHILD then some (s, false)
  else do
    let (s, ok) ← link fuel s v other
    if !ok then pure (s, false)
    else
      let s := s.setOpFlag other .HAS_RIGHT_CHILD true
      let s := s.setOpFlag v .IS_RIGHT_CHILD true
      pure (s, true)

/-- `OpTreeNode<T>::cut` with `this = v`. -/
def opCut (fuel : Nat) (s : Heap) (v : Nat) : Option Heap := do
  let s ← expose fuel s v
  match s.left v with
  | none => pure s
  | some _ =>
    let lParent ← (← findParent fuel s v)
    let s := if s.getOpFlag lParent .HAS_LEFT_CHILD && s.getOpFlag v .IS_LEFT_CHILD then
        (s.setOpFlag lParent .HAS_LEFT_CHILD false).setOpFlag v .IS_LEFT_CHILD false
      else s
    let s := if s.getOpFlag lParent .HAS_RIGHT_CHILD && s.getOpFlag v .IS_RIGHT_CHILD then
        (s.setOpFlag lParent .HAS_RIGHT_CHILD false).setOpFlag v .IS_RIGHT_CHILD false
      else s
    let l ← s.left v
    let s := s.setIsRoot l true
    let l ← s.left v
    let s := s.setParent l none
    pure (s.setLeft v none)

/-- The depth of `v` in its represented tree: the number of `findParent`
steps from `v` to the node whose `findParent` is `nullptr`. -/
def depth : Nat → Heap → Nat → Option Nat
  | 0, _, _ => none
  | fuel + 1, s, v =>
    match findParent (fuel + 1) s v with
    | none => none
    | some none => some 0
    | some (some p) => (depth fuel s p).map fun d => d + 1

/-! ## Vocabulary of the specification -/

/-- The call `v.findParent()` returns `p`: the represented parent of `v`
(`none` when `v` is the root of its represented tree). -/
def IsParent (s : Heap) (v : Nat) (p : Option Nat) : Prop :=
  ∃ f, findParent f s v = some p

/-- Node `r` is the root of the represented tree of `v`: it is reached from
`v` by repeatedly taking the represented parent, and has none itself. -/
def ReprRoot (s : Heap) (v r : Nat) : Prop :=
  Relation.ReflTransGen (fun a b => IsParent s a (some b)) v r ∧ IsParent s r none

/-- Nodes `u` and `v` belong to the same represented tree. -/
def SameTree (s : Heap) (u v : Nat) : Prop :=
  ∃ r, ReprRoot s u r ∧ ReprRoot s v r

/-- Well-formed forests: the heaps reached from freshly constructed nodes by
calls of the public methods, where `link`, `linkLeft` and `linkRight` are
only called on nodes of different represented trees (the documented
precondition of `link`). -/
inductive Reachable : Heap → Prop
  | fresh : Reachable fresh
  | expose {s s1 : Heap} {f v : Nat} :
      Reachable s → expose f s v = some s1 → Reachable s1
  | findRoot {s s1 : Heap} {f v r : Nat} :
      Reachable s → findRoot f s v = some (s1, r) → Reachable s1
  | lowestCommonAncestor {s s1 : Heap} {f u v : Nat} {r : Option Nat} :
      Reachable s → lowestCommonAncestor f s u v = some (s1, r) → Reachable s1
  | link {s s1 : Heap} {f v o : Nat} {b : Bool} :
      Reachable s → ¬ SameTree s v o → link f s v o = some (s1, b) → Reachable s1
  | linkLeft {s s1 : Heap} {f v o : Nat} {b : Bool} :
      Reachable s → ¬ SameTree s v o → linkLeft f s v o = some (s1, b) → Reachable s1
  | linkRight {s s1 : Heap} {f v o : Nat} {b : Bool} :
      Reachable s → ¬ SameTree s v o → linkRight f s v o = some (s1, b) → Reachable s1
  | cut {s s1 : Heap} {f v : Nat} :
      Reachable s → cut f s v = some s1 → Reachable s1
  | opLinkLeft {s s1 : Heap} {f v o : Nat} {b : Bool} :
      Reachable s → ¬ SameTree s v o → opLinkLeft f s v o = some (s1, b) → Reachable s1
  | opLinkRight {s s1 : Heap} {f v o : Nat} {b : Bool} :
      Reachable s → ¬ SameTree s v o → opLinkRight f s v o = some (s1, b) → Reachable s1
  | opCut {s s1 : Heap} {f v : Nat} :
      Reachable s → opCut f s v = some s1 → Reachable s1

/-- Forests of `Node<T>` objects built with the directional interface only:
reached from fresh nodes by `linkLeft`, `linkRight` and `cut` calls, the links
between nodes of different represented trees. -/
inductive DirReachable : Heap → Prop
  | fresh : DirReachable fresh
  | linkLeft {s s1 : Heap} {f v o : Nat} {b : Bool} :
      DirReachable s → ¬ SameTree s v o → linkLeft f s v o = some (s1, b) → DirReachable s1
  | linkRight {s s1 : Heap} {f v o : Nat} {b : Bool} :
      DirReachable s → ¬ SameTree s v o → linkRight f s v o = some (s1, b) → DirReachable s1
  | cut {s s1 : Heap} {f v : Nat} :
      DirReachable s → cut f s v = some s1 → DirReachable s1

/-- Forests of `OpTreeNode<T>` objects built with the directional interface of
the subclass only: `OpTreeNode::linkLeft`, `OpTreeNode::linkRight` and
`OpTreeNode::cut`. -/
inductive OpDirReachable : Heap → Prop
  | fresh : OpDirReachable fresh
  | linkLeft {s s1 : Heap} {f v o : Nat} {b : Bool} :
      OpDirReachable s → ¬ SameTree s v o → opLinkLeft f s v o = some (s1, b) →
      OpDirReachable s1
  | linkRight {s s1 : Heap} {f v o : Nat} {b : Bool} :
      OpDirReachable s → ¬ SameTree s v o → opLinkRight f s v o = some (s1, b) →
      OpDirReachable s1
  | cut {s s1 : Heap} {f v : Nat} :
      OpDirReachable s → opCut f s v = some s1 → OpDirReachable s1

/-- The shape of the directional variant, for role flags `isL`, `isR`,
occupancy flags `hasL`, `hasR` and the represented-parent relation `par`:
every node has at most one child with the left role and at most one with the
right role, an occupancy flag is set exactly when such a child exists, and no
node has both roles. -/
def DirShape (isL isR hasL hasR : Nat → Bool) (par : Nat → Option Nat → Prop) : Prop :=
  (∀ p x y, par x (some p) → par y (some p) → isL x = true → isL y = true → x = y) ∧
  (∀ p x y, par x (some p) → par y (some p) → isR x = true → isR y = true → x = y) ∧
  (∀ p, hasL p = true ↔ ∃ x, par x (some p) ∧ isL x = true) ∧
  (∀ p, hasR p = true ↔ ∃ x, par x (some p) ∧ isR x = true) ∧
  (∀ x, ¬ (isL x = true ∧ isR x = true))

/-- The in-order sequence of the auxiliary subtree behind the pointer `x`:
the nodes reached from it through `_left` and `_right`, left subtree first;
`fuel` bounds the depth. -/
def inorder : Nat → Heap → Option Nat → Option (List Nat)
  | _, _, none => some []
  | 0, _, some _ => none
  | fuel + 1, s, some x => do
    let l ← inorder fuel s (s.left x)
    let r ← inorder fuel s (s.right x)
    pure (l ++ x :: r)

/-- The element just before `v` in the sequence `l` (`none` when `v` is the
first element or does not occur). -/
def predIn : List Nat → Nat → Option Nat
  | a :: b :: l, v => if b = v then some a else predIn (b :: l) v
  | _, _ => none


/-- Node `a` is the `_left` or the `_right` child of node `b`. -/
def AuxChild (s : Heap) (a b : Nat) : Prop :=
  s.left b = some a ∨ s.right b = some a

/-- Nodes `x` and `y` belong to the same auxiliary tree: they are connected by
`_left` and `_right` pointers. -/
def SameAux (s : Heap) : Nat → Nat → Prop :=
  Relation.EqvGen (AuxChild s)


/-- Well-formed forests of `Node<T>` objects: the heaps reached from fresh
nodes by the public methods of `Node<T>`, the links between nodes of different
represented trees. -/
inductive NodeReachable : Heap → Prop
  | fresh : NodeReachable fresh
  | expose {s s1 : Heap} {f v : Nat} :
      NodeReachable s → expose f s v = some s1 → NodeReachable s1
  | findRoot {s s1 : Heap} {f v r : Nat} :
      NodeReachable s → findRoot f s v = some (s1, r) → NodeReachable s1
  | lowestCommonAncestor {s s1 : Heap} {f u v : Nat} {r : Option Nat} :
      NodeReachable s → lowestCommonAncestor f s u v = some (s1, r) → NodeReachable s1
  | link {s s1 : Heap} {f v o : Nat} {b : Bool} :
      NodeReachable s → ¬ SameTree s v o → link f s v o = some (s1, b) → NodeReachable s1
  | linkLeft {s s1 : Heap} {f v o : Nat} {b : Bool} :
      NodeReachable s → ¬ SameTree s v o → linkLeft f s v o = some (s1, b) →
      NodeReachable s1
  | linkRight {s s1 : Heap} {f v o : Nat} {b : Bool} :
      NodeReachable s → ¬ SameTree s v o → linkRight f s v o = some (s1, b) →
      NodeReachable s1
  | cut {s s1 : Heap} {f v : Nat} :
      NodeReachable s → cut f s v = some s1 → NodeReachable s1

/-- Well-formed forests of `OpTreeNode<T>` objects: the heaps reached from
fresh nodes by the methods an `OpTreeNode<T>` offers, its own `linkLeft`,
`linkRight` and `cut` and the inherited `expose`, `findRoot`,
`lowestCommonAncestor` and `link`. -/
inductive OpNodeReachable : Heap → Prop
  | fresh : OpNodeReachable fresh
  | expose {s s1 : Heap} {f v : Nat} :
      OpNodeReachable s → expose f s v = some s1 → OpNodeReachable s1
  | findRoot {s s1 : Heap} {f v r : Nat} :
      OpNodeReachable s → findRoot f s v = some (s1, r) → OpNodeReachable s1
  | lowestCommonAncestor {s s1 : Heap} {f u v : Nat} {r : Option Nat} :
      OpNodeReachable s → lowestCommonAncestor f s u v = some (s1, r) → OpNodeReachable s1
  | link {s s1 : Heap} {f v o : Nat} {b : Bool} :
      OpNodeReachable s → ¬ SameTree s v o → link f s v o = some (s1, b) →
      OpNodeReachable s1
  | linkLeft {s s1 : Heap} {f v o : Nat} {b : Bool} :
      OpNodeReachable s → ¬ SameTree s v o → opLinkLeft f s v o = some (s1, b) →
      OpNodeReachable s1
  | linkRight {s s1 : Heap} {f v o : Nat} {b : Bool} :
      OpNodeReachable s → ¬ SameTree s v o → opLinkRight f s v o = some (s1, b) →
      OpNodeReachable s1
  | cut {s s1 : Heap} {f v : Nat} :
      OpNodeReachable s → opCut f s v = some s1 → OpNodeReachable s1


/-- A call of a public method of `Node<T>` other than `x.cut()`, the links
between nodes of different represented trees, leading from heap `s` to heap
`s1`. -/
inductive NodeCall (x : Nat) : Heap → Heap → Prop
  | expose {s s1 : Heap} {f v : Nat} : expose f s v = some s1 → NodeCall x s s1
  | findRoot {s s1 : Heap} {f v r : Nat} : findRoot f s v = some (s1, r) → NodeCall x s s1
  | lowestCommonAncestor {s s1 : Heap} {f u v : Nat} {r : Option Nat} :
      lowestCommonAncestor f s u v = some (s1, r) → NodeCall x s s1
  | link {s s1 : Heap} {f v o : Nat} {b : Bool} :
      ¬ SameTree s v o → link f s v o = some (s1, b) → NodeCall x s s1
  | linkLeft {s s1 : Heap} {f v o : Nat} {b : Bool} :
      ¬ SameTree s v o → linkLeft f s v o = some (s1, b) → NodeCall x s s1
  | linkRight {s s1 : Heap} {f v o : Nat} {b : Bool} :
      ¬ SameTree s v o → linkRight f s v o = some (s1, b) → NodeCall x s s1
  | cut {s s1 : Heap} {f v : Nat} : v ≠ x → cut f s v = some s1 → NodeCall x s s1

/-- A call of a method of `OpTreeNode<T>` other than `x.cut()`, leading from
heap `s` to heap `s1`. -/
inductive OpNodeCall (x : Nat) : Heap → Heap → Prop
  | expose {s s1 : Heap} {f v : Nat} : expose f s v = some s1 → OpNodeCall x s s1
  | findRoot {s s1 : Heap} {f v r : Nat} : findRoot f s v = some (s1, r) → OpNodeCall x s s1
  | lowestCommonAncestor {s s1 : Heap} {f u v : Nat} {r : Option Nat} :
      lowestCommonAncestor f s u v = some (s1, r) → OpNodeCall x s s1
  | link {s s1 : Heap} {f v o : Nat} {b : Bool} :
      ¬ SameTree s v o → link f s v o = some (s1, b) → OpNodeCall x s s1
  | linkLeft {s s1 : Heap} {f v o : Nat} {b : Bool} :
      ¬ SameTree s v o → opLinkLeft f s v o = some (s1, b) → OpNodeCall x s s1
  | linkRight {s s1 : Heap} {f v o : Nat} {b : Bool} :
      ¬ SameTree s v o → opLinkRight f s v o = some (s1, b) → OpNodeCall x s s1
  | cut {s s1 : Heap} {f v : Nat} : v ≠ x → opCut f s v = some s1 → OpNodeCall x s s1


/-! ## The methods with a rotation counter -/

/-- `Node<T>::rotR` on a heap paired with the number of rotations performed so
far: the call is counted. -/
def rotRC (sc : Heap × Nat) (x : Nat) : Option (Heap × Nat) :=
  (rotR sc.1 x).map fun s => (s, sc.2 + 1)

/-- `Node<T>::rotL` with the rotation counter. -/
def rotLC (sc : Heap × Nat) (x : Nat) : Option (Heap × Nat) :=
  (rotL sc.1 x).map fun s => (s, sc.2 + 1)

/-- The body of the loop of `Node<T>::splay` with the rotation counter; the
control flow is that of `splayStep`. -/
def splayStepC (sc : Heap × Nat) (x : Nat) : Option (Heap × Nat) := do
  let p ← sc.1.parent x
  if sc.1.isRoot p then
    if sc.1.left p = some x then rotRC sc p else rotLC sc p
  else
    let c1 ← if sc.1.left p = some x then
        (sc.1.parent p).map fun g => decide (sc.1.left g = some p)
      else some false
    if c1 then
      let g ← sc.1.parent p
      let sc ← rotRC sc g
      let p ← sc.1.parent x
      rotRC sc p
    else
      let c2 ← if sc.1.right p = some x then
          (sc.1.parent p).map fun g => decide (sc.1.right g = some p)
        else some false
      if c2 then
        let g ← sc.1.parent p
        let sc ← rotLC sc g
        let p ← sc.1.parent x
        rotLC sc p
      else
        let c3 ← if sc.1.right p = some x then
            (sc.1.parent p).map fun g => decide (sc.1.left g = some p)
          else some false
        if c3 then
          let sc ← rotLC sc p
          let p ← sc.1.parent x
          rotRC sc p
        else
          let sc ← rotRC sc p
          let p ← sc.1.parent x
          rotLC sc p

/-- `Node<T>::splay` with the rotation counter. -/
def splayC : Nat → Heap × Nat → Nat → Option (Heap × Nat)
  | 0, _, _ => none
  | fuel + 1, sc, x =>
    if sc.1.isRoot x then some sc
    else (splayStepC sc x).bind fun sc1 => splayC fuel sc1 x

/-- The loop of `Node<T>::expose` with the rotation counter. -/
def exposeLoopC (fuel : Nat) : Nat → Heap × Nat → Nat → Option (Heap × Nat)
  | 0, _, _ => none
  | k + 1, sc, v =>
    match sc.1.parent v with
    | none => some sc
    | some p => do
      let sc ← splayC fuel sc p
      let p ← sc.1.parent v
      let s := match sc.1.right p with
        | some r => sc.1.setIsRoot r true
        | none => sc.1
      let p ← s.parent v
      let s := s.setRight p (some v)
      let s := s.setIsRoot v false
      let sc ← splayC fuel (s, sc.2) v
      exposeLoopC fuel k sc v

/-- `Node<T>::expose` with the rotation counter. -/
def exposeC (fuel : Nat) (sc : Heap × Nat) (v : Nat) : Option (Heap × Nat) := do
  let sc ← splayC fuel sc v
  let s := match sc.1.right v with
    | some r => (sc.1.setIsRoot r true).setRight v none
    | none => sc.1
  exposeLoopC fuel fuel (s, sc.2) v

/-- `Node<T>::link` with the rotation counter. -/
def linkC (fuel : Nat) (sc : Heap × Nat) (v other : Nat) : Option ((Heap × Nat) × Bool) := do
  let sc ← exposeC fuel sc v
  if (sc.1.left v).isSome then pure (sc, false)
  else
    let sc ← exposeC fuel sc other
    let s := sc.1.setLeft v (some other)
    let s := s.setParent other (some v)
    let s := s.setIsRoot other false
    pure ((s, sc.2), true)

/-- `Node<T>::cut` with the rotation counter. -/
def cutC (fuel : Nat) (sc : Heap × Nat) (v : Nat) : Option (Heap × Nat) := do
  let sc ← exposeC fuel sc v
  let s := sc.1
  match s.left v with
  | none => pure sc
  | some _ =>
    let lParent ← (← findParent fuel s v)
    let s := if s.getFlag lParent .HAS_LEFT_CHILD && s.getFlag v .IS_LEFT_CHILD then
        (s.setFlag lParent .HAS_LEFT_CHILD false).setFlag v .IS_LEFT_CHILD false
      else s
    let s := if s.getFlag lParent .HAS_RIGHT_CHILD && s.getFlag v .IS_RIGHT_CHILD then
        (s.setFlag lParent .HAS_RIGHT_CHILD false).setFlag v .IS_RIGHT_CHILD false
      else s
    let l ← s.left v
    let s := s.setIsRoot l true
    let l ← s.left v
    let s := s.setParent l none
    pure (s.setLeft v none, sc.2)

/-- The operations of a workload: `v.link(other)`, `v.cut()`, `v.expose()`. -/
inductive Op where
  | link (v other : Nat)
  | cut (v : Nat)
  | expose (v : Nat)

/-- Every node an operation names is below `n`. -/
def Op.Below (n : Nat) : Op → Prop
  | .link v o => v < n ∧ o < n
  | .cut v => v < n
  | .expose v => v < n

/-- One operation of a workload, with the rotation counter. -/
def stepC (fuel : Nat) (sc : Heap × Nat) : Op → Option (Heap × Nat)
  | .link v o => (linkC fuel sc v o).map Prod.fst
  | .cut v => cutC fuel sc v
  | .expose v => exposeC fuel sc v

/-- A workload run from the left, with the rotation counter. -/
def runC (fuel : Nat) : Heap × Nat → List Op → Option (Heap × Nat)
  | sc, [] => some sc
  | sc, op :: ops => (stepC fuel sc op).bind fun sc1 => runC fuel sc1 ops

/-- The workload never links the root of a represented tree below a node of
that tree. The documented precondition of `link` is that the two nodes lie in
different represented trees; on a node that is not a root the call fails
whatever the other node is, so only calls on roots are restricted here. -/
def Valid : Heap → List Op → Prop
  | _, [] => True
  | s, op :: ops =>
    (match op with
      | .link v o => IsParent s v none → ¬ SameTree s v o
      | _ => True) ∧
    ∀ f k sc1, stepC f (s, k) op = some sc1 → Valid sc1.1 ops

/-- One operation of a workload on the heap alone. -/
def step (fuel : Nat) (s : Heap) : Op → Option Heap
  | .link v o => (link fuel s v o).map Prod.fst
  | .cut v => cut fuel s v
  | .expose v => expose fuel s v

/-- A workload run from the left on the heap alone. -/
def run (fuel : Nat) : Heap → List Op → Option Heap
  | s, [] => some s
  | s, op :: ops => (step fuel s op).bind fun s1 => run fuel s1 ops

/-! ## Ghost state and the structural invariant -/

/-- Ghost description of a heap: the represented parent `rp` of every node, a
rank `d` that strictly grows from represented parent to child, the in-order
sequence `io x` of the auxiliary subtree rooted at `x`, and a bound `N` on
the length of those sequences. -/
structure Ghost where
  rp : Nat → Option Nat
  d : Nat → Nat
  io : Nat → List Nat
  N : Nat

/-- In-order sequence behind a child pointer. -/
def Ghost.ioo (g : Ghost) : Option Nat → List Nat
  | none => []
  | some y => g.io y

/-- What the invariant says at one node `x`. -/
structure Local (s : Heap) (g : Ghost) (x : Nat) : Prop where
  io_eq : g.io x = g.ioo (s.left x) ++ x :: g.ioo (s.right x)
  chain : (g.io x).Chain' (fun a b => g.rp b = some a)
  root_pp : s.isRoot x = true → ∀ h, (g.io x).head? = some h → g.rp h = s.parent x
  left_ok : ∀ y, s.left x = some y → s.parent y = some x ∧ s.isRoot y = false
  right_ok : ∀ y, s.right x = some y → s.parent y = some x ∧ s.isRoot y = false
  nonroot : s.isRoot x = false →
    ∃ p, s.parent x = some p ∧ (s.left p = some x ∨ s.right p = some x)
  rank : ∀ p, g.rp x = some p → g.d p < g.d x
  size : (g.io x).length ≤ g.N

/-- The structural invariant: `Local` at every node. -/
def Inv (s : Heap) (g : Ghost) : Prop := ∀ x, Local s g x

section Basic

variable {s : Heap} {g : Ghost}

@[simp] theorem ioo_none : g.ioo none = [] := rfl
@[simp] theorem ioo_some (y : Nat) : g.ioo (some y) = g.io y := rfl

theorem Inv.self_mem (h : Inv s g) (x : Nat) : x ∈ g.io x := by
  rw [(h x).io_eq]; simp

theorem Inv.io_ne_nil (h : Inv s g) (x : Nat) : g.io x ≠ [] := by
  intro e; have := h.self_mem x; simp [e] at this

theorem Inv.sorted (h : Inv s g) (x : Nat) :
    (g.io x).Pairwise (fun a b => g.d a < g.d b) := by
  have h1 : (g.io x).Chain' (fun a b => g.d a < g.d b) :=
    (h x).chain.imp (fun a b hab => (h b).rank a hab)
  have h2 : ((g.io x).map g.d).Chain' (· < ·) := (List.chain'_map g.d).2 h1
  have h3 := (List.chain'_iff_pairwise).1 h2
  exact (List.pairwise_map).1 h3

theorem Inv.left_mem (h : Inv s g) {x y : Nat} (hl : s.left x = some y) :
    ∀ a ∈ g.io y, a ∈ g.io x := by
  intro a ha; rw [(h x).io_eq, hl]; simp [ha]

theorem Inv.right_mem (h : Inv s g) {x y : Nat} (hr : s.right x = some y) :
    ∀ a ∈ g.io y, a ∈ g.io x := by
  intro a ha; rw [(h x).io_eq, hr]; simp [ha]

theorem Inv.left_lt (h : Inv s g) {x y : Nat} (hl : s.left x = some y) :
    ∀ a ∈ g.io y, g.d a < g.d x := by
  intro a ha
  have hs := h.sorted x
  rw [(h x).io_eq, hl] at hs
  simp only [ioo_some] at hs
  rw [List.pairwise_append] at hs
  exact hs.2.2 a ha x (by simp)

theorem Inv.right_lt (h : Inv s g) {x y : Nat} (hr : s.right x = some y) :
    ∀ a ∈ g.io y, g.d x < g.d a := by
  intro a ha
  have hs := h.sorted x
  rw [(h x).io_eq, hr] at hs
  simp only [ioo_some] at hs
  rw [List.pairwise_append] at hs
  have := hs.2.1
  rw [List.pairwise_cons] at this
  exact this.1 a ha

theorem Inv.left_len (h : Inv s g) {x y : Nat} (hl : s.left x = some y) :
    (g.io y).length < (g.io x).length := by
  rw [(h x).io_eq, hl]; simp

theorem Inv.right_len (h : Inv s g) {x y : Nat} (hr : s.right x = some y) :
    (g.io y).length < (g.io x).length := by
  rw [(h x).io_eq, hr]; simp; omega

theorem Inv.left_ne (h : Inv s g) {x y : Nat} (hl : s.left x = some y) : y ≠ x := by
  intro e; have := h.left_len hl; rw [e] at this; omega

theorem Inv.right_ne (h : Inv s g) {x y : Nat} (hr : s.right x = some y) : y ≠ x := by
  intro e; have := h.right_len hr; rw [e] at this; omega

theorem Inv.left_ne_right (h : Inv s g) {x y z : Nat} (hl : s.left x = some y)
    (hr : s.right x = some z) : y ≠ z := by
  intro e
  have h1 := h.left_lt hl y (h.self_mem y)
  have h2 := h.right_lt hr z (h.self_mem z)
  rw [e] at h1; omega

/-- A node inside the subtree of `r`, other than `r`, is not an auxiliary
root and its parent pointer stays inside the subtree. -/
theorem Inv.mem_up (h : Inv s g) : ∀ (n r : Nat), (g.io r).length ≤ n → ∀ t ∈ g.io r, t ≠ r →
    s.isRoot t = false ∧ ∃ p, s.parent t = some p ∧ p ∈ g.io r := by
  intro n
  induction n with
  | zero =>
    intro r hr; have := h.io_ne_nil r
    have : g.io r = [] := List.length_eq_zero.1 (Nat.le_zero.1 hr)
    contradiction
  | succ n ih =>
    intro r hr t ht hne
    rw [(h r).io_eq] at ht
    simp only [List.mem_append, List.mem_cons] at ht
    rcases ht with ht | ht | ht
    · cases hl : s.left r with
      | none => simp [hl] at ht
      | some y =>
        rw [hl] at ht; simp only [ioo_some] at ht
        by_cases e : t = y
        · subst e
          exact ⟨((h r).left_ok t hl).2, r, ((h r).left_ok t hl).1, h.self_mem r⟩
        · have hlen := h.left_len hl
          obtain ⟨h1, p, h2, h3⟩ := ih y (by omega) t ht e
          exact ⟨h1, p, h2, h.left_mem hl p h3⟩
    · exact absurd ht hne
    · cases hl : s.right r with
      | none => simp [hl] at ht
      | some y =>
        rw [hl] at ht; simp only [ioo_some] at ht
        by_cases e : t = y
        · subst e
          exact ⟨((h r).right_ok t hl).2, r, ((h r).right_ok t hl).1, h.self_mem r⟩
        · have hlen := h.right_len hl
          obtain ⟨h1, p, h2, h3⟩ := ih y (by omega) t ht e
          exact ⟨h1, p, h2, h.right_mem hl p h3⟩

theorem Inv.mem_root (h : Inv s g) {t r : Nat} (ht : t ∈ g.io r) (hroot : s.isRoot t = true) :
    t = r := by
  by_contra hne
  have := (h.mem_up _ r le_rfl t ht hne).1
  rw [this] at hroot; cases hroot

/-- Two auxiliary roots whose subtrees share a node are the same node. -/
theorem Inv.root_unique (h : Inv s g) : ∀ (n t : Nat), g.N - (g.io t).length ≤ n →
    ∀ r1 r2, s.isRoot r1 = true → s.isRoot r2 = true → t ∈ g.io r1 → t ∈ g.io r2 → r1 = r2 := by
  intro n
  induction n with
  | zero =>
    intro t hn r1 r2 h1 h2 m1 m2
    by_cases e1 : t = r1
    · subst e1; exact h.mem_root m2 h1
    · obtain ⟨hr, p, hp, hm⟩ := h.mem_up _ r1 le_rfl t m1 e1
      obtain ⟨q, hq, hc⟩ := (h t).nonroot hr
      have : (g.io t).length < (g.io q).length := by
        rcases hc with hc | hc
        · exact h.left_len hc
        · exact h.right_len hc
      have := (h q).size
      omega
  | succ n ih =>
    intro t hn r1 r2 h1 h2 m1 m2
    by_cases e1 : t = r1
    · subst e1; exact h.mem_root m2 h1
    · obtain ⟨hr, p, hp, hm⟩ := h.mem_up _ r1 le_rfl t m1 e1
      have e2 : t ≠ r2 := by
        intro e; subst e; rw [h2] at hr; cases hr
      obtain ⟨_, p2, hp2, hm2⟩ := h.mem_up _ r2 le_rfl t m2 e2
      rw [hp] at hp2; cases hp2
      obtain ⟨q, hq, hc⟩ := (h t).nonroot hr
      rw [hp] at hq; cases hq
      have : (g.io t).length < (g.io p).length := by
        rcases hc with hc | hc
        · exact h.left_len hc
        · exact h.right_len hc
      have := (h p).size
      exact ih p (by omega) r1 r2 h1 h2 hm hm2

end Basic

section Setters

variable (s : Heap) (x : Nat) (v : Option Nat) (b : Bool)

@[simp] theorem setLeft_left : (s.setLeft x v).left = Function.update s.left x v := rfl
@[simp] theorem setLeft_right : (s.setLeft x v).right = s.right := rfl
@[simp] theorem setLeft_parent : (s.setLeft x v).parent = s.parent := rfl
@[simp] theorem setLeft_isRoot : (s.setLeft x v).isRoot = s.isRoot := rfl
@[simp] theorem setLeft_flags : (s.setLeft x v).flags = s.flags := rfl
@[simp] theorem setLeft_opFlags : (s.setLeft x v).opFlags = s.opFlags := rfl
@[simp] theorem setRight_left : (s.setRight x v).left = s.left := rfl
@[simp] theorem setRight_right : (s.setRight x v).right = Function.update s.right x v := rfl
@[simp] theorem setRight_parent : (s.setRight x v).parent = s.parent := rfl
@[simp] theorem setRight_isRoot : (s.setRight x v).isRoot = s.isRoot := rfl
@[simp] theorem setRight_flags : (s.setRight x v).flags = s.flags := rfl
@[simp] theorem setRight_opFlags : (s.setRight x v).opFlags = s.opFlags := rfl
@[simp] theorem setParent_left : (s.setParent x v).left = s.left := rfl
@[simp] theorem setParent_right : (s.setParent x v).right = s.right := rfl
@[simp] theorem setParent_parent : (s.setParent x v).parent = Function.update s.parent x v := rfl
@[simp] theorem setParent_isRoot : (s.setParent x v).isRoot = s.isRoot := rfl
@[simp] theorem setParent_flags : (s.setParent x v).flags = s.flags := rfl
@[simp] theorem setParent_opFlags : (s.setParent x v).opFlags = s.opFlags := rfl
@[simp] theorem setIsRoot_left : (s.setIsRoot x b).left = s.left := rfl
@[simp] theorem setIsRoot_right : (s.setIsRoot x b).right = s.right := rfl
@[simp] theorem setIsRoot_parent : (s.setIsRoot x b).parent = s.parent := rfl
@[simp] theorem setIsRoot_isRoot : (s.setIsRoot x b).isRoot = Function.update s.isRoot x b := rfl
@[simp] theorem setIsRoot_flags : (s.setIsRoot x b).flags = s.flags := rfl
@[simp] theorem setIsRoot_opFlags : (s.setIsRoot x b).opFlags = s.opFlags := rfl

end Setters

/-- Transfer of `Local` at a node whose own in-order sequence is kept. -/
theorem Local.frame {s s1 : Heap} {g g1 : Ghost} {w : Nat} (hw : Local s g w)
    (hio : g1.io w = g.io w) (hrp : g1.rp = g.rp) (hd : g1.d = g.d) (hN : g.N ≤ g1.N)
    (hiol : g1.ioo (s1.left w) = g.ioo (s.left w))
    (hior : g1.ioo (s1.right w) = g.ioo (s.right w))
    (hcl : ∀ c, s1.left w = some c → s1.parent c = some w ∧ s1.isRoot c = false)
    (hcr : ∀ c, s1.right w = some c → s1.parent c = some w ∧ s1.isRoot c = false)
    (hroot : s1.isRoot w = true → s.isRoot w = true ∧ s1.parent w = s.parent w)
    (hnon : s1.isRoot w = false →
      ∃ p, s1.parent w = some p ∧ (s1.left p = some w ∨ s1.right p = some w)) :
    Local s1 g1 w where
  io_eq := by rw [hio, hiol, hior]; exact hw.io_eq
  chain := by rw [hio, hrp]; exact hw.chain
  root_pp := by
    intro hr; rw [hio, hrp, (hroot hr).2]; exact hw.root_pp (hroot hr).1
  left_ok := hcl
  right_ok := hcr
  nonroot := hnon
  rank := by rw [hrp, hd]; exact hw.rank
  size := by rw [hio]; exact le_trans hw.size hN

/-- Transfer of `Local` at a node whose own in-order sequence is kept, with
the path-parent condition re-established by hand. -/
theorem Local.frame' {s t : Heap} {g k : Ghost} {w : Nat} (hw : Local s g w)
    (hio : k.io w = g.io w) (hrp : k.rp = g.rp) (hd : k.d = g.d) (hN : g.N ≤ k.N)
    (hiol : k.ioo (t.left w) = g.ioo (s.left w))
    (hior : k.ioo (t.right w) = g.ioo (s.right w))
    (hcl : ∀ c, t.left w = some c → t.parent c = some w ∧ t.isRoot c = false)
    (hcr : ∀ c, t.right w = some c → t.parent c = some w ∧ t.isRoot c = false)
    (hroot : t.isRoot w = true → ∀ hd, (g.io w).head? = some hd → g.rp hd = t.parent w)
    (hnon : t.isRoot w = false →
      ∃ p, t.parent w = some p ∧ (t.left p = some w ∨ t.right p = some w)) :
    Local t k w where
  io_eq := by rw [hio, hiol, hior]; exact hw.io_eq
  chain := by rw [hio, hrp]; exact hw.chain
  root_pp := by
    intro hr; rw [hio, hrp]; exact hroot hr
  left_ok := hcl
  right_ok := hcr
  nonroot := hnon
  rank := by rw [hrp, hd]; exact hw.rank
  size := by rw [hio]; exact le_trans hw.size hN

/-- Ghost state after a rotation at `x` that lifts its child `y`: `y` takes
over the sequence of `x`, and `x` keeps the part `l`. -/
def rotGhost (g : Ghost) (x y : Nat) (l : List Nat) : Ghost :=
  { g with io := Function.update (Function.update g.io y (g.io x)) x l }

section Rotations

variable {s : Heap} {g : Ghost}

/-- What `rotR` leaves in every field, on a heap satisfying the invariant. -/
theorem rotR_eval (h : Inv s g) {x y : Nat} (hl : s.left x = some y) :
    ∃ s1, rotR s x = some s1 ∧
      (∀ w, s1.left w = if w = x then s.right y
        else if s.left w = some x then some y else s.left w) ∧
      (∀ w, s1.right w = if w = y then some x
        else if s.right w = some x then some y else s.right w) ∧
      (∀ w, s1.parent w = if w = y then s.parent x else if w = x then some y
        else if s.right y = some w then some x else s.parent w) ∧
      (∀ w, s1.isRoot w = if w = y then s.isRoot x else if w = x then false else s.isRoot w) ∧
      s1.flags = s.flags ∧ s1.opFlags = s.opFlags := by
  have hyx : y ≠ x := h.left_ne hl
  have hry : s.isRoot y = false := ((h x).left_ok y hl).2
  have hxy : x ≠ y := fun e => hyx e.symm
  have hBx : s.right y ≠ some x := fun e => by
    have := h.right_len e; have := h.left_len hl; omega
  have hBy : s.right y ≠ some y := fun e => h.right_ne e rfl
  have hpne : ∀ p, s.left p = some x ∨ s.right p = some x → p ≠ x ∧ p ≠ y := by
    intro p hp
    have h1 : (g.io x).length < (g.io p).length := by
      rcases hp with hp | hp
      · exact h.left_len hp
      · exact h.right_len hp
    have h2 := h.left_len hl
    constructor <;> intro e <;> subst e <;> omega
  -- who points to `x` as a child
  have hcases : (s.isRoot x = true ∧ (∀ w, s.left w = some x ↔ False) ∧
        (∀ w, s.right w = some x ↔ False)) ∨
      (∃ p, s.parent x = some p ∧ s.isRoot x = false ∧ p ≠ x ∧ p ≠ y ∧
        (∀ w, s.left w = some x ↔ w = p) ∧ (∀ w, s.right w = some x ↔ False)) ∨
      (∃ p, s.parent x = some p ∧ s.isRoot x = false ∧ p ≠ x ∧ p ≠ y ∧
        (∀ w, s.left w = some x ↔ False) ∧ (∀ w, s.right w = some x ↔ w = p)) := by
    cases hR : s.isRoot x with
    | true =>
      left
      refine ⟨rfl, fun w => ⟨fun e => ?_, False.elim⟩, fun w => ⟨fun e => ?_, False.elim⟩⟩
      · have := ((h w).left_ok x e).2; rw [hR] at this; cases this
      · have := ((h w).right_ok x e).2; rw [hR] at this; cases this
    | false =>
      right
      obtain ⟨p, hp, hc⟩ := (h x).nonroot hR
      have huniq : ∀ w, s.left w = some x ∨ s.right w = some x → w = p := by
        intro w hw
        have : s.parent x = some w := by
          rcases hw with hw | hw
          · exact ((h w).left_ok x hw).1
          · exact ((h w).right_ok x hw).1
        rw [hp] at this; cases this; rfl
      rcases hc with hc | hc
      · left
        refine ⟨p, hp, rfl, (hpne p (Or.inl hc)).1, (hpne p (Or.inl hc)).2,
          fun w => ⟨fun e => huniq w (Or.inl e), fun e => e ▸ hc⟩,
          fun w => ⟨fun e => ?_, False.elim⟩⟩
        have := huniq w (Or.inr e); subst this
        exact h.left_ne_right hc e rfl
      · right
        refine ⟨p, hp, rfl, (hpne p (Or.inr hc)).1, (hpne p (Or.inr hc)).2,
          fun w => ⟨fun e => ?_, False.elim⟩,
          fun w => ⟨fun e => huniq w (Or.inr e), fun e => e ▸ hc⟩⟩
        have := huniq w (Or.inl e); subst this
        exact h.left_ne_right e hc rfl
  clear hpne
  rcases hcases with ⟨hR, hL0, hR0⟩ | ⟨p, hP, hR, hpx, hpy, hL, hR0⟩ |
      ⟨p, hP, hR, hpx, hpy, hL0, hRr⟩
  · cases hP : s.parent x with
    | none =>
      cases hB : s.right y with
      | none =>
        simp [rotR, hl, hP, hB, hR, hxy, hyx, hL0, hR0, Function.update_apply]
        (repeat' constructor) <;> intro w <;> (try split_ifs) <;>
        first | rfl | omega | (by_cases h1 : w = y <;> by_cases h2 : w = x <;> simp_all)
      | some b =>
        have hbx : b ≠ x := fun e => hBx (e ▸ hB)
        have hby : b ≠ y := fun e => hBy (e ▸ hB)
        have hxb : x ≠ b := fun e => hbx e.symm
        have hyb : y ≠ b := fun e => hby e.symm
        simp [rotR, hl, hP, hB, hR, hxy, hyx, hL0, hR0, hbx, hby, hxb, hyb,
          Function.update_apply]
        (repeat' constructor) <;> intro w <;> (try split_ifs) <;>
        first | rfl | omega | (by_cases h1 : w = y <;> by_cases h2 : w = x <;> simp_all)
    | some p =>
      cases hB : s.right y with
      | none =>
        simp [rotR, hl, hP, hB, hR, hxy, hyx, hL0, hR0, Function.update_apply]
        (repeat' constructor) <;> intro w <;> (try split_ifs) <;>
        first | rfl | omega | (by_cases h1 : w = y <;> by_cases h2 : w = x <;> simp_all)
      | some b =>
        have hbx : b ≠ x := fun e => hBx (e ▸ hB)
        have hby : b ≠ y := fun e => hBy (e ▸ hB)
        have hxb : x ≠ b := fun e => hbx e.symm
        have hyb : y ≠ b := fun e => hby e.symm
        simp [rotR, hl, hP, hB, hR, hxy, hyx, hL0, hR0, hbx, hby, hxb, hyb,
          Function.update_apply]
        (repeat' constructor) <;> intro w <;> (try split_ifs) <;>
        first | rfl | omega | (by_cases h1 : w = y <;> by_cases h2 : w = x <;> simp_all)
  · cases hB : s.right y with
    | none =>
      simp [rotR, hl, hP, hB, hR, hxy, hyx, hL, hR0, hpx, hpy, hpx.symm, hpy.symm,
        Function.update_apply]
      (repeat' constructor) <;> intro w <;> (try split_ifs) <;>
        first | rfl | omega | (by_cases h1 : w = y <;> by_cases h2 : w = x <;> simp_all)
    | some b =>
      have hbx : b ≠ x := fun e => hBx (e ▸ hB)
      have hby : b ≠ y := fun e => hBy (e ▸ hB)
      have hxb : x ≠ b := fun e => hbx e.symm
      have hyb : y ≠ b := fun e => hby e.symm
      simp [rotR, hl, hP, hB, hR, hxy, hyx, hL, hR0, hbx, hby, hxb, hyb, hpx, hpy, hpx.symm,
        hpy.symm, Function.update_apply]
      (repeat' constructor) <;> intro w <;> (try split_ifs) <;>
        first | rfl | omega | (by_cases h1 : w = y <;> by_cases h2 : w = x <;> simp_all)
  · cases hB : s.right y with
    | none =>
      simp [rotR, hl, hP, hB, hR, hxy, hyx, hL0, hRr, hpx, hpy, hpx.symm, hpy.symm,
        Function.update_apply]
      (repeat' constructor) <;> intro w <;> (try split_ifs) <;>
        first | rfl | omega | (by_cases h1 : w = y <;> by_cases h2 : w = x <;> simp_all)
    | some b =>
      have hbx : b ≠ x := fun e => hBx (e ▸ hB)
      have hby : b ≠ y := fun e => hBy (e ▸ hB)
      have hxb : x ≠ b := fun e => hbx e.symm
      have hyb : y ≠ b := fun e => hby e.symm
      simp [rotR, hl, hP, hB, hR, hxy, hyx, hL0, hRr, hbx, hby, hxb, hyb, hpx, hpy, hpx.symm,
        hpy.symm, Function.update_apply]
      (repeat' constructor) <;> intro w <;> (try split_ifs) <;>
        first | rfl | omega | (by_cases h1 : w = y <;> by_cases h2 : w = x <;> simp_all)

/-- What `rotL` leaves in every field, on a heap satisfying the invariant. -/
theorem rotL_eval (h : Inv s g) {x y : Nat} (hl : s.right x = some y) :
    ∃ s1, rotL s x = some s1 ∧
      (∀ w, s1.left w = if w = y then some x
        else if s.left w = some x then some y else s.left w) ∧
      (∀ w, s1.right w = if w = x then s.left y
        else if s.right w = some x then some y else s.right w) ∧
      (∀ w, s1.parent w = if w = y then s.parent x else if w = x then some y
        else if s.left y = some w then some x else s.parent w) ∧
      (∀ w, s1.isRoot w = if w = y then s.isRoot x else if w = x then false else s.isRoot w) ∧
      s1.flags = s.flags ∧ s1.opFlags = s.opFlags := by
  have hyx : y ≠ x := h.right_ne hl
  have hry : s.isRoot y = false := ((h x).right_ok y hl).2
  have hxy : x ≠ y := fun e => hyx e.symm
  have hBx : s.left y ≠ some x := fun e => by
    have := h.left_len e; have := h.right_len hl; omega
  have hBy : s.left y ≠ some y := fun e => h.left_ne e rfl
  have hpne : ∀ p, s.right p = some x ∨ s.left p = some x → p ≠ x ∧ p ≠ y := by
    intro p hp
    have h1 : (g.io x).length < (g.io p).length := by
      rcases hp with hp | hp
      · exact h.right_len hp
      · exact h.left_len hp
    have h2 := h.right_len hl
    constructor <;> intro e <;> subst e <;> omega
  -- who points to `x` as a child
  have hcases : (s.isRoot x = true ∧ (∀ w, s.right w = some x ↔ False) ∧
        (∀ w, s.left w = some x ↔ False)) ∨
      (∃ p, s.parent x = some p ∧ s.isRoot x = false ∧ p ≠ x ∧ p ≠ y ∧
        (∀ w, s.right w = some x ↔ w = p) ∧ (∀ w, s.left w = some x ↔ False)) ∨
      (∃ p, s.parent x = some p ∧ s.isRoot x = false ∧ p ≠ x ∧ p ≠ y ∧
        (∀ w, s.right w = some x ↔ False) ∧ (∀ w, s.left w = some x ↔ w = p)) := by
    cases hR : s.isRoot x with
    | true =>
      left
      refine ⟨rfl, fun w => ⟨fun e => ?_, False.elim⟩, fun w => ⟨fun e => ?_, False.elim⟩⟩
      · have := ((h w).right_ok x e).2; rw [hR] at this; cases this
      · have := ((h w).left_ok x e).2; rw [hR] at this; cases this
    | false =>
      right
      obtain ⟨p, hp, hc⟩ := (h x).nonroot hR
      have huniq : ∀ w, s.right w = some x ∨ s.left w = some x → w = p := by
        intro w hw
        have : s.parent x = some w := by
          rcases hw with hw | hw
          · exact ((h w).right_ok x hw).1
          · exact ((h w).left_ok x hw).1
        rw [hp] at this; cases this; rfl
      rcases hc with hc | hc
      · right
        refine ⟨p, hp, rfl, (hpne p (Or.inr hc)).1, (hpne p (Or.inr hc)).2,
          fun w => ⟨fun e => ?_, False.elim⟩,
          fun w => ⟨fun e => huniq w (Or.inr e), fun e => e ▸ hc⟩⟩
        have := huniq w (Or.inl e); subst this
        exact h.left_ne_right hc e rfl
      · left
        refine ⟨p, hp, rfl, (hpne p (Or.inl hc)).1, (hpne p (Or.inl hc)).2,
          fun w => ⟨fun e => huniq w (Or.inl e), fun e => e ▸ hc⟩,
          fun w => ⟨fun e => ?_, False.elim⟩⟩
        have := huniq w (Or.inr e); subst this
        exact h.left_ne_right e hc rfl
  clear hpne
  rcases hcases with ⟨hR, hL0, hR0⟩ | ⟨p, hP, hR, hpx, hpy, hL, hR0⟩ |
      ⟨p, hP, hR, hpx, hpy, hL0, hRr⟩
  · cases hP : s.parent x with
    | none =>
      cases hB : s.left y with
      | none =>
        simp [rotL, hl, hP, hB, hR, hxy, hyx, hL0, hR0, Function.update_apply]
        (repeat' constructor) <;> intro w <;> (try split_ifs) <;>
        first | rfl | omega | (by_cases h1 : w = y <;> by_cases h2 : w = x <;> simp_all)
      | some b =>
        have hbx : b ≠ x := fun e => hBx (e ▸ hB)
        have hby : b ≠ y := fun e => hBy (e ▸ hB)
        have hxb : x ≠ b := fun e => hbx e.symm
        have hyb : y ≠ b := fun e => hby e.symm
        simp [rotL, hl, hP, hB, hR, hxy, hyx, hL0, hR0, hbx, hby, hxb, hyb,
          Function.update_apply]
        (repeat' constructor) <;> intro w <;> (try split_ifs) <;>
        first | rfl | omega | (by_cases h1 : w = y <;> by_cases h2 : w = x <;> simp_all)
    | some p =>
      cases hB : s.left y with
      | none =>
        simp [rotL, hl, hP, hB, hR, hxy, hyx, hL0, hR0, Function.update_apply]
        (repeat' constructor) <;> intro w <;> (try split_ifs) <;>
        first | rfl | omega | (by_cases h1 : w = y <;> by_cases h2 : w = x <;> simp_all)
      | some b =>
        have hbx : b ≠ x := fun e => hBx (e ▸ hB)
        have hby : b ≠ y := fun e => hBy (e ▸ hB)
        have hxb : x ≠ b := fun e => hbx e.symm
        have hyb : y ≠ b := fun e => hby e.symm
        simp [rotL, hl, hP, hB, hR, hxy, hyx, hL0, hR0, hbx, hby, hxb, hyb,
          Function.update_apply]
        (repeat' constructor) <;> intro w <;> (try split_ifs) <;>
        first | rfl | omega | (by_cases h1 : w = y <;> by_cases h2 : w = x <;> simp_all)
  · cases hB : s.left y with
    | none =>
      simp [rotL, hl, hP, hB, hR, hxy, hyx, hL, hR0, hpx, hpy, hpx.symm, hpy.symm,
        Function.update_apply]
      (repeat' constructor) <;> intro w <;> (try split_ifs) <;>
        first | rfl | omega | (by_cases h1 : w = y <;> by_cases h2 : w = x <;> simp_all)
    | some b =>
      have hbx : b ≠ x := fun e => hBx (e ▸ hB)
      have hby : b ≠ y := fun e => hBy (e ▸ hB)
      have hxb : x ≠ b := fun e => hbx e.symm
      have hyb : y ≠ b := fun e => hby e.symm
      simp [rotL, hl, hP, hB, hR, hxy, hyx, hL, hR0, hbx, hby, hxb, hyb, hpx, hpy, hpx.symm,
        hpy.symm, Function.update_apply]
      (repeat' constructor) <;> intro w <;> (try split_ifs) <;>
        first | rfl | omega | (by_cases h1 : w = y <;> by_cases h2 : w = x <;> simp_all)
  · cases hB : s.left y with
    | none =>
      simp [rotL, hl, hP, hB, hR, hxy, hyx, hL0, hRr, hpx, hpy, hpx.symm, hpy.symm,
        Function.update_apply]
      (repeat' constructor) <;> intro w <;> (try split_ifs) <;>
        first | rfl | omega | (by_cases h1 : w = y <;> by_cases h2 : w = x <;> simp_all)
    | some b =>
      have hbx : b ≠ x := fun e => hBx (e ▸ hB)
      have hby : b ≠ y := fun e => hBy (e ▸ hB)
      have hxb : x ≠ b := fun e => hbx e.symm
      have hyb : y ≠ b := fun e => hby e.symm
      simp [rotL, hl, hP, hB, hR, hxy, hyx, hL0, hRr, hbx, hby, hxb, hyb, hpx, hpy, hpx.symm,
        hpy.symm, Function.update_apply]
      (repeat' constructor) <;> intro w <;> (try split_ifs) <;>
        first | rfl | omega | (by_cases h1 : w = y <;> by_cases h2 : w = x <;> simp_all)

section RotGhost

variable {g : Ghost} {x y : Nat} {l : List Nat}

@[simp] theorem rotGhost_N : (rotGhost g x y l).N = g.N := rfl
@[simp] theorem rotGhost_rp : (rotGhost g x y l).rp = g.rp := rfl
@[simp] theorem rotGhost_d : (rotGhost g x y l).d = g.d := rfl

theorem rotGhost_io_x : (rotGhost g x y l).io x = l := by
  simp [rotGhost]

theorem rotGhost_io_y (hyx : y ≠ x) : (rotGhost g x y l).io y = g.io x := by
  simp [rotGhost, hyx]

theorem rotGhost_io_ne {w : Nat} (hx : w ≠ x) (hy : w ≠ y) : (rotGhost g x y l).io w = g.io w := by
  simp [rotGhost, hx, hy]

theorem rotGhost_ioo {c : Option Nat} (hx : c ≠ some x) (hy : c ≠ some y) :
    (rotGhost g x y l).ioo c = g.ioo c := by
  cases c with
  | none => rfl
  | some c =>
    simp only [ioo_some]
    exact rotGhost_io_ne (fun e => hx (e ▸ rfl)) (fun e => hy (e ▸ rfl))

end RotGhost

/-- The invariant survives `rotR`. -/
theorem rotR_inv (h : Inv s g) {x y : Nat} (hl : s.left x = some y) {s1 : Heap}
    (hL : ∀ w, s1.left w = if w = x then s.right y
        else if s.left w = some x then some y else s.left w)
    (hR : ∀ w, s1.right w = if w = y then some x
        else if s.right w = some x then some y else s.right w)
    (hP : ∀ w, s1.parent w = if w = y then s.parent x else if w = x then some y
        else if s.right y = some w then some x else s.parent w)
    (hI : ∀ w, s1.isRoot w = if w = y then s.isRoot x else if w = x then false else s.isRoot w) :
    Inv s1 (rotGhost g x y (g.ioo (s.right y) ++ x :: g.ioo (s.right x))) := by
  have hyx : y ≠ x := h.left_ne hl
  have hxy : x ≠ y := fun e => hyx e.symm
  have hpy : s.parent y = some x := ((h x).left_ok y hl).1
  have hry : s.isRoot y = false := ((h x).left_ok y hl).2
  have hBx : s.right y ≠ some x := fun e => by
    have := h.right_len e; have := h.left_len hl; omega
  have hBy : s.right y ≠ some y := fun e => h.right_ne e rfl
  have hCx : s.right x ≠ some x := fun e => h.right_ne e rfl
  have hCy : s.right x ≠ some y := fun e => h.left_ne_right hl e rfl
  have hAx : s.left y ≠ some x := fun e => by
    have := h.left_len e; have := h.left_len hl; omega
  have hAy : s.left y ≠ some y := fun e => h.left_ne e rfl
  have iox : g.io x = (g.ioo (s.left y) ++ [y]) ++ (g.ioo (s.right y) ++ x :: g.ioo (s.right x)) := by
    have h1 := (h x).io_eq
    rw [hl, ioo_some, (h y).io_eq] at h1
    rw [h1]; simp
  -- uniqueness of the parent of a child
  have hpar_l : ∀ {w c}, s.left w = some c → s.parent c = some w := fun e =>
    ((h _).left_ok _ e).1
  have hpar_r : ∀ {w c}, s.right w = some c → s.parent c = some w := fun e =>
    ((h _).right_ok _ e).1
  intro w
  by_cases hwx : w = x
  · -- the rotated node
    subst hwx
    have e1 : s1.left w = s.right y := by rw [hL]; simp
    have e2 : s1.right w = s.right w := by rw [hR]; simp [hxy, hCx]
    have e3 : s1.parent w = some y := by rw [hP]; simp [hxy]
    have e4 : s1.isRoot w = false := by rw [hI]; simp [hxy]
    refine ⟨?_, ?_, ?_, ?_, ?_, ?_, ?_, ?_⟩
    · rw [rotGhost_io_x, e1, e2, rotGhost_ioo hBx hBy, rotGhost_ioo hCx hCy]
    · rw [rotGhost_io_x]
      have := (h w).chain; rw [iox] at this
      exact this.right_of_append
    · intro hr; rw [e4] at hr; cases hr
    · intro c hc
      rw [e1] at hc
      have hcx : c ≠ w := fun e => hBx (e ▸ hc)
      have hcy : c ≠ y := fun e => hBy (e ▸ hc)
      constructor
      · rw [hP]; simp [hcx, hcy, hc]
      · rw [hI]; simp [hcx, hcy]; exact ((h y).right_ok c hc).2
    · intro c hc
      rw [e2] at hc
      have hcx : c ≠ w := fun e => hCx (e ▸ hc)
      have hcy : c ≠ y := fun e => hCy (e ▸ hc)
      have hcb : s.right y ≠ some c := fun e => by
        have := hpar_r e; rw [hpar_r hc] at this; cases this; exact hxy rfl
      constructor
      · rw [hP]; simp [hcx, hcy, hcb]; exact hpar_r hc
      · rw [hI]; simp [hcx, hcy]; exact ((h w).right_ok c hc).2
    · intro _
      exact ⟨y, e3, Or.inr (by rw [hR]; simp)⟩
    · exact (h w).rank
    · rw [rotGhost_io_x]
      have := (h w).size; rw [iox] at this
      simp at this ⊢; omega
  · by_cases hwy : w = y
    · -- the lifted child
      subst hwy
      have e1 : s1.left w = s.left w := by rw [hL]; simp [hyx, hAx]
      have e2 : s1.right w = some x := by rw [hR]; simp
      have e3 : s1.parent w = s.parent x := by rw [hP]; simp
      have e4 : s1.isRoot w = s.isRoot x := by rw [hI]; simp
      refine ⟨?_, ?_, ?_, ?_, ?_, ?_, ?_, ?_⟩
      · rw [rotGhost_io_y hyx, e1, e2, rotGhost_ioo hAx hAy, ioo_some, rotGhost_io_x, iox]
        simp
      · rw [rotGhost_io_y hyx]; exact (h x).chain
      · intro hr; rw [rotGhost_io_y hyx, e3]; rw [e4] at hr; exact (h x).root_pp hr
      · intro c hc
        rw [e1] at hc
        have hcx : c ≠ x := fun e => hAx (e ▸ hc)
        have hcy : c ≠ w := fun e => hAy (e ▸ hc)
        have hcb : s.right w ≠ some c := fun e => h.left_ne_right hc e rfl
        constructor
        · rw [hP]; simp [hcx, hcy, hcb]; exact hpar_l hc
        · rw [hI]; simp [hcx, hcy]; exact ((h w).left_ok c hc).2
      · intro c hc
        rw [e2] at hc; cases hc
        constructor
        · rw [hP]; simp [hxy]
        · rw [hI]; simp [hxy]
      · intro hr
        rw [e4] at hr
        obtain ⟨p, hp, hc⟩ := (h x).nonroot hr
        have hpx : p ≠ x := by
          rcases hc with hc | hc
          · exact fun e => h.left_ne hc e.symm
          · exact fun e => h.right_ne hc e.symm
        have hpw : p ≠ w := by
          intro e; subst e
          rcases hc with hc | hc
          · exact hAx hc
          · exact hBx hc
        refine ⟨p, by rw [e3, hp], ?_⟩
        rcases hc with hc | hc
        · left; rw [hL]; simp [hpx, hc]
        · right; rw [hR]; simp [hpw, hc]
      · exact (h w).rank
      · rw [rotGhost_io_y hyx]; exact (h x).size
    · -- every other node
      have e1 : s1.left w = if s.left w = some x then some y else s.left w := by
        rw [hL]; simp [hwx]
      have e2 : s1.right w = if s.right w = some x then some y else s.right w := by
        rw [hR]; simp [hwy]
      have e3 : s1.parent w = if s.right y = some w then some x else s.parent w := by
        rw [hP]; simp [hwx, hwy]
      have e4 : s1.isRoot w = s.isRoot w := by rw [hI]; simp [hwx, hwy]
      have hly : s.left w ≠ some y := fun e => by
        have := hpar_l e; rw [hpy] at this; cases this; exact hwx rfl
      have hry1 : s.right w ≠ some y := fun e => by
        have := hpar_r e; rw [hpy] at this; cases this; exact hwx rfl
      have hchild : ∀ c, c ≠ x → c ≠ y → s.parent c = some w →
          s1.parent c = some w ∧ s1.isRoot c = s.isRoot c := by
        intro c hcx hcy hc
        have hcb : s.right y ≠ some c := fun e => by
          have := hpar_r e; rw [hc] at this; cases this; exact hwy rfl
        constructor
        · rw [hP]; simp [hcx, hcy, hcb]; exact hc
        · rw [hI]; simp [hcx, hcy]
      refine (h w).frame (rotGhost_io_ne hwx hwy) rfl rfl le_rfl ?_ ?_ ?_ ?_ ?_ ?_
      · rw [e1]
        by_cases hc : s.left w = some x
        · rw [if_pos hc, hc, ioo_some, ioo_some, rotGhost_io_y hyx]
        · rw [if_neg hc]; exact rotGhost_ioo hc hly
      · rw [e2]
        by_cases hc : s.right w = some x
        · rw [if_pos hc, hc, ioo_some, ioo_some, rotGhost_io_y hyx]
        · rw [if_neg hc]; exact rotGhost_ioo hc hry1
      · intro c hc
        rw [e1] at hc
        by_cases hcx : s.left w = some x
        · rw [if_pos hcx] at hc; cases hc
          constructor
          · rw [hP]; simp; exact hpar_l hcx
          · rw [hI]; simp; exact ((h w).left_ok x hcx).2
        · rw [if_neg hcx] at hc
          have := hchild c (fun e => hcx (e ▸ hc)) (fun e => hly (e ▸ hc)) (hpar_l hc)
          exact ⟨this.1, this.2.trans ((h w).left_ok c hc).2⟩
      · intro c hc
        rw [e2] at hc
        by_cases hcx : s.right w = some x
        · rw [if_pos hcx] at hc; cases hc
          constructor
          · rw [hP]; simp; exact hpar_r hcx
          · rw [hI]; simp; exact ((h w).right_ok x hcx).2
        · rw [if_neg hcx] at hc
          have := hchild c (fun e => hcx (e ▸ hc)) (fun e => hry1 (e ▸ hc)) (hpar_r hc)
          exact ⟨this.1, this.2.trans ((h w).right_ok c hc).2⟩
      · intro hr
        rw [e4] at hr
        refine ⟨hr, ?_⟩
        rw [e3, if_neg]
        intro e
        have := ((h y).right_ok w e).2; rw [hr] at this; cases this
      · intro hr
        rw [e4] at hr
        by_cases hb : s.right y = some w
        · exact ⟨x, by rw [e3, if_pos hb], Or.inl (by rw [hL]; simp [hb])⟩
        · obtain ⟨q, hq, hc⟩ := (h w).nonroot hr
          refine ⟨q, by rw [e3, if_neg hb, hq], ?_⟩
          rcases hc with hc | hc
          · left
            have hqx : q ≠ x := fun e => by
              subst e; rw [hl] at hc; cases hc; exact hwy rfl
            have hqc : s.left q ≠ some x := fun e => by
              rw [hc] at e; cases e; exact hwx rfl
            rw [hL, if_neg hqx, if_neg hqc]; exact hc
          · right
            have hqy : q ≠ y := fun e => by
              subst e; exact hb hc
            have hqc : s.right q ≠ some x := fun e => by
              rw [hc] at e; cases e; exact hwx rfl
            rw [hR, if_neg hqy, if_neg hqc]; exact hc

/-- The invariant survives `rotL`. -/
theorem rotL_inv (h : Inv s g) {x y : Nat} (hl : s.right x = some y) {s1 : Heap}
    (hL : ∀ w, s1.left w = if w = y then some x
        else if s.left w = some x then some y else s.left w)
    (hR : ∀ w, s1.right w = if w = x then s.left y
        else if s.right w = some x then some y else s.right w)
    (hP : ∀ w, s1.parent w = if w = y then s.parent x else if w = x then some y
        else if s.left y = some w then some x else s.parent w)
    (hI : ∀ w, s1.isRoot w = if w = y then s.isRoot x else if w = x then false else s.isRoot w) :
    Inv s1 (rotGhost g x y (g.ioo (s.left x) ++ x :: g.ioo (s.left y))) := by
  have hyx : y ≠ x := h.right_ne hl
  have hxy : x ≠ y := fun e => hyx e.symm
  have hpy : s.parent y = some x := ((h x).right_ok y hl).1
  have hry : s.isRoot y = false := ((h x).right_ok y hl).2
  have hBx : s.left y ≠ some x := fun e => by
    have := h.left_len e; have := h.right_len hl; omega
  have hBy : s.left y ≠ some y := fun e => h.left_ne e rfl
  have hCx : s.left x ≠ some x := fun e => h.left_ne e rfl
  have hCy : s.left x ≠ some y := fun e => h.left_ne_right e hl rfl
  have hAx : s.right y ≠ some x := fun e => by
    have := h.right_len e; have := h.right_len hl; omega
  have hAy : s.right y ≠ some y := fun e => h.right_ne e rfl
  have iox : g.io x = (g.ioo (s.left x) ++ x :: g.ioo (s.left y)) ++ (y :: g.ioo (s.right y)) := by
    have h1 := (h x).io_eq
    rw [hl, ioo_some, (h y).io_eq] at h1
    rw [h1]; simp
  have hpar_l : ∀ {w c}, s.left w = some c → s.parent c = some w := fun e =>
    ((h _).left_ok _ e).1
  have hpar_r : ∀ {w c}, s.right w = some c → s.parent c = some w := fun e =>
    ((h _).right_ok _ e).1
  intro w
  by_cases hwx : w = x
  · -- the rotated node
    subst hwx
    have e1 : s1.left w = s.left w := by rw [hL]; simp [hxy, hCx]
    have e2 : s1.right w = s.left y := by rw [hR]; simp
    have e3 : s1.parent w = some y := by rw [hP]; simp [hxy]
    have e4 : s1.isRoot w = false := by rw [hI]; simp [hxy]
    refine ⟨?_, ?_, ?_, ?_, ?_, ?_, ?_, ?_⟩
    · rw [rotGhost_io_x, e1, e2, rotGhost_ioo hBx hBy, rotGhost_ioo hCx hCy]
    · rw [rotGhost_io_x]
      have := (h w).chain; rw [iox] at this
      exact this.left_of_append
    · intro hr; rw [e4] at hr; cases hr
    · intro c hc
      rw [e1] at hc
      have hcx : c ≠ w := fun e => hCx (e ▸ hc)
      have hcy : c ≠ y := fun e => hCy (e ▸ hc)
      have hcb : s.left y ≠ some c := fun e => by
        have := hpar_l e; rw [hpar_l hc] at this; cases this; exact hxy rfl
      constructor
      · rw [hP]; simp [hcx, hcy, hcb]; exact hpar_l hc
      · rw [hI]; simp [hcx, hcy]; exact ((h w).left_ok c hc).2
    · intro c hc
      rw [e2] at hc
      have hcx : c ≠ w := fun e => hBx (e ▸ hc)
      have hcy : c ≠ y := fun e => hBy (e ▸ hc)
      constructor
      · rw [hP]; simp [hcx, hcy, hc]
      · rw [hI]; simp [hcx, hcy]; exact ((h y).left_ok c hc).2
    · intro _
      exact ⟨y, e3, Or.inl (by rw [hL]; simp)⟩
    · exact (h w).rank
    · rw [rotGhost_io_x]
      have := (h w).size; rw [iox] at this
      simp at this ⊢; omega
  · by_cases hwy : w = y
    · -- the lifted child
      subst hwy
      have e1 : s1.left w = some x := by rw [hL]; simp
      have e2 : s1.right w = s.right w := by rw [hR]; simp [hyx, hAx]
      have e3 : s1.parent w = s.parent x := by rw [hP]; simp
      have e4 : s1.isRoot w = s.isRoot x := by rw [hI]; simp
      refine ⟨?_, ?_, ?_, ?_, ?_, ?_, ?_, ?_⟩
      · rw [rotGhost_io_y hyx, e1, e2, rotGhost_ioo hAx hAy, ioo_some, rotGhost_io_x, iox]
      · rw [rotGhost_io_y hyx]; exact (h x).chain
      · intro hr; rw [rotGhost_io_y hyx, e3]; rw [e4] at hr; exact (h x).root_pp hr
      · intro c hc
        rw [e1] at hc; cases hc
        constructor
        · rw [hP]; simp [hxy]
        · rw [hI]; simp [hxy]
      · intro c hc
        rw [e2] at hc
        have hcx : c ≠ x := fun e => hAx (e ▸ hc)
        have hcy : c ≠ w := fun e => hAy (e ▸ hc)
        have hcb : s.left w ≠ some c := fun e => h.left_ne_right e hc rfl
        constructor
        · rw [hP]; simp [hcx, hcy, hcb]; exact hpar_r hc
        · rw [hI]; simp [hcx, hcy]; exact ((h w).right_ok c hc).2
      · intro hr
        rw [e4] at hr
        obtain ⟨p, hp, hc⟩ := (h x).nonroot hr
        have hpx : p ≠ x := by
          rcases hc with hc | hc
          · exact fun e => h.left_ne hc e.symm
          · exact fun e => h.right_ne hc e.symm
        have hpw : p ≠ w := by
          intro e; subst e
          rcases hc with hc | hc
          · exact hBx hc
          · exact hAx hc
        refine ⟨p, by rw [e3, hp], ?_⟩
        rcases hc with hc | hc
        · left; rw [hL]; simp [hpw, hc]
        · right; rw [hR]; simp [hpx, hc]
      · exact (h w).rank
      · rw [rotGhost_io_y hyx]; exact (h x).size
    · -- every other node
      have e1 : s1.left w = if s.left w = some x then some y else s.left w := by
        rw [hL]; simp [hwy]
      have e2 : s1.right w = if s.right w = some x then some y else s.right w := by
        rw [hR]; simp [hwx]
      have e3 : s1.parent w = if s.left y = some w then some x else s.parent w := by
        rw [hP]; simp [hwx, hwy]
      have e4 : s1.isRoot w = s.isRoot w := by rw [hI]; simp [hwx, hwy]
      have hly : s.left w ≠ some y := fun e => by
        have := hpar_l e; rw [hpy] at this; cases this; exact hwx rfl
      have hry1 : s.right w ≠ some y := fun e => by
        have := hpar_r e; rw [hpy] at this; cases this; exact hwx rfl
      have hchild : ∀ c, c ≠ x → c ≠ y → s.parent c = some w →
          s1.parent c = some w ∧ s1.isRoot c = s.isRoot c := by
        intro c hcx hcy hc
        have hcb : s.left y ≠ some c := fun e => by
          have := hpar_l e; rw [hc] at this; cases this; exact hwy rfl
        constructor
        · rw [hP]; simp [hcx, hcy, hcb]; exact hc
        · rw [hI]; simp [hcx, hcy]
      refine (h w).frame (rotGhost_io_ne hwx hwy) rfl rfl le_rfl ?_ ?_ ?_ ?_ ?_ ?_
      · rw [e1]
        by_cases hc : s.left w = some x
        · rw [if_pos hc, hc, ioo_some, ioo_some, rotGhost_io_y hyx]
        · rw [if_neg hc]; exact rotGhost_ioo hc hly
      · rw [e2]
        by_cases hc : s.right w = some x
        · rw [if_pos hc, hc, ioo_some, ioo_some, rotGhost_io_y hyx]
        · rw [if_neg hc]; exact rotGhost_ioo hc hry1
      · intro c hc
        rw [e1] at hc
        by_cases hcx : s.left w = some x
        · rw [if_pos hcx] at hc; cases hc
          constructor
          · rw [hP]; simp; exact hpar_l hcx
          · rw [hI]; simp; exact ((h w).left_ok x hcx).2
        · rw [if_neg hcx] at hc
          have := hchild c (fun e => hcx (e ▸ hc)) (fun e => hly (e ▸ hc)) (hpar_l hc)
          exact ⟨this.1, this.2.trans ((h w).left_ok c hc).2⟩
      · intro c hc
        rw [e2] at hc
        by_cases hcx : s.right w = some x
        · rw [if_pos hcx] at hc; cases hc
          constructor
          · rw [hP]; simp; exact hpar_r hcx
          · rw [hI]; simp; exact ((h w).right_ok x hcx).2
        · rw [if_neg hcx] at hc
          have := hchild c (fun e => hcx (e ▸ hc)) (fun e => hry1 (e ▸ hc)) (hpar_r hc)
          exact ⟨this.1, this.2.trans ((h w).right_ok c hc).2⟩
      · intro hr
        rw [e4] at hr
        refine ⟨hr, ?_⟩
        rw [e3, if_neg]
        intro e
        have := ((h y).left_ok w e).2; rw [hr] at this; cases this
      · intro hr
        rw [e4] at hr
        by_cases hb : s.left y = some w
        · exact ⟨x, by rw [e3, if_pos hb], Or.inr (by rw [hR]; simp [hb])⟩
        · obtain ⟨q, hq, hc⟩ := (h w).nonroot hr
          refine ⟨q, by rw [e3, if_neg hb, hq], ?_⟩
          rcases hc with hc | hc
          · left
            have hqy : q ≠ y := fun e => by
              subst e; exact hb hc
            have hqc : s.left q ≠ some x := fun e => by
              rw [hc] at e; cases e; exact hwx rfl
            rw [hL, if_neg hqy, if_neg hqc]; exact hc
          · right
            have hqx : q ≠ x := fun e => by
              subst e; rw [hl] at hc; cases hc; exact hwy rfl
            have hqc : s.right q ≠ some x := fun e => by
              rw [hc] at e; cases e; exact hwx rfl
            rw [hR, if_neg hqx, if_neg hqc]; exact hc

/-- Node `w` has the same pointers, root flag and in-order sequence in both
heaps. -/
def Same (s s1 : Heap) (g g1 : Ghost) (w : Nat) : Prop :=
  s1.left w = s.left w ∧ s1.right w = s.right w ∧ s1.parent w = s.parent w ∧
    s1.isRoot w = s.isRoot w ∧ g1.io w = g.io w

/-- How a heap `s1` reached while splaying `t` relates to the heap `s` in
which the splay started: the invariant holds, the represented forest and the
flags are untouched, auxiliary roots whose tree does not hold `t` are
untouched, and the tree holding `t` keeps its in-order sequence. -/
structure SplayRel (s : Heap) (g : Ghost) (t : Nat) (s1 : Heap) (g1 : Ghost) : Prop where
  inv : Inv s1 g1
  rp : g1.rp = g.rp
  d : g1.d = g.d
  N : g1.N = g.N
  flags : s1.flags = s.flags
  opFlags : s1.opFlags = s.opFlags
  frame : ∀ w, s.isRoot w = true → t ∉ g.io w → Same s s1 g g1 w
  top : ∀ r, s.isRoot r = true → t ∈ g.io r →
    ∃ r1, s1.isRoot r1 = true ∧ t ∈ g1.io r1 ∧ g1.io r1 = g.io r ∧ s1.parent r1 = s.parent r

theorem SplayRel.splayRefl (h : Inv s g) (t : Nat) : SplayRel s g t s g where
  inv := h
  rp := rfl
  d := rfl
  N := rfl
  flags := rfl
  opFlags := rfl
  frame := fun _ _ _ => ⟨rfl, rfl, rfl, rfl, rfl⟩
  top := fun r hr ht => ⟨r, hr, ht, rfl, rfl⟩

theorem SplayRel.splayTrans {t : Nat} {s1 s2 : Heap} {g1 g2 : Ghost}
    (h1 : SplayRel s g t s1 g1) (h2 : SplayRel s1 g1 t s2 g2) : SplayRel s g t s2 g2 where
  inv := h2.inv
  rp := h2.rp.trans h1.rp
  d := h2.d.trans h1.d
  N := h2.N.trans h1.N
  flags := h2.flags.trans h1.flags
  opFlags := h2.opFlags.trans h1.opFlags
  frame := by
    intro w hw ht
    obtain ⟨a1, a2, a3, a4, a5⟩ := h1.frame w hw ht
    obtain ⟨b1, b2, b3, b4, b5⟩ := h2.frame w (a4.trans hw) (by rw [a5]; exact ht)
    exact ⟨b1.trans a1, b2.trans a2, b3.trans a3, b4.trans a4, b5.trans a5⟩
  top := by
    intro r hr ht
    obtain ⟨r1, a1, a2, a3, a4⟩ := h1.top r hr ht
    obtain ⟨r2, b1, b2, b3, b4⟩ := h2.top r1 a1 a2
    exact ⟨r2, b1, b2, b3.trans a3, b4.trans a4⟩

/-- Specification of `rotR` at `x` with left child `y`, seen from a node `t`
below `x`. -/
theorem rotR_spec (h : Inv s g) {x y t : Nat} (hl : s.left x = some y) (ht : t ∈ g.io x) :
    ∃ s1 g1, rotR s x = some s1 ∧ SplayRel s g t s1 g1 ∧
      g1.io y = g.io x ∧ (∀ w, w ≠ x → w ≠ y → g1.io w = g.io w) ∧
      (∀ w, s1.left w = if w = x then s.right y
        else if s.left w = some x then some y else s.left w) ∧
      (∀ w, s1.right w = if w = y then some x
        else if s.right w = some x then some y else s.right w) ∧
      (∀ w, s1.parent w = if w = y then s.parent x else if w = x then some y
        else if s.right y = some w then some x else s.parent w) ∧
      (∀ w, s1.isRoot w = if w = y then s.isRoot x else if w = x then false
        else s.isRoot w) := by
  obtain ⟨s1, hs1, hL, hR, hP, hI, hF, hO⟩ := rotR_eval h hl
  have hyx : y ≠ x := h.left_ne hl
  have hry : s.isRoot y = false := ((h x).left_ok y hl).2
  refine ⟨s1, _, hs1, ⟨rotR_inv h hl hL hR hP hI, rfl, rfl, rfl, hF, hO, ?_, ?_⟩,
    rotGhost_io_y hyx, fun w hx hy => rotGhost_io_ne hx hy, hL, hR, hP, hI⟩
  · intro w hw htw
    have hwx : w ≠ x := fun e => htw (e ▸ ht)
    have hwy : w ≠ y := fun e => by rw [e, hry] at hw; cases hw
    have h1 : s.left w ≠ some x := fun e => htw (h.left_mem e t ht)
    have h2 : s.right w ≠ some x := fun e => htw (h.right_mem e t ht)
    have h3 : s.right y ≠ some w := fun e => by
      have := ((h y).right_ok w e).2; rw [hw] at this; cases this
    refine ⟨?_, ?_, ?_, ?_, rotGhost_io_ne hwx hwy⟩
    · rw [hL, if_neg hwx, if_neg h1]
    · rw [hR, if_neg hwy, if_neg h2]
    · rw [hP, if_neg hwy, if_neg hwx, if_neg h3]
    · rw [hI, if_neg hwy, if_neg hwx]
  · intro r hr htr
    by_cases hrx : r = x
    · subst hrx
      refine ⟨y, by rw [hI, if_pos rfl]; exact hr, by rw [rotGhost_io_y hyx]; exact htr,
        rotGhost_io_y hyx, by rw [hP, if_pos rfl]⟩
    · have hry1 : r ≠ y := fun e => by rw [e, hry] at hr; cases hr
      have h3 : s.right y ≠ some r := fun e => by
        have := ((h y).right_ok r e).2; rw [hr] at this; cases this
      refine ⟨r, by rw [hI, if_neg hry1, if_neg hrx]; exact hr,
        by rw [rotGhost_io_ne hrx hry1]; exact htr, rotGhost_io_ne hrx hry1,
        by rw [hP, if_neg hry1, if_neg hrx, if_neg h3]⟩

/-- Specification of `rotL` at `x` with right child `y`, seen from a node `t`
below `x`. -/
theorem rotL_spec (h : Inv s g) {x y t : Nat} (hl : s.right x = some y) (ht : t ∈ g.io x) :
    ∃ s1 g1, rotL s x = some s1 ∧ SplayRel s g t s1 g1 ∧
      g1.io y = g.io x ∧ (∀ w, w ≠ x → w ≠ y → g1.io w = g.io w) ∧
      (∀ w, s1.left w = if w = y then some x
        else if s.left w = some x then some y else s.left w) ∧
      (∀ w, s1.right w = if w = x then s.left y
        else if s.right w = some x then some y else s.right w) ∧
      (∀ w, s1.parent w = if w = y then s.parent x else if w = x then some y
        else if s.left y = some w then some x else s.parent w) ∧
      (∀ w, s1.isRoot w = if w = y then s.isRoot x else if w = x then false
        else s.isRoot w) := by
  obtain ⟨s1, hs1, hL, hR, hP, hI, hF, hO⟩ := rotL_eval h hl
  have hyx : y ≠ x := h.right_ne hl
  have hry : s.isRoot y = false := ((h x).right_ok y hl).2
  refine ⟨s1, _, hs1, ⟨rotL_inv h hl hL hR hP hI, rfl, rfl, rfl, hF, hO, ?_, ?_⟩,
    rotGhost_io_y hyx, fun w hx hy => rotGhost_io_ne hx hy, hL, hR, hP, hI⟩
  · intro w hw htw
    have hwx : w ≠ x := fun e => htw (e ▸ ht)
    have hwy : w ≠ y := fun e => by rw [e, hry] at hw; cases hw
    have h1 : s.left w ≠ some x := fun e => htw (h.left_mem e t ht)
    have h2 : s.right w ≠ some x := fun e => htw (h.right_mem e t ht)
    have h3 : s.left y ≠ some w := fun e => by
      have := ((h y).left_ok w e).2; rw [hw] at this; cases this
    refine ⟨?_, ?_, ?_, ?_, rotGhost_io_ne hwx hwy⟩
    · rw [hL, if_neg hwy, if_neg h1]
    · rw [hR, if_neg hwx, if_neg h2]
    · rw [hP, if_neg hwy, if_neg hwx, if_neg h3]
    · rw [hI, if_neg hwy, if_neg hwx]
  · intro r hr htr
    by_cases hrx : r = x
    · subst hrx
      refine ⟨y, by rw [hI, if_pos rfl]; exact hr, by rw [rotGhost_io_y hyx]; exact htr,
        rotGhost_io_y hyx, by rw [hP, if_pos rfl]⟩
    · have hry1 : r ≠ y := fun e => by rw [e, hry] at hr; cases hr
      have h3 : s.left y ≠ some r := fun e => by
        have := ((h y).left_ok r e).2; rw [hr] at this; cases this
      refine ⟨r, by rw [hI, if_neg hry1, if_neg hrx]; exact hr,
        by rw [rotGhost_io_ne hrx hry1]; exact htr, rotGhost_io_ne hrx hry1,
        by rw [hP, if_neg hry1, if_neg hrx, if_neg h3]⟩

/-- One splay step at a node `t` that is not an auxiliary root. -/
theorem splayStep_spec (h : Inv s g) {t : Nat} (ht : s.isRoot t = false) :
    ∃ s1 g1, splayStep s t = some s1 ∧ SplayRel s g t s1 g1 ∧
      (g.io t).length < (g1.io t).length := by
  obtain ⟨p, hp, hc⟩ := (h t).nonroot ht
  have htt := h.self_mem t
  have hlr : s.left p = some t → s.right p ≠ some t := fun e1 e2 => h.left_ne_right e1 e2 rfl
  have htp : t ∈ g.io p := by
    rcases hc with hc | hc
    · exact h.left_mem hc t htt
    · exact h.right_mem hc t htt
  have hlen : (g.io t).length < (g.io p).length := by
    rcases hc with hc | hc
    · exact h.left_len hc
    · exact h.right_len hc
  cases hrp : s.isRoot p with
  | true =>
    rcases hc with hc | hc
    · obtain ⟨s1, g1, e, rel, hy, -⟩ := rotR_spec h hc htp
      refine ⟨s1, g1, ?_, rel, by rw [hy]; exact hlen⟩
      simp [splayStep, hp, hrp, hc, e]
    · have hl : s.left p ≠ some t := fun e => hlr e hc
      obtain ⟨s1, g1, e, rel, hy, -⟩ := rotL_spec h hc htp
      refine ⟨s1, g1, ?_, rel, by rw [hy]; exact hlen⟩
      simp [splayStep, hp, hrp, hl, e]
  | false =>
    obtain ⟨q, hq, hcq⟩ := (h p).nonroot hrp
    have hlrq : s.left q = some p → s.right q ≠ some p := fun e1 e2 =>
      h.left_ne_right e1 e2 rfl
    have hpq : ∀ a ∈ g.io p, a ∈ g.io q := by
      rcases hcq with hcq | hcq
      · exact h.left_mem hcq
      · exact h.right_mem hcq
    have hlenq : (g.io p).length < (g.io q).length := by
      rcases hcq with hcq | hcq
      · exact h.left_len hcq
      · exact h.right_len hcq
    have htq : t ∈ g.io q := hpq t htp
    have htp1 : t ≠ p := fun e => by rw [e] at hlen; omega
    have htq1 : t ≠ q := fun e => by rw [e] at hlen; omega
    have hpq1 : p ≠ q := fun e => by rw [e] at hlenq; omega
    rcases hc with hc | hc
    · have hr : s.right p ≠ some t := hlr hc
      rcases hcq with hcq | hcq
      · -- lefthanded zigzig
        obtain ⟨s1, g1, e1, rel1, hy1, hn1, hL1, hR1, hP1, hI1⟩ := rotR_spec h hcq htq
        have a1 : s1.parent t = some p := by
          rw [hP1, if_neg htp1, if_neg htq1, if_neg hr, hp]
        have a2 : s1.left p = some t := by
          rw [hL1, if_neg hpq1, if_neg (by rw [hc]; simp [htq1]), hc]
        have a3 : t ∈ g1.io p := by rw [hy1]; exact htq
        obtain ⟨s2, g2, e2, rel2, hy2, -⟩ := rotR_spec rel1.inv a2 a3
        refine ⟨s2, g2, ?_, rel1.splayTrans rel2, by rw [hy2, hy1]; omega⟩
        simp [splayStep, hp, hrp, hc, hq, hcq, e1, a1, e2]
      · -- righthanded zigzag
        have hlq : s.left q ≠ some p := fun e => hlrq e hcq
        obtain ⟨s1, g1, e1, rel1, hy1, hn1, hL1, hR1, hP1, hI1⟩ := rotR_spec h hc htp
        have a1 : s1.parent t = some q := by
          rw [hP1, if_pos rfl, hq]
        have a2 : s1.right q = some t := by
          rw [hR1, if_neg (Ne.symm htq1), if_pos hcq]
        have a3 : t ∈ g1.io q := by rw [hn1 q (Ne.symm hpq1) (Ne.symm htq1)]; exact htq
        obtain ⟨s2, g2, e2, rel2, hy2, -⟩ := rotL_spec rel1.inv a2 a3
        refine ⟨s2, g2, ?_, rel1.splayTrans rel2, ?_⟩
        · simp [splayStep, hp, hrp, hc, hr, hq, hcq, hlq, e1, a1, e2]
        · rw [hy2, hn1 q (Ne.symm hpq1) (Ne.symm htq1)]; omega
    · have hl : s.left p ≠ some t := fun e => hlr e hc
      rcases hcq with hcq | hcq
      · -- lefthanded zigzag
        have hrq : s.right q ≠ some p := hlrq hcq
        obtain ⟨s1, g1, e1, rel1, hy1, hn1, hL1, hR1, hP1, hI1⟩ := rotL_spec h hc htp
        have a1 : s1.parent t = some q := by
          rw [hP1, if_pos rfl, hq]
        have a2 : s1.left q = some t := by
          rw [hL1, if_neg (Ne.symm htq1), if_pos hcq]
        have a3 : t ∈ g1.io q := by rw [hn1 q (Ne.symm hpq1) (Ne.symm htq1)]; exact htq
        obtain ⟨s2, g2, e2, rel2, hy2, -⟩ := rotR_spec rel1.inv a2 a3
        refine ⟨s2, g2, ?_, rel1.splayTrans rel2, ?_⟩
        · simp [splayStep, hp, hrp, hc, hl, hq, hcq, hrq, e1, a1, e2]
        · rw [hy2, hn1 q (Ne.symm hpq1) (Ne.symm htq1)]; omega
      · -- righthanded zigzig
        obtain ⟨s1, g1, e1, rel1, hy1, hn1, hL1, hR1, hP1, hI1⟩ := rotL_spec h hcq htq
        have a1 : s1.parent t = some p := by
          rw [hP1, if_neg htp1, if_neg htq1, if_neg hl, hp]
        have a2 : s1.right p = some t := by
          rw [hR1, if_neg hpq1, if_neg (by rw [hc]; simp [htq1]), hc]
        have a3 : t ∈ g1.io p := by rw [hy1]; exact htq
        obtain ⟨s2, g2, e2, rel2, hy2, -⟩ := rotL_spec rel1.inv a2 a3
        refine ⟨s2, g2, ?_, rel1.splayTrans rel2, by rw [hy2, hy1]; omega⟩
        simp [splayStep, hp, hrp, hc, hl, hq, hcq, e1, a1, e2]

theorem splay_succ_of_root {t : Nat} (ht : s.isRoot t = true) (f : Nat) :
    splay (f + 1) s t = some s := by
  simp [splay, ht]

theorem splay_succ_of_step {t : Nat} {s1 : Heap} (ht : s.isRoot t = false)
    (hs : splayStep s t = some s1) (f : Nat) : splay (f + 1) s t = splay f s1 t := by
  simp [splay, ht, hs]

/-- Splaying terminates with `t` on top of its auxiliary tree. -/
theorem splay_spec_aux (t : Nat) : ∀ (n : Nat) (s : Heap) (g : Ghost), Inv s g →
    g.N - (g.io t).length ≤ n →
    ∃ s1 g1, (∀ f, n + 1 ≤ f → splay f s t = some s1) ∧ SplayRel s g t s1 g1 ∧
      s1.isRoot t = true := by
  intro n
  induction n with
  | zero =>
    intro s g h hn
    cases ht : s.isRoot t with
    | true =>
      refine ⟨s, g, ?_, SplayRel.splayRefl h t, ht⟩
      intro f hf
      obtain ⟨f', rfl⟩ : ∃ f', f = f' + 1 := ⟨f - 1, by omega⟩
      exact splay_succ_of_root ht f'
    | false =>
      obtain ⟨s1, g1, _, rel, hlt⟩ := splayStep_spec h ht
      have := (rel.inv t).size
      have := rel.N
      omega
  | succ n ih =>
    intro s g h hn
    cases ht : s.isRoot t with
    | true =>
      refine ⟨s, g, ?_, SplayRel.splayRefl h t, ht⟩
      intro f hf
      obtain ⟨f', rfl⟩ : ∃ f', f = f' + 1 := ⟨f - 1, by omega⟩
      exact splay_succ_of_root ht f'
    | false =>
      obtain ⟨s1, g1, e1, rel, hlt⟩ := splayStep_spec h ht
      have h1 := (rel.inv t).size
      have h2 := rel.N
      obtain ⟨s2, g2, e2, rel2, hr2⟩ := ih s1 g1 rel.inv (by omega)
      refine ⟨s2, g2, ?_, rel.splayTrans rel2, hr2⟩
      intro f hf
      obtain ⟨f', rfl⟩ : ∃ f', f = f' + 1 := ⟨f - 1, by omega⟩
      rw [splay_succ_of_step ht e1]
      exact e2 f' (by omega)

/-- Every node lies in the in-order sequence of an auxiliary root. -/
theorem Inv.exists_root (h : Inv s g) : ∀ (n t : Nat), g.N - (g.io t).length ≤ n →
    ∃ r, s.isRoot r = true ∧ t ∈ g.io r := by
  intro n
  induction n with
  | zero =>
    intro t hn
    cases ht : s.isRoot t with
    | true => exact ⟨t, ht, h.self_mem t⟩
    | false =>
      obtain ⟨p, hp, hc⟩ := (h t).nonroot ht
      have : (g.io t).length < (g.io p).length := by
        rcases hc with hc | hc
        · exact h.left_len hc
        · exact h.right_len hc
      have := (h p).size
      omega
  | succ n ih =>
    intro t hn
    cases ht : s.isRoot t with
    | true => exact ⟨t, ht, h.self_mem t⟩
    | false =>
      obtain ⟨p, hp, hc⟩ := (h t).nonroot ht
      have hlen : (g.io t).length < (g.io p).length := by
        rcases hc with hc | hc
        · exact h.left_len hc
        · exact h.right_len hc
      have := (h p).size
      obtain ⟨r, hr, hm⟩ := ih p (by omega)
      refine ⟨r, hr, ?_⟩
      have hsub : ∀ a ∈ g.io t, a ∈ g.io p := by
        rcases hc with hc | hc
        · exact h.left_mem hc
        · exact h.right_mem hc
      -- `p` is inside the tree of `r`, hence so is its subtree
      by_contra hcon
      have key : ∀ (m q : Nat), (g.io q).length ≤ m → ∀ a ∈ g.io q,
          ∀ b ∈ g.io a, b ∈ g.io q := by
        intro m
        induction m with
        | zero =>
          intro q hq; have := h.io_ne_nil q
          have : g.io q = [] := List.length_eq_zero.1 (Nat.le_zero.1 hq)
          contradiction
        | succ m ihm =>
          intro q hq a ha b hb
          have hio := (h q).io_eq
          rw [hio] at ha
          simp only [List.mem_append, List.mem_cons] at ha
          rcases ha with ha | ha | ha
          · cases hl : s.left q with
            | none => simp [hl] at ha
            | some y =>
              rw [hl] at ha; simp only [ioo_some] at ha
              have := h.left_len hl
              exact h.left_mem hl b (ihm y (by omega) a ha b hb)
          · subst ha; exact hb
          · cases hl : s.right q with
            | none => simp [hl] at ha
            | some y =>
              rw [hl] at ha; simp only [ioo_some] at ha
              have := h.right_len hl
              exact h.right_mem hl b (ihm y (by omega) a ha b hb)
      exact hcon (key _ r le_rfl p hm t (hsub t (h.self_mem t)))

/-- Splaying `t`: it becomes the auxiliary root, and takes over the in-order
sequence and the path-parent pointer of the former root of its tree. -/
theorem splay_spec (h : Inv s g) (t : Nat) :
    ∃ s1 g1, (∀ f, g.N - (g.io t).length + 1 ≤ f → splay f s t = some s1) ∧
      SplayRel s g t s1 g1 ∧ s1.isRoot t = true ∧
      ∀ r, s.isRoot r = true → t ∈ g.io r → g1.io t = g.io r ∧ s1.parent t = s.parent r := by
  obtain ⟨s1, g1, e, rel, hr⟩ := splay_spec_aux t _ s g h le_rfl
  refine ⟨s1, g1, e, rel, hr, ?_⟩
  intro r hrr htr
  obtain ⟨r1, a1, a2, a3, a4⟩ := rel.top r hrr htr
  have : t = r1 := rel.inv.mem_root a2 hr
  subst this
  exact ⟨a3, a4⟩

end Rotations

section Expose

variable {s : Heap} {g : Ghost}

/-- In the ghost forest, `b` is `a` or an ancestor of `a`. -/
def Desc (g : Ghost) (a b : Nat) : Prop :=
  Relation.ReflTransGen (fun x y => g.rp x = some y) a b

/-- Along a chain of represented edges every element descends from the first. -/
theorem chain_desc (g : Ghost) : ∀ (l : List Nat) (hd : Nat),
    (hd :: l).Chain' (fun a b => g.rp b = some a) → ∀ x ∈ hd :: l, Desc g x hd := by
  intro l
  induction l with
  | nil =>
    intro hd _ x hx
    simp at hx; subst hx; exact Relation.ReflTransGen.refl
  | cons y tl ih =>
    intro hd hc x hx
    rw [List.chain'_cons] at hc
    rcases List.mem_cons.1 hx with hx | hx
    · subst hx; exact Relation.ReflTransGen.refl
    · exact Relation.ReflTransGen.tail (ih y hc.2 x hx) hc.1

theorem Inv.desc_head (h : Inv s g) {x hd : Nat} (hh : (g.io x).head? = some hd) :
    ∀ a ∈ g.io x, Desc g a hd := by
  obtain ⟨tl, e⟩ := List.head?_eq_some_iff.1 hh
  have hc := (h x).chain
  rw [e] at hc ⊢
  exact chain_desc g tl hd hc

theorem Inv.head_le (h : Inv s g) {x hd : Nat} (hh : (g.io x).head? = some hd) :
    ∀ a ∈ g.io x, g.d hd ≤ g.d a := by
  obtain ⟨tl, e⟩ := List.head?_eq_some_iff.1 hh
  have hs := h.sorted x
  rw [e] at hs ⊢
  intro a ha
  rw [List.pairwise_cons] at hs
  rcases List.mem_cons.1 ha with ha | ha
  · subst ha; exact le_rfl
  · exact le_of_lt (hs.1 a ha)

/-- The path-parent of an auxiliary root lies strictly above its whole tree. -/
theorem Inv.pp_not_mem (h : Inv s g) {v p : Nat} (hv : s.isRoot v = true)
    (hp : s.parent v = some p) : p ∉ g.io v := by
  intro hm
  obtain ⟨hd, hh⟩ : ∃ hd, (g.io v).head? = some hd := by
    cases e : g.io v with
    | nil => exact absurd e (h.io_ne_nil v)
    | cons a l => exact ⟨a, rfl⟩
  have h1 := (h v).root_pp hv hd hh
  rw [hp] at h1
  have h2 := (h hd).rank p h1
  have h3 := h.head_le hh p hm
  omega

theorem Inv.pp_desc (h : Inv s g) {v p : Nat} (hv : s.isRoot v = true)
    (hp : s.parent v = some p) : ∀ a ∈ g.io v, Desc g a p := by
  obtain ⟨hd, hh⟩ : ∃ hd, (g.io v).head? = some hd := by
    cases e : g.io v with
    | nil => exact absurd e (h.io_ne_nil v)
    | cons a l => exact ⟨a, rfl⟩
  have h1 := (h v).root_pp hv hd hh
  rw [hp] at h1
  intro a ha
  exact Relation.ReflTransGen.tail (h.desc_head hh a ha) h1

/-- A child is never an auxiliary root. -/
theorem Inv.left_ne_root (h : Inv s g) {w c : Nat} (hc : s.isRoot c = true) :
    s.left w ≠ some c := fun e => by
  have := ((h w).left_ok c e).2; rw [hc] at this; cases this

theorem Inv.right_ne_root (h : Inv s g) {w c : Nat} (hc : s.isRoot c = true) :
    s.right w ≠ some c := fun e => by
  have := ((h w).right_ok c e).2; rw [hc] at this; cases this

/-- Ghost state with the in-order sequence of one node replaced. -/
def Ghost.setIo (g : Ghost) (x : Nat) (l : List Nat) (n : Nat) : Ghost :=
  { g with io := Function.update g.io x l, N := n }

@[simp] theorem setIo_rp (x : Nat) (l : List Nat) (n : Nat) : (g.setIo x l n).rp = g.rp := rfl
@[simp] theorem setIo_d (x : Nat) (l : List Nat) (n : Nat) : (g.setIo x l n).d = g.d := rfl
@[simp] theorem setIo_N (x : Nat) (l : List Nat) (n : Nat) : (g.setIo x l n).N = n := rfl
theorem setIo_io_self (x : Nat) (l : List Nat) (n : Nat) : (g.setIo x l n).io x = l := by
  simp [Ghost.setIo]
theorem setIo_io_ne {x w : Nat} (l : List Nat) (n : Nat) (hw : w ≠ x) :
    (g.setIo x l n).io w = g.io w := by
  simp [Ghost.setIo, hw]
theorem setIo_ioo {x : Nat} {c : Option Nat} (l : List Nat) (n : Nat) (hc : c ≠ some x) :
    (g.setIo x l n).ioo c = g.ioo c := by
  cases c with
  | none => rfl
  | some c => exact setIo_io_ne l n (fun e => hc (e ▸ rfl))

/-- Detaching the right subtree of an auxiliary root `v`
(`_right->_isRoot = true; _right = nullptr;`). -/
theorem cutRight_inv (h : Inv s g) {v r : Nat} (hv : s.isRoot v = true)
    (hr : s.right v = some r) :
    Inv ((s.setIsRoot r true).setRight v none)
      (g.setIo v (g.ioo (s.left v) ++ [v]) g.N) := by
  have hrv : r ≠ v := h.right_ne hr
  have hpr : s.parent r = some v := ((h v).right_ok r hr).1
  have hlv : s.left v ≠ some v := fun e => h.left_ne e rfl
  have hlr : s.left v ≠ some r := fun e => h.left_ne_right e hr rfl
  have iov : g.io v = (g.ioo (s.left v) ++ [v]) ++ g.io r := by
    have := (h v).io_eq; rw [hr, ioo_some] at this; rw [this]; simp
  intro w
  by_cases hwv : w = v
  · subst hwv
    refine ⟨?_, ?_, ?_, ?_, ?_, ?_, ?_, ?_⟩
    · rw [setIo_io_self]; simp [setIo_ioo _ _ hlv]
    · rw [setIo_io_self]
      have := (h w).chain; rw [iov] at this
      exact this.left_of_append
    · intro _ hd hh
      rw [setIo_io_self] at hh
      have : (g.io w).head? = some hd := by
        rw [iov, List.head?_append, hh]; rfl
      exact (h w).root_pp hv hd this
    · intro c hc
      have hc' : s.left w = some c := hc
      have hcr : c ≠ r := fun e => hlr (e ▸ hc')
      refine ⟨((h w).left_ok c hc').1, ?_⟩
      simp [Function.update_apply, hcr]; exact ((h w).left_ok c hc').2
    · intro c hc
      simp at hc
    · intro hn
      simp [Function.update_apply, Ne.symm hrv] at hn
      rw [hv] at hn; cases hn
    · exact (h w).rank
    · rw [setIo_io_self]
      have := (h w).size; rw [iov] at this; simp at this ⊢; omega
  · have hlw : s.left w ≠ some v := h.left_ne_root hv
    have hrw : s.right w ≠ some v := h.right_ne_root hv
    have e2 : ((s.setIsRoot r true).setRight v none).right w = s.right w := by
      simp [Function.update_apply, hwv]
    refine (h w).frame' (k := g.setIo v (g.ioo (s.left v) ++ [v]) g.N)
      (t := (s.setIsRoot r true).setRight v none)
      (setIo_io_ne _ _ hwv) rfl rfl le_rfl (setIo_ioo _ _ hlw) ?_ ?_ ?_ ?_ ?_
    · rw [e2]; exact setIo_ioo _ _ hrw
    · intro c hc
      have hc' : s.left w = some c := hc
      have hcr : c ≠ r := fun e => by
        subst e
        have := ((h w).left_ok c hc').1; rw [hpr] at this; cases this; exact hwv rfl
      refine ⟨((h w).left_ok c hc').1, ?_⟩
      simp [Function.update_apply, hcr]; exact ((h w).left_ok c hc').2
    · intro c hc
      rw [e2] at hc
      have hcr : c ≠ r := fun e => by
        subst e
        have := ((h w).right_ok c hc).1; rw [hpr] at this; cases this; exact hwv rfl
      refine ⟨((h w).right_ok c hc).1, ?_⟩
      simp [Function.update_apply, hcr]; exact ((h w).right_ok c hc).2
    · intro hrt hd hh
      show g.rp hd = s.parent w
      by_cases hwr : w = r
      · subst hwr
        rw [hpr]
        have hc := (h v).chain
        rw [iov, List.append_assoc] at hc
        have hc2 := hc.right_of_append
        exact List.Chain'.rel_head? hc2 hh
      · have : s.isRoot w = true := by
          simpa [Function.update_apply, hwr] using hrt
        exact (h w).root_pp this hd hh
    · intro hn
      have hwr : w ≠ r := fun e => by
        subst e; simp [Function.update_apply] at hn
      have hn' : s.isRoot w = false := by
        simpa [Function.update_apply, hwr] using hn
      obtain ⟨q, hq, hc⟩ := (h w).nonroot hn'
      refine ⟨q, hq, ?_⟩
      rcases hc with hc | hc
      · exact Or.inl hc
      · right
        have hqv : q ≠ v := fun e => by
          subst e; rw [hr] at hc; cases hc; exact hwr rfl
        simp [Function.update_apply, hqv]; exact hc

/-- Hanging the auxiliary tree of `v` below its path-parent `p` as right
subtree (`_parent->_right = this; _isRoot = false;`). -/
theorem attach_inv (h : Inv s g) {v p : Nat} (hv : s.isRoot v = true)
    (hp : s.isRoot p = true) (hvp : s.parent v = some p) (hrp : s.right p = none) :
    Inv ((s.setRight p (some v)).setIsRoot v false)
      (g.setIo p (g.ioo (s.left p) ++ p :: g.io v) (g.N + g.N)) := by
  have hpv : p ≠ v := fun e => h.pp_not_mem hv hvp (e ▸ h.self_mem v)
  have hvp' : v ≠ p := fun e => hpv e.symm
  have hlp : s.left p ≠ some p := fun e => h.left_ne e rfl
  have iop : g.io p = g.ioo (s.left p) ++ [p] := by
    have := (h p).io_eq; rw [hrp] at this; simpa using this
  intro w
  by_cases hwp : w = p
  · subst hwp
    refine ⟨?_, ?_, ?_, ?_, ?_, ?_, ?_, ?_⟩
    · rw [setIo_io_self]
      simp [setIo_ioo _ _ hlp, setIo_io_ne _ _ hvp']
    · rw [setIo_io_self]
      have e : g.ioo (s.left w) ++ w :: g.io v = (g.ioo (s.left w) ++ [w]) ++ g.io v := by simp
      rw [e]
      refine List.Chain'.append (iop ▸ (h w).chain) (h v).chain ?_
      intro x hx y hy
      rw [List.getLast?_concat] at hx
      cases hx
      have := (h v).root_pp hv y hy
      rw [hvp] at this; exact this
    · intro _ hd hh
      rw [setIo_io_self] at hh
      have : (g.io w).head? = some hd := by
        rw [iop]
        rw [List.head?_append] at hh ⊢
        cases e : (g.ioo (s.left w)).head? with
        | none => rw [e] at hh; simpa using hh
        | some a => rw [e] at hh; simpa using hh
      exact (h w).root_pp hp hd this
    · intro c hc
      have hc' : s.left w = some c := hc
      have hcv : c ≠ v := fun e => h.left_ne_root hv (e ▸ hc')
      refine ⟨((h w).left_ok c hc').1, ?_⟩
      simp [Function.update_apply, hcv]; exact ((h w).left_ok c hc').2
    · intro c hc
      simp at hc; subst hc
      exact ⟨hvp, by simp⟩
    · intro hn
      simp [Function.update_apply, hpv] at hn
      rw [hp] at hn; cases hn
    · exact (h w).rank
    · rw [setIo_io_self]
      have h1 := (h w).size; rw [iop] at h1
      have h2 := (h v).size
      simp at h1 ⊢; omega
  · have hlw : s.left w ≠ some p := h.left_ne_root hp
    have hrw : s.right w ≠ some p := h.right_ne_root hp
    have e2 : ((s.setRight p (some v)).setIsRoot v false).right w = s.right w := by
      simp [Function.update_apply, hwp]
    refine (h w).frame' (k := g.setIo p (g.ioo (s.left p) ++ p :: g.io v) (g.N + g.N))
      (t := (s.setRight p (some v)).setIsRoot v false)
      (setIo_io_ne _ _ hwp) rfl rfl (by simp) (setIo_ioo _ _ hlw) ?_ ?_ ?_ ?_ ?_
    · rw [e2]; exact setIo_ioo _ _ hrw
    · intro c hc
      have hc' : s.left w = some c := hc
      have hcv : c ≠ v := fun e => h.left_ne_root hv (e ▸ hc')
      refine ⟨((h w).left_ok c hc').1, ?_⟩
      simp [Function.update_apply, hcv]; exact ((h w).left_ok c hc').2
    · intro c hc
      rw [e2] at hc
      have hcv : c ≠ v := fun e => h.right_ne_root hv (e ▸ hc)
      refine ⟨((h w).right_ok c hc).1, ?_⟩
      simp [Function.update_apply, hcv]; exact ((h w).right_ok c hc).2
    · intro hrt hd hh
      show g.rp hd = s.parent w
      have hwv : w ≠ v := fun e => by
        subst e; simp [Function.update_apply] at hrt
      have : s.isRoot w = true := by
        simpa [Function.update_apply, hwv] using hrt
      exact (h w).root_pp this hd hh
    · intro hn
      by_cases hwv : w = v
      · subst hwv
        exact ⟨p, hvp, Or.inr (by simp)⟩
      · have hn' : s.isRoot w = false := by
          simpa [Function.update_apply, hwv] using hn
        obtain ⟨q, hq, hc⟩ := (h w).nonroot hn'
        refine ⟨q, hq, ?_⟩
        rcases hc with hc | hc
        · exact Or.inl hc
        · right
          have hqp : q ≠ p := fun e => by
            subst e; rw [hrp] at hc; cases hc
          simp [Function.update_apply, hqp]; exact hc

theorem setRight_setRight (s : Heap) (x : Nat) (a b : Option Nat) :
    (s.setRight x a).setRight x b = s.setRight x b := by
  simp [Heap.setRight]

theorem Inv.right_none_of_last (h : Inv s g) {v : Nat} (hl : (g.io v).getLast? = some v) :
    s.right v = none := by
  cases hr : s.right v with
  | none => rfl
  | some c =>
    exfalso
    have e := (h v).io_eq
    rw [hr, ioo_some] at e
    have hne : v :: g.io c ≠ [] := by simp
    rw [e, List.getLast?_append_of_ne_nil _ hne] at hl
    have hne2 := h.io_ne_nil c
    obtain ⟨a, l, e2⟩ : ∃ a l, g.io c = a :: l := by
      cases e3 : g.io c with
      | nil => exact absurd e3 hne2
      | cons a l => exact ⟨a, l, rfl⟩
    rw [e2, List.getLast?_cons_cons, ← e2] at hl
    have := h.right_lt hr v (List.mem_of_mem_getLast? hl)
    omega

/-- The body of the loop of `expose` between the two splays: the right
subtree of the path-parent `p` is detached and the tree of `v` takes its
place. -/
theorem join_spec (h : Inv s g) {v p : Nat} (hv : s.isRoot v = true)
    (hp : s.isRoot p = true) (hvp : s.parent v = some p) :
    ∃ g3, Inv (((match s.right p with
          | some r => s.setIsRoot r true
          | none => s).setRight p (some v)).setIsRoot v false) g3 ∧
      g3.rp = g.rp ∧ g3.d = g.d ∧ g.N ≤ g3.N ∧
      g3.io p = g.ioo (s.left p) ++ p :: g.io v ∧ (∀ w, w ≠ p → g3.io w = g.io w) := by
  have hpv : p ≠ v := fun e => h.pp_not_mem hv hvp (e ▸ h.self_mem v)
  have hvp' : v ≠ p := fun e => hpv e.symm
  have hlp : s.left p ≠ some p := fun e => h.left_ne e rfl
  cases hr : s.right p with
  | none =>
    refine ⟨_, attach_inv h hv hp hvp hr, rfl, rfl, by simp, setIo_io_self _ _ _,
      fun w hw => setIo_io_ne _ _ hw⟩
  | some r =>
    have hrr : s.isRoot r = false := ((h p).right_ok r hr).2
    have hrv : r ≠ v := fun e => by rw [e, hv] at hrr; cases hrr
    have hrp : r ≠ p := fun e => by rw [e, hp] at hrr; cases hrr
    have h1 := cutRight_inv h hp hr
    have h2 := attach_inv h1 (v := v) (p := p)
      (by simp [Function.update_apply, Ne.symm hrv]; exact hv)
      (by simp [Function.update_apply, Ne.symm hrp]; exact hp)
      (by simpa using hvp) (by simp)
    rw [setRight_setRight] at h2
    refine ⟨_, h2, rfl, rfl, by simp, ?_, ?_⟩
    · rw [setIo_io_self]
      simp [setIo_ioo _ _ hlp, setIo_io_ne _ _ hvp']
    · intro w hw
      rw [setIo_io_ne _ _ hw, setIo_io_ne _ _ hw]

/-- How the heap after (part of) `expose` at `o` relates to the heap before:
the invariant holds, the represented forest and the flags are untouched, and
an auxiliary root whose tree holds no ancestor of `o` is untouched. -/
structure ExposeRel (s : Heap) (g : Ghost) (o : Nat) (s1 : Heap) (g1 : Ghost) : Prop where
  inv : Inv s1 g1
  rp : g1.rp = g.rp
  d : g1.d = g.d
  N : g.N ≤ g1.N
  flags : s1.flags = s.flags
  opFlags : s1.opFlags = s.opFlags
  frame : ∀ w, s.isRoot w = true → (∀ a ∈ g.io w, ¬ Desc g o a) → Same s s1 g g1 w

theorem ExposeRel.exposeRefl (h : Inv s g) (o : Nat) : ExposeRel s g o s g where
  inv := h
  rp := rfl
  d := rfl
  N := le_rfl
  flags := rfl
  opFlags := rfl
  frame := fun _ _ _ => ⟨rfl, rfl, rfl, rfl, rfl⟩

theorem desc_congr {g g1 : Ghost} (e : g1.rp = g.rp) (a b : Nat) : Desc g1 a b ↔ Desc g a b := by
  unfold Desc; rw [e]

theorem ExposeRel.exposeTrans {o : Nat} {s1 s2 : Heap} {g1 g2 : Ghost}
    (h1 : ExposeRel s g o s1 g1) (h2 : ExposeRel s1 g1 o s2 g2) : ExposeRel s g o s2 g2 where
  inv := h2.inv
  rp := h2.rp.trans h1.rp
  d := h2.d.trans h1.d
  N := le_trans h1.N h2.N
  flags := h2.flags.trans h1.flags
  opFlags := h2.opFlags.trans h1.opFlags
  frame := by
    intro w hw ht
    obtain ⟨a1, a2, a3, a4, a5⟩ := h1.frame w hw ht
    obtain ⟨b1, b2, b3, b4, b5⟩ := h2.frame w (a4.trans hw) (by
      intro a ha hd
      rw [a5] at ha
      exact ht a ha ((desc_congr h1.rp o a).1 hd))
    exact ⟨b1.trans a1, b2.trans a2, b3.trans a3, b4.trans a4, b5.trans a5⟩

theorem SplayRel.toExpose {o t : Nat} {s1 : Heap} {g1 : Ghost} (h1 : SplayRel s g t s1 g1)
    (ht : Desc g o t) : ExposeRel s g o s1 g1 where
  inv := h1.inv
  rp := h1.rp
  d := h1.d
  N := le_of_eq h1.N.symm
  flags := h1.flags
  opFlags := h1.opFlags
  frame := fun w hw hn => h1.frame w hw (fun hm => hn t hm ht)

/-- The heap after the statements of the loop body of `expose` that lie
between the two splays. -/
def joinHeap (s : Heap) (v p : Nat) : Heap :=
  ((match s.right p with
    | some r => s.setIsRoot r true
    | none => s).setRight p (some v)).setIsRoot v false

@[simp] theorem joinHeap_left (s : Heap) (v p : Nat) : (joinHeap s v p).left = s.left := by
  unfold joinHeap; cases s.right p <;> rfl
@[simp] theorem joinHeap_parent (s : Heap) (v p : Nat) :
    (joinHeap s v p).parent = s.parent := by
  unfold joinHeap; cases s.right p <;> rfl
@[simp] theorem joinHeap_right (s : Heap) (v p : Nat) :
    (joinHeap s v p).right = Function.update s.right p (some v) := by
  unfold joinHeap; cases s.right p <;> rfl
@[simp] theorem joinHeap_flags (s : Heap) (v p : Nat) : (joinHeap s v p).flags = s.flags := by
  unfold joinHeap; cases s.right p <;> rfl
@[simp] theorem joinHeap_opFlags (s : Heap) (v p : Nat) :
    (joinHeap s v p).opFlags = s.opFlags := by
  unfold joinHeap; cases s.right p <;> rfl
theorem joinHeap_isRoot_self (s : Heap) (v p : Nat) : (joinHeap s v p).isRoot v = false := by
  unfold joinHeap; cases s.right p <;> simp
theorem joinHeap_isRoot_of_root (s : Heap) {v p w : Nat} (hw : s.isRoot w = true)
    (hwv : w ≠ v) : (joinHeap s v p).isRoot w = true := by
  unfold joinHeap
  cases s.right p with
  | none => simp [Function.update_apply, hwv, hw]
  | some r =>
    simp only [setIsRoot_isRoot, setRight_isRoot, Function.update_apply, if_neg hwv]
    split
    · rfl
    · exact hw

/-- One iteration of the loop of `expose`. -/
theorem expose_iter (h : Inv s g) {v p : Nat} (hv : s.isRoot v = true)
    (hvp : s.parent v = some p) (hlast : (g.io v).getLast? = some v) :
    ∃ s4 g4 f0, (∀ f k, f0 ≤ f → exposeLoop f (k + 1) s v = exposeLoop f k s4 v) ∧
      ExposeRel s g v s4 g4 ∧ s4.isRoot v = true ∧ (g4.io v).getLast? = some v ∧
      (∀ hd4, (g4.io v).head? = some hd4 → g.d hd4 ≤ g.d p) := by
  have hpv : p ≠ v := fun e => h.pp_not_mem hv hvp (e ▸ h.self_mem v)
  have hdp : Desc g v p := h.pp_desc hv hvp v (h.self_mem v)
  -- first splay
  obtain ⟨s1, g1, e1, rel1, hp1, -⟩ := splay_spec h p
  obtain ⟨a1, a2, a3, a4, a5⟩ := rel1.frame v hv (h.pp_not_mem hv hvp)
  have hv1 : s1.isRoot v = true := a4.trans hv
  have hvp1 : s1.parent v = some p := a3.trans hvp
  -- join
  obtain ⟨g3, h3, r3, d3, N3, io3, ion3⟩ := join_spec rel1.inv hv1 hp1 hvp1
  have hv3 : (joinHeap s1 v p).isRoot v = false := joinHeap_isRoot_self _ _ _
  have hp3 : (joinHeap s1 v p).isRoot p = true := joinHeap_isRoot_of_root _ hp1 hpv
  have hm3 : v ∈ g3.io p := by
    rw [io3, a5]; simp [h.self_mem v]
  -- second splay
  obtain ⟨s4, g4, e4, rel4, hv4, top4⟩ := splay_spec (s := joinHeap s1 v p) h3 v
  obtain ⟨io4, par4⟩ := top4 p hp3 hm3
  refine ⟨s4, g4, max (g.N - (g.io p).length + 1) (g3.N - (g3.io v).length + 1), ?_, ?_, hv4,
    ?_, ?_⟩
  · intro f k hf
    have f1 : splay f s p = some s1 := e1 f (le_trans (le_max_left _ _) hf)
    have f4 : splay f (joinHeap s1 v p) v = some s4 := e4 f (le_trans (le_max_right _ _) hf)
    have hpm : (match s1.right p with
        | some r => s1.setIsRoot r true
        | none => s1).parent v = some p := by
      cases s1.right p <;> exact hvp1
    simp only [exposeLoop, hvp]
    simp only [f1, hvp1, hpm, Option.bind_eq_bind, Option.some_bind]
    have f4' := f4
    unfold joinHeap at f4'
    rw [f4']
    rfl
  · have r1 : ExposeRel s g v s1 g1 := rel1.toExpose hdp
    have r3' : ExposeRel s1 g1 v (joinHeap s1 v p) g3 := by
      refine ⟨h3, r3, d3, N3, by simp, by simp, ?_⟩
      intro w hw hn
      have hwv : w ≠ v := fun e => by
        subst e
        exact hn w (rel1.inv.self_mem w) Relation.ReflTransGen.refl
      have hwp : w ≠ p := fun e => by
        subst e
        exact hn w (rel1.inv.self_mem w) ((desc_congr rel1.rp v w).2 hdp)
      refine ⟨by simp, by simp [Function.update_apply, hwp], by simp,
        (joinHeap_isRoot_of_root _ hw hwv).trans hw.symm, ion3 w hwp⟩
    have r4 : ExposeRel (joinHeap s1 v p) g3 v s4 g4 :=
      rel4.toExpose Relation.ReflTransGen.refl
    exact (r1.exposeTrans r3').exposeTrans r4
  · rw [io4, io3, a5]
    have hne : p :: g.io v ≠ [] := by simp
    rw [List.getLast?_append_of_ne_nil _ hne]
    obtain ⟨a, l, e2⟩ : ∃ a l, g.io v = a :: l := by
      cases e3 : g.io v with
      | nil => exact absurd e3 (h.io_ne_nil v)
      | cons a l => exact ⟨a, l, rfl⟩
    rw [e2, List.getLast?_cons_cons, ← e2]; exact hlast
  · intro hd4 hh
    rw [io4] at hh
    have := h3.head_le hh p (h3.self_mem p)
    rw [d3, rel1.d] at this
    exact this

theorem Inv.exists_head (h : Inv s g) (v : Nat) : ∃ hd, (g.io v).head? = some hd := by
  cases e : g.io v with
  | nil => exact absurd e (h.io_ne_nil v)
  | cons a l => exact ⟨a, rfl⟩

/-- The loop of `expose` terminates, with `v` on top of an auxiliary tree
that has no path-parent. -/
theorem exposeLoop_spec (v : Nat) : ∀ (m : Nat) (s : Heap) (g : Ghost), Inv s g →
    s.isRoot v = true → (g.io v).getLast? = some v →
    (∀ hd, (g.io v).head? = some hd → g.d hd ≤ m) →
    ∃ s1 g1 f0, (∀ f k, f0 ≤ f → m + 1 ≤ k → exposeLoop f k s v = some s1) ∧
      ExposeRel s g v s1 g1 ∧ s1.isRoot v = true ∧ s1.parent v = none ∧
      (g1.io v).getLast? = some v := by
  intro m
  induction m with
  | zero =>
    intro s g h hv hlast hm
    cases hpar : s.parent v with
    | none =>
      refine ⟨s, g, 0, ?_, ExposeRel.exposeRefl h v, hv, hpar, hlast⟩
      intro f k _ hk
      obtain ⟨k', rfl⟩ : ∃ k', k = k' + 1 := ⟨k - 1, by omega⟩
      simp [exposeLoop, hpar]
    | some p =>
      exfalso
      obtain ⟨hd, hh⟩ := h.exists_head v
      have h1 := (h v).root_pp hv hd hh
      rw [hpar] at h1
      have := (h hd).rank p h1
      have := hm hd hh
      omega
  | succ m ih =>
    intro s g h hv hlast hm
    cases hpar : s.parent v with
    | none =>
      refine ⟨s, g, 0, ?_, ExposeRel.exposeRefl h v, hv, hpar, hlast⟩
      intro f k _ hk
      obtain ⟨k', rfl⟩ : ∃ k', k = k' + 1 := ⟨k - 1, by omega⟩
      simp [exposeLoop, hpar]
    | some p =>
      obtain ⟨hd, hh⟩ := h.exists_head v
      have h1 := (h v).root_pp hv hd hh
      rw [hpar] at h1
      have h2 := (h hd).rank p h1
      have h3 := hm hd hh
      obtain ⟨s4, g4, fa, ea, rel, hv4, hl4, hd4⟩ := expose_iter h hv hpar hlast
      obtain ⟨s5, g5, fb, eb, rel5, hv5, hp5, hl5⟩ := ih s4 g4 rel.inv hv4 hl4 (by
        intro x hx
        have := hd4 x hx
        rw [rel.d]; omega)
      refine ⟨s5, g5, max fa fb, ?_, rel.exposeTrans rel5, hv5, hp5, hl5⟩
      intro f k hf hk
      obtain ⟨k', rfl⟩ : ∃ k', k = k' + 1 := ⟨k - 1, by omega⟩
      rw [ea f k' (le_trans (le_max_left _ _) hf)]
      exact eb f k' (le_trans (le_max_right _ _) hf) (by omega)

/-- `expose` terminates on every heap satisfying the invariant: afterwards
`v` is an auxiliary root without path-parent and without right subtree, the
represented forest is the same, and trees holding no ancestor of `v` are
untouched. -/
theorem expose_spec (h : Inv s g) (v : Nat) :
    ∃ s1 g1 f0, (∀ f, f0 ≤ f → expose f s v = some s1) ∧ ExposeRel s g v s1 g1 ∧
      s1.isRoot v = true ∧ s1.parent v = none ∧ s1.right v = none ∧
      (g1.io v).getLast? = some v := by
  obtain ⟨s1, g1, e1, rel1, hv1, -⟩ := splay_spec h v
  have r1 : ExposeRel s g v s1 g1 := rel1.toExpose Relation.ReflTransGen.refl
  have key : ∃ g2, ExposeRel s1 g1 v
      (match s1.right v with
        | some r => (s1.setIsRoot r true).setRight v none
        | none => s1) g2 ∧
      (match s1.right v with
        | some r => (s1.setIsRoot r true).setRight v none
        | none => s1).isRoot v = true ∧ (g2.io v).getLast? = some v := by
    cases hr : s1.right v with
    | none =>
      refine ⟨g1, ExposeRel.exposeRefl rel1.inv v, hv1, ?_⟩
      have := (rel1.inv v).io_eq
      rw [hr] at this
      rw [this]; simp
    | some r =>
      have hrr : s1.isRoot r = false := ((rel1.inv v).right_ok r hr).2
      have hrv : r ≠ v := fun e => by rw [e, hv1] at hrr; cases hrr
      refine ⟨_, ⟨cutRight_inv rel1.inv hv1 hr, rfl, rfl, le_rfl, rfl, rfl, ?_⟩, ?_, ?_⟩
      · intro w hw hn
        have hwv : w ≠ v := fun e => by
          subst e
          exact hn w (rel1.inv.self_mem w) Relation.ReflTransGen.refl
        have hwr : w ≠ r := fun e => by rw [e, hrr] at hw; cases hw
        exact ⟨rfl, by simp [Function.update_apply, hwv], rfl,
          by simp [Function.update_apply, hwr], setIo_io_ne _ _ hwv⟩
      · simp [Function.update_apply, Ne.symm hrv]; exact hv1
      · rw [setIo_io_self]; simp
  obtain ⟨g2, r2, hv2, hl2⟩ := key
  obtain ⟨hd, hh⟩ := r2.inv.exists_head v
  obtain ⟨s3, g3, f3, e3, r3, hv3, hp3, hl3⟩ := exposeLoop_spec v (g2.d v) _ g2 r2.inv hv2 hl2
    (fun x hx => r2.inv.head_le hx v (r2.inv.self_mem v))
  refine ⟨s3, g3, max (g.N - (g.io v).length + 1) (max f3 (g2.d v + 1)), ?_,
    (r1.exposeTrans r2).exposeTrans r3, hv3, hp3, r3.inv.right_none_of_last hl3, hl3⟩
  intro f hf
  have f1 : splay f s v = some s1 := e1 f (le_trans (le_max_left _ _) hf)
  have hf3 : f3 ≤ f := le_trans (le_trans (le_max_left _ _) (le_max_right _ _)) hf
  have hfk : g2.d v + 1 ≤ f := le_trans (le_trans (le_max_right _ _) (le_max_right _ _)) hf
  have := e3 f f hf3 hfk
  simp only [expose, f1, Option.bind_eq_bind, Option.some_bind]
  exact this

end Expose

section Queries

variable {s : Heap} {g : Ghost}

theorem Inv.head_eq (h : Inv s g) (x : Nat) :
    (g.io x).head? = match s.left x with
      | some y => (g.io y).head?
      | none => some x := by
  rw [(h x).io_eq]
  cases hl : s.left x with
  | none => simp
  | some y =>
    obtain ⟨hd, hh⟩ : ∃ hd, (g.io y).head? = some hd := by
      cases e : g.io y with
      | nil => exact absurd e (h.io_ne_nil y)
      | cons a l => exact ⟨a, rfl⟩
    simp [hh]

theorem Inv.last_eq (h : Inv s g) (x : Nat) :
    (g.io x).getLast? = match s.right x with
      | some y => (g.io y).getLast?
      | none => some x := by
  rw [(h x).io_eq]
  cases hl : s.right x with
  | none => simp
  | some y =>
    have hne : g.io y ≠ [] := h.io_ne_nil y
    simp only [ioo_some]
    rw [List.getLast?_append_of_ne_nil _ (by simp)]
    obtain ⟨a, l, e2⟩ : ∃ a l, g.io y = a :: l := by
      cases e3 : g.io y with
      | nil => exact absurd e3 hne
      | cons a l => exact ⟨a, l, rfl⟩
    rw [e2, List.getLast?_cons_cons]

/-- The walk `while (x->_left) x = x->_left` ends at the first node of the
in-order sequence. -/
theorem leftmost_spec (h : Inv s g) : ∀ (n x : Nat), (g.io x).length ≤ n →
    ∀ f, n ≤ f → (leftmost f s x) = (g.io x).head? := by
  intro n
  induction n with
  | zero =>
    intro x hx
    have : g.io x = [] := List.length_eq_zero.1 (Nat.le_zero.1 hx)
    exact absurd this (h.io_ne_nil x)
  | succ n ih =>
    intro x hx f hf
    obtain ⟨f', rfl⟩ : ∃ f', f = f' + 1 := ⟨f - 1, by omega⟩
    rw [h.head_eq x]
    cases hl : s.left x with
    | none => simp [leftmost, hl]
    | some y =>
      have := h.left_len hl
      simp only [leftmost, hl]
      exact ih y (by omega) f' (by omega)

/-- The walk `while (x->_right) x = x->_right` ends at the last node of the
in-order sequence. -/
theorem rightmost_spec (h : Inv s g) : ∀ (n x : Nat), (g.io x).length ≤ n →
    ∀ f, n ≤ f → (rightmost f s x) = (g.io x).getLast? := by
  intro n
  induction n with
  | zero =>
    intro x hx
    have : g.io x = [] := List.length_eq_zero.1 (Nat.le_zero.1 hx)
    exact absurd this (h.io_ne_nil x)
  | succ n ih =>
    intro x hx f hf
    obtain ⟨f', rfl⟩ : ∃ f', f = f' + 1 := ⟨f - 1, by omega⟩
    rw [h.last_eq x]
    cases hl : s.right x with
    | none => simp [rightmost, hl]
    | some y =>
      have := h.right_len hl
      simp only [rightmost, hl]
      exact ih y (by omega) f' (by omega)

/-- The upward walk of `findParent`, started below a node whose subtree
begins with `x`, returns the represented parent of `x`. -/
theorem climb_spec (h : Inv s g) (x : Nat) : ∀ (n t : Nat), g.N - (g.io t).length ≤ n →
    (g.io t).head? = some x → ∀ f, n + 1 ≤ f → climb f s t = some (g.rp x) := by
  intro n
  induction n with
  | zero =>
    intro t hn hh f hf
    obtain ⟨f', rfl⟩ : ∃ f', f = f' + 1 := ⟨f - 1, by omega⟩
    cases hr : s.isRoot t with
    | true =>
      simp only [climb, hr, if_true]
      rw [(h t).root_pp hr x hh]
    | false =>
      obtain ⟨p, hp, hc⟩ := (h t).nonroot hr
      have : (g.io t).length < (g.io p).length := by
        rcases hc with hc | hc
        · exact h.left_len hc
        · exact h.right_len hc
      have := (h p).size
      omega
  | succ n ih =>
    intro t hn hh f hf
    obtain ⟨f', rfl⟩ : ∃ f', f = f' + 1 := ⟨f - 1, by omega⟩
    cases hr : s.isRoot t with
    | true =>
      simp only [climb, hr, if_true]
      rw [(h t).root_pp hr x hh]
    | false =>
      obtain ⟨p, hp, hc⟩ := (h t).nonroot hr
      have hlen : (g.io t).length < (g.io p).length := by
        rcases hc with hc | hc
        · exact h.left_len hc
        · exact h.right_len hc
      have := (h p).size
      by_cases hrt : s.right p = some t
      · simp only [climb, hr, hp, hrt, if_true]
        have hc2 := (h p).chain
        rw [(h p).io_eq, hrt, ioo_some] at hc2
        have hc3 := hc2.right_of_append
        have := List.Chain'.rel_head? hc3 hh
        simp [this]
      · have hlt : s.left p = some t := by
          rcases hc with hc | hc
          · exact hc
          · exact absurd hc hrt
        simp only [climb, hr, hp, hrt]
        have hh2 : (g.io p).head? = some x := by
          rw [h.head_eq p, hlt]; exact hh
        simpa using ih p (by omega) hh2 f' (by omega)

/-- `findParent` returns the represented parent recorded in the ghost state. -/
theorem findParent_spec (h : Inv s g) (v : Nat) :
    ∀ f, g.N + 1 ≤ f → findParent f s v = some (g.rp v) := by
  intro f hf
  cases hl : s.left v with
  | some y =>
    have h1 := rightmost_spec h _ y le_rfl f (by have := (h y).size; omega)
    obtain ⟨z, hz⟩ : ∃ z, (g.io y).getLast? = some z := by
      obtain ⟨l, a, e⟩ : ∃ l a, g.io y = l ++ [a] := by
        rcases List.eq_nil_or_concat (g.io y) with e | ⟨l, a, e⟩
        · exact absurd e (h.io_ne_nil y)
        · exact ⟨l, a, by simpa using e⟩
      exact ⟨a, by rw [e]; simp⟩
    have hc := (h v).chain
    rw [(h v).io_eq, hl, ioo_some] at hc
    have hrel : g.rp v = some z := by
      rw [List.chain'_append] at hc
      exact hc.2.2 z hz v (by simp)
    simp [findParent, hl, h1, hz, hrel]
  | none =>
    have hh : (g.io v).head? = some v := by rw [h.head_eq v, hl]
    cases hp : s.parent v with
    | none =>
      have hr : s.isRoot v = true := by
        cases hr : s.isRoot v with
        | true => rfl
        | false =>
          obtain ⟨p, hp', _⟩ := (h v).nonroot hr
          rw [hp] at hp'; cases hp'
      have := (h v).root_pp hr v hh
      simp [findParent, hl, hp, this]
    | some p =>
      have := climb_spec h v _ v le_rfl hh f (by omega)
      simp [findParent, hl, hp, this]

end Queries

section LinkCut

variable {s : Heap} {g : Ghost}

/-- Transfer of `Local` at a node whose own in-order sequence and children
are kept while the represented forest changes elsewhere. -/
theorem Local.frame2 {s t : Heap} {g k : Ghost} {w : Nat} (hw : Local s g w)
    (hio : k.io w = g.io w) (hN : g.N ≤ k.N)
    (hiol : k.ioo (t.left w) = g.ioo (s.left w))
    (hior : k.ioo (t.right w) = g.ioo (s.right w))
    (hcl : ∀ c, t.left w = some c → t.parent c = some w ∧ t.isRoot c = false)
    (hcr : ∀ c, t.right w = some c → t.parent c = some w ∧ t.isRoot c = false)
    (hchain : (g.io w).Chain' (fun a b => k.rp b = some a))
    (hroot : t.isRoot w = true → ∀ hd, (g.io w).head? = some hd → k.rp hd = t.parent w)
    (hnon : t.isRoot w = false →
      ∃ p, t.parent w = some p ∧ (t.left p = some w ∨ t.right p = some w))
    (hrank : ∀ p, k.rp w = some p → k.d p < k.d w) :
    Local t k w where
  io_eq := by rw [hio, hiol, hior]; exact hw.io_eq
  chain := by rw [hio]; exact hchain
  root_pp := by
    intro hr; rw [hio]; exact hroot hr
  left_ok := hcl
  right_ok := hcr
  nonroot := hnon
  rank := hrank
  size := by rw [hio]; exact le_trans hw.size hN

/-- The invariant only reads the pointer fields and the root flag. -/
theorem Inv.of_fields {s1 : Heap} (h : Inv s g) (hl : s1.left = s.left)
    (hr : s1.right = s.right) (hp : s1.parent = s.parent) (hi : s1.isRoot = s.isRoot) :
    Inv s1 g := by
  intro w
  have hw := h w
  exact ⟨by rw [hl, hr]; exact hw.io_eq, hw.chain, by rw [hi, hp]; exact hw.root_pp,
    by rw [hl, hp, hi]; exact hw.left_ok, by rw [hr, hp, hi]; exact hw.right_ok,
    by rw [hi, hp, hl, hr]; exact hw.nonroot, hw.rank, hw.size⟩

theorem desc_step {a b p : Nat} (hd : Desc g a b) (hne : a ≠ b) (hp : g.rp a = some p) :
    Desc g p b := by
  rcases Relation.ReflTransGen.cases_head hd with e | ⟨c, hc, hcb⟩
  · exact absurd e hne
  · have : g.rp a = some c := hc
    rw [hp] at this; cases this; exact hcb

/-- An auxiliary root with neither children is alone in its tree. -/
theorem Inv.not_mem_of_root (h : Inv s g) {v w : Nat} (hv : s.isRoot v = true) (hwv : w ≠ v) :
    v ∉ g.io w := fun hm => hwv (h.mem_root hm hv).symm

/-- Ghost state after a successful `link` of the represented root `v` below
`o`: `o` becomes the represented parent of `v`, and the rank is replaced by
`d1`. -/
def linkGhost (g : Ghost) (v o : Nat) (d1 : Nat → Nat) : Ghost where
  rp := Function.update g.rp v (some o)
  d := d1
  io := Function.update g.io v (g.io o ++ [v])
  N := g.N + 1

/-- A rank that lifts the tree of `v` above the rank of `o`. -/
theorem exists_lifted_rank (g : Ghost) (v o : Nat) :
    ∃ d1 : Nat → Nat, (∀ w, Desc g w v → d1 w = g.d w + g.d o + 1) ∧
      (∀ w, ¬ Desc g w v → d1 w = g.d w) := by
  classical
  refine ⟨fun w => if Desc g w v then g.d w + g.d o + 1 else g.d w, ?_, ?_⟩
  · intro w hw; simp [hw]
  · intro w hw; simp [hw]

/-- The assignments of a successful `link`
(`_left = aOther; aOther->_parent = this; aOther->_isRoot = false;`)
re-establish the invariant. -/
theorem link_inv (h : Inv s g) {v o : Nat}
    (hv : s.isRoot v = true) (hvp : s.parent v = none) (hvl : s.left v = none)
    (hvr : s.right v = none) (ho : s.isRoot o = true) (hop : s.parent o = none)
    (hol : (g.io o).getLast? = some o) (hdiff : ¬ Desc g o v) (d1 : Nat → Nat)
    (hd_y : ∀ w, Desc g w v → d1 w = g.d w + g.d o + 1)
    (hd_n : ∀ w, ¬ Desc g w v → d1 w = g.d w) :
    Inv (((s.setLeft v (some o)).setParent o (some v)).setIsRoot o false)
      (linkGhost g v o d1) := by
  have hvo : v ≠ o := fun e => hdiff (e ▸ Relation.ReflTransGen.refl)
  have hov : o ≠ v := fun e => hvo e.symm
  have iov : g.io v = [v] := by
    have := (h v).io_eq; rw [hvl, hvr] at this; simpa using this
  have hrpv : g.rp v = none := by
    have := (h v).root_pp hv v (by rw [iov]; rfl)
    rw [this, hvp]
  have hrp_ne : ∀ b, b ≠ v → (linkGhost g v o d1).rp b = g.rp b := by
    intro b hb; simp [linkGhost, hb]
  have himp : ∀ a b, g.rp b = some a → (linkGhost g v o d1).rp b = some a := by
    intro a b hab
    have : b ≠ v := fun e => by rw [e, hrpv] at hab; cases hab
    rw [hrp_ne b this]; exact hab
  have hd_v : d1 v = g.d v + g.d o + 1 := hd_y v Relation.ReflTransGen.refl
  have hrank : ∀ w, w ≠ v → ∀ p, (linkGhost g v o d1).rp w = some p →
      d1 p < d1 w := by
    intro w hwv p hp
    rw [hrp_ne w hwv] at hp
    have := (h w).rank p hp
    by_cases hd : Desc g w v
    · rw [hd_y w hd, hd_y p (desc_step hd hwv hp)]; omega
    · have hdp : ¬ Desc g p v := fun hpd =>
        hd (Relation.ReflTransGen.head hp hpd)
      rw [hd_n w hd, hd_n p hdp]; exact this
  intro w
  by_cases hwv : w = v
  · subst hwv
    refine ⟨?_, ?_, ?_, ?_, ?_, ?_, ?_, ?_⟩
    · simp [linkGhost, hvr, hov]
    · have e : (linkGhost g w o d1).io w = g.io o ++ [w] := by simp [linkGhost]
      rw [e]
      refine List.Chain'.append ((h o).chain.imp himp) (List.chain'_singleton _) ?_
      intro x hx y hy
      rw [hol] at hx; cases hx
      simp at hy; subst hy
      simp [linkGhost]
    · intro _ hd hh
      have e : (linkGhost g w o d1).io w = g.io o ++ [w] := by simp [linkGhost]
      rw [e] at hh
      obtain ⟨a, ha⟩ := h.exists_head o
      have : hd = a := by
        rw [List.head?_append, ha] at hh; simpa using hh.symm
      subst this
      have hne : hd ≠ w := fun e =>
        h.not_mem_of_root hv hov (e ▸ List.mem_of_mem_head? ha)
      rw [hrp_ne hd hne, (h o).root_pp ho hd ha, hop]
      simp [Function.update_apply, hvo, hvp]
    · intro c hc
      simp at hc; subst hc
      simp
    · intro c hc
      simp [hvr] at hc
    · intro hn
      simp [Function.update_apply, hvo] at hn
      rw [hv] at hn; cases hn
    · intro p hp
      simp [linkGhost] at hp; subst hp
      show d1 o < d1 w
      rw [hd_v, hd_n _ hdiff]; omega
    · have e : (linkGhost g w o d1).io w = g.io o ++ [w] := by simp [linkGhost]
      rw [e]
      have := (h o).size
      simp [linkGhost]; exact this
  · have hlw : s.left w ≠ some v := h.left_ne_root hv
    have hrw : s.right w ≠ some v := h.right_ne_root hv
    have hlo : s.left w ≠ some o := h.left_ne_root ho
    have hro : s.right w ≠ some o := h.right_ne_root ho
    have hioo : ∀ c : Option Nat, c ≠ some v → (linkGhost g v o d1).ioo c = g.ioo c := by
      intro c hc
      cases c with
      | none => rfl
      | some c =>
        have : c ≠ v := fun e => hc (e ▸ rfl)
        simp [linkGhost, this]
    have e1 : (((s.setLeft v (some o)).setParent o (some v)).setIsRoot o false).left w
        = s.left w := by simp [Function.update_apply, hwv]
    refine (h w).frame2 (k := linkGhost g v o d1)
      (t := ((s.setLeft v (some o)).setParent o (some v)).setIsRoot o false)
      (by simp [linkGhost, hwv]) (by simp [linkGhost]) ?_ (hioo _ hrw) ?_ ?_
      ((h w).chain.imp himp) ?_ ?_ (hrank w hwv)
    · rw [e1]; exact hioo _ hlw
    · intro c hc
      rw [e1] at hc
      have hco : c ≠ o := fun e => hlo (e ▸ hc)
      simp [Function.update_apply, hco]
      exact (h w).left_ok c hc
    · intro c hc
      have hc' : s.right w = some c := hc
      have hco : c ≠ o := fun e => hro (e ▸ hc')
      simp [Function.update_apply, hco]
      exact (h w).right_ok c hc'
    · intro hrt hd hh
      have hwo : w ≠ o := fun e => by
        subst e; simp at hrt
      have hr' : s.isRoot w = true := by
        simpa [Function.update_apply, hwo] using hrt
      have hne : hd ≠ v := fun e =>
        h.not_mem_of_root hv hwv (e ▸ List.mem_of_mem_head? hh)
      rw [hrp_ne hd hne, (h w).root_pp hr' hd hh]
      simp [Function.update_apply, hwo]
    · intro hn
      by_cases hwo : w = o
      · subst hwo
        exact ⟨v, by simp, Or.inl (by simp)⟩
      · have hn' : s.isRoot w = false := by
          simpa [Function.update_apply, hwo] using hn
        obtain ⟨q, hq, hc⟩ := (h w).nonroot hn'
        have hqv : q ≠ v := fun e => by
          subst e
          rcases hc with hc | hc
          · rw [hvl] at hc; cases hc
          · rw [hvr] at hc; cases hc
        refine ⟨q, by simp [Function.update_apply, hwo, hq], ?_⟩
        rcases hc with hc | hc
        · left; simp [Function.update_apply, hqv, hc]
        · right; exact hc

/-- Ghost state after `cut` of a node `v` that had a represented parent. -/
def cutGhost (g : Ghost) (v : Nat) : Ghost :=
  { g with rp := Function.update g.rp v none, io := Function.update g.io v [v] }

theorem chain_congr {r1 r2 : Nat → Option Nat} : ∀ (l : List Nat),
    (∀ b ∈ l, r2 b = r1 b) → l.Chain' (fun a b => r1 b = some a) →
    l.Chain' (fun a b => r2 b = some a) := by
  intro l hl hc
  rw [List.Chain'.iff_mem] at hc
  exact hc.imp (fun a b hab => by rw [hl b hab.2.1]; exact hab.2.2)

/-- The assignments of `cut` on a node with a represented parent
(`_left->_isRoot = true; _left->_parent = nullptr; _left = nullptr;`)
re-establish the invariant. -/
theorem cut_inv (h : Inv s g) {v l : Nat}
    (hv : s.isRoot v = true) (hvp : s.parent v = none) (hvr : s.right v = none)
    (hvl : s.left v = some l) :
    Inv (((s.setIsRoot l true).setParent l none).setLeft v none) (cutGhost g v) := by
  have hlv : l ≠ v := h.left_ne hvl
  have hvl' : v ≠ l := fun e => hlv e.symm
  have hpl : s.parent l = some v := ((h v).left_ok l hvl).1
  have iov : g.io v = g.io l ++ [v] := by
    have := (h v).io_eq; rw [hvl, hvr] at this; simpa using this
  have hrp_ne : ∀ b, b ≠ v → (cutGhost g v).rp b = g.rp b := by
    intro b hb; simp [cutGhost, hb]
  intro w
  by_cases hwv : w = v
  · subst hwv
    refine ⟨?_, ?_, ?_, ?_, ?_, ?_, ?_, ?_⟩
    · simp [cutGhost, hvr]
    · simp [cutGhost]
    · intro _ hd hh
      simp [cutGhost] at hh; subst hh
      simp [cutGhost, Function.update_apply, hvl', hvp]
    · intro c hc; simp at hc
    · intro c hc; simp [hvr] at hc
    · intro hn
      simp [Function.update_apply, hvl'] at hn
      rw [hv] at hn; cases hn
    · intro p hp; simp [cutGhost] at hp
    · have := (h w).size; rw [iov] at this
      simp [cutGhost] at this ⊢; omega
  · have hnm : w ∉ ([] : List Nat) := by simp
    have hvw : v ∉ g.io w := h.not_mem_of_root hv hwv
    have hlw : s.left w ≠ some v := h.left_ne_root hv
    have hrw : s.right w ≠ some v := h.right_ne_root hv
    have hioo : ∀ c : Option Nat, c ≠ some v → (cutGhost g v).ioo c = g.ioo c := by
      intro c hc
      cases c with
      | none => rfl
      | some c =>
        have : c ≠ v := fun e => hc (e ▸ rfl)
        simp [cutGhost, this]
    have e1 : (((s.setIsRoot l true).setParent l none).setLeft v none).left w = s.left w := by
      simp [Function.update_apply, hwv]
    have hchild : ∀ c, s.parent c = some w → c ≠ l := by
      intro c hc e; subst e
      rw [hpl] at hc; cases hc; exact hwv rfl
    refine (h w).frame2 (k := cutGhost g v)
      (t := ((s.setIsRoot l true).setParent l none).setLeft v none)
      (by simp [cutGhost, hwv]) le_rfl ?_ (hioo _ hrw) ?_ ?_
      (chain_congr _ (fun b hb => hrp_ne b (fun e => hvw (e ▸ hb))) (h w).chain) ?_ ?_ ?_
    · rw [e1]; exact hioo _ hlw
    · intro c hc
      rw [e1] at hc
      have hcl := hchild c ((h w).left_ok c hc).1
      simp [Function.update_apply, hcl]
      exact (h w).left_ok c hc
    · intro c hc
      have hc' : s.right w = some c := hc
      have hcl := hchild c ((h w).right_ok c hc').1
      simp [Function.update_apply, hcl]
      exact (h w).right_ok c hc'
    · intro hrt hd hh
      have hne : hd ≠ v := fun e => hvw (e ▸ List.mem_of_mem_head? hh)
      rw [hrp_ne hd hne]
      by_cases hwl : w = l
      · subst hwl
        have h1 : (g.io v).head? = some hd := by
          rw [iov, List.head?_append, hh]; rfl
        rw [(h v).root_pp hv hd h1, hvp]
        simp
      · have hr' : s.isRoot w = true := by
          simpa [Function.update_apply, hwl] using hrt
        rw [(h w).root_pp hr' hd hh]
        simp [Function.update_apply, hwl]
    · intro hn
      have hwl : w ≠ l := fun e => by
        subst e; simp at hn
      have hn' : s.isRoot w = false := by
        simpa [Function.update_apply, hwl] using hn
      obtain ⟨q, hq, hc⟩ := (h w).nonroot hn'
      have hqv : q ≠ v := fun e => by
        subst e
        rcases hc with hc | hc
        · rw [hvl] at hc; cases hc; exact hwl rfl
        · rw [hvr] at hc; cases hc
      refine ⟨q, by simp [Function.update_apply, hwl, hq], ?_⟩
      rcases hc with hc | hc
      · left; simp [Function.update_apply, hqv, hc]
      · right; exact hc
    · intro p hp
      rw [hrp_ne w hwv] at hp
      exact (h w).rank p hp

end LinkCut

section Operations

variable {s : Heap} {g : Ghost}

/-- After `expose`, the node has a left subtree exactly when it has a
represented parent. -/
theorem Inv.left_none_iff (h : Inv s g) {v : Nat} (hv : s.isRoot v = true)
    (hvp : s.parent v = none) : s.left v = none ↔ g.rp v = none := by
  constructor
  · intro hl
    have hh : (g.io v).head? = some v := by rw [h.head_eq v, hl]
    rw [(h v).root_pp hv v hh, hvp]
  · intro hr
    cases hl : s.left v with
    | none => rfl
    | some y =>
      exfalso
      obtain ⟨z, hz⟩ : ∃ z, (g.io y).getLast? = some z := by
        rcases List.eq_nil_or_concat (g.io y) with e | ⟨l, a, e⟩
        · exact absurd e (h.io_ne_nil y)
        · exact ⟨a, by rw [e]; simp⟩
      have hc := (h v).chain
      rw [(h v).io_eq, hl, ioo_some, List.chain'_append] at hc
      have := hc.2.2 z hz v (by simp)
      rw [hr] at this; cases this

/-- `findRoot` returns the root of the represented tree of `v`. -/
theorem findRoot_spec (h : Inv s g) (v : Nat) :
    ∃ s1 g1 r f0, (∀ f, f0 ≤ f → findRoot f s v = some (s1, r)) ∧ ExposeRel s g v s1 g1 ∧
      Desc g v r ∧ g.rp r = none ∧ s1.isRoot r = true := by
  obtain ⟨s1, g1, f1, e1, r1, hv1, hp1, hr1, hl1⟩ := expose_spec h v
  obtain ⟨hd, hh⟩ := r1.inv.exists_head v
  have hrp : g.rp hd = none := by
    have := (r1.inv v).root_pp hv1 hd hh
    rw [r1.rp, hp1] at this; exact this
  have hdesc : Desc g v hd :=
    (desc_congr r1.rp v hd).1 (r1.inv.desc_head hh v (r1.inv.self_mem v))
  obtain ⟨s2, g2, e2, rel2, hr2, -⟩ := splay_spec r1.inv hd
  refine ⟨s2, g2, hd, max f1 (max (g1.io v).length (g1.N - (g1.io hd).length + 1)), ?_,
    r1.exposeTrans (rel2.toExpose ((desc_congr r1.rp v hd).2 hdesc)), hdesc, hrp, hr2⟩
  intro f hf
  have a1 := e1 f (le_trans (le_max_left _ _) hf)
  have a2 := leftmost_spec r1.inv _ v le_rfl f
    (le_trans (le_trans (le_max_left _ _) (le_max_right _ _)) hf)
  have a3 := e2 f (le_trans (le_trans (le_max_right _ _) (le_max_right _ _)) hf)
  simp [findRoot, a1, a2, hh, a3]

/-- `link` on a node that has a represented parent: it reports failure after
exposing the node. -/
theorem link_fail_spec (h : Inv s g) (v o : Nat) (hp : g.rp v ≠ none) :
    ∃ s1 g1 f0, (∀ f, f0 ≤ f → link f s v o = some (s1, false)) ∧ ExposeRel s g v s1 g1 := by
  obtain ⟨s1, g1, f1, e1, r1, hv1, hp1, hr1, hl1⟩ := expose_spec h v
  have hl : s1.left v ≠ none := fun e => by
    have := (r1.inv.left_none_iff hv1 hp1).1 e
    rw [r1.rp] at this; exact hp this
  refine ⟨s1, g1, f1, ?_, r1⟩
  intro f hf
  obtain ⟨y, hy⟩ := Option.ne_none_iff_exists'.1 hl
  simp [link, e1 f hf, hy]

/-- `link` of a represented root `v` below a node `o` of another tree: it
succeeds and makes `o` the represented parent of `v`, leaving every other
represented parent and all flags as they were. -/
theorem link_ok_spec (h : Inv s g) (v o : Nat) (hp : g.rp v = none) (hdiff : ¬ Desc g o v) :
    ∃ s1 g1 f0, (∀ f, f0 ≤ f → link f s v o = some (s1, true)) ∧ Inv s1 g1 ∧
      g1.rp = Function.update g.rp v (some o) ∧ s1.flags = s.flags ∧
      s1.opFlags = s.opFlags := by
  obtain ⟨s1, g1, f1, e1, r1, hv1, hp1, hr1, hl1⟩ := expose_spec h v
  have hl : s1.left v = none := by
    apply (r1.inv.left_none_iff hv1 hp1).2
    rw [r1.rp]; exact hp
  have iov : g1.io v = [v] := by
    have := (r1.inv v).io_eq; rw [hl, hr1] at this; simpa using this
  obtain ⟨s2, g2, f2, e2, r2, ho2, hop2, hor2, hol2⟩ := expose_spec r1.inv o
  have hdiff1 : ¬ Desc g1 o v := fun hd => hdiff ((desc_congr r1.rp o v).1 hd)
  obtain ⟨a1, a2, a3, a4, a5⟩ := r2.frame v hv1 (by
    intro a ha hd
    rw [iov] at ha; simp at ha; subst ha
    exact hdiff1 hd)
  have hdiff2 : ¬ Desc g2 o v := fun hd => hdiff1 ((desc_congr r2.rp o v).1 hd)
  obtain ⟨d1, hdy, hdn⟩ := exists_lifted_rank g2 v o
  have h3 := link_inv r2.inv (a4.trans hv1) (a3.trans hp1) (a1.trans hl) (a2.trans hr1)
    ho2 hop2 hol2 hdiff2 d1 hdy hdn
  refine ⟨_, _, max f1 f2, ?_, h3, ?_, ?_, ?_⟩
  · intro f hf
    have b1 := e1 f (le_trans (le_max_left _ _) hf)
    have b2 := e2 f (le_trans (le_max_right _ _) hf)
    simp [link, b1, hl, b2]
  · show Function.update g2.rp v (some o) = _
    rw [r2.rp, r1.rp]
  · show s2.flags = s.flags
    rw [r2.flags, r1.flags]
  · show s2.opFlags = s.opFlags
    rw [r2.opFlags, r1.opFlags]

/-- One flag of one node overwritten. -/
def setBit {F : Type} [DecidableEq F] (fl : Nat → F → Bool) (x : Nat) (t : F) (b : Bool) :
    Nat → F → Bool :=
  Function.update fl x (Function.update (fl x) t b)

/-- The flags after the two `if` statements of `cut`, for the node `v` and its
represented parent `p`. -/
def cutBits {F : Type} [DecidableEq F] (hasL isL hasR isR : F) (fl : Nat → F → Bool)
    (v p : Nat) : Nat → F → Bool :=
  let f1 := if fl p hasL && fl v isL then setBit (setBit fl p hasL false) v isL false else fl
  if f1 p hasR && f1 v isR then setBit (setBit f1 p hasR false) v isR false else f1

/-- The flag statements of `Node<T>::cut`. -/
def cutFlagHeap (s : Heap) (v lParent : Nat) : Heap :=
  let s1 := if s.getFlag lParent .HAS_LEFT_CHILD && s.getFlag v .IS_LEFT_CHILD then
      (s.setFlag lParent .HAS_LEFT_CHILD false).setFlag v .IS_LEFT_CHILD false
    else s
  if s1.getFlag lParent .HAS_RIGHT_CHILD && s1.getFlag v .IS_RIGHT_CHILD then
    (s1.setFlag lParent .HAS_RIGHT_CHILD false).setFlag v .IS_RIGHT_CHILD false
  else s1

/-- The flag statements of `OpTreeNode<T>::cut`. -/
def opCutFlagHeap (s : Heap) (v lParent : Nat) : Heap :=
  let s1 := if s.getOpFlag lParent .HAS_LEFT_CHILD && s.getOpFlag v .IS_LEFT_CHILD then
      (s.setOpFlag lParent .HAS_LEFT_CHILD false).setOpFlag v .IS_LEFT_CHILD false
    else s
  if s1.getOpFlag lParent .HAS_RIGHT_CHILD && s1.getOpFlag v .IS_RIGHT_CHILD then
    (s1.setOpFlag lParent .HAS_RIGHT_CHILD false).setOpFlag v .IS_RIGHT_CHILD false
  else s1

theorem cutFlagHeap_fields (s : Heap) (v p : Nat) :
    (cutFlagHeap s v p).left = s.left ∧ (cutFlagHeap s v p).right = s.right ∧
    (cutFlagHeap s v p).parent = s.parent ∧ (cutFlagHeap s v p).isRoot = s.isRoot ∧
    (cutFlagHeap s v p).opFlags = s.opFlags ∧
    (cutFlagHeap s v p).flags =
      cutBits .HAS_LEFT_CHILD .IS_LEFT_CHILD .HAS_RIGHT_CHILD .IS_RIGHT_CHILD s.flags v p := by
  unfold cutFlagHeap cutBits
  simp only [Heap.getFlag, Heap.setFlag, setBit]
  split_ifs <;> exact ⟨rfl, rfl, rfl, rfl, rfl, rfl⟩

theorem opCutFlagHeap_fields (s : Heap) (v p : Nat) :
    (opCutFlagHeap s v p).left = s.left ∧ (opCutFlagHeap s v p).right = s.right ∧
    (opCutFlagHeap s v p).parent = s.parent ∧ (opCutFlagHeap s v p).isRoot = s.isRoot ∧
    (opCutFlagHeap s v p).flags = s.flags ∧
    (opCutFlagHeap s v p).opFlags =
      cutBits .HAS_LEFT_CHILD .IS_LEFT_CHILD .HAS_RIGHT_CHILD .IS_RIGHT_CHILD s.opFlags v p := by
  unfold opCutFlagHeap cutBits
  simp only [Heap.getOpFlag, Heap.setOpFlag, setBit]
  split_ifs <;> exact ⟨rfl, rfl, rfl, rfl, rfl, rfl⟩

/-- `cut` in terms of the flag statements. -/
theorem cut_eq (f : Nat) (s : Heap) (v : Nat) :
    cut f s v = (expose f s v).bind fun s1 =>
      match s1.left v with
      | none => some s1
      | some _ => (findParent f s1 v).bind fun r => r.bind fun lParent =>
          (((cutFlagHeap s1 v lParent).left v).bind fun l =>
            (((cutFlagHeap s1 v lParent).setIsRoot l true).left v).bind fun l1 =>
              some ((((cutFlagHeap s1 v lParent).setIsRoot l true).setParent l1 none).setLeft
                v none)) := by
  unfold cut cutFlagHeap
  cases expose f s v with
  | none => rfl
  | some s1 =>
    simp only [Option.bind_eq_bind, Option.some_bind]
    cases s1.left v with
    | none => rfl
    | some l =>
      simp only
      cases findParent f s1 v with
      | none => rfl
      | some r =>
        cases r with
        | none => rfl
        | some lp => rfl

/-- `OpTreeNode<T>::cut` in terms of the flag statements. -/
theorem opCut_eq (f : Nat) (s : Heap) (v : Nat) :
    opCut f s v = (expose f s v).bind fun s1 =>
      match s1.left v with
      | none => some s1
      | some _ => (findParent f s1 v).bind fun r => r.bind fun lParent =>
          (((opCutFlagHeap s1 v lParent).left v).bind fun l =>
            (((opCutFlagHeap s1 v lParent).setIsRoot l true).left v).bind fun l1 =>
              some ((((opCutFlagHeap s1 v lParent).setIsRoot l true).setParent l1 none).setLeft
                v none)) := by
  unfold opCut opCutFlagHeap
  cases expose f s v with
  | none => rfl
  | some s1 =>
    simp only [Option.bind_eq_bind, Option.some_bind]
    cases s1.left v with
    | none => rfl
    | some l =>
      simp only
      cases findParent f s1 v with
      | none => rfl
      | some r =>
        cases r with
        | none => rfl
        | some lp => rfl

/-- The structural part shared by both `cut` methods: after `expose`, with
the flag statements `fh` touching no pointer and no root flag. -/
theorem cut_core (h : Inv s g) (v : Nat) (fh : Heap → Nat → Nat → Heap)
    (hfh : ∀ s v p, (fh s v p).left = s.left ∧ (fh s v p).right = s.right ∧
      (fh s v p).parent = s.parent ∧ (fh s v p).isRoot = s.isRoot) :
    ∃ s1 g1 s2 f0, (∀ f, f0 ≤ f → expose f s v = some s1) ∧ ExposeRel s g v s1 g1 ∧
      (∀ f, f0 ≤ f →
        (match s1.left v with
        | none => some s1
        | some _ => (findParent f s1 v).bind fun r => r.bind fun lParent =>
          (((fh s1 v lParent).left v).bind fun l =>
            (((fh s1 v lParent).setIsRoot l true).left v).bind fun l1 =>
              some ((((fh s1 v lParent).setIsRoot l true).setParent l1 none).setLeft
                v none))) = some s2) ∧
      ∃ g2, Inv s2 g2 ∧ g2.rp = Function.update g.rp v none ∧
        ((g.rp v = none ∧ s2 = s1) ∨
          (∃ p l, g.rp v = some p ∧
            s2 = (((fh s1 v p).setIsRoot l true).setParent l none).setLeft v none)) := by
  obtain ⟨s1, g1, f1, e1, r1, hv1, hp1, hr1, hl1⟩ := expose_spec h v
  cases hl : s1.left v with
  | none =>
    have hrp : g.rp v = none := by
      have := (r1.inv.left_none_iff hv1 hp1).1 hl
      rw [r1.rp] at this; exact this
    refine ⟨s1, g1, s1, f1, e1, r1, fun f _ => by rw [hl], g1, r1.inv, ?_, Or.inl ⟨hrp, rfl⟩⟩
    rw [r1.rp, ← hrp, Function.update_eq_self]
  | some l =>
    have hne : g1.rp v ≠ none := fun e => by
      have := (r1.inv.left_none_iff hv1 hp1).2 e
      rw [hl] at this; cases this
    obtain ⟨p, hp⟩ := Option.ne_none_iff_exists'.1 hne
    obtain ⟨a1, a2, a3, a4⟩ := hfh s1 v p
    have hF : Inv (fh s1 v p) g1 := r1.inv.of_fields a1 a2 a3 a4
    have h3 := cut_inv hF (v := v) (l := l) (by rw [a4]; exact hv1) (by rw [a3]; exact hp1)
      (by rw [a2]; exact hr1) (by rw [a1]; exact hl)
    refine ⟨s1, g1, _, max f1 (g1.N + 1), fun f hf => e1 f (le_trans (le_max_left _ _) hf),
      r1, ?_, _, h3, ?_, Or.inr ⟨p, l, by rw [← r1.rp]; exact hp, rfl⟩⟩
    · intro f hf
      have b2 := findParent_spec r1.inv v f (le_trans (le_max_right _ _) hf)
      simp [b2, hp, a1, hl]
    · show Function.update g1.rp v none = _
      rw [r1.rp]

/-- `Node<T>::cut`: the node loses its represented parent, every other
represented parent is kept, and the flags change as the two `if` statements
say. -/
theorem cut_spec (h : Inv s g) (v : Nat) :
    ∃ s1 g1 f0, (∀ f, f0 ≤ f → cut f s v = some s1) ∧ Inv s1 g1 ∧
      g1.rp = Function.update g.rp v none ∧ s1.opFlags = s.opFlags ∧
      s1.flags = match g.rp v with
        | none => s.flags
        | some p => cutBits .HAS_LEFT_CHILD .IS_LEFT_CHILD .HAS_RIGHT_CHILD .IS_RIGHT_CHILD
            s.flags v p := by
  obtain ⟨s1, g1, s2, f0, e1, r1, e2, g2, h2, hrp, hcase⟩ := cut_core h v cutFlagHeap
    (fun s v p => ⟨(cutFlagHeap_fields s v p).1, (cutFlagHeap_fields s v p).2.1,
      (cutFlagHeap_fields s v p).2.2.1, (cutFlagHeap_fields s v p).2.2.2.1⟩)
  refine ⟨s2, g2, f0, ?_, h2, hrp, ?_, ?_⟩
  · intro f hf
    rw [cut_eq, e1 f hf]
    exact e2 f hf
  · rcases hcase with ⟨_, e⟩ | ⟨p, l, _, e⟩
    · rw [e, r1.opFlags]
    · rw [e]
      show (cutFlagHeap s1 v p).opFlags = _
      rw [(cutFlagHeap_fields s1 v p).2.2.2.2.1, r1.opFlags]
  · rcases hcase with ⟨hn, e⟩ | ⟨p, l, hp, e⟩
    · rw [e, hn, r1.flags]
    · rw [e, hp]
      show (cutFlagHeap s1 v p).flags = _
      rw [(cutFlagHeap_fields s1 v p).2.2.2.2.2, r1.flags]

/-- `OpTreeNode<T>::cut`: as `cut_spec`, on the flags of the subclass. -/
theorem opCut_spec (h : Inv s g) (v : Nat) :
    ∃ s1 g1 f0, (∀ f, f0 ≤ f → opCut f s v = some s1) ∧ Inv s1 g1 ∧
      g1.rp = Function.update g.rp v none ∧ s1.flags = s.flags ∧
      s1.opFlags = match g.rp v with
        | none => s.opFlags
        | some p => cutBits .HAS_LEFT_CHILD .IS_LEFT_CHILD .HAS_RIGHT_CHILD .IS_RIGHT_CHILD
            s.opFlags v p := by
  obtain ⟨s1, g1, s2, f0, e1, r1, e2, g2, h2, hrp, hcase⟩ := cut_core h v opCutFlagHeap
    (fun s v p => ⟨(opCutFlagHeap_fields s v p).1, (opCutFlagHeap_fields s v p).2.1,
      (opCutFlagHeap_fields s v p).2.2.1, (opCutFlagHeap_fields s v p).2.2.2.1⟩)
  refine ⟨s2, g2, f0, ?_, h2, hrp, ?_, ?_⟩
  · intro f hf
    rw [opCut_eq, e1 f hf]
    exact e2 f hf
  · rcases hcase with ⟨_, e⟩ | ⟨p, l, _, e⟩
    · rw [e, r1.flags]
    · rw [e]
      show (opCutFlagHeap s1 v p).flags = _
      rw [(opCutFlagHeap_fields s1 v p).2.2.2.2.1, r1.flags]
  · rcases hcase with ⟨hn, e⟩ | ⟨p, l, hp, e⟩
    · rw [e, hn, r1.opFlags]
    · rw [e, hp]
      show (opCutFlagHeap s1 v p).opFlags = _
      rw [(opCutFlagHeap_fields s1 v p).2.2.2.2.2, r1.opFlags]

end Operations

/-! ## More fuel never changes a result -/

section Fuel

/-- The result of `m` does not depend on the fuel once there is enough. -/
def Mono {α : Type} (m : Nat → Option α) : Prop :=
  ∀ f r, m f = some r → m (f + 1) = some r

theorem Mono.le {α : Type} {m : Nat → Option α} (hm : Mono m) {f f1 : Nat} {r : α}
    (h : m f = some r) (hf : f ≤ f1) : m f1 = some r := by
  induction hf with
  | refl => exact h
  | step _ ih => exact hm _ _ ih

theorem Mono.unique {α : Type} {m : Nat → Option α} (hm : Mono m) {f f1 : Nat} {r r1 : α}
    (h : m f = some r) (h1 : m f1 = some r1) : r = r1 := by
  have a := hm.le h (le_max_left f f1)
  have b := hm.le h1 (le_max_right f f1)
  rw [a] at b; cases b; rfl

theorem Mono.const {α : Type} (c : Option α) : Mono (fun _ => c) := fun _ _ h => h

theorem Mono.bind {α β : Type} {a : Nat → Option α} {b : α → Nat → Option β} (ha : Mono a)
    (hb : ∀ x, Mono (b x)) : Mono (fun f => (a f).bind fun x => b x f) := by
  intro f r h
  simp only [Option.bind_eq_some] at h ⊢
  obtain ⟨x, hx, hr⟩ := h
  exact ⟨x, ha f x hx, hb x f r hr⟩

theorem splay_mono (s : Heap) (x : Nat) : Mono (fun f => splay f s x) := by
  intro f
  induction f generalizing s with
  | zero => intro r h; simp [splay] at h
  | succ f ih =>
    intro r h
    simp only [splay] at h ⊢
    split at h
    · rename_i hr; simp [hr] at h ⊢; exact h
    · rename_i hr
      simp only [hr] at h ⊢
      simp only [Option.bind_eq_some] at h
      obtain ⟨s1, hs1, h2⟩ := h
      have := ih s1 r h2
      simp only [splay] at this
      simp [hs1, this]

theorem exposeLoop_mono_fuel (k : Nat) : ∀ (s : Heap) (v : Nat) (f : Nat) (r : Heap),
    exposeLoop f k s v = some r → exposeLoop (f + 1) k s v = some r := by
  induction k with
  | zero => intro s v f r h; simp [exposeLoop] at h
  | succ k ih =>
    intro s v f r h
    simp only [exposeLoop] at h ⊢
    cases hp : s.parent v with
    | none => simpa [hp] using h
    | some p =>
      simp only [hp, Option.bind_eq_bind, Option.bind_eq_some] at h ⊢
      obtain ⟨s1, h1, p1, hp1, p2, hp2, s4, h4, h5⟩ := h
      exact ⟨s1, splay_mono s p f s1 h1, p1, hp1, p2, hp2, s4, splay_mono _ v f s4 h4,
        ih s4 v f r h5⟩

theorem exposeLoop_mono_iter (f : Nat) (k : Nat) : ∀ (s : Heap) (v : Nat) (r : Heap),
    exposeLoop f k s v = some r → exposeLoop f (k + 1) s v = some r := by
  induction k with
  | zero => intro s v r h; simp [exposeLoop] at h
  | succ k ih =>
    intro s v r h
    rw [exposeLoop] at h ⊢
    cases hp : s.parent v with
    | none => simpa [hp] using h
    | some p =>
      simp only [hp, Option.bind_eq_bind, Option.bind_eq_some] at h ⊢
      obtain ⟨s1, h1, p1, hp1, p2, hp2, s4, h4, h5⟩ := h
      exact ⟨s1, h1, p1, hp1, p2, hp2, s4, h4, ih s4 v r h5⟩

theorem expose_mono (s : Heap) (v : Nat) : Mono (fun f => expose f s v) := by
  intro f r h
  simp only [expose, Option.bind_eq_bind, Option.bind_eq_some] at h ⊢
  obtain ⟨s1, h1, h2⟩ := h
  exact ⟨s1, splay_mono s v f s1 h1,
    exposeLoop_mono_iter _ _ _ _ _ (exposeLoop_mono_fuel _ _ _ _ _ h2)⟩

theorem leftmost_mono (s : Heap) (x : Nat) : Mono (fun f => leftmost f s x) := by
  intro f
  induction f generalizing x with
  | zero => intro r h; simp [leftmost] at h
  | succ f ih =>
    intro r h
    simp only [leftmost] at h ⊢
    cases hl : s.left x with
    | none => simpa [hl] using h
    | some y => rw [hl] at h; exact ih y r h

theorem rightmost_mono (s : Heap) (x : Nat) : Mono (fun f => rightmost f s x) := by
  intro f
  induction f generalizing x with
  | zero => intro r h; simp [rightmost] at h
  | succ f ih =>
    intro r h
    simp only [rightmost] at h ⊢
    cases hl : s.right x with
    | none => simpa [hl] using h
    | some y => rw [hl] at h; exact ih y r h

theorem climb_mono (s : Heap) (x : Nat) : Mono (fun f => climb f s x) := by
  intro f
  induction f generalizing x with
  | zero => intro r h; simp [climb] at h
  | succ f ih =>
    intro r h
    simp only [climb] at h ⊢
    by_cases hr : s.isRoot x = true
    · simpa [hr] using h
    · simp only [hr] at h ⊢
      cases hp : s.parent x with
      | none => rw [hp] at h; simp at h
      | some p =>
        rw [hp] at h
        by_cases hc : s.right p = some x
        · simpa [hc] using h
        · simp only [hc, if_false, Bool.false_eq_true] at h ⊢
          exact ih p r h

theorem auxTop_mono (s : Heap) (x : Nat) : Mono (fun f => auxTop f s x) := by
  intro f
  induction f generalizing x with
  | zero => intro r h; simp [auxTop] at h
  | succ f ih =>
    intro r h
    simp only [auxTop] at h ⊢
    by_cases hr : s.isRoot x = true
    · simpa [hr] using h
    · simp only [hr, if_false, Bool.false_eq_true, Option.bind_eq_some] at h ⊢
      obtain ⟨p, hp, h2⟩ := h
      exact ⟨p, hp, ih p r h2⟩

theorem findParent_mono (s : Heap) (v : Nat) : Mono (fun f => findParent f s v) := by
  intro f r h
  unfold findParent at h ⊢
  cases hl : s.left v with
  | some l =>
    simp only [hl, Option.map_eq_some'] at h ⊢
    obtain ⟨a, ha, e⟩ := h
    exact ⟨a, rightmost_mono s l f a ha, e⟩
  | none =>
    simp only [hl] at h ⊢
    cases hp : s.parent v with
    | none => simpa [hp] using h
    | some p =>
      simp only [hp] at h ⊢
      exact climb_mono s v f r h

theorem findRoot_mono (s : Heap) (v : Nat) : Mono (fun f => findRoot f s v) := by
  intro f r h
  simp only [findRoot, Option.bind_eq_bind, Option.bind_eq_some] at h ⊢
  obtain ⟨s1, h1, x, hx, s2, h2, e⟩ := h
  exact ⟨s1, expose_mono s v f s1 h1, x, leftmost_mono s1 v f x hx, s2,
    splay_mono s1 x f s2 h2, e⟩

theorem path_mono (s : Heap) (v : Nat) : Mono (fun f => path f s v) := by
  intro f
  induction f generalizing v with
  | zero => intro r h; simp [path] at h
  | succ f ih =>
    intro r h
    simp only [path] at h ⊢
    cases hp : findParent (f + 1) s v with
    | none => rw [hp] at h; simp at h
    | some q =>
      have hp2 := findParent_mono s v (f + 1) q hp
      simp only at hp2
      rw [hp2]
      rw [hp] at h
      cases q with
      | none => exact h
      | some p =>
        simp only [Option.map_eq_some'] at h ⊢
        obtain ⟨a, ha, e⟩ := h
        exact ⟨a, ih p a ha, e⟩

theorem link_mono (s : Heap) (v o : Nat) : Mono (fun f => link f s v o) := by
  intro f r h
  simp only [link, Option.bind_eq_bind, Option.bind_eq_some] at h ⊢
  obtain ⟨s1, h1, h2⟩ := h
  refine ⟨s1, expose_mono s v f s1 h1, ?_⟩
  split at h2
  · rename_i hc; simp only [hc, if_true]; exact h2
  · rename_i hc
    simp only [hc, if_false, Bool.false_eq_true]
    simp only [Option.bind_eq_some] at h2 ⊢
    obtain ⟨s2, h3, e⟩ := h2
    exact ⟨s2, expose_mono s1 o f s2 h3, e⟩

theorem cut_mono (s : Heap) (v : Nat) : Mono (fun f => cut f s v) := by
  intro f r h
  simp only [cut_eq, Option.bind_eq_some] at h ⊢
  obtain ⟨s1, h1, h2⟩ := h
  refine ⟨s1, expose_mono s v f s1 h1, ?_⟩
  cases hl : s1.left v with
  | none => rw [hl] at h2; exact h2
  | some l =>
    rw [hl] at h2
    simp only [Option.bind_eq_some] at h2 ⊢
    obtain ⟨q, hq, h3⟩ := h2
    exact ⟨q, findParent_mono s1 v f q hq, h3⟩

theorem opCut_mono (s : Heap) (v : Nat) : Mono (fun f => opCut f s v) := by
  intro f r h
  simp only [opCut_eq, Option.bind_eq_some] at h ⊢
  obtain ⟨s1, h1, h2⟩ := h
  refine ⟨s1, expose_mono s v f s1 h1, ?_⟩
  cases hl : s1.left v with
  | none => rw [hl] at h2; exact h2
  | some l =>
    rw [hl] at h2
    simp only [Option.bind_eq_some] at h2 ⊢
    obtain ⟨q, hq, h3⟩ := h2
    exact ⟨q, findParent_mono s1 v f q hq, h3⟩

theorem lowestCommonAncestor_mono (s : Heap) (u v : Nat) :
    Mono (fun f => lowestCommonAncestor f s u v) := by
  intro f r h
  simp only [lowestCommonAncestor, Option.bind_eq_bind, Option.bind_eq_some] at h ⊢
  obtain ⟨⟨s1, r1⟩, h1, ⟨s2, r2⟩, h2, h3⟩ := h
  refine ⟨(s1, r1), findRoot_mono s u f _ h1, (s2, r2), findRoot_mono s1 v f _ h2, ?_⟩
  simp only at h3 ⊢
  by_cases c1 : r1 ≠ r2
  · rw [if_pos c1] at h3 ⊢; exact h3
  · rw [if_neg c1] at h3 ⊢
    by_cases c2 : r1 = u ∨ v = u
    · rw [if_pos c2] at h3 ⊢; exact h3
    · rw [if_neg c2] at h3 ⊢
      by_cases c3 : r1 = v
      · rw [if_pos c3] at h3 ⊢; exact h3
      · rw [if_neg c3] at h3 ⊢
        simp only [Option.bind_eq_some] at h3 ⊢
        obtain ⟨s3, h4, s4, h5, t, h6, e⟩ := h3
        exact ⟨s3, expose_mono s2 u f s3 h4, s4, expose_mono s3 v f s4 h5, t,
          auxTop_mono s4 u f t h6, e⟩

end Fuel

/-! ## From the ghost state to the vocabulary of the specification -/

section Bridge

variable {s : Heap} {g : Ghost}

theorem isParent_iff (h : Inv s g) (v : Nat) (p : Option Nat) :
    IsParent s v p ↔ p = g.rp v := by
  constructor
  · rintro ⟨f, hf⟩
    exact (findParent_mono s v).unique hf (findParent_spec h v (g.N + 1) le_rfl)
  · rintro rfl
    exact ⟨g.N + 1, findParent_spec h v _ le_rfl⟩

theorem desc_iff (h : Inv s g) (a b : Nat) :
    Relation.ReflTransGen (fun x y => IsParent s x (some y)) a b ↔ Desc g a b := by
  unfold Desc
  have : (fun x y => IsParent s x (some y)) = (fun x y => g.rp x = some y) := by
    funext x y
    exact propext ⟨fun hp => ((isParent_iff h x _).1 hp).symm,
      fun hp => (isParent_iff h x _).2 hp.symm⟩
  rw [this]

theorem reprRoot_iff (h : Inv s g) (v r : Nat) :
    ReprRoot s v r ↔ Desc g v r ∧ g.rp r = none := by
  unfold ReprRoot
  rw [desc_iff h, isParent_iff h]
  constructor
  · rintro ⟨a, b⟩; exact ⟨a, b.symm⟩
  · rintro ⟨a, b⟩; exact ⟨a, b.symm⟩

/-- Two ancestors of one node that have no parent are equal. -/
theorem desc_root_unique {a r1 r2 : Nat} (h1 : Desc g a r1) (hr1 : g.rp r1 = none)
    (h2 : Desc g a r2) (hr2 : g.rp r2 = none) : r1 = r2 := by
  induction h1 using Relation.ReflTransGen.head_induction_on with
  | refl =>
    rcases Relation.ReflTransGen.cases_head h2 with e | ⟨c, hc, _⟩
    · exact e
    · have : g.rp r1 = some c := hc
      rw [hr1] at this; cases this
  | @head a0 c hab hcb ih =>
    rcases Relation.ReflTransGen.cases_head h2 with e | ⟨c2, hc2, hrest⟩
    · subst e
      have : g.rp a0 = some c := hab
      rw [hr2] at this; cases this
    · have e1 : g.rp a0 = some c := hab
      have e2 : g.rp a0 = some c2 := hc2
      rw [e1] at e2; cases e2
      exact ih hrest

/-- Every node has a represented root. -/
theorem Inv.exists_rpRoot (h : Inv s g) : ∀ (n v : Nat), g.d v ≤ n →
    ∃ r, Desc g v r ∧ g.rp r = none := by
  intro n
  induction n with
  | zero =>
    intro v hv
    cases hp : g.rp v with
    | none => exact ⟨v, Relation.ReflTransGen.refl, hp⟩
    | some p => have := (h v).rank p hp; omega
  | succ n ih =>
    intro v hv
    cases hp : g.rp v with
    | none => exact ⟨v, Relation.ReflTransGen.refl, hp⟩
    | some p =>
      have := (h v).rank p hp
      obtain ⟨r, hr, hn⟩ := ih p (by omega)
      exact ⟨r, Relation.ReflTransGen.head hp hr, hn⟩

theorem not_desc_of_not_sameTree (h : Inv s g) {v o : Nat} (hd : ¬ SameTree s v o)
    (hv : g.rp v = none) : ¬ Desc g o v := by
  intro hdesc
  exact hd ⟨v, (reprRoot_iff h v v).2 ⟨Relation.ReflTransGen.refl, hv⟩,
    (reprRoot_iff h o v).2 ⟨hdesc, hv⟩⟩

/-- The heap `s1` represents the same forest as `s`, with the same flags. -/
structure Keeps (s : Heap) (g : Ghost) (s1 : Heap) (g1 : Ghost) : Prop where
  inv : Inv s1 g1
  rp : g1.rp = g.rp
  flags : s1.flags = s.flags
  opFlags : s1.opFlags = s.opFlags

theorem Keeps.keepsRefl (h : Inv s g) : Keeps s g s g := ⟨h, rfl, rfl, rfl⟩

theorem Keeps.keepsTrans {s1 s2 : Heap} {g1 g2 : Ghost} (h1 : Keeps s g s1 g1)
    (h2 : Keeps s1 g1 s2 g2) : Keeps s g s2 g2 :=
  ⟨h2.inv, h2.rp.trans h1.rp, h2.flags.trans h1.flags, h2.opFlags.trans h1.opFlags⟩

theorem ExposeRel.keeps {o : Nat} {s1 : Heap} {g1 : Ghost} (h : ExposeRel s g o s1 g1) :
    Keeps s g s1 g1 := ⟨h.inv, h.rp, h.flags, h.opFlags⟩

/-- The loop `while (!x->_isRoot) x = x->_parent` ends at the auxiliary root
above `x`. -/
theorem auxTop_spec (h : Inv s g) : ∀ (n x : Nat), g.N - (g.io x).length ≤ n →
    ∃ t, s.isRoot t = true ∧ x ∈ g.io t ∧ ∀ f, n + 1 ≤ f → auxTop f s x = some t := by
  intro n
  induction n with
  | zero =>
    intro x hn
    cases hr : s.isRoot x with
    | true =>
      refine ⟨x, hr, h.self_mem x, ?_⟩
      intro f hf
      obtain ⟨f', rfl⟩ : ∃ f', f = f' + 1 := ⟨f - 1, by omega⟩
      simp [auxTop, hr]
    | false =>
      obtain ⟨p, hp, hc⟩ := (h x).nonroot hr
      have : (g.io x).length < (g.io p).length := by
        rcases hc with hc | hc
        · exact h.left_len hc
        · exact h.right_len hc
      have := (h p).size
      omega
  | succ n ih =>
    intro x hn
    cases hr : s.isRoot x with
    | true =>
      refine ⟨x, hr, h.self_mem x, ?_⟩
      intro f hf
      obtain ⟨f', rfl⟩ : ∃ f', f = f' + 1 := ⟨f - 1, by omega⟩
      simp [auxTop, hr]
    | false =>
      obtain ⟨p, hp, hc⟩ := (h x).nonroot hr
      have hlen : (g.io x).length < (g.io p).length := by
        rcases hc with hc | hc
        · exact h.left_len hc
        · exact h.right_len hc
      have := (h p).size
      obtain ⟨t, ht, hm, e⟩ := ih p (by omega)
      have hsub : x ∈ g.io p := by
        rcases hc with hc | hc
        · exact h.left_mem hc x (h.self_mem x)
        · exact h.right_mem hc x (h.self_mem x)
      have hxt : x ∈ g.io t := by
        by_cases hpt : p = t
        · subst hpt; exact hsub
        · by_contra hcon
          obtain ⟨r, hr2, hm2⟩ := h.exists_root _ x le_rfl
          have hpr : p ∈ g.io r := by
            have hxr : x ≠ r := fun e => by rw [e, hr2] at hr; cases hr
            obtain ⟨_, q, hq, hqm⟩ := h.mem_up _ r le_rfl x hm2 hxr
            rw [hp] at hq; cases hq; exact hqm
          have := h.root_unique _ p le_rfl r t hr2 ht hpr hm
          subst this
          exact hcon hm2
      refine ⟨t, ht, hxt, ?_⟩
      intro f hf
      obtain ⟨f', rfl⟩ : ∃ f', f = f' + 1 := ⟨f - 1, by omega⟩
      simp only [auxTop, hr, hp, Option.some_bind, Bool.false_eq_true, if_false]
      exact e f' (by omega)

/-- `lowestCommonAncestor` terminates and keeps the represented forest; on
nodes of different represented trees it returns `nullptr`. -/
theorem lowestCommonAncestor_spec (h : Inv s g) (u v : Nat) :
    ∃ s1 g1 res f0, (∀ f, f0 ≤ f → lowestCommonAncestor f s u v = some (s1, res)) ∧
      Keeps s g s1 g1 ∧
      (∀ r1 r2, Desc g u r1 → g.rp r1 = none → Desc g v r2 → g.rp r2 = none → r1 ≠ r2 →
        res = none) := by
  obtain ⟨s1, g1, r1, f1, e1, k1, hd1, hn1, -⟩ := findRoot_spec h u
  obtain ⟨s2, g2, r2, f2, e2, k2, hd2, hn2, -⟩ := findRoot_spec k1.inv v
  have hd2' : Desc g v r2 := (desc_congr k1.rp v r2).1 hd2
  have hn2' : g.rp r2 = none := by rw [← k1.rp]; exact hn2
  have K2 : Keeps s g s2 g2 := k1.keeps.keepsTrans k2.keeps
  by_cases c1 : r1 ≠ r2
  · refine ⟨s2, g2, none, max f1 f2, ?_, K2, fun _ _ _ _ _ _ _ => rfl⟩
    intro f hf
    simp [lowestCommonAncestor, e1 f (le_trans (le_max_left _ _) hf),
      e2 f (le_trans (le_max_right _ _) hf), c1]
  · have c1' : r1 = r2 := not_not.1 c1
    subst c1'
    have hne : ∀ a b, Desc g u a → g.rp a = none → Desc g v b → g.rp b = none → a ≠ b →
        False := by
      intro a b ha hna hb hnb hab
      have x1 := desc_root_unique hd1 hn1 ha hna
      have x2 := desc_root_unique hd2' hn2' hb hnb
      exact hab (x1.symm.trans x2)
    by_cases c2 : r1 = u ∨ v = u
    · refine ⟨s2, g2, some u, max f1 f2, ?_, K2,
        fun a b ha hna hb hnb hab => (hne a b ha hna hb hnb hab).elim⟩
      intro f hf
      simp [lowestCommonAncestor, e1 f (le_trans (le_max_left _ _) hf),
        e2 f (le_trans (le_max_right _ _) hf), c2]
    · have c2a : ¬ r1 = u := fun e => c2 (Or.inl e)
      have c2b : ¬ v = u := fun e => c2 (Or.inr e)
      by_cases c3 : r1 = v
      · refine ⟨s2, g2, some v, max f1 f2, ?_, K2,
          fun a b ha hna hb hnb hab => (hne a b ha hna hb hnb hab).elim⟩
        intro f hf
        simp [lowestCommonAncestor, e1 f (le_trans (le_max_left _ _) hf),
          e2 f (le_trans (le_max_right _ _) hf), c2a, c2b, c3]
      · obtain ⟨s3, g3, f3, e3, k3, -⟩ := expose_spec K2.inv u
        obtain ⟨s4, g4, f4, e4, k4, -⟩ := expose_spec k3.inv v
        obtain ⟨t, ht, hm, e5⟩ := auxTop_spec k4.inv _ u le_rfl
        refine ⟨s4, g4, s4.parent t,
          max (max f1 f2) (max (max f3 f4) (g4.N - (g4.io u).length + 1)), ?_,
          (K2.keepsTrans k3.keeps).keepsTrans k4.keeps,
          fun a b ha hna hb hnb hab => (hne a b ha hna hb hnb hab).elim⟩
        intro f hf
        have b1 := e1 f (le_trans (le_trans (le_max_left _ _) (le_max_left _ _)) hf)
        have b2 := e2 f (le_trans (le_trans (le_max_right _ _) (le_max_left _ _)) hf)
        have b3 := e3 f (le_trans (le_trans (le_trans (le_max_left _ _) (le_max_left _ _))
          (le_max_right _ _)) hf)
        have b4 := e4 f (le_trans (le_trans (le_trans (le_max_right _ _) (le_max_left _ _))
          (le_max_right _ _)) hf)
        have b5 := e5 f (le_trans (le_trans (le_max_right _ _) (le_max_right _ _)) hf)
        simp [lowestCommonAncestor, b1, b2, c2a, c2b, c3, b3, b4, b5]

/-- `link`, both outcomes. -/
theorem link_spec (h : Inv s g) (v o : Nat) (hdiff : g.rp v = none → ¬ Desc g o v) :
    ∃ s1 g1 b f0, (∀ f, f0 ≤ f → link f s v o = some (s1, b)) ∧ Inv s1 g1 ∧
      s1.flags = s.flags ∧ s1.opFlags = s.opFlags ∧
      ((b = false ∧ g.rp v ≠ none ∧ g1.rp = g.rp) ∨
        (b = true ∧ g.rp v = none ∧ g1.rp = Function.update g.rp v (some o))) := by
  cases hp : g.rp v with
  | none =>
    obtain ⟨s1, g1, f0, e, hi, hr, hf, ho⟩ := link_ok_spec h v o hp (hdiff hp)
    exact ⟨s1, g1, true, f0, e, hi, hf, ho, Or.inr ⟨rfl, rfl, hr⟩⟩
  | some p =>
    obtain ⟨s1, g1, f0, e, r⟩ := link_fail_spec h v o (by rw [hp]; simp)
    exact ⟨s1, g1, false, f0, e, r.inv, r.flags, r.opFlags, Or.inl ⟨rfl, by simp, r.rp⟩⟩

/-- The common shape of `linkLeft` and `linkRight` of both classes: `get`
reads the occupancy flag of the parent and `set` writes the flag pair. -/
def linkDir (get : Heap → Nat → Bool) (set : Heap → Nat → Nat → Heap) (f : Nat) (s : Heap)
    (v o : Nat) : Option (Heap × Bool) :=
  if get s o then some (s, false)
  else (link f s v o).bind fun r => if !r.2 then some (r.1, false) else some (set r.1 o v, true)

theorem linkLeft_eq (f : Nat) (s : Heap) (v o : Nat) :
    linkLeft f s v o = linkDir (fun s o => s.getFlag o .HAS_LEFT_CHILD)
      (fun s o v => (s.setFlag o .HAS_LEFT_CHILD true).setFlag v .IS_LEFT_CHILD true)
      f s v o := by
  unfold linkLeft linkDir
  split
  · rfl
  · cases link f s v o with
    | none => rfl
    | some r => obtain ⟨s1, b⟩ := r; cases b <;> rfl

theorem linkRight_eq (f : Nat) (s : Heap) (v o : Nat) :
    linkRight f s v o = linkDir (fun s o => s.getFlag o .HAS_RIGHT_CHILD)
      (fun s o v => (s.setFlag o .HAS_RIGHT_CHILD true).setFlag v .IS_RIGHT_CHILD true)
      f s v o := by
  unfold linkRight linkDir
  split
  · rfl
  · cases link f s v o with
    | none => rfl
    | some r => obtain ⟨s1, b⟩ := r; cases b <;> rfl

theorem opLinkLeft_eq (f : Nat) (s : Heap) (v o : Nat) :
    opLinkLeft f s v o = linkDir (fun s o => s.getOpFlag o .HAS_LEFT_CHILD)
      (fun s o v => (s.setOpFlag o .HAS_LEFT_CHILD true).setOpFlag v .IS_LEFT_CHILD true)
      f s v o := by
  unfold opLinkLeft linkDir
  split
  · rfl
  · cases link f s v o with
    | none => rfl
    | some r => obtain ⟨s1, b⟩ := r; cases b <;> rfl

theorem opLinkRight_eq (f : Nat) (s : Heap) (v o : Nat) :
    opLinkRight f s v o = linkDir (fun s o => s.getOpFlag o .HAS_RIGHT_CHILD)
      (fun s o v => (s.setOpFlag o .HAS_RIGHT_CHILD true).setOpFlag v .IS_RIGHT_CHILD true)
      f s v o := by
  unfold opLinkRight linkDir
  split
  · rfl
  · cases link f s v o with
    | none => rfl
    | some r => obtain ⟨s1, b⟩ := r; cases b <;> rfl

theorem linkDir_mono (get : Heap → Nat → Bool) (set : Heap → Nat → Nat → Heap) (s : Heap)
    (v o : Nat) : Mono (fun f => linkDir get set f s v o) := by
  intro f r h
  unfold linkDir at h ⊢
  by_cases c : get s o = true
  · simpa [c] using h
  · simp only [c, if_false, Bool.false_eq_true, Option.bind_eq_some] at h ⊢
    obtain ⟨x, hx, e⟩ := h
    exact ⟨x, link_mono s v o f x hx, e⟩

/-- Directional link, all outcomes. -/
theorem linkDir_spec (h : Inv s g) (v o : Nat) (hdiff : g.rp v = none → ¬ Desc g o v)
    (get : Heap → Nat → Bool) (set : Heap → Nat → Nat → Heap)
    (hset : ∀ s o v, (set s o v).left = s.left ∧ (set s o v).right = s.right ∧
      (set s o v).parent = s.parent ∧ (set s o v).isRoot = s.isRoot) :
    ∃ s1 g1 b f0, (∀ f, f0 ≤ f → linkDir get set f s v o = some (s1, b)) ∧ Inv s1 g1 ∧
      ((b = false ∧ g1.rp = g.rp ∧ s1.flags = s.flags ∧ s1.opFlags = s.opFlags) ∨
        (b = true ∧ get s o = false ∧ g.rp v = none ∧
          g1.rp = Function.update g.rp v (some o) ∧
          ∃ s0, s0.flags = s.flags ∧ s0.opFlags = s.opFlags ∧ s1 = set s0 o v)) := by
  by_cases c : get s o = true
  · refine ⟨s, g, false, 0, ?_, h, Or.inl ⟨rfl, rfl, rfl, rfl⟩⟩
    intro f _
    simp [linkDir, c]
  · obtain ⟨s1, g1, b, f0, e, hi, hf, ho, hcase⟩ := link_spec h v o hdiff
    rcases hcase with ⟨hb, _, hr⟩ | ⟨hb, hn, hr⟩
    · subst hb
      refine ⟨s1, g1, false, f0, ?_, hi, Or.inl ⟨rfl, hr, hf, ho⟩⟩
      intro f hf
      simp [linkDir, c, e f hf]
    · subst hb
      obtain ⟨a1, a2, a3, a4⟩ := hset s1 o v
      refine ⟨set s1 o v, g1, true, f0, ?_, hi.of_fields a1 a2 a3 a4,
        Or.inr ⟨rfl, by simpa using c, hn, hr, s1, hf, ho, rfl⟩⟩
      intro f hf
      simp [linkDir, c, e f hf]

theorem setFlag_fields (s : Heap) (x : Nat) (t : flagType) (b : Bool) :
    (s.setFlag x t b).left = s.left ∧ (s.setFlag x t b).right = s.right ∧
      (s.setFlag x t b).parent = s.parent ∧ (s.setFlag x t b).isRoot = s.isRoot :=
  ⟨rfl, rfl, rfl, rfl⟩

theorem setOpFlag_fields (s : Heap) (x : Nat) (t : OpFlagType) (b : Bool) :
    (s.setOpFlag x t b).left = s.left ∧ (s.setOpFlag x t b).right = s.right ∧
      (s.setOpFlag x t b).parent = s.parent ∧ (s.setOpFlag x t b).isRoot = s.isRoot :=
  ⟨rfl, rfl, rfl, rfl⟩

theorem fresh_inv : Inv fresh ⟨fun _ => none, fun _ => 0, fun x => [x], 1⟩ := by
  intro x
  refine ⟨by simp [fresh], by simp, ?_, ?_, ?_, ?_, ?_, by simp⟩
  · intro _ hd hh; simp [fresh]
  · intro y hy; simp [fresh] at hy
  · intro y hy; simp [fresh] at hy
  · intro hn; simp [fresh] at hn
  · intro p hp; simp at hp

/-- Every well-formed forest satisfies the structural invariant. -/
theorem Reachable.inv {s : Heap} (hs : Reachable s) : ∃ g, Inv s g := by
  induction hs with
  | fresh => exact ⟨_, fresh_inv⟩
  | @expose s s1 f v _ e ih =>
    obtain ⟨g, h⟩ := ih
    obtain ⟨s2, g2, f0, e2, r, -⟩ := expose_spec h v
    have := (expose_mono s v).unique e (e2 f0 le_rfl)
    subst this
    exact ⟨g2, r.inv⟩
  | @findRoot s s1 f v r _ e ih =>
    obtain ⟨g, h⟩ := ih
    obtain ⟨s2, g2, r2, f0, e2, k, -⟩ := findRoot_spec h v
    have := (findRoot_mono s v).unique e (e2 f0 le_rfl)
    cases this
    exact ⟨g2, k.inv⟩
  | @lowestCommonAncestor s s1 f u v r _ e ih =>
    obtain ⟨g, h⟩ := ih
    obtain ⟨s2, g2, r2, f0, e2, k, -⟩ := lowestCommonAncestor_spec h u v
    have := (lowestCommonAncestor_mono s u v).unique e (e2 f0 le_rfl)
    cases this
    exact ⟨g2, k.inv⟩
  | @link s s1 f v o b _ hd e ih =>
    obtain ⟨g, h⟩ := ih
    obtain ⟨s2, g2, b2, f0, e2, hi, -⟩ := link_spec h v o (not_desc_of_not_sameTree h hd)
    have := (link_mono s v o).unique e (e2 f0 le_rfl)
    cases this
    exact ⟨g2, hi⟩
  | @linkLeft s s1 f v o b _ hd e ih =>
    obtain ⟨g, h⟩ := ih
    obtain ⟨s2, g2, b2, f0, e2, hi, -⟩ := linkDir_spec h v o (not_desc_of_not_sameTree h hd)
      (fun s o => s.getFlag o .HAS_LEFT_CHILD)
      (fun s o v => (s.setFlag o .HAS_LEFT_CHILD true).setFlag v .IS_LEFT_CHILD true)
      (fun _ _ _ => ⟨rfl, rfl, rfl, rfl⟩)
    rw [linkLeft_eq] at e
    have := (linkDir_mono _ _ s v o).unique e (e2 f0 le_rfl)
    cases this
    exact ⟨g2, hi⟩
  | @linkRight s s1 f v o b _ hd e ih =>
    obtain ⟨g, h⟩ := ih
    obtain ⟨s2, g2, b2, f0, e2, hi, -⟩ := linkDir_spec h v o (not_desc_of_not_sameTree h hd)
      (fun s o => s.getFlag o .HAS_RIGHT_CHILD)
      (fun s o v => (s.setFlag o .HAS_RIGHT_CHILD true).setFlag v .IS_RIGHT_CHILD true)
      (fun _ _ _ => ⟨rfl, rfl, rfl, rfl⟩)
    rw [linkRight_eq] at e
    have := (linkDir_mono _ _ s v o).unique e (e2 f0 le_rfl)
    cases this
    exact ⟨g2, hi⟩
  | @cut s s1 f v _ e ih =>
    obtain ⟨g, h⟩ := ih
    obtain ⟨s2, g2, f0, e2, hi, -⟩ := cut_spec h v
    have := (cut_mono s v).unique e (e2 f0 le_rfl)
    subst this
    exact ⟨g2, hi⟩
  | @opLinkLeft s s1 f v o b _ hd e ih =>
    obtain ⟨g, h⟩ := ih
    obtain ⟨s2, g2, b2, f0, e2, hi, -⟩ := linkDir_spec h v o (not_desc_of_not_sameTree h hd)
      (fun s o => s.getOpFlag o .HAS_LEFT_CHILD)
      (fun s o v => (s.setOpFlag o .HAS_LEFT_CHILD true).setOpFlag v .IS_LEFT_CHILD true)
      (fun _ _ _ => ⟨rfl, rfl, rfl, rfl⟩)
    rw [opLinkLeft_eq] at e
    have := (linkDir_mono _ _ s v o).unique e (e2 f0 le_rfl)
    cases this
    exact ⟨g2, hi⟩
  | @opLinkRight s s1 f v o b _ hd e ih =>
    obtain ⟨g, h⟩ := ih
    obtain ⟨s2, g2, b2, f0, e2, hi, -⟩ := linkDir_spec h v o (not_desc_of_not_sameTree h hd)
      (fun s o => s.getOpFlag o .HAS_RIGHT_CHILD)
      (fun s o v => (s.setOpFlag o .HAS_RIGHT_CHILD true).setOpFlag v .IS_RIGHT_CHILD true)
      (fun _ _ _ => ⟨rfl, rfl, rfl, rfl⟩)
    rw [opLinkRight_eq] at e
    have := (linkDir_mono _ _ s v o).unique e (e2 f0 le_rfl)
    cases this
    exact ⟨g2, hi⟩
  | @opCut s s1 f v _ e ih =>
    obtain ⟨g, h⟩ := ih
    obtain ⟨s2, g2, f0, e2, hi, -⟩ := opCut_spec h v
    have := (opCut_mono s v).unique e (e2 f0 le_rfl)
    subst this
    exact ⟨g2, hi⟩

end Bridge

/-! ## The operations on well-formed forests -/

section WellFormed

variable {s : Heap}

theorem reprRoot_unique (hs : Reachable s) {v r1 r2 : Nat} (h1 : ReprRoot s v r1)
    (h2 : ReprRoot s v r2) : r1 = r2 := by
  obtain ⟨g, h⟩ := hs.inv
  rw [reprRoot_iff h] at h1 h2
  exact desc_root_unique h1.1 h1.2 h2.1 h2.2

theorem exists_reprRoot (hs : Reachable s) (v : Nat) : ∃ r, ReprRoot s v r := by
  obtain ⟨g, h⟩ := hs.inv
  obtain ⟨r, hr, hn⟩ := h.exists_rpRoot _ v le_rfl
  exact ⟨r, (reprRoot_iff h v r).2 ⟨hr, hn⟩⟩

theorem not_sameTree_of_roots (hs : Reachable s) {u v r1 r2 : Nat} (h1 : ReprRoot s u r1)
    (h2 : ReprRoot s v r2) (hne : r1 ≠ r2) : ¬ SameTree s u v := by
  rintro ⟨r, a, b⟩
  exact hne ((reprRoot_unique hs h1 a).trans (reprRoot_unique hs b h2))

/-- Heaps that represent the same forest have the same roots. -/
theorem reprRoot_congr {s1 : Heap} (hp : ∀ w p, IsParent s1 w p ↔ IsParent s w p) (v r : Nat) :
    ReprRoot s1 v r ↔ ReprRoot s v r := by
  unfold ReprRoot
  have : (fun a b => IsParent s1 a (some b)) = (fun a b => IsParent s a (some b)) := by
    funext a b; exact propext (hp a (some b))
  rw [this, hp]

theorem isParent_congr {s1 : Heap} {g g1 : Ghost} (h : Inv s g) (h1 : Inv s1 g1) (w : Nat)
    (e : g1.rp w = g.rp w) (p : Option Nat) : IsParent s1 w p ↔ IsParent s w p := by
  rw [isParent_iff h, isParent_iff h1, e]

/-- `findRoot` on a well-formed forest. -/
theorem findRoot_wf (hs : Reachable s) (v : Nat) :
    ∃ s1 r, (∃ f0, ∀ f, f0 ≤ f → findRoot f s v = some (s1, r)) ∧ ReprRoot s v r ∧
      (∀ w p, IsParent s1 w p ↔ IsParent s w p) := by
  obtain ⟨g, h⟩ := hs.inv
  obtain ⟨s1, g1, r, f0, e, k, hd, hn, -⟩ := findRoot_spec h v
  exact ⟨s1, r, ⟨f0, e⟩, (reprRoot_iff h v r).2 ⟨hd, hn⟩,
    fun w p => isParent_congr h k.inv w (by rw [k.rp]) p⟩

/-- `expose` on a well-formed forest. -/
theorem expose_wf (hs : Reachable s) (v : Nat) :
    ∃ s1, (∃ f0, ∀ f, f0 ≤ f → expose f s v = some s1) ∧
      (∀ w p, IsParent s1 w p ↔ IsParent s w p) ∧
      s1.isRoot v = true ∧ s1.parent v = none ∧ s1.right v = none := by
  obtain ⟨g, h⟩ := hs.inv
  obtain ⟨s1, g1, f0, e, k, a, b, c, -⟩ := expose_spec h v
  exact ⟨s1, ⟨f0, e⟩, fun w p => isParent_congr h k.inv w (by rw [k.rp]) p, a, b, c⟩

/-- A successful `link` on a well-formed forest. -/
theorem link_ok_wf (hs : Reachable s) (v o : Nat) (hroot : IsParent s v none)
    (hdiff : ¬ SameTree s v o) :
    ∃ s1, (∃ f0, ∀ f, f0 ≤ f → link f s v o = some (s1, true)) ∧ IsParent s1 v (some o) ∧
      (∀ w, w ≠ v → ∀ p, IsParent s1 w p ↔ IsParent s w p) ∧
      (∀ r, ReprRoot s o r → ReprRoot s1 o r ∧ ReprRoot s1 v r) ∧
      s1.flags = s.flags ∧ s1.opFlags = s.opFlags := by
  obtain ⟨g, h⟩ := hs.inv
  have hv : g.rp v = none := ((isParent_iff h v none).1 hroot).symm
  have hnd : ¬ Desc g o v := not_desc_of_not_sameTree h hdiff hv
  obtain ⟨s1, g1, f0, e, h1, hr, hf, ho⟩ := link_ok_spec h v o hv hnd
  have hne : ∀ w, w ≠ v → g1.rp w = g.rp w := by
    intro w hw; rw [hr]; simp [hw]
  have hpv : IsParent s1 v (some o) := (isParent_iff h1 v _).2 (by rw [hr]; simp)
  refine ⟨s1, ⟨f0, e⟩, hpv, fun w hw p => isParent_congr h h1 w (hne w hw) p, ?_, hf, ho⟩
  intro r hr0
  rw [reprRoot_iff h] at hr0
  have key : ∀ a, Desc g a r → ¬ Desc g a v → Desc g1 a r := by
    intro a ha
    induction ha using Relation.ReflTransGen.head_induction_on with
    | refl => intro _; exact Relation.ReflTransGen.refl
    | @head a c hac hcr ih =>
      intro hav
      have hav' : a ≠ v := fun e => hav (e ▸ Relation.ReflTransGen.refl)
      have hcv : ¬ Desc g c v := fun hd => hav (Relation.ReflTransGen.head hac hd)
      have e1 : g1.rp a = some c := by rw [hne a hav']; exact hac
      exact Relation.ReflTransGen.head e1 (ih hcv)
  have hrv : r ≠ v := fun e => hnd (e ▸ hr0.1)
  have hor : Desc g1 o r := key o hr0.1 hnd
  have hrn : g1.rp r = none := by rw [hne r hrv]; exact hr0.2
  refine ⟨(reprRoot_iff h1 o r).2 ⟨hor, hrn⟩, (reprRoot_iff h1 v r).2 ⟨?_, hrn⟩⟩
  exact Relation.ReflTransGen.head (by rw [hr]; simp) hor

/-- A failing `link` on a well-formed forest. -/
theorem link_fail_wf (hs : Reachable s) (a b c : Nat) (hpar : IsParent s a (some c)) :
    ∃ s1, (∃ f0, ∀ f, f0 ≤ f → link f s a b = some (s1, false)) ∧
      (∀ w p, IsParent s1 w p ↔ IsParent s w p) ∧
      s1.flags = s.flags ∧ s1.opFlags = s.opFlags := by
  obtain ⟨g, h⟩ := hs.inv
  have hv : g.rp a ≠ none := by
    rw [← (isParent_iff h a _).1 hpar]; simp
  obtain ⟨s1, g1, f0, e, k⟩ := link_fail_spec h a b hv
  exact ⟨s1, ⟨f0, e⟩, fun w p => isParent_congr h k.inv w (by rw [k.rp]) p, k.flags, k.opFlags⟩

/-- `cut` on a well-formed forest. -/
theorem cut_wf (hs : Reachable s) (v : Nat) :
    ∃ s1, (∃ f0, ∀ f, f0 ≤ f → cut f s v = some s1) ∧ IsParent s1 v none ∧
      ReprRoot s1 v v ∧ (∀ w, w ≠ v → ∀ p, IsParent s1 w p ↔ IsParent s w p) := by
  obtain ⟨g, h⟩ := hs.inv
  obtain ⟨s1, g1, f0, e, h1, hr, -⟩ := cut_spec h v
  have hne : ∀ w, w ≠ v → g1.rp w = g.rp w := by
    intro w hw; rw [hr]; simp [hw]
  have hpv : IsParent s1 v none := (isParent_iff h1 v _).2 (by rw [hr]; simp)
  exact ⟨s1, ⟨f0, e⟩, hpv, ⟨Relation.ReflTransGen.refl, hpv⟩,
    fun w hw p => isParent_congr h h1 w (hne w hw) p⟩

theorem isParent_unique {v : Nat} {p q : Option Nat} (h1 : IsParent s v p)
    (h2 : IsParent s v q) : p = q := by
  obtain ⟨f1, e1⟩ := h1
  obtain ⟨f2, e2⟩ := h2
  exact (findParent_mono s v).unique e1 e2

/-- `findRoot` returns `r` exactly when `r` is the represented root. -/
theorem findRoot_returns_iff (hs : Reachable s) (v r : Nat) :
    (∃ f s1, findRoot f s v = some (s1, r)) ↔ ReprRoot s v r := by
  obtain ⟨s1, r1, ⟨f0, e⟩, hr, -⟩ := findRoot_wf hs v
  constructor
  · rintro ⟨f, s2, e2⟩
    have := (findRoot_mono s v).unique e2 (e f0 le_rfl)
    cases this
    exact hr
  · intro h
    have := reprRoot_unique hs h hr
    subst this
    exact ⟨f0, s1, e f0 le_rfl⟩

/-- A `link` that reports failure has only exposed its receiver. -/
theorem link_false_expose {f v o : Nat} {s1 : Heap} (h : link f s v o = some (s1, false)) :
    expose f s v = some s1 := by
  simp only [link, Option.bind_eq_bind, Option.bind_eq_some] at h
  obtain ⟨s2, h1, h2⟩ := h
  split at h2
  · simp at h2; rw [h1, h2]
  · simp only [Option.bind_eq_some] at h2
    obtain ⟨s3, _, e⟩ := h2
    simp at e

/-- `path` on a heap satisfying the invariant. -/
theorem path_spec {g : Ghost} (h : Inv s g) : ∀ (n v : Nat), g.d v ≤ n →
    ∃ l, (∀ f, g.N + 1 + n ≤ f → path f s v = some l ∧ depth f s v = some (l.length - 1)) ∧
      l.head? = some v ∧ l.Chain' (fun a b => g.rp a = some b) ∧
      (∃ r, l.getLast? = some r ∧ g.rp r = none ∧ Desc g v r) ∧
      (∀ x ∈ l, g.d x ≤ g.d v) ∧ l.Nodup := by
  intro n
  induction n with
  | zero =>
    intro v hv
    have hp : g.rp v = none := by
      cases hp : g.rp v with
      | none => rfl
      | some p => have := (h v).rank p hp; omega
    refine ⟨[v], ?_, rfl, List.chain'_singleton _, ⟨v, rfl, hp, Relation.ReflTransGen.refl⟩,
      by simp, by simp⟩
    intro f hf
    obtain ⟨f', rfl⟩ : ∃ f', f = f' + 1 := ⟨f - 1, by omega⟩
    have := findParent_spec h v (f' + 1) (by omega)
    simp [path, depth, this, hp]
  | succ n ih =>
    intro v hv
    cases hp : g.rp v with
    | none =>
      refine ⟨[v], ?_, rfl, List.chain'_singleton _,
        ⟨v, rfl, hp, Relation.ReflTransGen.refl⟩, by simp, by simp⟩
      intro f hf
      obtain ⟨f', rfl⟩ : ∃ f', f = f' + 1 := ⟨f - 1, by omega⟩
      have := findParent_spec h v (f' + 1) (by omega)
      simp [path, depth, this, hp]
    | some p =>
      have hlt := (h v).rank p hp
      obtain ⟨l, e, hh, hc, ⟨r, hl, hr, hd⟩, hle, hnd⟩ := ih p (by omega)
      obtain ⟨tl, rfl⟩ := List.head?_eq_some_iff.1 hh
      refine ⟨v :: p :: tl, ?_, rfl, List.Chain'.cons hp hc,
        ⟨r, by simpa using hl, hr, Relation.ReflTransGen.head hp hd⟩, ?_, ?_⟩
      · intro f hf
        obtain ⟨f', rfl⟩ : ∃ f', f = f' + 1 := ⟨f - 1, by omega⟩
        have := findParent_spec h v (f' + 1) (by omega)
        obtain ⟨e1, e2⟩ := e f' (by omega)
        simp [path, depth, this, hp, e1, e2]
      · intro x hx
        rcases List.mem_cons.1 hx with hx | hx
        · subst hx; exact le_rfl
        · have := hle x hx; omega
      · refine List.nodup_cons.2 ⟨?_, hnd⟩
        intro hm
        have := hle v hm
        omega

/-- `path` on a well-formed forest. -/
theorem path_wf (hs : Reachable s) (v : Nat) :
    ∃ l, (∃ f0, ∀ f, f0 ≤ f → path f s v = some l ∧ depth f s v = some (l.length - 1)) ∧
      l.head? = some v ∧ l.Chain' (fun a b => IsParent s a (some b)) ∧
      (∃ r, l.getLast? = some r ∧ ReprRoot s v r) ∧ l.Nodup ∧ l ≠ [] := by
  obtain ⟨g, h⟩ := hs.inv
  obtain ⟨l, e, hh, hc, ⟨r, hl, hr, hd⟩, -, hnd⟩ := path_spec h _ v le_rfl
  refine ⟨l, ⟨_, e⟩, hh, hc.imp (fun a b hab => (isParent_iff h a _).2 hab.symm),
    ⟨r, hl, (reprRoot_iff h v r).2 ⟨hd, hr⟩⟩, hnd, ?_⟩
  intro e0; rw [e0] at hh; cases hh

/-- `lowestCommonAncestor` on nodes of different trees of a well-formed
forest. -/
theorem lowestCommonAncestor_diff_wf (hs : Reachable s) (u v : Nat)
    (hdiff : ¬ SameTree s u v) :
    ∃ s1, ∃ f0, ∀ f, f0 ≤ f → lowestCommonAncestor f s u v = some (s1, none) := by
  obtain ⟨g, h⟩ := hs.inv
  obtain ⟨s1, g1, res, f0, e, -, hres⟩ := lowestCommonAncestor_spec h u v
  obtain ⟨r1, hd1, hn1⟩ := h.exists_rpRoot _ u le_rfl
  obtain ⟨r2, hd2, hn2⟩ := h.exists_rpRoot _ v le_rfl
  have hne : r1 ≠ r2 := by
    intro e12
    subst e12
    exact hdiff ⟨r1, (reprRoot_iff h u r1).2 ⟨hd1, hn1⟩, (reprRoot_iff h v r1).2 ⟨hd2, hn2⟩⟩
  have := hres r1 r2 hd1 hn1 hd2 hn2 hne
  subst this
  exact ⟨s1, f0, e⟩

end WellFormed

/-! ## The direction flags -/

section Flags

variable {F : Type} [DecidableEq F]

theorem setBit_same (fl : Nat → F → Bool) (x : Nat) (t : F) (b : Bool) (y : Nat) :
    setBit fl x t b y t = if y = x then b else fl y t := by
  unfold setBit
  by_cases h : y = x
  · subst h; simp
  · simp [h]

theorem setBit_other (fl : Nat → F → Bool) (x : Nat) {t u : F} (b : Bool) (y : Nat)
    (h : u ≠ t) : setBit fl x t b y u = fl y u := by
  unfold setBit
  by_cases hy : y = x
  · subst hy; simp [h]
  · simp [hy]

/-- The shape invariant of the direction flags, relative to the represented
parent `rp`: a node with a role flag has a parent with the matching occupancy
flag, a parent has at most one child per role, an occupancy flag is backed by
a child, and no node has both roles. -/
structure DirInv (hasL isL hasR isR : F) (fl : Nat → F → Bool) (rp : Nat → Option Nat) :
    Prop where
  parL : ∀ x, fl x isL = true → ∃ p, rp x = some p ∧ fl p hasL = true
  parR : ∀ x, fl x isR = true → ∃ p, rp x = some p ∧ fl p hasR = true
  uniqL : ∀ x y p, rp x = some p → rp y = some p → fl x isL = true → fl y isL = true → x = y
  uniqR : ∀ x y p, rp x = some p → rp y = some p → fl x isR = true → fl y isR = true → x = y
  exL : ∀ p, fl p hasL = true → ∃ x, rp x = some p ∧ fl x isL = true
  exR : ∀ p, fl p hasR = true → ∃ x, rp x = some p ∧ fl x isR = true
  excl : ∀ x, fl x isL = true → fl x isR = true → False

theorem DirInv.swap {hasL isL hasR isR : F} {fl : Nat → F → Bool} {rp : Nat → Option Nat}
    (h : DirInv hasL isL hasR isR fl rp) : DirInv hasR isR hasL isL fl rp :=
  ⟨h.parR, h.parL, h.uniqR, h.uniqL, h.exR, h.exL, fun x a b => h.excl x b a⟩

/-- The flag pair written by a successful directional link keeps the shape
invariant. -/
theorem DirInv.link {hasL isL hasR isR : F} {fl : Nat → F → Bool} {rp : Nat → Option Nat}
    (h : DirInv hasL isL hasR isR fl rp) (d1 : isL ≠ hasL) (d2 : isR ≠ hasL) (d3 : hasR ≠ hasL)
    (d4 : isR ≠ isL) (d5 : hasR ≠ isL) {v o : Nat} (hv : rp v = none)
    (ho : fl o hasL = false) :
    DirInv hasL isL hasR isR (setBit (setBit fl o hasL true) v isL true)
      (Function.update rp v (some o)) := by
  have eL : ∀ y, setBit (setBit fl o hasL true) v isL true y isL
      = if y = v then true else fl y isL := by
    intro y; rw [setBit_same, setBit_other _ _ _ _ d1]
  have eHL : ∀ y, setBit (setBit fl o hasL true) v isL true y hasL
      = if y = o then true else fl y hasL := by
    intro y; rw [setBit_other _ _ _ _ (Ne.symm d1), setBit_same]
  have eR : ∀ y, setBit (setBit fl o hasL true) v isL true y isR = fl y isR := by
    intro y; rw [setBit_other _ _ _ _ d4, setBit_other _ _ _ _ d2]
  have eHR : ∀ y, setBit (setBit fl o hasL true) v isL true y hasR = fl y hasR := by
    intro y; rw [setBit_other _ _ _ _ d5, setBit_other _ _ _ _ d3]
  have hrp : ∀ y, y ≠ v → Function.update rp v (some o) y = rp y := by
    intro y hy; simp [hy]
  have hrv : Function.update rp v (some o) v = some o := by simp
  have hnoR : fl v isR = true → False := fun e => by
    obtain ⟨p, hp, _⟩ := h.parR v e; rw [hv] at hp; cases hp
  have hnoL : fl v isL = true → False := fun e => by
    obtain ⟨p, hp, _⟩ := h.parL v e; rw [hv] at hp; cases hp
  have hchild : ∀ y p, rp y = some p → y ≠ v := fun y p e1 e2 => by
    rw [e2, hv] at e1; cases e1
  refine ⟨?_, ?_, ?_, ?_, ?_, ?_, ?_⟩
  · intro x hx
    rw [eL] at hx
    by_cases hxv : x = v
    · subst hxv; exact ⟨o, hrv, by rw [eHL]; simp⟩
    · rw [if_neg hxv] at hx
      obtain ⟨p, hp, hh⟩ := h.parL x hx
      refine ⟨p, by rw [hrp x hxv]; exact hp, ?_⟩
      rw [eHL]; split
      · rfl
      · exact hh
  · intro x hx
    rw [eR] at hx
    obtain ⟨p, hp, hh⟩ := h.parR x hx
    exact ⟨p, by rw [hrp x (hchild x p hp)]; exact hp, by rw [eHR]; exact hh⟩
  · intro x y p hx hy lx ly
    rw [eL] at lx ly
    by_cases hxv : x = v
    · by_cases hyv : y = v
      · rw [hxv, hyv]
      · exfalso
        subst hxv
        rw [hrv] at hx; cases hx
        rw [hrp y hyv] at hy
        rw [if_neg hyv] at ly
        obtain ⟨q, hq, hh⟩ := h.parL y ly
        rw [hy] at hq; cases hq
        rw [ho] at hh; cases hh
    · by_cases hyv : y = v
      · exfalso
        subst hyv
        rw [hrv] at hy; cases hy
        rw [hrp x hxv] at hx
        rw [if_neg hxv] at lx
        obtain ⟨q, hq, hh⟩ := h.parL x lx
        rw [hx] at hq; cases hq
        rw [ho] at hh; cases hh
      · rw [hrp x hxv] at hx; rw [hrp y hyv] at hy
        rw [if_neg hxv] at lx; rw [if_neg hyv] at ly
        exact h.uniqL x y p hx hy lx ly
  · intro x y p hx hy lx ly
    rw [eR] at lx ly
    have hxv : x ≠ v := fun e => hnoR (e ▸ lx)
    have hyv : y ≠ v := fun e => hnoR (e ▸ ly)
    rw [hrp x hxv] at hx; rw [hrp y hyv] at hy
    exact h.uniqR x y p hx hy lx ly
  · intro p hp
    rw [eHL] at hp
    by_cases hpo : p = o
    · subst hpo; exact ⟨v, hrv, by rw [eL]; simp⟩
    · rw [if_neg hpo] at hp
      obtain ⟨x, hx, lx⟩ := h.exL p hp
      have hxv := hchild x p hx
      exact ⟨x, by rw [hrp x hxv]; exact hx, by rw [eL, if_neg hxv]; exact lx⟩
  · intro p hp
    rw [eHR] at hp
    obtain ⟨x, hx, lx⟩ := h.exR p hp
    have hxv := hchild x p hx
    exact ⟨x, by rw [hrp x hxv]; exact hx, by rw [eR]; exact lx⟩
  · intro x lx rx
    rw [eL] at lx; rw [eR] at rx
    by_cases hxv : x = v
    · exact hnoR (hxv ▸ rx)
    · rw [if_neg hxv] at lx; exact h.excl x lx rx

/-- A link that writes no flag keeps the shape invariant. -/
theorem DirInv.plainLink {hasL isL hasR isR : F} {fl : Nat → F → Bool}
    {rp : Nat → Option Nat} (h : DirInv hasL isL hasR isR fl rp) {v o : Nat}
    (hv : rp v = none) : DirInv hasL isL hasR isR fl (Function.update rp v (some o)) := by
  have hrp : ∀ y, y ≠ v → Function.update rp v (some o) y = rp y := by
    intro y hy; simp [hy]
  have hnoR : fl v isR = true → False := fun e => by
    obtain ⟨p, hp, _⟩ := h.parR v e; rw [hv] at hp; cases hp
  have hnoL : fl v isL = true → False := fun e => by
    obtain ⟨p, hp, _⟩ := h.parL v e; rw [hv] at hp; cases hp
  have hchild : ∀ y p, rp y = some p → y ≠ v := fun y p e1 e2 => by
    rw [e2, hv] at e1; cases e1
  refine ⟨?_, ?_, ?_, ?_, ?_, ?_, h.excl⟩
  · intro x hx
    obtain ⟨p, hp, hh⟩ := h.parL x hx
    exact ⟨p, by rw [hrp x (hchild x p hp)]; exact hp, hh⟩
  · intro x hx
    obtain ⟨p, hp, hh⟩ := h.parR x hx
    exact ⟨p, by rw [hrp x (hchild x p hp)]; exact hp, hh⟩
  · intro x y p hx hy lx ly
    have hxv : x ≠ v := fun e => hnoL (e ▸ lx)
    have hyv : y ≠ v := fun e => hnoL (e ▸ ly)
    rw [hrp x hxv] at hx; rw [hrp y hyv] at hy
    exact h.uniqL x y p hx hy lx ly
  · intro x y p hx hy lx ly
    have hxv : x ≠ v := fun e => hnoR (e ▸ lx)
    have hyv : y ≠ v := fun e => hnoR (e ▸ ly)
    rw [hrp x hxv] at hx; rw [hrp y hyv] at hy
    exact h.uniqR x y p hx hy lx ly
  · intro p hp
    obtain ⟨x, hx, lx⟩ := h.exL p hp
    exact ⟨x, by rw [hrp x (hchild x p hx)]; exact hx, lx⟩
  · intro p hp
    obtain ⟨x, hx, lx⟩ := h.exR p hp
    exact ⟨x, by rw [hrp x (hchild x p hx)]; exact hx, lx⟩

/-- The flags after the two `if` statements of `cut`, bit by bit. -/
theorem cutBits_eval {hasL isL hasR isR : F} (fl : Nat → F → Bool) (v p : Nat)
    (d1 : isL ≠ hasL) (d2 : isR ≠ hasL) (d3 : hasR ≠ hasL) (d4 : isR ≠ isL) (d5 : hasR ≠ isL)
    (d6 : isR ≠ hasR) (y : Nat) :
    cutBits hasL isL hasR isR fl v p y isL
        = (if (fl p hasL && fl v isL) = true ∧ y = v then false else fl y isL) ∧
      cutBits hasL isL hasR isR fl v p y hasL
        = (if (fl p hasL && fl v isL) = true ∧ y = p then false else fl y hasL) ∧
      cutBits hasL isL hasR isR fl v p y isR
        = (if (fl p hasR && fl v isR) = true ∧ y = v then false else fl y isR) ∧
      cutBits hasL isL hasR isR fl v p y hasR
        = (if (fl p hasR && fl v isR) = true ∧ y = p then false else fl y hasR) := by
  have a1 : ∀ z, (if (fl p hasL && fl v isL) = true
      then setBit (setBit fl p hasL false) v isL false else fl) z isR = fl z isR := by
    intro z; split
    · rw [setBit_other _ _ _ _ d4, setBit_other _ _ _ _ d2]
    · rfl
  have a2 : ∀ z, (if (fl p hasL && fl v isL) = true
      then setBit (setBit fl p hasL false) v isL false else fl) z hasR = fl z hasR := by
    intro z; split
    · rw [setBit_other _ _ _ _ d5, setBit_other _ _ _ _ d3]
    · rfl
  have a3 : ∀ z, (if (fl p hasL && fl v isL) = true
      then setBit (setBit fl p hasL false) v isL false else fl) z isL
      = (if (fl p hasL && fl v isL) = true ∧ z = v then false else fl z isL) := by
    intro z
    by_cases c : (fl p hasL && fl v isL) = true
    · rw [if_pos c, setBit_same, setBit_other _ _ _ _ d1]
      by_cases hz : z = v
      · simp [hz, c]
      · simp [hz]
    · rw [if_neg c]; simp [c]
  have a4 : ∀ z, (if (fl p hasL && fl v isL) = true
      then setBit (setBit fl p hasL false) v isL false else fl) z hasL
      = (if (fl p hasL && fl v isL) = true ∧ z = p then false else fl z hasL) := by
    intro z
    by_cases c : (fl p hasL && fl v isL) = true
    · rw [if_pos c, setBit_other _ _ _ _ (Ne.symm d1), setBit_same]
      by_cases hz : z = p
      · simp [hz, c]
      · simp [hz]
    · rw [if_neg c]; simp [c]
  unfold cutBits
  simp only [a1, a2]
  by_cases c : (fl p hasR && fl v isR) = true
  · simp only [c, if_true, true_and]
    refine ⟨?_, ?_, ?_, ?_⟩
    · rw [setBit_other _ _ _ _ (Ne.symm d4), setBit_other _ _ _ _ (Ne.symm d5), a3]
    · rw [setBit_other _ _ _ _ (Ne.symm d2), setBit_other _ _ _ _ (Ne.symm d3), a4]
    · rw [setBit_same, setBit_other _ _ _ _ d6, a1]
    · rw [setBit_other _ _ _ _ (Ne.symm d6), setBit_same, a2]
  · simp only [c, if_false, false_and, Bool.false_eq_true]
    exact ⟨a3 y, a4 y, a1 y, a2 y⟩

/-- The flags cleared by `cut` on a node with represented parent `p` keep the
shape invariant. -/
theorem DirInv.cut {hasL isL hasR isR : F} {fl : Nat → F → Bool} {rp : Nat → Option Nat}
    (h : DirInv hasL isL hasR isR fl rp) (d1 : isL ≠ hasL) (d2 : isR ≠ hasL) (d3 : hasR ≠ hasL)
    (d4 : isR ≠ isL) (d5 : hasR ≠ isL) (d6 : isR ≠ hasR) {v p : Nat} (hv : rp v = some p) :
    DirInv hasL isL hasR isR (cutBits hasL isL hasR isR fl v p)
      (Function.update rp v none) := by
  have ev := @cutBits_eval F _ hasL isL hasR isR fl v p d1 d2 d3 d4 d5 d6
  have hrp : ∀ y, y ≠ v → Function.update rp v none y = rp y := by
    intro y hy; simp [hy]
  have hrv : Function.update rp v none v = none := by simp
  have hson : ∀ y q, Function.update rp v none y = some q → y ≠ v ∧ rp y = some q := by
    intro y q e
    have hy : y ≠ v := fun e2 => by rw [e2, hrv] at e; cases e
    exact ⟨hy, by rw [hrp y hy] at e; exact e⟩
  -- a role flag of `v` forces the occupancy flag of `p`
  have cL : fl v isL = true → fl p hasL = true := fun e => by
    obtain ⟨q, hq, hh⟩ := h.parL v e; rw [hv] at hq; cases hq; exact hh
  have cR : fl v isR = true → fl p hasR = true := fun e => by
    obtain ⟨q, hq, hh⟩ := h.parR v e; rw [hv] at hq; cases hq; exact hh
  have eL : ∀ y, cutBits hasL isL hasR isR fl v p y isL = true → y ≠ v ∧ fl y isL = true := by
    intro y hy
    rw [(ev y).1] at hy
    by_cases hyv : y = v
    · subst hyv
      by_cases e : fl y isL = true
      · simp [e, cL e] at hy
      · simp [e] at hy
    · simp [hyv] at hy; exact ⟨hyv, hy⟩
  have eR : ∀ y, cutBits hasL isL hasR isR fl v p y isR = true → y ≠ v ∧ fl y isR = true := by
    intro y hy
    rw [(ev y).2.2.1] at hy
    by_cases hyv : y = v
    · subst hyv
      by_cases e : fl y isR = true
      · simp [e, cR e] at hy
      · simp [e] at hy
    · simp [hyv] at hy; exact ⟨hyv, hy⟩
  have eL' : ∀ y, y ≠ v → fl y isL = true →
      cutBits hasL isL hasR isR fl v p y isL = true := by
    intro y hyv hy; rw [(ev y).1]; simp [hyv, hy]
  have eR' : ∀ y, y ≠ v → fl y isR = true →
      cutBits hasL isL hasR isR fl v p y isR = true := by
    intro y hyv hy; rw [(ev y).2.2.1]; simp [hyv, hy]
  have eHL : ∀ q, cutBits hasL isL hasR isR fl v p q hasL = true →
      fl q hasL = true ∧ ¬ (fl v isL = true ∧ q = p) := by
    intro q hq
    rw [(ev q).2.1] at hq
    by_cases c : (fl p hasL && fl v isL) = true ∧ q = p
    · rw [if_pos c] at hq; cases hq
    · rw [if_neg c] at hq
      refine ⟨hq, fun hc => c ⟨?_, hc.2⟩⟩
      simp [hc.1, cL hc.1]
  have eHR : ∀ q, cutBits hasL isL hasR isR fl v p q hasR = true →
      fl q hasR = true ∧ ¬ (fl v isR = true ∧ q = p) := by
    intro q hq
    rw [(ev q).2.2.2] at hq
    by_cases c : (fl p hasR && fl v isR) = true ∧ q = p
    · rw [if_pos c] at hq; cases hq
    · rw [if_neg c] at hq
      refine ⟨hq, fun hc => c ⟨?_, hc.2⟩⟩
      simp [hc.1, cR hc.1]
  have eHL' : ∀ q, fl q hasL = true → ¬ (fl v isL = true ∧ q = p) →
      cutBits hasL isL hasR isR fl v p q hasL = true := by
    intro q hq hn
    rw [(ev q).2.1, if_neg]
    · exact hq
    · rintro ⟨c, e⟩
      simp only [Bool.and_eq_true] at c
      exact hn ⟨c.2, e⟩
  have eHR' : ∀ q, fl q hasR = true → ¬ (fl v isR = true ∧ q = p) →
      cutBits hasL isL hasR isR fl v p q hasR = true := by
    intro q hq hn
    rw [(ev q).2.2.2, if_neg]
    · exact hq
    · rintro ⟨c, e⟩
      simp only [Bool.and_eq_true] at c
      exact hn ⟨c.2, e⟩
  refine ⟨?_, ?_, ?_, ?_, ?_, ?_, ?_⟩
  · intro x hx
    obtain ⟨hxv, lx⟩ := eL x hx
    obtain ⟨q, hq, hh⟩ := h.parL x lx
    refine ⟨q, by rw [hrp x hxv]; exact hq, eHL' q hh ?_⟩
    rintro ⟨lv, e⟩
    subst e
    exact hxv (h.uniqL x v q hq hv lx lv)
  · intro x hx
    obtain ⟨hxv, lx⟩ := eR x hx
    obtain ⟨q, hq, hh⟩ := h.parR x lx
    refine ⟨q, by rw [hrp x hxv]; exact hq, eHR' q hh ?_⟩
    rintro ⟨lv, e⟩
    subst e
    exact hxv (h.uniqR x v q hq hv lx lv)
  · intro x y q hx hy lx ly
    exact h.uniqL x y q (hson x q hx).2 (hson y q hy).2 (eL x lx).2 (eL y ly).2
  · intro x y q hx hy lx ly
    exact h.uniqR x y q (hson x q hx).2 (hson y q hy).2 (eR x lx).2 (eR y ly).2
  · intro q hq
    obtain ⟨hh, hn⟩ := eHL q hq
    obtain ⟨x, hx, lx⟩ := h.exL q hh
    have hxv : x ≠ v := fun e => by
      subst e; rw [hv] at hx; cases hx; exact hn ⟨lx, rfl⟩
    exact ⟨x, by rw [hrp x hxv]; exact hx, eL' x hxv lx⟩
  · intro q hq
    obtain ⟨hh, hn⟩ := eHR q hq
    obtain ⟨x, hx, lx⟩ := h.exR q hh
    have hxv : x ≠ v := fun e => by
      subst e; rw [hv] at hx; cases hx; exact hn ⟨lx, rfl⟩
    exact ⟨x, by rw [hrp x hxv]; exact hx, eR' x hxv lx⟩
  · intro x lx rx
    exact h.excl x (eL x lx).2 (eR x rx).2

end Flags

section DirectionalLink

/-- A directional link towards an occupied side is rejected and leaves the
heap as it is. -/
theorem linkDir_occupied (get : Heap → Nat → Bool) (set : Heap → Nat → Nat → Heap)
    (f : Nat) (s : Heap) (v o : Nat) (h : get s o = true) :
    linkDir get set f s v o = some (s, false) := by
  unfold linkDir
  rw [if_pos h]

/-- A successful directional link leaves the side of the target occupied. -/
theorem linkDir_true_occupied (get : Heap → Nat → Bool) (set : Heap → Nat → Nat → Heap)
    (hset : ∀ s o v, get (set s o v) o = true) {f : Nat} {s s1 : Heap} {v o : Nat}
    (h : linkDir get set f s v o = some (s1, true)) : get s1 o = true := by
  unfold linkDir at h
  split at h
  · cases h
  · cases hl : link f s v o with
    | none => rw [hl] at h; cases h
    | some r =>
      rw [hl] at h
      obtain ⟨s2, b⟩ := r
      cases b
      · cases h
      · simp only [Option.some_bind, Bool.not_true, Bool.false_eq_true, if_false,
          Option.some.injEq, Prod.mk.injEq, and_true] at h
        rw [← h]; exact hset s2 o v

theorem setFlag_occupied (t r : flagType) (hne : r ≠ t) (s : Heap) (o v : Nat) :
    ((s.setFlag o t true).setFlag v r true).getFlag o t = true := by
  simp only [Heap.getFlag, Heap.setFlag]
  by_cases e : o = v
  · subst e; simp [Function.update_apply, hne.symm]
  · simp [Function.update_apply, e]

theorem setOpFlag_occupied (t r : OpFlagType) (hne : r ≠ t) (s : Heap) (o v : Nat) :
    ((s.setOpFlag o t true).setOpFlag v r true).getOpFlag o t = true := by
  simp only [Heap.getOpFlag, Heap.setOpFlag]
  by_cases e : o = v
  · subst e; simp [Function.update_apply, hne.symm]
  · simp [Function.update_apply, e]

/-- On a well-formed forest `findRoot` of a represented root returns that
node. -/
theorem findRoot_of_root {s : Heap} (hs : Reachable s) {y : Nat} (hy : IsParent s y none) :
    ∃ s2, ∃ f0, ∀ f, f0 ≤ f → findRoot f s y = some (s2, y) := by
  obtain ⟨s1, r, e, hr, -⟩ := findRoot_wf hs y
  have := reprRoot_unique hs hr ⟨Relation.ReflTransGen.refl, hy⟩
  subst this
  exact ⟨s1, e⟩

end DirectionalLink

section DirectionalInvariant

theorem dirInv_fresh {F : Type} (hasL isL hasR isR : F) :
    DirInv hasL isL hasR isR (fun _ _ => false) (fun _ => none) :=
  ⟨fun _ h => (by cases h), fun _ h => (by cases h), fun _ _ _ h => (by cases h),
    fun _ _ _ h => (by cases h), fun _ h => (by cases h), fun _ h => (by cases h),
    fun _ h => (by cases h)⟩

/-- The shape of the specification follows from the shape invariant. -/
theorem DirInv.shape {F : Type} {hasL isL hasR isR : F} {fl : Nat → F → Bool} {s : Heap}
    {g : Ghost} (h : Inv s g) (hd : DirInv hasL isL hasR isR fl g.rp) :
    DirShape (fun x => fl x isL) (fun x => fl x isR) (fun x => fl x hasL)
      (fun x => fl x hasR) (IsParent s) := by
  have hp : ∀ x p, IsParent s x (some p) ↔ g.rp x = some p := fun x p =>
    ⟨fun e => ((isParent_iff h x _).1 e).symm, fun e => (isParent_iff h x _).2 e.symm⟩
  refine ⟨?_, ?_, ?_, ?_, ?_⟩
  · intro p x y hx hy lx ly
    exact hd.uniqL x y p ((hp x p).1 hx) ((hp y p).1 hy) lx ly
  · intro p x y hx hy lx ly
    exact hd.uniqR x y p ((hp x p).1 hx) ((hp y p).1 hy) lx ly
  · intro p
    constructor
    · intro e
      obtain ⟨x, hx, lx⟩ := hd.exL p e
      exact ⟨x, (hp x p).2 hx, lx⟩
    · rintro ⟨x, hx, lx⟩
      obtain ⟨q, hq, hh⟩ := hd.parL x lx
      rw [(hp x p).1 hx] at hq; cases hq; exact hh
  · intro p
    constructor
    · intro e
      obtain ⟨x, hx, lx⟩ := hd.exR p e
      exact ⟨x, (hp x p).2 hx, lx⟩
    · rintro ⟨x, hx, lx⟩
      obtain ⟨q, hq, hh⟩ := hd.parR x lx
      rw [(hp x p).1 hx] at hq; cases hq; exact hh
  · rintro x ⟨lx, rx⟩
    exact hd.excl x lx rx

theorem rp_ne_self {s : Heap} {g : Ghost} (h : Inv s g) {v p : Nat} (hv : g.rp v = some p) :
    v ≠ p := fun e => by
  have := (h v).rank p hv; rw [e] at this; omega

/-- Forests built with the directional interface of `Node<T>` satisfy the
structural invariant and the shape invariant of its flags. -/
theorem DirReachable.dirInv {s : Heap} (hs : DirReachable s) :
    ∃ g, Inv s g ∧ DirInv flagType.HAS_LEFT_CHILD flagType.IS_LEFT_CHILD
      flagType.HAS_RIGHT_CHILD flagType.IS_RIGHT_CHILD s.flags g.rp := by
  induction hs with
  | fresh => exact ⟨_, fresh_inv, dirInv_fresh _ _ _ _⟩
  | @linkLeft s s1 f v o b _ hd e ih =>
    obtain ⟨g, h, hf⟩ := ih
    obtain ⟨s2, g2, b2, f0, e2, hi, hc⟩ := linkDir_spec h v o
      (not_desc_of_not_sameTree h hd)
      (fun s o => s.getFlag o .HAS_LEFT_CHILD)
      (fun s o v => (s.setFlag o .HAS_LEFT_CHILD true).setFlag v .IS_LEFT_CHILD true)
      (fun _ _ _ => ⟨rfl, rfl, rfl, rfl⟩)
    rw [linkLeft_eq] at e
    have := (linkDir_mono _ _ s v o).unique e (e2 f0 le_rfl)
    cases this
    refine ⟨g2, hi, ?_⟩
    rcases hc with ⟨_, hr, hfl, _⟩ | ⟨_, hget, hv, hr, s0, hfl, _, hs1⟩
    · rw [hr, hfl]; exact hf
    · rw [hr, hs1]
      show DirInv _ _ _ _ (setBit (setBit s0.flags o _ true) v _ true) _
      rw [hfl]
      exact hf.link (by decide) (by decide) (by decide) (by decide) (by decide) hv hget
  | @linkRight s s1 f v o b _ hd e ih =>
    obtain ⟨g, h, hf⟩ := ih
    obtain ⟨s2, g2, b2, f0, e2, hi, hc⟩ := linkDir_spec h v o
      (not_desc_of_not_sameTree h hd)
      (fun s o => s.getFlag o .HAS_RIGHT_CHILD)
      (fun s o v => (s.setFlag o .HAS_RIGHT_CHILD true).setFlag v .IS_RIGHT_CHILD true)
      (fun _ _ _ => ⟨rfl, rfl, rfl, rfl⟩)
    rw [linkRight_eq] at e
    have := (linkDir_mono _ _ s v o).unique e (e2 f0 le_rfl)
    cases this
    refine ⟨g2, hi, ?_⟩
    rcases hc with ⟨_, hr, hfl, _⟩ | ⟨_, hget, hv, hr, s0, hfl, _, hs1⟩
    · rw [hr, hfl]; exact hf
    · rw [hr, hs1]
      show DirInv _ _ _ _ (setBit (setBit s0.flags o _ true) v _ true) _
      rw [hfl]
      exact (hf.swap.link (by decide) (by decide) (by decide) (by decide) (by decide)
        hv hget).swap
  | @cut s s1 f v _ e ih =>
    obtain ⟨g, h, hf⟩ := ih
    obtain ⟨s2, g2, f0, e2, hi, hr, _, hfl⟩ := cut_spec h v
    have := (cut_mono s v).unique e (e2 f0 le_rfl)
    subst this
    refine ⟨g2, hi, ?_⟩
    cases hv : g.rp v with
    | none =>
      simp only [hv] at hfl
      rw [hr, hfl, ← hv, Function.update_eq_self]; exact hf
    | some p =>
      simp only [hv] at hfl
      rw [hr, hfl]
      exact hf.cut (by decide) (by decide) (by decide) (by decide) (by decide) (by decide) hv

/-- Forests built with the directional interface of `OpTreeNode<T>` satisfy
the structural invariant and the shape invariant of the flags of the
subclass. -/
theorem OpDirReachable.opDirInv {s : Heap} (hs : OpDirReachable s) :
    ∃ g, Inv s g ∧ DirInv OpFlagType.HAS_LEFT_CHILD OpFlagType.IS_LEFT_CHILD
      OpFlagType.HAS_RIGHT_CHILD OpFlagType.IS_RIGHT_CHILD s.opFlags g.rp := by
  induction hs with
  | fresh => exact ⟨_, fresh_inv, dirInv_fresh _ _ _ _⟩
  | @linkLeft s s1 f v o b _ hd e ih =>
    obtain ⟨g, h, hf⟩ := ih
    obtain ⟨s2, g2, b2, f0, e2, hi, hc⟩ := linkDir_spec h v o
      (not_desc_of_not_sameTree h hd)
      (fun s o => s.getOpFlag o .HAS_LEFT_CHILD)
      (fun s o v => (s.setOpFlag o .HAS_LEFT_CHILD true).setOpFlag v .IS_LEFT_CHILD true)
      (fun _ _ _ => ⟨rfl, rfl, rfl, rfl⟩)
    rw [opLinkLeft_eq] at e
    have := (linkDir_mono _ _ s v o).unique e (e2 f0 le_rfl)
    cases this
    refine ⟨g2, hi, ?_⟩
    rcases hc with ⟨_, hr, _, hfl⟩ | ⟨_, hget, hv, hr, s0, _, hfl, hs1⟩
    · rw [hr, hfl]; exact hf
    · rw [hr, hs1]
      show DirInv _ _ _ _ (setBit (setBit s0.opFlags o _ true) v _ true) _
      rw [hfl]
      exact hf.link (by decide) (by decide) (by decide) (by decide) (by decide) hv hget
  | @linkRight s s1 f v o b _ hd e ih =>
    obtain ⟨g, h, hf⟩ := ih
    obtain ⟨s2, g2, b2, f0, e2, hi, hc⟩ := linkDir_spec h v o
      (not_desc_of_not_sameTree h hd)
      (fun s o => s.getOpFlag o .HAS_RIGHT_CHILD)
      (fun s o v => (s.setOpFlag o .HAS_RIGHT_CHILD true).setOpFlag v .IS_RIGHT_CHILD true)
      (fun _ _ _ => ⟨rfl, rfl, rfl, rfl⟩)
    rw [opLinkRight_eq] at e
    have := (linkDir_mono _ _ s v o).unique e (e2 f0 le_rfl)
    cases this
    refine ⟨g2, hi, ?_⟩
    rcases hc with ⟨_, hr, _, hfl⟩ | ⟨_, hget, hv, hr, s0, _, hfl, hs1⟩
    · rw [hr, hfl]; exact hf
    · rw [hr, hs1]
      show DirInv _ _ _ _ (setBit (setBit s0.opFlags o _ true) v _ true) _
      rw [hfl]
      exact (hf.swap.link (by decide) (by decide) (by decide) (by decide) (by decide)
        hv hget).swap
  | @cut s s1 f v _ e ih =>
    obtain ⟨g, h, hf⟩ := ih
    obtain ⟨s2, g2, f0, e2, hi, hr, _, hfl⟩ := opCut_spec h v
    have := (opCut_mono s v).unique e (e2 f0 le_rfl)
    subst this
    refine ⟨g2, hi, ?_⟩
    cases hv : g.rp v with
    | none =>
      simp only [hv] at hfl
      rw [hr, hfl, ← hv, Function.update_eq_self]; exact hf
    | some p =>
      simp only [hv] at hfl
      rw [hr, hfl]
      exact hf.cut (by decide) (by decide) (by decide) (by decide) (by decide) (by decide) hv

end DirectionalInvariant

section FailedLink

variable {s : Heap}

/-- What `expose` keeps on a well-formed forest, for any run that returns. -/
theorem expose_frame (hs : Reachable s) {f v : Nat} {s1 : Heap} (e : expose f s v = some s1) :
    s1.flags = s.flags ∧ s1.opFlags = s.opFlags ∧
      (∀ w p, IsParent s1 w p ↔ IsParent s w p) ∧
      s1.isRoot v = true ∧ s1.parent v = none ∧ s1.right v = none := by
  obtain ⟨g, h⟩ := hs.inv
  obtain ⟨s2, g2, f0, e2, k, a, b, c, -⟩ := expose_spec h v
  have := (expose_mono s v).unique e (e2 f0 le_rfl)
  subst this
  exact ⟨k.flags, k.opFlags, fun w p => isParent_congr h k.inv w (by rw [k.rp]) p, a, b, c⟩

/-- A `link` that reports failure was called on a node with a represented
parent. -/
theorem link_false_nonroot (hs : Reachable s) {f v o : Nat} {s1 : Heap}
    (e : link f s v o = some (s1, false)) : ∃ c, IsParent s v (some c) := by
  have e1 := link_false_expose e
  obtain ⟨g, h⟩ := hs.inv
  obtain ⟨s2, g2, f0, e2, k, a, b, c, -⟩ := expose_spec h v
  have := (expose_mono s v).unique e1 (e2 f0 le_rfl)
  subst this
  have hl : s1.left v ≠ none := by
    intro hl
    simp only [link, Option.bind_eq_bind, e1, Option.some_bind, hl, Option.isSome_none,
      Bool.false_eq_true, if_false, Option.bind_eq_some] at e
    obtain ⟨s3, _, e3⟩ := e
    simp at e3
  have hr : g.rp v ≠ none := by
    rw [← k.rp]
    exact fun hr => hl ((k.inv.left_none_iff a b).2 hr)
  cases hv : g.rp v with
  | none => exact absurd hv hr
  | some c => exact ⟨c, (isParent_iff h v _).2 hv.symm⟩

/-- The two ways a directional link reports failure. -/
theorem linkDir_false {get : Heap → Nat → Bool} {set : Heap → Nat → Nat → Heap} {f : Nat}
    {v o : Nat} {s1 : Heap} (h : linkDir get set f s v o = some (s1, false)) :
    (get s o = true ∧ s1 = s) ∨ (get s o = false ∧ link f s v o = some (s1, false)) := by
  unfold linkDir at h
  split at h
  · rename_i hg
    simp only [Option.some.injEq, Prod.mk.injEq, and_true] at h
    exact Or.inl ⟨hg, h.symm⟩
  · rename_i hg
    refine Or.inr ⟨by simpa using hg, ?_⟩
    cases hl : link f s v o with
    | none => rw [hl] at h; cases h
    | some r =>
      rw [hl] at h
      obtain ⟨s2, b⟩ := r
      cases b
      · simpa using h
      · simp at h

/-- A directional link that reports failure, on a well-formed forest: either
the side of the target was occupied and the heap is untouched, or the receiver
has a represented parent and has been exposed; the direction flags and the
represented forest are as before in both cases. -/
theorem linkDir_false_frame (hs : Reachable s) {get : Heap → Nat → Bool}
    {set : Heap → Nat → Nat → Heap} {f v o : Nat} {s1 : Heap}
    (h : linkDir get set f s v o = some (s1, false)) :
    (get s o = true ∧ s1 = s ∨
      get s o = false ∧ expose f s v = some s1 ∧ ∃ c, IsParent s v (some c)) ∧
    s1.flags = s.flags ∧ s1.opFlags = s.opFlags ∧ ∀ w p, IsParent s1 w p ↔ IsParent s w p := by
  rcases linkDir_false h with ⟨hg, e⟩ | ⟨hg, e⟩
  · subst e
    exact ⟨Or.inl ⟨hg, rfl⟩, rfl, rfl, fun w p => Iff.rfl⟩
  · have e1 := link_false_expose e
    obtain ⟨a, b, c, -⟩ := expose_frame hs e1
    exact ⟨Or.inr ⟨hg, e1, link_false_nonroot hs e⟩, a, b, c⟩

end FailedLink

section InOrder

variable {s : Heap} {g : Ghost}

theorem inorder_none (f : Nat) (s : Heap) : inorder f s none = some [] := by
  cases f <;> rfl

/-- On a heap satisfying the invariant the in-order walk computes the ghost
sequence. -/
theorem inorder_spec (h : Inv s g) : ∀ (n : Nat) (x : Option Nat), (g.ioo x).length ≤ n →
    ∀ f, n ≤ f → inorder f s x = some (g.ioo x) := by
  intro n
  induction n with
  | zero =>
    intro x hx f _
    cases x with
    | none => rw [inorder_none]; rfl
    | some y =>
      have := h.io_ne_nil y
      have : g.io y = [] := List.length_eq_zero.1 (Nat.le_zero.1 hx)
      contradiction
  | succ n ih =>
    intro x hx f hf
    cases x with
    | none => rw [inorder_none]; rfl
    | some y =>
      obtain ⟨f1, rfl⟩ : ∃ f1, f = f1 + 1 := ⟨f - 1, by omega⟩
      have hlen : (g.ioo (s.left y)).length + (g.ioo (s.right y)).length + 1
          = (g.io y).length := by
        rw [(h y).io_eq]; simp; omega
      simp only [ioo_some] at hx
      have e1 := ih (s.left y) (by omega) f1 (by omega)
      have e2 := ih (s.right y) (by omega) f1 (by omega)
      simp only [inorder, Option.bind_eq_bind, e1, e2, Option.some_bind, Option.pure_def,
        ioo_some]
      rw [← (h y).io_eq]

/-- Two upward chains of represented-parent steps that start at the same
node and end at nodes without a parent are equal. -/
theorem upchain_unique (rp : Nat → Option Nat) : ∀ (l1 l2 : List Nat), l1 ≠ [] →
    l1.head? = l2.head? → l1.Chain' (fun a b => rp a = some b) →
    l2.Chain' (fun a b => rp a = some b) → (∀ r, l1.getLast? = some r → rp r = none) →
    (∀ r, l2.getLast? = some r → rp r = none) → l1 = l2 := by
  intro l1
  induction l1 with
  | nil => intro l2 h; exact absurd rfl h
  | cons a t1 ih =>
    intro l2 _ hh c1 c2 e1 e2
    cases l2 with
    | nil => simp at hh
    | cons a2 t2 =>
      simp only [List.head?_cons, Option.some.injEq] at hh
      subst hh
      cases t1 with
      | nil =>
        have ha : rp a = none := e1 a rfl
        cases t2 with
        | nil => rfl
        | cons b t2 =>
          have := (List.chain'_cons.1 c2).1
          rw [ha] at this; cases this
      | cons b t1 =>
        have hb : rp a = some b := (List.chain'_cons.1 c1).1
        cases t2 with
        | nil =>
          have ha : rp a = none := e2 a rfl
          rw [ha] at hb; cases hb
        | cons b2 t2 =>
          have hb2 : rp a = some b2 := (List.chain'_cons.1 c2).1
          rw [hb] at hb2
          simp only [Option.some.injEq] at hb2
          subst hb2
          have := ih (b :: t2) (by simp) rfl (List.chain'_cons.1 c1).2
            (List.chain'_cons.1 c2).2
            (fun r hr => e1 r (by rw [List.getLast?_cons_cons]; exact hr))
            (fun r hr => e2 r (by rw [List.getLast?_cons_cons]; exact hr))
          rw [this]

theorem predIn_chain (rp : Nat → Option Nat) (v : Nat) : ∀ l : List Nat,
    l.Chain' (fun a b => rp b = some a) → v ∈ l → l.head? ≠ some v →
    predIn l v = rp v ∧ rp v ≠ none := by
  intro l
  induction l with
  | nil => intro _ hv; simp at hv
  | cons a t ih =>
    intro hc hv hh
    have hva : v ≠ a := fun e => hh (by rw [e]; rfl)
    cases t with
    | nil => simp [hva] at hv
    | cons b t =>
      have hab : rp b = some a := (List.chain'_cons.1 hc).1
      by_cases e : b = v
      · subst e
        simp [predIn, hab]
      · have hv2 : v ∈ b :: t := by
          rcases List.mem_cons.1 hv with h1 | h1
          · exact absurd h1 hva
          · exact h1
        have := ih (List.chain'_cons.1 hc).2 hv2
          (by simp only [List.head?_cons, ne_eq, Option.some.injEq]; exact e)
        simp only [predIn, if_neg e]
        exact this

/-- The auxiliary tree exposed by `v.expose()` spells the represented path
from the root down to `v`. -/
theorem expose_inorder_wf (hs : Reachable s) (v : Nat) :
    ∃ s1, (∃ f0, ∀ f, f0 ≤ f → expose f s v = some s1) ∧
      s1.isRoot v = true ∧ s1.parent v = none ∧ s1.right v = none ∧
      ∃ l, (∃ f0, ∀ f, f0 ≤ f → inorder f s1 (some v) = some l) ∧
        (∃ f0, ∀ f, f0 ≤ f → path f s v = some l.reverse) ∧
        l.getLast? = some v ∧ (∃ r, l.head? = some r ∧ ReprRoot s v r) ∧
        l.Chain' (fun a b => IsParent s b (some a)) ∧ l.Nodup := by
  obtain ⟨g, h⟩ := hs.inv
  obtain ⟨s1, g1, f0, e, k, a, b, c, hlast⟩ := expose_spec h v
  obtain ⟨l1, hp, hhead, hchain, ⟨r, hr, hrn, hdesc⟩, -, hnd⟩ := path_spec h (g.d v) v le_rfl
  have hin := inorder_spec k.inv g1.N (some v) ((k.inv v).size)
  have hc1 : (g1.io v).Chain' (fun a b => g.rp b = some a) := by
    rw [← k.rp]; exact (k.inv v).chain
  have hrev : (g1.io v).reverse.Chain' (fun a b => g.rp a = some b) :=
    List.chain'_reverse.2 hc1
  obtain ⟨hd, hhd⟩ := k.inv.exists_head v
  have hroot : g.rp hd = none := by
    have := (k.inv v).root_pp a hd hhd
    rw [k.rp, b] at this; exact this
  have hne : l1 ≠ [] := by intro e1; rw [e1] at hhead; cases hhead
  have heq : l1 = (g1.io v).reverse :=
    upchain_unique g.rp l1 (g1.io v).reverse hne
      (by rw [hhead, List.head?_reverse, hlast]) hchain hrev
      (fun r1 h1 => by rw [hr] at h1; cases h1; exact hrn)
      (fun r1 h1 => by rw [List.getLast?_reverse, hhd] at h1; cases h1; exact hroot)
  have hrhd : r = hd := by
    rw [heq, List.getLast?_reverse, hhd] at hr; cases hr; rfl
  refine ⟨s1, ⟨f0, e⟩, a, b, c, g1.io v, ⟨g1.N, hin⟩, ⟨g.N + 1 + g.d v, ?_⟩, hlast,
    ⟨hd, hhd, ?_⟩, ?_, ?_⟩
  · intro f hf; rw [← heq]; exact (hp f hf).1
  · rw [← hrhd]; exact (reprRoot_iff h v r).2 ⟨hdesc, hrn⟩
  · exact hc1.imp (fun a b hab => (isParent_iff h b _).2 hab.symm)
  · rw [heq] at hnd; exact List.nodup_reverse.1 hnd

/-- The result of `findParent` read off the auxiliary tree of `v`. -/
theorem findParent_inorder_wf (hs : Reachable s) (v : Nat) :
    ∃ t l, (∃ f0, ∀ f, f0 ≤ f → auxTop f s v = some t) ∧ s.isRoot t = true ∧
      (∃ f0, ∀ f, f0 ≤ f → inorder f s (some t) = some l) ∧ v ∈ l ∧ l.Nodup ∧
      (∃ f0, ∀ f, f0 ≤ f →
        findParent f s v = some (if l.head? = some v then s.parent t else predIn l v)) ∧
      (l.head? ≠ some v → predIn l v ≠ none) ∧
      ((if l.head? = some v then s.parent t else predIn l v) = none ↔
        ∃ f s2, findRoot f s v = some (s2, v)) := by
  obtain ⟨g, h⟩ := hs.inv
  obtain ⟨t, ht, hv, etop⟩ := auxTop_spec h _ v le_rfl
  have hin := inorder_spec h g.N (some t) ((h t).size)
  have hnd : (g.io t).Nodup := (h.sorted t).imp (fun hab e => by rw [e] at hab; omega)
  have hval : (if (g.io t).head? = some v then s.parent t else predIn (g.io t) v) = g.rp v := by
    split
    · rename_i hh
      exact ((h t).root_pp ht v hh).symm
    · rename_i hh
      exact (predIn_chain g.rp v (g.io t) (h t).chain hv hh).1
  refine ⟨t, g.io t, ⟨_, etop⟩, ht, ⟨g.N, hin⟩, hv, hnd, ⟨g.N + 1, ?_⟩, ?_, ?_⟩
  · intro f hf; rw [hval]; exact findParent_spec h v f hf
  · intro hh
    rw [(predIn_chain g.rp v (g.io t) (h t).chain hv hh).1]
    exact (predIn_chain g.rp v (g.io t) (h t).chain hv hh).2
  · rw [hval, findRoot_returns_iff hs, reprRoot_iff h]
    exact ⟨fun e => ⟨Relation.ReflTransGen.refl, e⟩, fun e => e.2⟩

/-- `lowestCommonAncestor` on a well-formed forest terminates and keeps every
represented parent. -/
theorem lowestCommonAncestor_frame_wf (hs : Reachable s) (u x : Nat) :
    ∃ s1 res, (∃ f0, ∀ f, f0 ≤ f → lowestCommonAncestor f s u x = some (s1, res)) ∧
      ∀ w p, IsParent s1 w p ↔ IsParent s w p := by
  obtain ⟨g, h⟩ := hs.inv
  obtain ⟨s1, g1, res, f0, e, k, -⟩ := lowestCommonAncestor_spec h u x
  exact ⟨s1, res, ⟨f0, e⟩, fun w p => isParent_congr h k.inv w (by rw [k.rp]) p⟩

end InOrder

section AuxRoots

variable {s : Heap} {g : Ghost}

theorem Inv.auxChild_parent (h : Inv s g) {a b : Nat} (hc : AuxChild s a b) :
    s.parent a = some b ∧ s.isRoot a = false := by
  rcases hc with hc | hc
  · exact (h b).left_ok a hc
  · exact (h b).right_ok a hc

theorem Inv.auxChild_mem (h : Inv s g) {a b : Nat} (hc : AuxChild s a b) :
    ∀ y ∈ g.io a, y ∈ g.io b := by
  rcases hc with hc | hc
  · exact h.left_mem hc
  · exact h.right_mem hc

theorem Inv.auxChild_len (h : Inv s g) {a b : Nat} (hc : AuxChild s a b) :
    (g.io a).length < (g.io b).length := by
  rcases hc with hc | hc
  · exact h.left_len hc
  · exact h.right_len hc

/-- The auxiliary root above a node is the same for a child and its parent. -/
theorem Inv.auxChild_root (h : Inv s g) {a b : Nat} (hc : AuxChild s a b) (r : Nat)
    (hr : s.isRoot r = true) : a ∈ g.io r ↔ b ∈ g.io r := by
  constructor
  · intro ha
    have hne : a ≠ r := fun e => by
      have := (h.auxChild_parent hc).2
      rw [e, hr] at this; cases this
    obtain ⟨-, p, hp, hpr⟩ := h.mem_up _ r le_rfl a ha hne
    rw [(h.auxChild_parent hc).1] at hp
    cases hp; exact hpr
  · intro hb
    obtain ⟨r1, hr1, ha⟩ := h.exists_root _ a le_rfl
    have hne : a ≠ r1 := fun e => by
      have := (h.auxChild_parent hc).2
      rw [e, hr1] at this; cases this
    obtain ⟨-, p, hp, hpr⟩ := h.mem_up _ r1 le_rfl a ha hne
    rw [(h.auxChild_parent hc).1] at hp
    cases hp
    have := h.root_unique _ b le_rfl r r1 hr hr1 hb hpr
    rw [this]; exact ha

theorem Inv.sameAux_root (h : Inv s g) {x y : Nat} (hxy : SameAux s x y) (r : Nat)
    (hr : s.isRoot r = true) : x ∈ g.io r ↔ y ∈ g.io r := by
  induction hxy with
  | rel a b hab => exact h.auxChild_root hab r hr
  | refl a => exact Iff.rfl
  | symm a b _ ih => exact ih.symm
  | trans a b c _ _ ih1 ih2 => exact ih1.trans ih2

/-- Climbing from a node through child-of-parent steps reaches an auxiliary
root. -/
theorem Inv.climb_top (h : Inv s g) : ∀ (n x : Nat), g.N - (g.io x).length ≤ n →
    ∃ t, s.isRoot t = true ∧ Relation.ReflTransGen (AuxChild s) x t := by
  intro n
  induction n with
  | zero =>
    intro x hx
    cases hr : s.isRoot x with
    | true => exact ⟨x, hr, Relation.ReflTransGen.refl⟩
    | false =>
      obtain ⟨p, hp, hc⟩ := (h x).nonroot hr
      have h1 := h.auxChild_len (a := x) (b := p) hc
      have h2 := (h p).size
      omega
  | succ n ih =>
    intro x hx
    cases hr : s.isRoot x with
    | true => exact ⟨x, hr, Relation.ReflTransGen.refl⟩
    | false =>
      obtain ⟨p, hp, hc⟩ := (h x).nonroot hr
      have h1 := h.auxChild_len (a := x) (b := p) hc
      have h2 := (h p).size
      obtain ⟨t, ht, hpt⟩ := ih p (by omega)
      exact ⟨t, ht, Relation.ReflTransGen.head hc hpt⟩

theorem reflTransGen_sameAux {x t : Nat} (h : Relation.ReflTransGen (AuxChild s) x t) :
    SameAux s x t := by
  induction h with
  | refl => exact Relation.EqvGen.refl _
  | tail _ hbc ih => exact Relation.EqvGen.trans _ _ _ ih (Relation.EqvGen.rel _ _ hbc)

/-- The auxiliary-root invariant on a well-formed forest. -/
theorem aux_root_wf (hs : Reachable s) :
    (∀ x, ∃ t, SameAux s x t ∧ s.isRoot t = true ∧
      (∀ t1, SameAux s x t1 → s.isRoot t1 = true → t1 = t) ∧
      (∃ f0, ∀ f, f0 ≤ f → auxTop f s x = some t) ∧
      Relation.ReflTransGen (AuxChild s) x t ∧ ∀ p, ¬ AuxChild s t p) ∧
    (∀ x, s.isRoot x = false ↔ ∃ p, s.parent x = some p ∧ AuxChild s x p) ∧
    (∀ p x, AuxChild s x p → s.parent x = some p) ∧
    (∀ x p, s.isRoot x = true → s.parent x = some p → ¬ AuxChild s x p) := by
  obtain ⟨g, h⟩ := hs.inv
  refine ⟨?_, ?_, ?_, ?_⟩
  · intro x
    obtain ⟨t, ht, hxt⟩ := h.climb_top _ x le_rfl
    obtain ⟨t2, ht2, hx2, etop⟩ := auxTop_spec h _ x le_rfl
    have hst : SameAux s x t := reflTransGen_sameAux hxt
    have hxin : x ∈ g.io t := (h.sameAux_root hst t ht).2 (h.self_mem t)
    have e : t2 = t := h.root_unique _ x le_rfl t2 t ht2 ht hx2 hxin
    subst e
    refine ⟨t2, hst, ht, ?_, ⟨_, etop⟩, hxt, ?_⟩
    · intro t1 h1 hr1
      have : x ∈ g.io t1 := (h.sameAux_root h1 t1 hr1).2 (h.self_mem t1)
      exact h.root_unique _ x le_rfl t1 t2 hr1 ht this hxin
    · intro p hc
      have := (h.auxChild_parent hc).2
      rw [ht] at this; cases this
  · intro x
    constructor
    · intro hr; exact (h x).nonroot hr
    · rintro ⟨p, -, hc⟩; exact (h.auxChild_parent hc).2
  · intro p x hc; exact (h.auxChild_parent hc).1
  · intro x p hr _ hc
    have := (h.auxChild_parent hc).2
    rw [hr] at this; cases this

end AuxRoots

section Slots

theorem NodeReachable.toReachable {s : Heap} (hs : NodeReachable s) : Reachable s := by
  induction hs with
  | fresh => exact Reachable.fresh
  | expose _ e ih => exact Reachable.expose ih e
  | findRoot _ e ih => exact Reachable.findRoot ih e
  | lowestCommonAncestor _ e ih => exact Reachable.lowestCommonAncestor ih e
  | link _ hd e ih => exact Reachable.link ih hd e
  | linkLeft _ hd e ih => exact Reachable.linkLeft ih hd e
  | linkRight _ hd e ih => exact Reachable.linkRight ih hd e
  | cut _ e ih => exact Reachable.cut ih e

theorem OpNodeReachable.opToReachable {s : Heap} (hs : OpNodeReachable s) : Reachable s := by
  induction hs with
  | fresh => exact Reachable.fresh
  | expose _ e ih => exact Reachable.expose ih e
  | findRoot _ e ih => exact Reachable.findRoot ih e
  | lowestCommonAncestor _ e ih => exact Reachable.lowestCommonAncestor ih e
  | link _ hd e ih => exact Reachable.link ih hd e
  | linkLeft _ hd e ih => exact Reachable.opLinkLeft ih hd e
  | linkRight _ hd e ih => exact Reachable.opLinkRight ih hd e
  | cut _ e ih => exact Reachable.opCut ih e

/-- Well-formed forests of `Node<T>` objects satisfy the structural invariant
and the shape invariant of the direction flags. -/
theorem NodeReachable.nodeDirInv {s : Heap} (hs : NodeReachable s) :
    ∃ g, Inv s g ∧ DirInv flagType.HAS_LEFT_CHILD flagType.IS_LEFT_CHILD
      flagType.HAS_RIGHT_CHILD flagType.IS_RIGHT_CHILD s.flags g.rp := by
  induction hs with
  | fresh => exact ⟨_, fresh_inv, dirInv_fresh _ _ _ _⟩
  | @expose s s1 f v _ e ih =>
    obtain ⟨g, h, hf⟩ := ih
    obtain ⟨s2, g2, f0, e2, k, -⟩ := expose_spec h v
    have := (expose_mono s v).unique e (e2 f0 le_rfl)
    subst this
    exact ⟨g2, k.inv, by rw [k.rp, k.flags]; exact hf⟩
  | @findRoot s s1 f v r _ e ih =>
    obtain ⟨g, h, hf⟩ := ih
    obtain ⟨s2, g2, r2, f0, e2, k, -⟩ := findRoot_spec h v
    have := (findRoot_mono s v).unique e (e2 f0 le_rfl)
    cases this
    exact ⟨g2, k.inv, by rw [k.rp, k.flags]; exact hf⟩
  | @lowestCommonAncestor s s1 f u v r _ e ih =>
    obtain ⟨g, h, hf⟩ := ih
    obtain ⟨s2, g2, r2, f0, e2, k, -⟩ := lowestCommonAncestor_spec h u v
    have := (lowestCommonAncestor_mono s u v).unique e (e2 f0 le_rfl)
    cases this
    exact ⟨g2, k.inv, by rw [k.rp, k.flags]; exact hf⟩
  | @link s s1 f v o b _ hd e ih =>
    obtain ⟨g, h, hf⟩ := ih
    obtain ⟨s2, g2, b2, f0, e2, hi, hfl, -, hc⟩ := link_spec h v o
      (not_desc_of_not_sameTree h hd)
    have := (link_mono s v o).unique e (e2 f0 le_rfl)
    cases this
    refine ⟨g2, hi, ?_⟩
    rcases hc with ⟨-, -, hr⟩ | ⟨-, hv, hr⟩
    · rw [hr, hfl]; exact hf
    · rw [hr, hfl]; exact hf.plainLink hv
  | @linkLeft s s1 f v o b _ hd e ih =>
    obtain ⟨g, h, hf⟩ := ih
    obtain ⟨s2, g2, b2, f0, e2, hi, hc⟩ := linkDir_spec h v o
      (not_desc_of_not_sameTree h hd)
      (fun s o => s.getFlag o .HAS_LEFT_CHILD)
      (fun s o v => (s.setFlag o .HAS_LEFT_CHILD true).setFlag v .IS_LEFT_CHILD true)
      (fun _ _ _ => ⟨rfl, rfl, rfl, rfl⟩)
    rw [linkLeft_eq] at e
    have := (linkDir_mono _ _ s v o).unique e (e2 f0 le_rfl)
    cases this
    refine ⟨g2, hi, ?_⟩
    rcases hc with ⟨_, hr, hfl, _⟩ | ⟨_, hget, hv, hr, s0, hfl, _, hs1⟩
    · rw [hr, hfl]; exact hf
    · rw [hr, hs1]
      show DirInv _ _ _ _ (setBit (setBit s0.flags o _ true) v _ true) _
      rw [hfl]
      exact hf.link (by decide) (by decide) (by decide) (by decide) (by decide) hv hget
  | @linkRight s s1 f v o b _ hd e ih =>
    obtain ⟨g, h, hf⟩ := ih
    obtain ⟨s2, g2, b2, f0, e2, hi, hc⟩ := linkDir_spec h v o
      (not_desc_of_not_sameTree h hd)
      (fun s o => s.getFlag o .HAS_RIGHT_CHILD)
      (fun s o v => (s.setFlag o .HAS_RIGHT_CHILD true).setFlag v .IS_RIGHT_CHILD true)
      (fun _ _ _ => ⟨rfl, rfl, rfl, rfl⟩)
    rw [linkRight_eq] at e
    have := (linkDir_mono _ _ s v o).unique e (e2 f0 le_rfl)
    cases this
    refine ⟨g2, hi, ?_⟩
    rcases hc with ⟨_, hr, hfl, _⟩ | ⟨_, hget, hv, hr, s0, hfl, _, hs1⟩
    · rw [hr, hfl]; exact hf
    · rw [hr, hs1]
      show DirInv _ _ _ _ (setBit (setBit s0.flags o _ true) v _ true) _
      rw [hfl]
      exact (hf.swap.link (by decide) (by decide) (by decide) (by decide) (by decide)
        hv hget).swap
  | @cut s s1 f v _ e ih =>
    obtain ⟨g, h, hf⟩ := ih
    obtain ⟨s2, g2, f0, e2, hi, hr, _, hfl⟩ := cut_spec h v
    have := (cut_mono s v).unique e (e2 f0 le_rfl)
    subst this
    refine ⟨g2, hi, ?_⟩
    cases hv : g.rp v with
    | none =>
      simp only [hv] at hfl
      rw [hr, hfl, ← hv, Function.update_eq_self]; exact hf
    | some p =>
      simp only [hv] at hfl
      rw [hr, hfl]
      exact hf.cut (by decide) (by decide) (by decide) (by decide) (by decide) (by decide) hv

/-- Well-formed forests of `OpTreeNode<T>` objects satisfy the structural
invariant and the shape invariant of the direction flags of the subclass. -/
theorem OpNodeReachable.opNodeDirInv {s : Heap} (hs : OpNodeReachable s) :
    ∃ g, Inv s g ∧ DirInv OpFlagType.HAS_LEFT_CHILD OpFlagType.IS_LEFT_CHILD
      OpFlagType.HAS_RIGHT_CHILD OpFlagType.IS_RIGHT_CHILD s.opFlags g.rp := by
  induction hs with
  | fresh => exact ⟨_, fresh_inv, dirInv_fresh _ _ _ _⟩
  | @expose s s1 f v _ e ih =>
    obtain ⟨g, h, hf⟩ := ih
    obtain ⟨s2, g2, f0, e2, k, -⟩ := expose_spec h v
    have := (expose_mono s v).unique e (e2 f0 le_rfl)
    subst this
    exact ⟨g2, k.inv, by rw [k.rp, k.opFlags]; exact hf⟩
  | @findRoot s s1 f v r _ e ih =>
    obtain ⟨g, h, hf⟩ := ih
    obtain ⟨s2, g2, r2, f0, e2, k, -⟩ := findRoot_spec h v
    have := (findRoot_mono s v).unique e (e2 f0 le_rfl)
    cases this
    exact ⟨g2, k.inv, by rw [k.rp, k.opFlags]; exact hf⟩
  | @lowestCommonAncestor s s1 f u v r _ e ih =>
    obtain ⟨g, h, hf⟩ := ih
    obtain ⟨s2, g2, r2, f0, e2, k, -⟩ := lowestCommonAncestor_spec h u v
    have := (lowestCommonAncestor_mono s u v).unique e (e2 f0 le_rfl)
    cases this
    exact ⟨g2, k.inv, by rw [k.rp, k.opFlags]; exact hf⟩
  | @link s s1 f v o b _ hd e ih =>
    obtain ⟨g, h, hf⟩ := ih
    obtain ⟨s2, g2, b2, f0, e2, hi, -, hfl, hc⟩ := link_spec h v o
      (not_desc_of_not_sameTree h hd)
    have := (link_mono s v o).unique e (e2 f0 le_rfl)
    cases this
    refine ⟨g2, hi, ?_⟩
    rcases hc with ⟨-, -, hr⟩ | ⟨-, hv, hr⟩
    · rw [hr, hfl]; exact hf
    · rw [hr, hfl]; exact hf.plainLink hv
  | @linkLeft s s1 f v o b _ hd e ih =>
    obtain ⟨g, h, hf⟩ := ih
    obtain ⟨s2, g2, b2, f0, e2, hi, hc⟩ := linkDir_spec h v o
      (not_desc_of_not_sameTree h hd)
      (fun s o => s.getOpFlag o .HAS_LEFT_CHILD)
      (fun s o v => (s.setOpFlag o .HAS_LEFT_CHILD true).setOpFlag v .IS_LEFT_CHILD true)
      (fun _ _ _ => ⟨rfl, rfl, rfl, rfl⟩)
    rw [opLinkLeft_eq] at e
    have := (linkDir_mono _ _ s v o).unique e (e2 f0 le_rfl)
    cases this
    refine ⟨g2, hi, ?_⟩
    rcases hc with ⟨_, hr, _, hfl⟩ | ⟨_, hget, hv, hr, s0, _, hfl, hs1⟩
    · rw [hr, hfl]; exact hf
    · rw [hr, hs1]
      show DirInv _ _ _ _ (setBit (setBit s0.opFlags o _ true) v _ true) _
      rw [hfl]
      exact hf.link (by decide) (by decide) (by decide) (by decide) (by decide) hv hget
  | @linkRight s s1 f v o b _ hd e ih =>
    obtain ⟨g, h, hf⟩ := ih
    obtain ⟨s2, g2, b2, f0, e2, hi, hc⟩ := linkDir_spec h v o
      (not_desc_of_not_sameTree h hd)
      (fun s o => s.getOpFlag o .HAS_RIGHT_CHILD)
      (fun s o v => (s.setOpFlag o .HAS_RIGHT_CHILD true).setOpFlag v .IS_RIGHT_CHILD true)
      (fun _ _ _ => ⟨rfl, rfl, rfl, rfl⟩)
    rw [opLinkRight_eq] at e
    have := (linkDir_mono _ _ s v o).unique e (e2 f0 le_rfl)
    cases this
    refine ⟨g2, hi, ?_⟩
    rcases hc with ⟨_, hr, _, hfl⟩ | ⟨_, hget, hv, hr, s0, _, hfl, hs1⟩
    · rw [hr, hfl]; exact hf
    · rw [hr, hs1]
      show DirInv _ _ _ _ (setBit (setBit s0.opFlags o _ true) v _ true) _
      rw [hfl]
      exact (hf.swap.link (by decide) (by decide) (by decide) (by decide) (by decide)
        hv hget).swap
  | @cut s s1 f v _ e ih =>
    obtain ⟨g, h, hf⟩ := ih
    obtain ⟨s2, g2, f0, e2, hi, hr, _, hfl⟩ := opCut_spec h v
    have := (opCut_mono s v).unique e (e2 f0 le_rfl)
    subst this
    refine ⟨g2, hi, ?_⟩
    cases hv : g.rp v with
    | none =>
      simp only [hv] at hfl
      rw [hr, hfl, ← hv, Function.update_eq_self]; exact hf
    | some p =>
      simp only [hv] at hfl
      rw [hr, hfl]
      exact hf.cut (by decide) (by decide) (by decide) (by decide) (by decide) (by decide) hv


variable {F : Type} [DecidableEq F]

/-- The flags after `cut` when the cut node carries the left role: the pair
`hasL` of the parent and `isL` of the node is cleared. -/
theorem DirInv.releaseLeft {hasL isL hasR isR : F} {fl : Nat → F → Bool}
    {rp : Nat → Option Nat} (hd : DirInv hasL isL hasR isR fl rp) (d2 : isR ≠ hasL)
    (d4 : isR ≠ isL) {x p : Nat} (hpar : rp x = some p) (hx : fl x isL = true) :
    cutBits hasL isL hasR isR fl x p = setBit (setBit fl p hasL false) x isL false := by
  have hp : fl p hasL = true := by
    obtain ⟨q, hq, hh⟩ := hd.parL x hx
    rw [hpar] at hq; cases hq; exact hh
  have hxr : fl x isR = false := by
    cases e : fl x isR with
    | false => rfl
    | true => exact (hd.excl x hx e).elim
  simp only [cutBits, hp, hx, Bool.and_self, if_true]
  rw [setBit_other _ _ _ _ d4, setBit_other _ _ _ _ d2, hxr]
  simp

/-- The flags after `cut` when the cut node carries the right role. -/
theorem DirInv.releaseRight {hasL isL hasR isR : F} {fl : Nat → F → Bool}
    {rp : Nat → Option Nat} (hd : DirInv hasL isL hasR isR fl rp) {x p : Nat}
    (hpar : rp x = some p) (hx : fl x isR = true) :
    cutBits hasL isL hasR isR fl x p = setBit (setBit fl p hasR false) x isR false := by
  have hp : fl p hasR = true := by
    obtain ⟨q, hq, hh⟩ := hd.parR x hx
    rw [hpar] at hq; cases hq; exact hh
  have hxl : fl x isL = false := by
    cases e : fl x isL with
    | false => rfl
    | true => exact (hd.excl x e hx).elim
  simp only [cutBits, hxl, Bool.and_false, Bool.false_eq_true, if_false, hp, hx, Bool.and_self,
    if_true]

/-- Clearing an occupancy flag of `p` and a role flag of `x` touches no other
flag. -/
theorem setBit_release {has is : F} (d : is ≠ has) (fl : Nat → F → Bool) (p x : Nat) :
    setBit (setBit fl p has false) x is false p has = false ∧
    setBit (setBit fl p has false) x is false x is = false ∧
    ∀ w t, ¬ (w = p ∧ t = has) → ¬ (w = x ∧ t = is) →
      setBit (setBit fl p has false) x is false w t = fl w t := by
  refine ⟨?_, ?_, ?_⟩
  · rw [setBit_other _ _ _ _ (Ne.symm d), setBit_same, if_pos rfl]
  · rw [setBit_same, if_pos rfl]
  · intro w t h1 h2
    by_cases e1 : t = is
    · subst e1
      rw [setBit_same, setBit_other _ _ _ _ d]
      have : w ≠ x := fun e => h2 ⟨e, rfl⟩
      rw [if_neg this]
    · rw [setBit_other _ _ _ _ e1]
      by_cases e2 : t = has
      · subst e2
        rw [setBit_same]
        have : w ≠ p := fun e => h1 ⟨e, rfl⟩
        rw [if_neg this]
      · rw [setBit_other _ _ _ _ e2]

/-- A directional link towards a free side succeeds when the underlying
`link` does. -/
theorem linkDir_ok {get : Heap → Nat → Bool} {set : Heap → Nat → Nat → Heap} {f : Nat}
    {s s1 : Heap} {v o : Nat} (hg : get s o = false) (e : link f s v o = some (s1, true)) :
    linkDir get set f s v o = some (set s1 o v, true) := by
  unfold linkDir
  rw [if_neg (by rw [hg]; exact Bool.false_ne_true), e]
  rfl


/-- `Node<T>::cut` on a node that carries the left role, on a well-formed forest of
`Node<T>` objects: the slot of the parent is released. -/
theorem cut_releases_left {s : Heap} (hs : NodeReachable s) {x p : Nat}
    (hpar : IsParent s x (some p)) (hx : s.getFlag x .IS_LEFT_CHILD = true) :
    ∃ s1, (∃ f0, ∀ f, f0 ≤ f → cut f s x = some s1) ∧ NodeReachable s1 ∧
      s1.getFlag p .HAS_LEFT_CHILD = false ∧ s1.getFlag x .IS_LEFT_CHILD = false ∧
      (∀ w t, ¬ (w = p ∧ t = .HAS_LEFT_CHILD) → ¬ (w = x ∧ t = .IS_LEFT_CHILD) →
        s1.getFlag w t = s.getFlag w t) ∧
      ∀ y, IsParent s1 y none → ¬ SameTree s1 y p →
        ∃ s2, ∃ f0, ∀ f, f0 ≤ f → linkLeft f s1 y p = some (s2, true) := by
  obtain ⟨g, h, hd⟩ := hs.nodeDirInv
  have hrp : g.rp x = some p := ((isParent_iff h x _).1 hpar).symm
  obtain ⟨s1, g1, f0, e, h1, hr, -, hfl⟩ := cut_spec h x
  simp only [hrp] at hfl
  rw [hd.releaseLeft (by decide) (by decide) hrp hx] at hfl
  obtain ⟨r1, r2, r3⟩ := setBit_release (by decide : flagType.IS_LEFT_CHILD ≠ flagType.HAS_LEFT_CHILD)
    s.flags p x
  have hs1 : NodeReachable s1 := NodeReachable.cut hs (e f0 le_rfl)
  have hfree : s1.getFlag p .HAS_LEFT_CHILD = false := by
    show s1.flags p _ = false
    rw [hfl]; exact r1
  refine ⟨s1, ⟨f0, e⟩, hs1, hfree, ?_, ?_, ?_⟩
  · show s1.flags x _ = false
    rw [hfl]; exact r2
  · intro w t a b
    show s1.flags w t = s.flags w t
    rw [hfl]; exact r3 w t a b
  · intro y hy hdiff
    obtain ⟨s2, ⟨f1, e2⟩, -⟩ := link_ok_wf hs1.toReachable y p hy hdiff
    refine ⟨(s2.setFlag p .HAS_LEFT_CHILD true).setFlag y .IS_LEFT_CHILD true, f1,
      fun f hf => ?_⟩
    rw [linkLeft_eq]
    exact linkDir_ok hfree (e2 f hf)

/-- The state after a successful `Node<T>::linkLeft`: the receiver is a child of the
target and carries the left role. -/
theorem linkLeft_true_state {s0 s : Heap} (hs : NodeReachable s0) {f x p : Nat}
    (hdiff : ¬ SameTree s0 x p) (e : linkLeft f s0 x p = some (s, true)) :
    NodeReachable s ∧ IsParent s x (some p) ∧ s.getFlag x .IS_LEFT_CHILD = true := by
  refine ⟨NodeReachable.linkLeft hs hdiff e, ?_⟩
  obtain ⟨g, h⟩ := hs.toReachable.inv
  obtain ⟨s2, g2, b2, f0, e2, hi, hc⟩ := linkDir_spec h x p
    (not_desc_of_not_sameTree h hdiff)
    (fun s o => s.getFlag o .HAS_LEFT_CHILD)
    (fun s o v => (s.setFlag o .HAS_LEFT_CHILD true).setFlag v .IS_LEFT_CHILD true)
    (fun _ _ _ => ⟨rfl, rfl, rfl, rfl⟩)
  rw [linkLeft_eq] at e
  have := (linkDir_mono _ _ s0 x p).unique e (e2 f0 le_rfl)
  cases this
  rcases hc with ⟨hb, -⟩ | ⟨-, -, -, hr, s3, -, -, hs1⟩
  · cases hb
  · refine ⟨(isParent_iff hi x _).2 (by rw [hr]; simp), ?_⟩
    rw [hs1]
    show setBit (setBit s3.flags p _ true) x _ true x _ = true
    rw [setBit_same, if_pos rfl]

/-- `Node<T>::cut` on a node that carries the right role, on a well-formed forest of
`Node<T>` objects: the slot of the parent is released. -/
theorem cut_releases_right {s : Heap} (hs : NodeReachable s) {x p : Nat}
    (hpar : IsParent s x (some p)) (hx : s.getFlag x .IS_RIGHT_CHILD = true) :
    ∃ s1, (∃ f0, ∀ f, f0 ≤ f → cut f s x = some s1) ∧ NodeReachable s1 ∧
      s1.getFlag p .HAS_RIGHT_CHILD = false ∧ s1.getFlag x .IS_RIGHT_CHILD = false ∧
      (∀ w t, ¬ (w = p ∧ t = .HAS_RIGHT_CHILD) → ¬ (w = x ∧ t = .IS_RIGHT_CHILD) →
        s1.getFlag w t = s.getFlag w t) ∧
      ∀ y, IsParent s1 y none → ¬ SameTree s1 y p →
        ∃ s2, ∃ f0, ∀ f, f0 ≤ f → linkRight f s1 y p = some (s2, true) := by
  obtain ⟨g, h, hd⟩ := hs.nodeDirInv
  have hrp : g.rp x = some p := ((isParent_iff h x _).1 hpar).symm
  obtain ⟨s1, g1, f0, e, h1, hr, -, hfl⟩ := cut_spec h x
  simp only [hrp] at hfl
  rw [hd.releaseRight hrp hx] at hfl
  obtain ⟨r1, r2, r3⟩ := setBit_release (by decide : flagType.IS_RIGHT_CHILD ≠ flagType.HAS_RIGHT_CHILD)
    s.flags p x
  have hs1 : NodeReachable s1 := NodeReachable.cut hs (e f0 le_rfl)
  have hfree : s1.getFlag p .HAS_RIGHT_CHILD = false := by
    show s1.flags p _ = false
    rw [hfl]; exact r1
  refine ⟨s1, ⟨f0, e⟩, hs1, hfree, ?_, ?_, ?_⟩
  · show s1.flags x _ = false
    rw [hfl]; exact r2
  · intro w t a b
    show s1.flags w t = s.flags w t
    rw [hfl]; exact r3 w t a b
  · intro y hy hdiff
    obtain ⟨s2, ⟨f1, e2⟩, -⟩ := link_ok_wf hs1.toReachable y p hy hdiff
    refine ⟨(s2.setFlag p .HAS_RIGHT_CHILD true).setFlag y .IS_RIGHT_CHILD true, f1,
      fun f hf => ?_⟩
    rw [linkRight_eq]
    exact linkDir_ok hfree (e2 f hf)

/-- The state after a successful `Node<T>::linkRight`: the receiver is a child of the
target and carries the right role. -/
theorem linkRight_true_state {s0 s : Heap} (hs : NodeReachable s0) {f x p : Nat}
    (hdiff : ¬ SameTree s0 x p) (e : linkRight f s0 x p = some (s, true)) :
    NodeReachable s ∧ IsParent s x (some p) ∧ s.getFlag x .IS_RIGHT_CHILD = true := by
  refine ⟨NodeReachable.linkRight hs hdiff e, ?_⟩
  obtain ⟨g, h⟩ := hs.toReachable.inv
  obtain ⟨s2, g2, b2, f0, e2, hi, hc⟩ := linkDir_spec h x p
    (not_desc_of_not_sameTree h hdiff)
    (fun s o => s.getFlag o .HAS_RIGHT_CHILD)
    (fun s o v => (s.setFlag o .HAS_RIGHT_CHILD true).setFlag v .IS_RIGHT_CHILD true)
    (fun _ _ _ => ⟨rfl, rfl, rfl, rfl⟩)
  rw [linkRight_eq] at e
  have := (linkDir_mono _ _ s0 x p).unique e (e2 f0 le_rfl)
  cases this
  rcases hc with ⟨hb, -⟩ | ⟨-, -, -, hr, s3, -, -, hs1⟩
  · cases hb
  · refine ⟨(isParent_iff hi x _).2 (by rw [hr]; simp), ?_⟩
    rw [hs1]
    show setBit (setBit s3.flags p _ true) x _ true x _ = true
    rw [setBit_same, if_pos rfl]

/-- `OpTreeNode<T>::cut` on a node that carries the left role, on a well-formed forest of
`OpTreeNode<T>` objects: the slot of the parent is released. -/
theorem opCut_releases_left {s : Heap} (hs : OpNodeReachable s) {x p : Nat}
    (hpar : IsParent s x (some p)) (hx : s.getOpFlag x .IS_LEFT_CHILD = true) :
    ∃ s1, (∃ f0, ∀ f, f0 ≤ f → opCut f s x = some s1) ∧ OpNodeReachable s1 ∧
      s1.getOpFlag p .HAS_LEFT_CHILD = false ∧ s1.getOpFlag x .IS_LEFT_CHILD = false ∧
      (∀ w t, ¬ (w = p ∧ t = .HAS_LEFT_CHILD) → ¬ (w = x ∧ t = .IS_LEFT_CHILD) →
        s1.getOpFlag w t = s.getOpFlag w t) ∧
      ∀ y, IsParent s1 y none → ¬ SameTree s1 y p →
        ∃ s2, ∃ f0, ∀ f, f0 ≤ f → opLinkLeft f s1 y p = some (s2, true) := by
  obtain ⟨g, h, hd⟩ := hs.opNodeDirInv
  have hrp : g.rp x = some p := ((isParent_iff h x _).1 hpar).symm
  obtain ⟨s1, g1, f0, e, h1, hr, -, hfl⟩ := opCut_spec h x
  simp only [hrp] at hfl
  rw [hd.releaseLeft (by decide) (by decide) hrp hx] at hfl
  obtain ⟨r1, r2, r3⟩ := setBit_release (by decide : OpFlagType.IS_LEFT_CHILD ≠ OpFlagType.HAS_LEFT_CHILD)
    s.opFlags p x
  have hs1 : OpNodeReachable s1 := OpNodeReachable.cut hs (e f0 le_rfl)
  have hfree : s1.getOpFlag p .HAS_LEFT_CHILD = false := by
    show s1.opFlags p _ = false
    rw [hfl]; exact r1
  refine ⟨s1, ⟨f0, e⟩, hs1, hfree, ?_, ?_, ?_⟩
  · show s1.opFlags x _ = false
    rw [hfl]; exact r2
  · intro w t a b
    show s1.opFlags w t = s.opFlags w t
    rw [hfl]; exact r3 w t a b
  · intro y hy hdiff
    obtain ⟨s2, ⟨f1, e2⟩, -⟩ := link_ok_wf hs1.opToReachable y p hy hdiff
    refine ⟨(s2.setOpFlag p .HAS_LEFT_CHILD true).setOpFlag y .IS_LEFT_CHILD true, f1,
      fun f hf => ?_⟩
    rw [opLinkLeft_eq]
    exact linkDir_ok hfree (e2 f hf)

/-- The state after a successful `OpTreeNode<T>::linkLeft`: the receiver is a child of the
target and carries the left role. -/
theorem opLinkLeft_true_state {s0 s : Heap} (hs : OpNodeReachable s0) {f x p : Nat}
    (hdiff : ¬ SameTree s0 x p) (e : opLinkLeft f s0 x p = some (s, true)) :
    OpNodeReachable s ∧ IsParent s x (some p) ∧ s.getOpFlag x .IS_LEFT_CHILD = true := by
  refine ⟨OpNodeReachable.linkLeft hs hdiff e, ?_⟩
  obtain ⟨g, h⟩ := hs.opToReachable.inv
  obtain ⟨s2, g2, b2, f0, e2, hi, hc⟩ := linkDir_spec h x p
    (not_desc_of_not_sameTree h hdiff)
    (fun s o => s.getOpFlag o .HAS_LEFT_CHILD)
    (fun s o v => (s.setOpFlag o .HAS_LEFT_CHILD true).setOpFlag v .IS_LEFT_CHILD true)
    (fun _ _ _ => ⟨rfl, rfl, rfl, rfl⟩)
  rw [opLinkLeft_eq] at e
  have := (linkDir_mono _ _ s0 x p).unique e (e2 f0 le_rfl)
  cases this
  rcases hc with ⟨hb, -⟩ | ⟨-, -, -, hr, s3, -, -, hs1⟩
  · cases hb
  · refine ⟨(isParent_iff hi x _).2 (by rw [hr]; simp), ?_⟩
    rw [hs1]
    show setBit (setBit s3.opFlags p _ true) x _ true x _ = true
    rw [setBit_same, if_pos rfl]

/-- `OpTreeNode<T>::cut` on a node that carries the right role, on a well-formed forest of
`OpTreeNode<T>` objects: the slot of the parent is released. -/
theorem opCut_releases_right {s : Heap} (hs : OpNodeReachable s) {x p : Nat}
    (hpar : IsParent s x (some p)) (hx : s.getOpFlag x .IS_RIGHT_CHILD = true) :
    ∃ s1, (∃ f0, ∀ f, f0 ≤ f → opCut f s x = some s1) ∧ OpNodeReachable s1 ∧
      s1.getOpFlag p .HAS_RIGHT_CHILD = false ∧ s1.getOpFlag x .IS_RIGHT_CHILD = false ∧
      (∀ w t, ¬ (w = p ∧ t = .HAS_RIGHT_CHILD) → ¬ (w = x ∧ t = .IS_RIGHT_CHILD) →
        s1.getOpFlag w t = s.getOpFlag w t) ∧
      ∀ y, IsParent s1 y none → ¬ SameTree s1 y p →
        ∃ s2, ∃ f0, ∀ f, f0 ≤ f → opLinkRight f s1 y p = some (s2, true) := by
  obtain ⟨g, h, hd⟩ := hs.opNodeDirInv
  have hrp : g.rp x = some p := ((isParent_iff h x _).1 hpar).symm
  obtain ⟨s1, g1, f0, e, h1, hr, -, hfl⟩ := opCut_spec h x
  simp only [hrp] at hfl
  rw [hd.releaseRight hrp hx] at hfl
  obtain ⟨r1, r2, r3⟩ := setBit_release (by decide : OpFlagType.IS_RIGHT_CHILD ≠ OpFlagType.HAS_RIGHT_CHILD)
    s.opFlags p x
  have hs1 : OpNodeReachable s1 := OpNodeReachable.cut hs (e f0 le_rfl)
  have hfree : s1.getOpFlag p .HAS_RIGHT_CHILD = false := by
    show s1.opFlags p _ = false
    rw [hfl]; exact r1
  refine ⟨s1, ⟨f0, e⟩, hs1, hfree, ?_, ?_, ?_⟩
  · show s1.opFlags x _ = false
    rw [hfl]; exact r2
  · intro w t a b
    show s1.opFlags w t = s.opFlags w t
    rw [hfl]; exact r3 w t a b
  · intro y hy hdiff
    obtain ⟨s2, ⟨f1, e2⟩, -⟩ := link_ok_wf hs1.opToReachable y p hy hdiff
    refine ⟨(s2.setOpFlag p .HAS_RIGHT_CHILD true).setOpFlag y .IS_RIGHT_CHILD true, f1,
      fun f hf => ?_⟩
    rw [opLinkRight_eq]
    exact linkDir_ok hfree (e2 f hf)

/-- The state after a successful `OpTreeNode<T>::linkRight`: the receiver is a child of the
target and carries the right role. -/
theorem opLinkRight_true_state {s0 s : Heap} (hs : OpNodeReachable s0) {f x p : Nat}
    (hdiff : ¬ SameTree s0 x p) (e : opLinkRight f s0 x p = some (s, true)) :
    OpNodeReachable s ∧ IsParent s x (some p) ∧ s.getOpFlag x .IS_RIGHT_CHILD = true := by
  refine ⟨OpNodeReachable.linkRight hs hdiff e, ?_⟩
  obtain ⟨g, h⟩ := hs.opToReachable.inv
  obtain ⟨s2, g2, b2, f0, e2, hi, hc⟩ := linkDir_spec h x p
    (not_desc_of_not_sameTree h hdiff)
    (fun s o => s.getOpFlag o .HAS_RIGHT_CHILD)
    (fun s o v => (s.setOpFlag o .HAS_RIGHT_CHILD true).setOpFlag v .IS_RIGHT_CHILD true)
    (fun _ _ _ => ⟨rfl, rfl, rfl, rfl⟩)
  rw [opLinkRight_eq] at e
  have := (linkDir_mono _ _ s0 x p).unique e (e2 f0 le_rfl)
  cases this
  rcases hc with ⟨hb, -⟩ | ⟨-, -, -, hr, s3, -, -, hs1⟩
  · cases hb
  · refine ⟨(isParent_iff hi x _).2 (by rw [hr]; simp), ?_⟩
    rw [hs1]
    show setBit (setBit s3.opFlags p _ true) x _ true x _ = true
    rw [setBit_same, if_pos rfl]

end Slots

section SlotCalls

variable {F : Type} [DecidableEq F]

theorem setBit_true_mono (fl : Nat → F → Bool) (a : Nat) (t : F) {y : Nat} {u : F}
    (h : fl y u = true) : setBit fl a t true y u = true := by
  by_cases e : u = t
  · subst e; rw [setBit_same]; split
    · rfl
    · exact h
  · rw [setBit_other _ _ _ _ e]; exact h

/-- The role flags of a node other than the cut node survive `cut`. -/
theorem cutBits_role_other {hasL isL hasR isR : F} (fl : Nat → F → Bool) (v p : Nat)
    (d1 : isL ≠ hasL) (d2 : isR ≠ hasL) (d3 : hasR ≠ hasL) (d4 : isR ≠ isL) (d5 : hasR ≠ isL)
    (d6 : isR ≠ hasR) {x : Nat} (hx : x ≠ v) :
    cutBits hasL isL hasR isR fl v p x isL = fl x isL ∧
      cutBits hasL isL hasR isR fl v p x isR = fl x isR := by
  obtain ⟨a, -, b, -⟩ := @cutBits_eval F _ hasL isL hasR isR fl v p d1 d2 d3 d4 d5 d6 x
  constructor
  · rw [a, if_neg (fun h => hx h.2)]
  · rw [b, if_neg (fun h => hx h.2)]

/-- A call other than `x.cut()` keeps the represented parent of a child `x`
and the role flags it carries. -/
theorem NodeCall.nodeKeeps {x p : Nat} {s s1 : Heap} (hc : NodeCall x s s1) (hs : NodeReachable s)
    (hpar : IsParent s x (some p)) :
    NodeReachable s1 ∧ IsParent s1 x (some p) ∧
      (s.getFlag x .IS_LEFT_CHILD = true → s1.getFlag x .IS_LEFT_CHILD = true) ∧
      (s.getFlag x .IS_RIGHT_CHILD = true → s1.getFlag x .IS_RIGHT_CHILD = true) := by
  obtain ⟨g, h⟩ := hs.toReachable.inv
  have hrp : g.rp x = some p := ((isParent_iff h x _).1 hpar).symm
  cases hc with
  | @expose f v e =>
    obtain ⟨s2, g2, f0, e2, k, -⟩ := expose_spec h v
    have := (expose_mono s v).unique e (e2 f0 le_rfl)
    subst this
    refine ⟨NodeReachable.expose hs e, (isParent_iff k.inv x _).2 (by rw [k.rp, hrp]), ?_, ?_⟩
    · intro hl; show s1.flags x _ = true; rw [k.flags]; exact hl
    · intro hl; show s1.flags x _ = true; rw [k.flags]; exact hl
  | @findRoot f v r e =>
    obtain ⟨s2, g2, r2, f0, e2, k, -⟩ := findRoot_spec h v
    have := (findRoot_mono s v).unique e (e2 f0 le_rfl)
    cases this
    refine ⟨NodeReachable.findRoot hs e, (isParent_iff k.inv x _).2 (by rw [k.rp, hrp]), ?_, ?_⟩
    · intro hl; show s1.flags x _ = true; rw [k.flags]; exact hl
    · intro hl; show s1.flags x _ = true; rw [k.flags]; exact hl
  | @lowestCommonAncestor f u v r e =>
    obtain ⟨s2, g2, r2, f0, e2, k, -⟩ := lowestCommonAncestor_spec h u v
    have := (lowestCommonAncestor_mono s u v).unique e (e2 f0 le_rfl)
    cases this
    refine ⟨NodeReachable.lowestCommonAncestor hs e,
      (isParent_iff k.inv x _).2 (by rw [k.rp, hrp]), ?_, ?_⟩
    · intro hl; show s1.flags x _ = true; rw [k.flags]; exact hl
    · intro hl; show s1.flags x _ = true; rw [k.flags]; exact hl
  | @link f v o b hd e =>
    obtain ⟨s2, g2, b2, f0, e2, hi, hfl, -, hc⟩ := link_spec h v o
      (not_desc_of_not_sameTree h hd)
    have := (link_mono s v o).unique e (e2 f0 le_rfl)
    cases this
    have hx : g2.rp x = some p := by
      rcases hc with ⟨-, -, hr⟩ | ⟨-, hv, hr⟩
      · rw [hr, hrp]
      · have hne : x ≠ v := fun e1 => by rw [e1, hv] at hrp; cases hrp
        rw [hr, Function.update_noteq hne, hrp]
    refine ⟨NodeReachable.link hs hd e, (isParent_iff hi x _).2 hx.symm, ?_, ?_⟩
    · intro hl; show s1.flags x _ = true; rw [hfl]; exact hl
    · intro hl; show s1.flags x _ = true; rw [hfl]; exact hl
  | @linkLeft f v o b hd e =>
    refine ⟨NodeReachable.linkLeft hs hd e, ?_⟩
    obtain ⟨s2, g2, b2, f0, e2, hi, hc⟩ := linkDir_spec h v o
      (not_desc_of_not_sameTree h hd)
      (fun s o => s.getFlag o .HAS_LEFT_CHILD)
      (fun s o v => (s.setFlag o .HAS_LEFT_CHILD true).setFlag v .IS_LEFT_CHILD true)
      (fun _ _ _ => ⟨rfl, rfl, rfl, rfl⟩)
    rw [linkLeft_eq] at e
    have := (linkDir_mono _ _ s v o).unique e (e2 f0 le_rfl)
    cases this
    rcases hc with ⟨_, hr, hfl, _⟩ | ⟨_, hget, hv, hr, s0, hfl, _, hs1⟩
    · refine ⟨(isParent_iff hi x _).2 (by rw [hr, hrp]), ?_, ?_⟩
      · intro hl; show s1.flags x _ = true; rw [hfl]; exact hl
      · intro hl; show s1.flags x _ = true; rw [hfl]; exact hl
    · have hne : x ≠ v := fun e1 => by rw [e1, hv] at hrp; cases hrp
      refine ⟨(isParent_iff hi x _).2 (by rw [hr, Function.update_noteq hne, hrp]), ?_, ?_⟩
      · intro hl; rw [hs1]
        show setBit (setBit s0.flags o _ true) v _ true x _ = true
        rw [hfl]; exact setBit_true_mono _ _ _ (setBit_true_mono _ _ _ hl)
      · intro hl; rw [hs1]
        show setBit (setBit s0.flags o _ true) v _ true x _ = true
        rw [hfl]; exact setBit_true_mono _ _ _ (setBit_true_mono _ _ _ hl)
  | @linkRight f v o b hd e =>
    refine ⟨NodeReachable.linkRight hs hd e, ?_⟩
    obtain ⟨s2, g2, b2, f0, e2, hi, hc⟩ := linkDir_spec h v o
      (not_desc_of_not_sameTree h hd)
      (fun s o => s.getFlag o .HAS_RIGHT_CHILD)
      (fun s o v => (s.setFlag o .HAS_RIGHT_CHILD true).setFlag v .IS_RIGHT_CHILD true)
      (fun _ _ _ => ⟨rfl, rfl, rfl, rfl⟩)
    rw [linkRight_eq] at e
    have := (linkDir_mono _ _ s v o).unique e (e2 f0 le_rfl)
    cases this
    rcases hc with ⟨_, hr, hfl, _⟩ | ⟨_, hget, hv, hr, s0, hfl, _, hs1⟩
    · refine ⟨(isParent_iff hi x _).2 (by rw [hr, hrp]), ?_, ?_⟩
      · intro hl; show s1.flags x _ = true; rw [hfl]; exact hl
      · intro hl; show s1.flags x _ = true; rw [hfl]; exact hl
    · have hne : x ≠ v := fun e1 => by rw [e1, hv] at hrp; cases hrp
      refine ⟨(isParent_iff hi x _).2 (by rw [hr, Function.update_noteq hne, hrp]), ?_, ?_⟩
      · intro hl; rw [hs1]
        show setBit (setBit s0.flags o _ true) v _ true x _ = true
        rw [hfl]; exact setBit_true_mono _ _ _ (setBit_true_mono _ _ _ hl)
      · intro hl; rw [hs1]
        show setBit (setBit s0.flags o _ true) v _ true x _ = true
        rw [hfl]; exact setBit_true_mono _ _ _ (setBit_true_mono _ _ _ hl)
  | @cut f v hne e =>
    obtain ⟨s2, g2, f0, e2, hi, hr, _, hfl⟩ := cut_spec h v
    have := (cut_mono s v).unique e (e2 f0 le_rfl)
    subst this
    refine ⟨NodeReachable.cut hs e,
      (isParent_iff hi x _).2 (by rw [hr, Function.update_noteq (Ne.symm hne), hrp]), ?_⟩
    cases hv : g.rp v with
    | none =>
      simp only [hv] at hfl
      constructor
      · intro hl; show s1.flags x _ = true; rw [hfl]; exact hl
      · intro hl; show s1.flags x _ = true; rw [hfl]; exact hl
    | some q =>
      simp only [hv] at hfl
      obtain ⟨a, b⟩ := cutBits_role_other s.flags v q
        (by decide : flagType.IS_LEFT_CHILD ≠ flagType.HAS_LEFT_CHILD)
        (by decide : flagType.IS_RIGHT_CHILD ≠ flagType.HAS_LEFT_CHILD)
        (by decide : flagType.HAS_RIGHT_CHILD ≠ flagType.HAS_LEFT_CHILD)
        (by decide : flagType.IS_RIGHT_CHILD ≠ flagType.IS_LEFT_CHILD)
        (by decide : flagType.HAS_RIGHT_CHILD ≠ flagType.IS_LEFT_CHILD)
        (by decide : flagType.IS_RIGHT_CHILD ≠ flagType.HAS_RIGHT_CHILD) (Ne.symm hne)
      constructor
      · intro hl; show s1.flags x _ = true; rw [hfl, a]; exact hl
      · intro hl; show s1.flags x _ = true; rw [hfl, b]; exact hl

/-- A call other than `x.cut()` keeps the represented parent of a child `x`
and the role flags it carries. -/
theorem OpNodeCall.opKeeps {x p : Nat} {s s1 : Heap} (hc : OpNodeCall x s s1) (hs : OpNodeReachable s)
    (hpar : IsParent s x (some p)) :
    OpNodeReachable s1 ∧ IsParent s1 x (some p) ∧
      (s.getOpFlag x .IS_LEFT_CHILD = true → s1.getOpFlag x .IS_LEFT_CHILD = true) ∧
      (s.getOpFlag x .IS_RIGHT_CHILD = true → s1.getOpFlag x .IS_RIGHT_CHILD = true) := by
  obtain ⟨g, h⟩ := hs.opToReachable.inv
  have hrp : g.rp x = some p := ((isParent_iff h x _).1 hpar).symm
  cases hc with
  | @expose f v e =>
    obtain ⟨s2, g2, f0, e2, k, -⟩ := expose_spec h v
    have := (expose_mono s v).unique e (e2 f0 le_rfl)
    subst this
    refine ⟨OpNodeReachable.expose hs e, (isParent_iff k.inv x _).2 (by rw [k.rp, hrp]), ?_, ?_⟩
    · intro hl; show s1.opFlags x _ = true; rw [k.opFlags]; exact hl
    · intro hl; show s1.opFlags x _ = true; rw [k.opFlags]; exact hl
  | @findRoot f v r e =>
    obtain ⟨s2, g2, r2, f0, e2, k, -⟩ := findRoot_spec h v
    have := (findRoot_mono s v).unique e (e2 f0 le_rfl)
    cases this
    refine ⟨OpNodeReachable.findRoot hs e, (isParent_iff k.inv x _).2 (by rw [k.rp, hrp]), ?_, ?_⟩
    · intro hl; show s1.opFlags x _ = true; rw [k.opFlags]; exact hl
    · intro hl; show s1.opFlags x _ = true; rw [k.opFlags]; exact hl
  | @lowestCommonAncestor f u v r e =>
    obtain ⟨s2, g2, r2, f0, e2, k, -⟩ := lowestCommonAncestor_spec h u v
    have := (lowestCommonAncestor_mono s u v).unique e (e2 f0 le_rfl)
    cases this
    refine ⟨OpNodeReachable.lowestCommonAncestor hs e,
      (isParent_iff k.inv x _).2 (by rw [k.rp, hrp]), ?_, ?_⟩
    · intro hl; show s1.opFlags x _ = true; rw [k.opFlags]; exact hl
    · intro hl; show s1.opFlags x _ = true; rw [k.opFlags]; exact hl
  | @link f v o b hd e =>
    obtain ⟨s2, g2, b2, f0, e2, hi, -, hfl, hc⟩ := link_spec h v o
      (not_desc_of_not_sameTree h hd)
    have := (link_mono s v o).unique e (e2 f0 le_rfl)
    cases this
    have hx : g2.rp x = some p := by
      rcases hc with ⟨-, -, hr⟩ | ⟨-, hv, hr⟩
      · rw [hr, hrp]
      · have hne : x ≠ v := fun e1 => by rw [e1, hv] at hrp; cases hrp
        rw [hr, Function.update_noteq hne, hrp]
    refine ⟨OpNodeReachable.link hs hd e, (isParent_iff hi x _).2 hx.symm, ?_, ?_⟩
    · intro hl; show s1.opFlags x _ = true; rw [hfl]; exact hl
    · intro hl; show s1.opFlags x _ = true; rw [hfl]; exact hl
  | @linkLeft f v o b hd e =>
    refine ⟨OpNodeReachable.linkLeft hs hd e, ?_⟩
    obtain ⟨s2, g2, b2, f0, e2, hi, hc⟩ := linkDir_spec h v o
      (not_desc_of_not_sameTree h hd)
      (fun s o => s.getOpFlag o .HAS_LEFT_CHILD)
      (fun s o v => (s.setOpFlag o .HAS_LEFT_CHILD true).setOpFlag v .IS_LEFT_CHILD true)
      (fun _ _ _ => ⟨rfl, rfl, rfl, rfl⟩)
    rw [opLinkLeft_eq] at e
    have := (linkDir_mono _ _ s v o).unique e (e2 f0 le_rfl)
    cases this
    rcases hc with ⟨_, hr, _, hfl⟩ | ⟨_, hget, hv, hr, s0, _, hfl, hs1⟩
    · refine ⟨(isParent_iff hi x _).2 (by rw [hr, hrp]), ?_, ?_⟩
      · intro hl; show s1.opFlags x _ = true; rw [hfl]; exact hl
      · intro hl; show s1.opFlags x _ = true; rw [hfl]; exact hl
    · have hne : x ≠ v := fun e1 => by rw [e1, hv] at hrp; cases hrp
      refine ⟨(isParent_iff hi x _).2 (by rw [hr, Function.update_noteq hne, hrp]), ?_, ?_⟩
      · intro hl; rw [hs1]
        show setBit (setBit s0.opFlags o _ true) v _ true x _ = true
        rw [hfl]; exact setBit_true_mono _ _ _ (setBit_true_mono _ _ _ hl)
      · intro hl; rw [hs1]
        show setBit (setBit s0.opFlags o _ true) v _ true x _ = true
        rw [hfl]; exact setBit_true_mono _ _ _ (setBit_true_mono _ _ _ hl)
  | @linkRight f v o b hd e =>
    refine ⟨OpNodeReachable.linkRight hs hd e, ?_⟩
    obtain ⟨s2, g2, b2, f0, e2, hi, hc⟩ := linkDir_spec h v o
      (not_desc_of_not_sameTree h hd)
      (fun s o => s.getOpFlag o .HAS_RIGHT_CHILD)
      (fun s o v => (s.setOpFlag o .HAS_RIGHT_CHILD true).setOpFlag v .IS_RIGHT_CHILD true)
      (fun _ _ _ => ⟨rfl, rfl, rfl, rfl⟩)
    rw [opLinkRight_eq] at e
    have := (linkDir_mono _ _ s v o).unique e (e2 f0 le_rfl)
    cases this
    rcases hc with ⟨_, hr, _, hfl⟩ | ⟨_, hget, hv, hr, s0, _, hfl, hs1⟩
    · refine ⟨(isParent_iff hi x _).2 (by rw [hr, hrp]), ?_, ?_⟩
      · intro hl; show s1.opFlags x _ = true; rw [hfl]; exact hl
      · intro hl; show s1.opFlags x _ = true; rw [hfl]; exact hl
    · have hne : x ≠ v := fun e1 => by rw [e1, hv] at hrp; cases hrp
      refine ⟨(isParent_iff hi x _).2 (by rw [hr, Function.update_noteq hne, hrp]), ?_, ?_⟩
      · intro hl; rw [hs1]
        show setBit (setBit s0.opFlags o _ true) v _ true x _ = true
        rw [hfl]; exact setBit_true_mono _ _ _ (setBit_true_mono _ _ _ hl)
      · intro hl; rw [hs1]
        show setBit (setBit s0.opFlags o _ true) v _ true x _ = true
        rw [hfl]; exact setBit_true_mono _ _ _ (setBit_true_mono _ _ _ hl)
  | @cut f v hne e =>
    obtain ⟨s2, g2, f0, e2, hi, hr, _, hfl⟩ := opCut_spec h v
    have := (opCut_mono s v).unique e (e2 f0 le_rfl)
    subst this
    refine ⟨OpNodeReachable.cut hs e,
      (isParent_iff hi x _).2 (by rw [hr, Function.update_noteq (Ne.symm hne), hrp]), ?_⟩
    cases hv : g.rp v with
    | none =>
      simp only [hv] at hfl
      constructor
      · intro hl; show s1.opFlags x _ = true; rw [hfl]; exact hl
      · intro hl; show s1.opFlags x _ = true; rw [hfl]; exact hl
    | some q =>
      simp only [hv] at hfl
      obtain ⟨a, b⟩ := cutBits_role_other s.opFlags v q
        (by decide : OpFlagType.IS_LEFT_CHILD ≠ OpFlagType.HAS_LEFT_CHILD)
        (by decide : OpFlagType.IS_RIGHT_CHILD ≠ OpFlagType.HAS_LEFT_CHILD)
        (by decide : OpFlagType.HAS_RIGHT_CHILD ≠ OpFlagType.HAS_LEFT_CHILD)
        (by decide : OpFlagType.IS_RIGHT_CHILD ≠ OpFlagType.IS_LEFT_CHILD)
        (by decide : OpFlagType.HAS_RIGHT_CHILD ≠ OpFlagType.IS_LEFT_CHILD)
        (by decide : OpFlagType.IS_RIGHT_CHILD ≠ OpFlagType.HAS_RIGHT_CHILD) (Ne.symm hne)
      constructor
      · intro hl; show s1.opFlags x _ = true; rw [hfl, a]; exact hl
      · intro hl; show s1.opFlags x _ = true; rw [hfl, b]; exact hl


theorem NodeCall.keeps_star {x p : Nat} {sA s : Heap}
    (hc : Relation.ReflTransGen (NodeCall x) sA s) (hs : NodeReachable sA)
    (hpar : IsParent sA x (some p)) :
    NodeReachable s ∧ IsParent s x (some p) ∧
      (sA.getFlag x .IS_LEFT_CHILD = true → s.getFlag x .IS_LEFT_CHILD = true) ∧
      (sA.getFlag x .IS_RIGHT_CHILD = true → s.getFlag x .IS_RIGHT_CHILD = true) := by
  induction hc with
  | refl => exact ⟨hs, hpar, id, id⟩
  | tail _ hbc ih =>
    obtain ⟨a, b, c, d⟩ := ih
    obtain ⟨a1, b1, c1, d1⟩ := hbc.nodeKeeps a b
    exact ⟨a1, b1, fun e => c1 (c e), fun e => d1 (d e)⟩

theorem OpNodeCall.opKeeps_star {x p : Nat} {sA s : Heap}
    (hc : Relation.ReflTransGen (OpNodeCall x) sA s) (hs : OpNodeReachable sA)
    (hpar : IsParent sA x (some p)) :
    OpNodeReachable s ∧ IsParent s x (some p) ∧
      (sA.getOpFlag x .IS_LEFT_CHILD = true → s.getOpFlag x .IS_LEFT_CHILD = true) ∧
      (sA.getOpFlag x .IS_RIGHT_CHILD = true → s.getOpFlag x .IS_RIGHT_CHILD = true) := by
  induction hc with
  | refl => exact ⟨hs, hpar, id, id⟩
  | tail _ hbc ih =>
    obtain ⟨a, b, c, d⟩ := ih
    obtain ⟨a1, b1, c1, d1⟩ := hbc.opKeeps a b
    exact ⟨a1, b1, fun e => c1 (c e), fun e => d1 (d e)⟩

end SlotCalls

/-! ## Amortized analysis of the rotations -/

section Counter

/-- The number of rotations of one iteration of the loop of `splay`: one for
a zig, two otherwise. -/
def stepRot (s : Heap) (x : Nat) : Nat :=
  match s.parent x with
  | some p => if s.isRoot p then 1 else 2
  | none => 0

theorem rotRC_eq (s : Heap) (k x : Nat) :
    rotRC (s, k) x = (rotR s x).map fun s1 => (s1, k + 1) := rfl

theorem rotLC_eq (s : Heap) (k x : Nat) :
    rotLC (s, k) x = (rotL s x).map fun s1 => (s1, k + 1) := rfl

theorem bind_count (r : Option Heap) (k x : Nat) (rot : Heap → Nat → Option Heap)
    (rotC : Heap × Nat → Nat → Option (Heap × Nat))
    (hrot : ∀ s k x, rotC (s, k) x = (rot s x).map fun s1 => (s1, k + 1)) :
    ((r.map fun s1 => (s1, k + 1)).bind fun sc => (sc.1.parent x).bind fun p => rotC sc p)
      = r.bind fun a => (a.parent x).bind fun p => (rot a p).map fun s1 => (s1, k + 2) := by
  cases r with
  | none => rfl
  | some a =>
    simp only [Option.map_some', Option.some_bind]
    cases a.parent x with
    | none => rfl
    | some b => simp only [Option.some_bind, hrot]

/-- The counted loop body does what `splayStep` does and adds `stepRot`. -/
theorem splayStepC_eq (s : Heap) (k x : Nat) :
    splayStepC (s, k) x = (splayStep s x).map fun s1 => (s1, k + stepRot s x) := by
  unfold splayStepC splayStep stepRot
  cases hp : s.parent x with
  | none => rfl
  | some p =>
    simp only [Option.bind_eq_bind, Option.some_bind]
    by_cases hr : s.isRoot p = true
    · simp only [hr, if_true]
      split <;> simp [rotRC_eq, rotLC_eq]
    · simp only [hr, if_false, Bool.false_eq_true]
      cases hq : s.parent p with
      | none =>
        by_cases h1 : s.left p = some x <;> by_cases h2 : s.right p = some x <;>
          simp [h1, h2, rotRC_eq, rotLC_eq]
        all_goals
          first
          | exact bind_count _ _ _ rotL rotLC rotLC_eq
          | exact bind_count _ _ _ rotR rotRC rotRC_eq
      | some q =>
        by_cases h1 : s.left p = some x <;> by_cases h2 : s.right p = some x <;>
          by_cases h3 : s.left q = some p <;> by_cases h4 : s.right q = some p <;>
          simp [h1, h2, h3, h4, rotRC_eq, rotLC_eq]
        all_goals
          first
          | exact bind_count _ _ _ rotL rotLC rotLC_eq
          | exact bind_count _ _ _ rotR rotRC rotRC_eq

end Counter

/-! ## The potential of the splay trees -/

section Potential

/-- The weight of the auxiliary subtree rooted at `x`: the sum of the weights
`w` of the nodes of its in-order sequence. -/
def vs (w : Nat → Nat) (g : Ghost) (x : Nat) : Nat :=
  ((g.io x).map w).sum

/-- The weight behind a child pointer. -/
def vso (w : Nat → Nat) (g : Ghost) : Option Nat → Nat
  | none => 0
  | some y => vs w g y

/-- The rank of a node: the binary logarithm of the weight of its subtree. -/
def rk (w : Nat → Nat) (g : Ghost) (x : Nat) : Nat :=
  Nat.log 2 (vs w g x)

/-- The potential: the sum of the ranks of the nodes below `n`. -/
def Phi (w : Nat → Nat) (n : Nat) (g : Ghost) : Nat :=
  ∑ u in Finset.range n, rk w g u

variable {s : Heap} {g : Ghost} (w : Nat → Nat)

theorem vso_some (y : Nat) : vso w g (some y) = vs w g y := rfl

theorem vso_none : vso w g none = 0 := rfl

theorem vso_eq_sum (c : Option Nat) : vso w g c = ((g.ioo c).map w).sum := by
  cases c <;> rfl

theorem vs_eq (h : Inv s g) (x : Nat) :
    vs w g x = vso w g (s.left x) + w x + vso w g (s.right x) := by
  unfold vs
  rw [(h x).io_eq, vso_eq_sum, vso_eq_sum]
  simp [List.map_append, List.sum_append]
  omega

theorem vs_self_le (h : Inv s g) (x : Nat) : w x ≤ vs w g x := by
  rw [vs_eq w h x]; omega

theorem vs_left_le (h : Inv s g) {x y : Nat} (hl : s.left x = some y) :
    vs w g y + w x ≤ vs w g x := by
  rw [vs_eq w h x, hl]; simp only [vso]; omega

theorem vs_right_le (h : Inv s g) {x y : Nat} (hr : s.right x = some y) :
    vs w g y + w x ≤ vs w g x := by
  rw [vs_eq w h x, hr]; simp only [vso]; omega

theorem vs_congr {g1 : Ghost} {x y : Nat} (e : g1.io x = g.io y) : vs w g1 x = vs w g y := by
  unfold vs; rw [e]

theorem vso_congr {g1 : Ghost} {c : Option Nat} (e : ∀ y, c = some y → g1.io y = g.io y) :
    vso w g1 c = vso w g c := by
  cases c with
  | none => rfl
  | some y => exact vs_congr w (e y rfl)

theorem lg_mono {a b : Nat} (h : a ≤ b) : Nat.log 2 a ≤ Nat.log 2 b :=
  Nat.log_mono_right h

/-- Two disjoint parts of a whole cannot both have the rank of the whole. -/
theorem lg_split {a b c : Nat} (ha : 1 ≤ a) (h : a + b < c)
    (e : Nat.log 2 a = Nat.log 2 c) : Nat.log 2 b < Nat.log 2 c := by
  by_contra hcon
  have hle : Nat.log 2 c ≤ Nat.log 2 b := Nat.le_of_not_lt hcon
  have hc0 : c ≠ 0 := by omega
  have ha0 : a ≠ 0 := by omega
  have h1 : 2 ^ Nat.log 2 a ≤ a := Nat.pow_log_le_self 2 ha0
  have h3 : c < 2 ^ (Nat.log 2 c + 1) := Nat.lt_pow_succ_log_self (by norm_num) c
  by_cases hb0 : b = 0
  · subst hb0
    simp at hle
    have : c < 2 := by
      rcases Nat.lt_or_ge c 2 with h4 | h4
      · exact h4
      · have := Nat.log_pos (b := 2) (by norm_num) h4; omega
    omega
  · have h2 : 2 ^ Nat.log 2 b ≤ b := Nat.pow_log_le_self 2 hb0
    have h4 : 2 ^ Nat.log 2 c ≤ 2 ^ Nat.log 2 b := Nat.pow_le_pow_right (by norm_num) hle
    rw [e] at h1
    rw [pow_succ] at h3
    omega

theorem lg_pair {a b c : Nat} (ha : 1 ≤ a) (hb : 1 ≤ b) (h : a + b < c) :
    Nat.log 2 a + Nat.log 2 b + 1 ≤ 2 * Nat.log 2 c := by
  have h1 : Nat.log 2 a ≤ Nat.log 2 c := lg_mono (by omega)
  have h2 : Nat.log 2 b ≤ Nat.log 2 c := lg_mono (by omega)
  by_cases e : Nat.log 2 a = Nat.log 2 c
  · have := lg_split ha h e
    omega
  · omega

/-- A sum over `range n` whose terms change at two places only. -/
theorem sum_change_two {n x y : Nat} (f f1 : Nat → Nat) (hx : x < n) (hy : y < n)
    (hxy : x ≠ y) (ho : ∀ u, u ≠ x → u ≠ y → f1 u = f u) :
    (∑ u in Finset.range n, f1 u) + f x + f y = (∑ u in Finset.range n, f u) + f1 x + f1 y := by
  have hsub : ({x, y} : Finset Nat) ⊆ Finset.range n := by
    intro u hu
    simp only [Finset.mem_insert, Finset.mem_singleton] at hu
    rcases hu with hu | hu <;> subst hu <;> simpa
  have e1 := Finset.sum_sdiff (f := f1) hsub
  have e2 := Finset.sum_sdiff (f := f) hsub
  have e3 : ∑ u in Finset.range n \ {x, y}, f1 u = ∑ u in Finset.range n \ {x, y}, f u := by
    apply Finset.sum_congr rfl
    intro u hu
    simp only [Finset.mem_sdiff, Finset.mem_insert, Finset.mem_singleton, not_or] at hu
    exact ho u hu.2.1 hu.2.2
  rw [Finset.sum_pair hxy] at e1 e2
  omega

/-- The potential after a change of the in-order sequences of two nodes, of
which `y` takes over the sequence of `x`. -/
theorem Phi_rot {n x y : Nat} {g1 : Ghost} (hx : x < n) (hy : y < n) (hxy : x ≠ y)
    (ey : g1.io y = g.io x) (ho : ∀ u, u ≠ x → u ≠ y → g1.io u = g.io u) :
    Phi w n g1 + rk w g y = Phi w n g + rk w g1 x := by
  have := sum_change_two (n := n) (fun u => rk w g u) (fun u => rk w g1 u) hx hy hxy
    (fun u h1 h2 => by simp only [rk]; rw [vs_congr w (ho u h1 h2)])
  have e : rk w g1 y = rk w g x := by simp only [rk]; rw [vs_congr w ey]
  simp only [Phi]
  simp only [] at this
  omega

end Potential

section RotationPotential

variable {s : Heap} {g : Ghost} (w : Nat → Nat) (n : Nat)

/-- `rotR` with the change of the weights and of the potential. -/
theorem rotR_pot (h : Inv s g) {x y t : Nat} (hl : s.left x = some y) (ht : t ∈ g.io x)
    (hx : x < n) (hy : y < n) :
    ∃ s1 g1, rotR s x = some s1 ∧ SplayRel s g t s1 g1 ∧
      g1.io y = g.io x ∧ (∀ u, u ≠ x → u ≠ y → g1.io u = g.io u) ∧
      (∀ u, s1.left u = if u = x then s.right y
        else if s.left u = some x then some y else s.left u) ∧
      (∀ u, s1.right u = if u = y then some x
        else if s.right u = some x then some y else s.right u) ∧
      (∀ u, s1.parent u = if u = y then s.parent x else if u = x then some y
        else if s.right y = some u then some x else s.parent u) ∧
      (∀ u, s1.isRoot u = if u = y then s.isRoot x else if u = x then false
        else s.isRoot u) ∧
      vs w g1 x + vso w g (s.left y) + w y = vs w g x ∧
      Phi w n g1 + rk w g y = Phi w n g + rk w g1 x := by
  obtain ⟨s1, g1, e, rel, hy1, hn1, hL, hR, hP, hI⟩ := rotR_spec h hl ht
  have hyx : y ≠ x := h.left_ne hl
  refine ⟨s1, g1, e, rel, hy1, hn1, hL, hR, hP, hI, ?_, ?_⟩
  · have e1 : s1.left x = s.right y := by rw [hL, if_pos rfl]
    have e2 : s1.right x = s.right x := by
      rw [hR, if_neg (Ne.symm hyx), if_neg (fun e => h.right_ne e rfl)]
    have c1 : vso w g1 (s.right y) = vso w g (s.right y) := by
      apply vso_congr
      intro c hc
      refine hn1 c ?_ (h.right_ne hc)
      intro e3; subst e3
      have := h.right_len hc; have := h.left_len hl; omega
    have c2 : vso w g1 (s.right x) = vso w g (s.right x) := by
      apply vso_congr
      intro c hc
      exact hn1 c (h.right_ne hc) (fun e3 => h.left_ne_right hl hc e3.symm)
    have a1 := vs_eq w rel.inv x
    have a2 := vs_eq w h x
    have a3 := vs_eq w h y
    rw [e1, e2, c1, c2] at a1
    rw [hl, vso_some] at a2
    omega
  · exact Phi_rot w hx hy (Ne.symm hyx) hy1 hn1

/-- `rotL` with the change of the weights and of the potential. -/
theorem rotL_pot (h : Inv s g) {x y t : Nat} (hl : s.right x = some y) (ht : t ∈ g.io x)
    (hx : x < n) (hy : y < n) :
    ∃ s1 g1, rotL s x = some s1 ∧ SplayRel s g t s1 g1 ∧
      g1.io y = g.io x ∧ (∀ u, u ≠ x → u ≠ y → g1.io u = g.io u) ∧
      (∀ u, s1.left u = if u = y then some x
        else if s.left u = some x then some y else s.left u) ∧
      (∀ u, s1.right u = if u = x then s.left y
        else if s.right u = some x then some y else s.right u) ∧
      (∀ u, s1.parent u = if u = y then s.parent x else if u = x then some y
        else if s.left y = some u then some x else s.parent u) ∧
      (∀ u, s1.isRoot u = if u = y then s.isRoot x else if u = x then false
        else s.isRoot u) ∧
      vs w g1 x + vso w g (s.right y) + w y = vs w g x ∧
      Phi w n g1 + rk w g y = Phi w n g + rk w g1 x := by
  obtain ⟨s1, g1, e, rel, hy1, hn1, hL, hR, hP, hI⟩ := rotL_spec h hl ht
  have hyx : y ≠ x := h.right_ne hl
  refine ⟨s1, g1, e, rel, hy1, hn1, hL, hR, hP, hI, ?_, ?_⟩
  · have e1 : s1.right x = s.left y := by rw [hR, if_pos rfl]
    have e2 : s1.left x = s.left x := by
      rw [hL, if_neg (Ne.symm hyx), if_neg (fun e => h.left_ne e rfl)]
    have c1 : vso w g1 (s.left y) = vso w g (s.left y) := by
      apply vso_congr
      intro c hc
      refine hn1 c ?_ (h.left_ne hc)
      intro e3; subst e3
      have := h.left_len hc; have := h.right_len hl; omega
    have c2 : vso w g1 (s.left x) = vso w g (s.left x) := by
      apply vso_congr
      intro c hc
      exact hn1 c (h.left_ne hc) (fun e3 => h.left_ne_right hc hl e3)
    have a1 := vs_eq w rel.inv x
    have a2 := vs_eq w h x
    have a3 := vs_eq w h y
    rw [e1, e2, c1, c2] at a1
    rw [hl, vso_some] at a2
    omega
  · exact Phi_rot w hx hy (Ne.symm hyx) hy1 hn1

/-- One iteration of the loop of `splay` with its amortized cost: the number
of rotations plus twice the change of the potential is at most six times the
rise of the rank of `t`, plus one for a zig. -/
theorem splayStep_pot (h : Inv s g)
    (hcl : ∀ x a, a ∈ g.io x → a ≠ x → a < n ∧ x < n) (hw : ∀ a, a < n → 1 ≤ w a)
    {t : Nat} (ht : s.isRoot t = false) :
    ∃ s1 g1, splayStep s t = some s1 ∧ SplayRel s g t s1 g1 ∧
      (g.io t).length < (g1.io t).length ∧
      stepRot s t + 2 * Phi w n g1 + 6 * rk w g t ≤ 2 * Phi w n g + 6 * rk w g1 t + 1 ∧
      (s1.isRoot t = false →
        stepRot s t + 2 * Phi w n g1 + 6 * rk w g t ≤ 2 * Phi w n g + 6 * rk w g1 t) := by
  obtain ⟨p, hp, hc⟩ := (h t).nonroot ht
  have htt := h.self_mem t
  have hlr : s.left p = some t → s.right p ≠ some t := fun e1 e2 => h.left_ne_right e1 e2 rfl
  have htp : t ∈ g.io p := by
    rcases hc with hc | hc
    · exact h.left_mem hc t htt
    · exact h.right_mem hc t htt
  have hlen : (g.io t).length < (g.io p).length := by
    rcases hc with hc | hc
    · exact h.left_len hc
    · exact h.right_len hc
  have htp1 : t ≠ p := fun e => by rw [e] at hlen; omega
  obtain ⟨htn, hpn⟩ := hcl p t htp htp1
  have hvtp : vs w g t + w p ≤ vs w g p := by
    rcases hc with hc | hc
    · exact vs_left_le w h hc
    · exact vs_right_le w h hc
  have hwt : 1 ≤ vs w g t := le_trans (hw t htn) (vs_self_le w h t)
  cases hrp : s.isRoot p with
  | true =>
    have hsr : stepRot s t = 1 := by simp [stepRot, hp, hrp]
    rcases hc with hc | hc
    · obtain ⟨s1, g1, e, rel, hy, hn1, hL, hR, hP, hI, hv, hphi⟩ :=
        rotR_pot w n h hc htp hpn htn
      have hroot : s1.isRoot t = true := by rw [hI, if_pos rfl, hrp]
      have r1 : rk w g1 t = rk w g p := by simp only [rk]; rw [vs_congr w hy]
      have r2 : rk w g1 p ≤ rk w g p := lg_mono (by omega)
      have r3 : rk w g t ≤ rk w g p := lg_mono (by omega)
      refine ⟨s1, g1, ?_, rel, by rw [hy]; exact hlen, ?_, ?_⟩
      · simp [splayStep, hp, hrp, hc, e]
      · rw [hsr, r1]; omega
      · intro hf; rw [hroot] at hf; cases hf
    · have hl : s.left p ≠ some t := fun e => hlr e hc
      obtain ⟨s1, g1, e, rel, hy, hn1, hL, hR, hP, hI, hv, hphi⟩ :=
        rotL_pot w n h hc htp hpn htn
      have hroot : s1.isRoot t = true := by rw [hI, if_pos rfl, hrp]
      have r1 : rk w g1 t = rk w g p := by simp only [rk]; rw [vs_congr w hy]
      have r2 : rk w g1 p ≤ rk w g p := lg_mono (by omega)
      have r3 : rk w g t ≤ rk w g p := lg_mono (by omega)
      refine ⟨s1, g1, ?_, rel, by rw [hy]; exact hlen, ?_, ?_⟩
      · simp [splayStep, hp, hrp, hl, e]
      · rw [hsr, r1]; omega
      · intro hf; rw [hroot] at hf; cases hf
  | false =>
    have hsr : stepRot s t = 2 := by simp [stepRot, hp, hrp]
    obtain ⟨q, hq, hcq⟩ := (h p).nonroot hrp
    have hlrq : s.left q = some p → s.right q ≠ some p := fun e1 e2 =>
      h.left_ne_right e1 e2 rfl
    have hpq : ∀ a ∈ g.io p, a ∈ g.io q := by
      rcases hcq with hcq | hcq
      · exact h.left_mem hcq
      · exact h.right_mem hcq
    have hlenq : (g.io p).length < (g.io q).length := by
      rcases hcq with hcq | hcq
      · exact h.left_len hcq
      · exact h.right_len hcq
    have htq : t ∈ g.io q := hpq t htp
    have htq1 : t ≠ q := fun e => by rw [e] at hlen; omega
    have hpq1 : p ≠ q := fun e => by rw [e] at hlenq; omega
    obtain ⟨-, hqn⟩ := hcl q p (hpq p (h.self_mem p)) hpq1
    have hvpq : vs w g p + w q ≤ vs w g q := by
      rcases hcq with hcq | hcq
      · exact vs_left_le w h hcq
      · exact vs_right_le w h hcq
    have hwp := hw p hpn
    have hwq := hw q hqn
    have hwtt := hw t htn
    have r0 : rk w g t ≤ rk w g p := lg_mono (by omega)
    rcases hc with hc | hc
    · have hr : s.right p ≠ some t := hlr hc
      rcases hcq with hcq | hcq
      · -- lefthanded zigzig
        obtain ⟨s1, g1, e1, rel1, hy1, hn1, hL1, hR1, hP1, hI1, hv1, hphi1⟩ :=
          rotR_pot w n h hcq htq hqn hpn
        have a1 : s1.parent t = some p := by
          rw [hP1, if_neg htp1, if_neg htq1, if_neg hr, hp]
        have a2 : s1.left p = some t := by
          rw [hL1, if_neg hpq1, if_neg (by rw [hc]; simp [htq1]), hc]
        have a3 : t ∈ g1.io p := by rw [hy1]; exact htq
        obtain ⟨s2, g2, e2, rel2, hy2, hn2, hL2, hR2, hP2, hI2, hv2, hphi2⟩ :=
          rotR_pot w n rel1.inv a2 a3 hpn htn
        have b1 : rk w g1 t = rk w g t := by
          simp only [rk]; rw [vs_congr w (hn1 t htq1 htp1)]
        have b2 : rk w g2 t = rk w g q := by
          simp only [rk]; rw [vs_congr w hy2, vs_congr w hy1]
        have b3 : vs w g1 p = vs w g q := vs_congr w hy1
        rw [hc, vso_some] at hv1
        have b4 : rk w g2 p ≤ rk w g q := lg_mono (by omega)
        have b5 : rk w g1 q ≤ rk w g q := lg_mono (by omega)
        have b6 : rk w g t = rk w g q → rk w g1 q < rk w g q := fun e =>
          lg_split hwt (by omega) e
        have b7 : rk w g t ≤ rk w g q := lg_mono (by omega)
        have key : 2 + 2 * Phi w n g2 + 6 * rk w g t ≤ 2 * Phi w n g + 6 * rk w g2 t := by
          rw [b2]
          by_cases e : rk w g t = rk w g q
          · have := b6 e; omega
          · omega
        refine ⟨s2, g2, ?_, rel1.splayTrans rel2, by rw [hy2, hy1]; omega, ?_, ?_⟩
        · simp [splayStep, hp, hrp, hc, hq, hcq, e1, a1, e2]
        · rw [hsr]; omega
        · intro _; rw [hsr]; exact key
      · -- righthanded zigzag
        have hlq : s.left q ≠ some p := fun e => hlrq e hcq
        obtain ⟨s1, g1, e1, rel1, hy1, hn1, hL1, hR1, hP1, hI1, hv1, hphi1⟩ :=
          rotR_pot w n h hc htp hpn htn
        have a1 : s1.parent t = some q := by
          rw [hP1, if_pos rfl, hq]
        have a2 : s1.right q = some t := by
          rw [hR1, if_neg (Ne.symm htq1), if_pos hcq]
        have a3 : t ∈ g1.io q := by rw [hn1 q (Ne.symm hpq1) (Ne.symm htq1)]; exact htq
        obtain ⟨s2, g2, e2, rel2, hy2, hn2, hL2, hR2, hP2, hI2, hv2, hphi2⟩ :=
          rotL_pot w n rel1.inv a2 a3 hqn htn
        have a4 : s1.right t = some p := by rw [hR1, if_pos rfl]
        have b1 : rk w g1 t = rk w g p := by
          simp only [rk]; rw [vs_congr w hy1]
        have b2 : rk w g2 t = rk w g q := by
          simp only [rk]; rw [vs_congr w hy2, vs_congr w (hn1 q (Ne.symm hpq1) (Ne.symm htq1))]
        have b3 : vs w g1 q = vs w g q := vs_congr w (hn1 q (Ne.symm hpq1) (Ne.symm htq1))
        rw [a4, vso_some] at hv2
        have c1 : 1 ≤ vs w g1 p := le_trans hwp (vs_self_le w rel1.inv p)
        have c2 : 1 ≤ vs w g2 q := le_trans hwq (vs_self_le w rel2.inv q)
        have b4 := lg_pair c1 c2 (c := vs w g q) (by omega)
        have b7 : rk w g t ≤ rk w g q := lg_mono (by omega)
        have key : 2 + 2 * Phi w n g2 + 6 * rk w g t ≤ 2 * Phi w n g + 6 * rk w g2 t := by
          rw [b2]
          simp only [rk] at *
          omega
        refine ⟨s2, g2, ?_, rel1.splayTrans rel2, ?_, ?_, ?_⟩
        · simp [splayStep, hp, hrp, hc, hr, hq, hcq, hlq, e1, a1, e2]
        · rw [hy2, hn1 q (Ne.symm hpq1) (Ne.symm htq1)]; omega
        · rw [hsr]; omega
        · intro _; rw [hsr]; exact key
    · have hl : s.left p ≠ some t := fun e => hlr e hc
      rcases hcq with hcq | hcq
      · -- lefthanded zigzag
        have hrq : s.right q ≠ some p := hlrq hcq
        obtain ⟨s1, g1, e1, rel1, hy1, hn1, hL1, hR1, hP1, hI1, hv1, hphi1⟩ :=
          rotL_pot w n h hc htp hpn htn
        have a1 : s1.parent t = some q := by
          rw [hP1, if_pos rfl, hq]
        have a2 : s1.left q = some t := by
          rw [hL1, if_neg (Ne.symm htq1), if_pos hcq]
        have a3 : t ∈ g1.io q := by rw [hn1 q (Ne.symm hpq1) (Ne.symm htq1)]; exact htq
        obtain ⟨s2, g2, e2, rel2, hy2, hn2, hL2, hR2, hP2, hI2, hv2, hphi2⟩ :=
          rotR_pot w n rel1.inv a2 a3 hqn htn
        have a4 : s1.left t = some p := by rw [hL1, if_pos rfl]
        have b1 : rk w g1 t = rk w g p := by
          simp only [rk]; rw [vs_congr w hy1]
        have b2 : rk w g2 t = rk w g q := by
          simp only [rk]; rw [vs_congr w hy2, vs_congr w (hn1 q (Ne.symm hpq1) (Ne.symm htq1))]
        have b3 : vs w g1 q = vs w g q := vs_congr w (hn1 q (Ne.symm hpq1) (Ne.symm htq1))
        rw [a4, vso_some] at hv2
        have c1 : 1 ≤ vs w g1 p := le_trans hwp (vs_self_le w rel1.inv p)
        have c2 : 1 ≤ vs w g2 q := le_trans hwq (vs_self_le w rel2.inv q)
        have b4 := lg_pair c1 c2 (c := vs w g q) (by omega)
        have b7 : rk w g t ≤ rk w g q := lg_mono (by omega)
        have key : 2 + 2 * Phi w n g2 + 6 * rk w g t ≤ 2 * Phi w n g + 6 * rk w g2 t := by
          rw [b2]
          simp only [rk] at *
          omega
        refine ⟨s2, g2, ?_, rel1.splayTrans rel2, ?_, ?_, ?_⟩
        · simp [splayStep, hp, hrp, hc, hl, hq, hcq, hrq, e1, a1, e2]
        · rw [hy2, hn1 q (Ne.symm hpq1) (Ne.symm htq1)]; omega
        · rw [hsr]; omega
        · intro _; rw [hsr]; exact key
      · -- righthanded zigzig
        obtain ⟨s1, g1, e1, rel1, hy1, hn1, hL1, hR1, hP1, hI1, hv1, hphi1⟩ :=
          rotL_pot w n h hcq htq hqn hpn
        have a1 : s1.parent t = some p := by
          rw [hP1, if_neg htp1, if_neg htq1, if_neg hl, hp]
        have a2 : s1.right p = some t := by
          rw [hR1, if_neg hpq1, if_neg (by rw [hc]; simp [htq1]), hc]
        have a3 : t ∈ g1.io p := by rw [hy1]; exact htq
        obtain ⟨s2, g2, e2, rel2, hy2, hn2, hL2, hR2, hP2, hI2, hv2, hphi2⟩ :=
          rotL_pot w n rel1.inv a2 a3 hpn htn
        have b1 : rk w g1 t = rk w g t := by
          simp only [rk]; rw [vs_congr w (hn1 t htq1 htp1)]
        have b2 : rk w g2 t = rk w g q := by
          simp only [rk]; rw [vs_congr w hy2, vs_congr w hy1]
        have b3 : vs w g1 p = vs w g q := vs_congr w hy1
        rw [hc, vso_some] at hv1
        have b4 : rk w g2 p ≤ rk w g q := lg_mono (by omega)
        have b5 : rk w g1 q ≤ rk w g q := lg_mono (by omega)
        have b6 : rk w g t = rk w g q → rk w g1 q < rk w g q := fun e =>
          lg_split hwt (by omega) e
        have b7 : rk w g t ≤ rk w g q := lg_mono (by omega)
        have key : 2 + 2 * Phi w n g2 + 6 * rk w g t ≤ 2 * Phi w n g + 6 * rk w g2 t := by
          rw [b2]
          by_cases e : rk w g t = rk w g q
          · have := b6 e; omega
          · omega
        refine ⟨s2, g2, ?_, rel1.splayTrans rel2, by rw [hy2, hy1]; omega, ?_, ?_⟩
        · simp [splayStep, hp, hrp, hc, hl, hq, hcq, e1, a1, e2]
        · rw [hsr]; omega
        · intro _; rw [hsr]; exact key

end RotationPotential

section SplayPotential

variable {s : Heap} {g : Ghost} (w : Nat → Nat) (n : Nat)

/-- In a chain with at least two elements every element has a neighbour. -/
theorem chain_neighbour {R : Nat → Nat → Prop} : ∀ l : List Nat, l.Chain' R → 2 ≤ l.length →
    ∀ a ∈ l, ∃ c, R a c ∨ R c a := by
  intro l
  induction l with
  | nil => intro _ hl; simp at hl
  | cons a tl ih =>
    intro hc hl x hx
    cases tl with
    | nil => simp at hl
    | cons b tl =>
      have hab : R a b := (List.chain'_cons.1 hc).1
      rcases List.mem_cons.1 hx with hx | hx
      · subst hx; exact ⟨b, Or.inl hab⟩
      · cases tl with
        | nil =>
          simp at hx; subst hx; exact ⟨a, Or.inr hab⟩
        | cons c tl => exact ih (List.chain'_cons.1 hc).2 (by simp) x hx

/-- The nodes of a represented edge are below `n`. -/
def Iso (n : Nat) (rp : Nat → Option Nat) : Prop :=
  ∀ u v, rp u = some v → u < n ∧ v < n

/-- Two different nodes of one in-order sequence are below `n`. -/
theorem closed_of_iso (h : Inv s g) (hiso : Iso n g.rp) :
    ∀ x a, a ∈ g.io x → a ≠ x → a < n ∧ x < n := by
  intro x a ha hax
  have hlen : 2 ≤ (g.io x).length := by
    rcases hl : g.io x with _ | ⟨b, _ | ⟨c, tl⟩⟩
    · rw [hl] at ha; simp at ha
    · have hx := h.self_mem x
      rw [hl] at ha hx
      simp at ha hx
      exact absurd (ha.trans hx.symm) hax
    · simp
  have key : ∀ y ∈ g.io x, y < n := by
    intro y hy
    obtain ⟨c, hc | hc⟩ := chain_neighbour (g.io x) (h x).chain hlen y hy
    · exact (hiso c y hc).2
    · exact (hiso y c hc).1
  exact ⟨key a ha, key x (h.self_mem x)⟩

theorem splayC_succ_of_root {t : Nat} (ht : s.isRoot t = true) (f k : Nat) :
    splayC (f + 1) (s, k) t = some (s, k) := by
  simp [splayC, ht]

theorem splayC_succ_of_step {t : Nat} {s1 : Heap} (ht : s.isRoot t = false)
    (hs : splayStep s t = some s1) (f k : Nat) :
    splayC (f + 1) (s, k) t = splayC f (s1, k + stepRot s t) t := by
  simp [splayC, ht, splayStepC_eq, hs]

/-- Splaying with its amortized cost (the access lemma): the rotations plus
twice the change of the potential are at most six times the rise of the rank
of `t`, plus one. -/
theorem splay_pot_aux (hw : ∀ a, a < n → 1 ≤ w a) (t : Nat) :
    ∀ (m : Nat) (s : Heap) (g : Ghost), Inv s g → Iso n g.rp →
    g.N - (g.io t).length ≤ m →
    ∃ s1 g1 c, (∀ f, m + 1 ≤ f → ∀ k, splayC f (s, k) t = some (s1, k + c)) ∧
      (∀ f, m + 1 ≤ f → splay f s t = some s1) ∧
      SplayRel s g t s1 g1 ∧ s1.isRoot t = true ∧
      c + 2 * Phi w n g1 + 6 * rk w g t
        ≤ 2 * Phi w n g + 6 * rk w g1 t + (if s.isRoot t = true then 0 else 1) := by
  intro m
  induction m with
  | zero =>
    intro s g h hiso hn
    cases ht : s.isRoot t with
    | true =>
      refine ⟨s, g, 0, ?_, ?_, SplayRel.splayRefl h t, ht, by simp⟩
      · intro f hf k
        obtain ⟨f', rfl⟩ : ∃ f', f = f' + 1 := ⟨f - 1, by omega⟩
        exact splayC_succ_of_root ht f' k
      · intro f hf
        obtain ⟨f', rfl⟩ : ∃ f', f = f' + 1 := ⟨f - 1, by omega⟩
        exact splay_succ_of_root ht f'
    | false =>
      obtain ⟨s1, g1, _, rel, hlt⟩ := splayStep_spec h ht
      have := (rel.inv t).size
      have := rel.N
      omega
  | succ m ih =>
    intro s g h hiso hn
    cases ht : s.isRoot t with
    | true =>
      refine ⟨s, g, 0, ?_, ?_, SplayRel.splayRefl h t, ht, by simp⟩
      · intro f hf k
        obtain ⟨f', rfl⟩ : ∃ f', f = f' + 1 := ⟨f - 1, by omega⟩
        exact splayC_succ_of_root ht f' k
      · intro f hf
        obtain ⟨f', rfl⟩ : ∃ f', f = f' + 1 := ⟨f - 1, by omega⟩
        exact splay_succ_of_root ht f'
    | false =>
      obtain ⟨s1, g1, e1, rel, hlt, hc1, hc2⟩ :=
        splayStep_pot w n h (closed_of_iso n h hiso) hw ht
      have h1 := (rel.inv t).size
      have h2 := rel.N
      have hiso1 : Iso n g1.rp := by rw [rel.rp]; exact hiso
      obtain ⟨s2, g2, c2, e2, e2', rel2, hr2, hcost⟩ := ih s1 g1 rel.inv hiso1 (by omega)
      refine ⟨s2, g2, stepRot s t + c2, ?_, ?_, rel.splayTrans rel2, hr2, ?_⟩
      · intro f hf k
        obtain ⟨f', rfl⟩ : ∃ f', f = f' + 1 := ⟨f - 1, by omega⟩
        rw [splayC_succ_of_step ht e1, e2 f' (by omega), Nat.add_assoc]
      · intro f hf
        obtain ⟨f', rfl⟩ : ∃ f', f = f' + 1 := ⟨f - 1, by omega⟩
        rw [splay_succ_of_step ht e1]
        exact e2' f' (by omega)
      · simp only [Bool.false_eq_true, if_false]
        cases hr1 : s1.isRoot t with
        | true =>
          rw [hr1] at hcost
          simp only [if_true] at hcost
          omega
        | false =>
          have := hc2 hr1
          rw [hr1] at hcost
          simp only [Bool.false_eq_true, if_false] at hcost
          omega

/-- Splaying `t` with its amortized cost. -/
theorem splay_pot (h : Inv s g) (hiso : Iso n g.rp) (hw : ∀ a, a < n → 1 ≤ w a) (t : Nat) :
    ∃ s1 g1 c, (∀ f, g.N - (g.io t).length + 1 ≤ f → ∀ k,
        splayC f (s, k) t = some (s1, k + c)) ∧
      (∀ f, g.N - (g.io t).length + 1 ≤ f → splay f s t = some s1) ∧
      SplayRel s g t s1 g1 ∧ s1.isRoot t = true ∧
      (∀ r, s.isRoot r = true → t ∈ g.io r → g1.io t = g.io r ∧ s1.parent t = s.parent r) ∧
      c + 2 * Phi w n g1 + 6 * rk w g t ≤ 2 * Phi w n g + 6 * rk w g1 t + 1 := by
  obtain ⟨s1, g1, c, e, e', rel, hr, hcost⟩ := splay_pot_aux w n hw t _ s g h hiso le_rfl
  refine ⟨s1, g1, c, e, e', rel, hr, ?_, ?_⟩
  · intro r hrr htr
    obtain ⟨r1, a1, a2, a3, a4⟩ := rel.top r hrr htr
    have : t = r1 := rel.inv.mem_root a2 hr
    subst this
    exact ⟨a3, a4⟩
  · split at hcost <;> omega

end SplayPotential

/-! ## Sizes of represented subtrees -/

section Sizes

/-- Node `a` is reached from `y` in at most `k` represented-parent steps. -/
def reachB (rp : Nat → Option Nat) : Nat → Nat → Nat → Bool
  | 0, y, a => decide (y = a)
  | k + 1, y, a =>
    decide (y = a) || match rp y with
      | some p => reachB rp k p a
      | none => false

/-- The number of nodes below `n` in the represented subtree of `a`. -/
def rsize (n : Nat) (rp : Nat → Option Nat) (a : Nat) : Nat :=
  ((Finset.range n).filter fun y => reachB rp n y a = true).card

/-- The size behind an optional node. -/
def rsizeo (n : Nat) (rp : Nat → Option Nat) : Option Nat → Nat
  | none => 0
  | some c => rsize n rp c

/-- Node `a` is `y` or an ancestor of `y` along `rp`. -/
def Anc (rp : Nat → Option Nat) (y a : Nat) : Prop :=
  Relation.ReflTransGen (fun x p => rp x = some p) y a

/-- The parent map `rp` has no cycle: a rank decreases along it. -/
def Acyclic (rp : Nat → Option Nat) : Prop :=
  ∃ d : Nat → Nat, ∀ x p, rp x = some p → d p < d x

variable {rp : Nat → Option Nat} {n : Nat}

theorem reachB_sound : ∀ (k y a : Nat), reachB rp k y a = true → Anc rp y a := by
  intro k
  induction k with
  | zero =>
    intro y a h
    simp [reachB] at h; subst h; exact Relation.ReflTransGen.refl
  | succ k ih =>
    intro y a h
    simp only [reachB, Bool.or_eq_true, decide_eq_true_eq] at h
    rcases h with h | h
    · subst h; exact Relation.ReflTransGen.refl
    · cases hp : rp y with
      | none => rw [hp] at h; cases h
      | some p =>
        rw [hp] at h
        exact Relation.ReflTransGen.head hp (ih p a h)

theorem reachB_mono : ∀ (k y a : Nat), reachB rp k y a = true → reachB rp (k + 1) y a = true := by
  intro k
  induction k with
  | zero =>
    intro y a h
    simp [reachB] at h; subst h; simp [reachB]
  | succ k ih =>
    intro y a h
    simp only [reachB, Bool.or_eq_true, decide_eq_true_eq] at h
    rcases h with h | h
    · subst h; simp [reachB]
    · cases hp : rp y with
      | none => rw [hp] at h; cases h
      | some p =>
        rw [hp] at h
        have := ih p a h
        rw [reachB]
        simp only [hp, Bool.or_eq_true, decide_eq_true_eq]
        exact Or.inr this

theorem reachB_mono_le {k m y a : Nat} (h : reachB rp k y a = true) (hkm : k ≤ m) :
    reachB rp m y a = true := by
  induction hkm with
  | refl => exact h
  | step _ ih => exact reachB_mono _ _ _ ih

/-- Along `rp` an ancestor has a smaller rank. -/
theorem anc_rank {d : Nat → Nat} (hd : ∀ x p, rp x = some p → d p < d x) {y a : Nat}
    (h : Anc rp y a) : d a ≤ d y ∧ (y ≠ a → d a < d y) := by
  induction h using Relation.ReflTransGen.head_induction_on with
  | refl => exact ⟨le_rfl, fun e => absurd rfl e⟩
  | head hab _ ih =>
    have := hd _ _ hab
    exact ⟨by omega, fun _ => by omega⟩

/-- A compressed rank: the number of nodes below `n` of smaller rank. -/
def crank (n : Nat) (d : Nat → Nat) (x : Nat) : Nat :=
  ((Finset.range n).filter fun z => d z < d x).card

theorem crank_lt {d : Nat → Nat} {x p : Nat} (hp : p < n) (h : d p < d x) :
    crank n d p < crank n d x := by
  unfold crank
  apply Finset.card_lt_card
  rw [Finset.ssubset_iff_of_subset]
  · refine ⟨p, ?_, ?_⟩
    · simp [hp, h]
    · simp
  · intro z hz
    simp only [Finset.mem_filter, Finset.mem_range] at hz ⊢
    exact ⟨hz.1, by omega⟩

theorem reachB_complete {d : Nat → Nat} (hd : ∀ x p, rp x = some p → d p < d x)
    (hiso : Iso n rp) : ∀ (k y a : Nat), crank n d y ≤ k → Anc rp y a →
    reachB rp k y a = true := by
  intro k
  induction k with
  | zero =>
    intro y a hk h
    by_cases e : y = a
    · subst e; simp [reachB]
    · exfalso
      induction h using Relation.ReflTransGen.head_induction_on with
      | refl => exact e rfl
      | head hab _ _ =>
        have := crank_lt (hiso _ _ hab).2 (hd _ _ hab)
        omega
  | succ k ih =>
    intro y a hk h
    by_cases e : y = a
    · subst e; simp [reachB]
    · rcases Relation.ReflTransGen.cases_head h with h1 | ⟨p, hp, hpa⟩
      · exact absurd h1 e
      · have := crank_lt (hiso _ _ hp).2 (hd _ _ hp)
        have := ih p a (by omega) hpa
        rw [reachB]
        simp only [hp, Bool.or_eq_true, decide_eq_true_eq]
        exact Or.inr this

theorem crank_le (d : Nat → Nat) (x : Nat) : crank n d x ≤ n := by
  unfold crank
  exact le_trans (Finset.card_filter_le _ _) (by simp)

/-- The nodes counted by `rsize`. -/
theorem mem_rsize (hac : Acyclic rp) (hiso : Iso n rp) (y a : Nat) :
    y ∈ (Finset.range n).filter (fun y => reachB rp n y a = true) ↔ y < n ∧ Anc rp y a := by
  obtain ⟨d, hd⟩ := hac
  simp only [Finset.mem_filter, Finset.mem_range]
  constructor
  · rintro ⟨h1, h2⟩; exact ⟨h1, reachB_sound _ _ _ h2⟩
  · rintro ⟨h1, h2⟩
    exact ⟨h1, reachB_complete hd hiso n y a (crank_le d y) h2⟩

theorem rsize_le (a : Nat) : rsize n rp a ≤ n := by
  unfold rsize
  exact le_trans (Finset.card_filter_le _ _) (by simp)

theorem rsize_pos (hac : Acyclic rp) (hiso : Iso n rp) {a : Nat} (ha : a < n) :
    1 ≤ rsize n rp a := by
  unfold rsize
  apply Finset.card_pos.2
  exact ⟨a, (mem_rsize hac hiso a a).2 ⟨ha, Relation.ReflTransGen.refl⟩⟩

/-- A child subtree is smaller than the subtree of its parent. -/
theorem rsize_child (hac : Acyclic rp) (hiso : Iso n rp) {c a : Nat} (h : rp c = some a) :
    rsize n rp c + 1 ≤ rsize n rp a := by
  unfold rsize
  have ha : a < n := (hiso c a h).2
  have hsub : (Finset.range n).filter (fun y => reachB rp n y c = true)
      ⊂ (Finset.range n).filter (fun y => reachB rp n y a = true) := by
    rw [Finset.ssubset_iff_of_subset]
    · refine ⟨a, (mem_rsize hac hiso a a).2 ⟨ha, Relation.ReflTransGen.refl⟩, ?_⟩
      intro hm
      obtain ⟨d, hd⟩ := hac
      have h2 := ((mem_rsize ⟨d, hd⟩ hiso a c).1 hm).2
      have := (anc_rank hd h2).1
      have := hd _ _ h
      omega
    · intro y hy
      obtain ⟨h1, h2⟩ := (mem_rsize hac hiso y c).1 hy
      exact (mem_rsize hac hiso y a).2 ⟨h1, Relation.ReflTransGen.tail h2 h⟩
  exact Finset.card_lt_card hsub

theorem anc_total {y a b : Nat} (h1 : Anc rp y a) (h2 : Anc rp y b) : Anc rp a b ∨ Anc rp b a := by
  refine Relation.ReflTransGen.total_of_right_unique ?_ h1 h2
  intro x p q hp hq
  rw [hp] at hq; cases hq; rfl

/-- Two children of one node have disjoint subtrees inside that of their
parent. -/
theorem rsize_children (hac : Acyclic rp) (hiso : Iso n rp) {c e a : Nat} (hc : rp c = some a)
    (he : rp e = some a) (hne : c ≠ e) : rsize n rp c + rsize n rp e + 1 ≤ rsize n rp a := by
  unfold rsize
  have ha : a < n := (hiso c a hc).2
  obtain ⟨d, hd⟩ := hac
  have hdisj : Disjoint ((Finset.range n).filter (fun y => reachB rp n y c = true))
      ((Finset.range n).filter (fun y => reachB rp n y e = true)) := by
    rw [Finset.disjoint_left]
    intro y h1 h2
    have a1 := ((mem_rsize ⟨d, hd⟩ hiso y c).1 h1).2
    have a2 := ((mem_rsize ⟨d, hd⟩ hiso y e).1 h2).2
    have key : ∀ {u v : Nat}, rp u = some a → rp v = some a → u ≠ v → ¬ Anc rp u v := by
      intro u v hu hv huv h
      rcases Relation.ReflTransGen.cases_head h with h3 | ⟨p, hp, hpv⟩
      · exact huv h3
      · rw [hu] at hp; cases hp
        have := (anc_rank hd hpv).1
        have := hd _ _ hv
        omega
    rcases anc_total a1 a2 with h3 | h3
    · exact key hc he hne h3
    · exact key he hc (Ne.symm hne) h3
  have hsub : (Finset.range n).filter (fun y => reachB rp n y c = true) ∪
      (Finset.range n).filter (fun y => reachB rp n y e = true)
      ⊂ (Finset.range n).filter (fun y => reachB rp n y a = true) := by
    rw [Finset.ssubset_iff_of_subset]
    · refine ⟨a, (mem_rsize ⟨d, hd⟩ hiso a a).2 ⟨ha, Relation.ReflTransGen.refl⟩, ?_⟩
      intro hm
      rcases Finset.mem_union.1 hm with hm | hm
      · have h2 := ((mem_rsize ⟨d, hd⟩ hiso a c).1 hm).2
        have := (anc_rank hd h2).1
        have := hd _ _ hc
        omega
      · have h2 := ((mem_rsize ⟨d, hd⟩ hiso a e).1 hm).2
        have := (anc_rank hd h2).1
        have := hd _ _ he
        omega
    · intro y hy
      rcases Finset.mem_union.1 hy with hy | hy
      · obtain ⟨h1, h2⟩ := (mem_rsize ⟨d, hd⟩ hiso y c).1 hy
        exact (mem_rsize ⟨d, hd⟩ hiso y a).2 ⟨h1, Relation.ReflTransGen.tail h2 hc⟩
      · obtain ⟨h1, h2⟩ := (mem_rsize ⟨d, hd⟩ hiso y e).1 hy
        exact (mem_rsize ⟨d, hd⟩ hiso y a).2 ⟨h1, Relation.ReflTransGen.tail h2 he⟩
  have := Finset.card_lt_card hsub
  rw [Finset.card_union_of_disjoint hdisj] at this
  omega

end Sizes

/-! ## Weights, preferred children and the two potentials -/

section Weights

/-- The weight of a node: the size of its represented subtree without the
subtree of its preferred child `pc a`, the next node on its path. -/
def W (n : Nat) (rp pc : Nat → Option Nat) (a : Nat) : Nat :=
  rsize n rp a - rsizeo n rp (pc a)

/-- The represented edge from `c` to its parent is heavy: the subtree of `c`
holds more than half of the subtree of the parent. -/
def heavyB (n : Nat) (rp : Nat → Option Nat) (c : Nat) : Bool :=
  match rp c with
  | some a => decide (rsize n rp a < 2 * rsize n rp c)
  | none => false

/-- Whether the represented edge above `c` is heavy and not preferred. -/
def npB (n : Nat) (rp pc : Nat → Option Nat) (c : Nat) : Bool :=
  heavyB n rp c && match rp c with
    | some a => decide (pc a ≠ some c)
    | none => false

/-- The second potential: the number of heavy represented edges that are not
preferred. -/
def Psi (n : Nat) (rp pc : Nat → Option Nat) : Nat :=
  ((Finset.range n).filter fun c => npB n rp pc c = true).card

/-- The invariant of the analysis: the structural invariant, all represented
edges among the nodes below `n`, and `pc` the successor on every path. -/
structure PInv (n : Nat) (s : Heap) (g : Ghost) (pc : Nat → Option Nat) : Prop where
  inv : Inv s g
  iso : Iso n g.rp
  pchain : ∀ r, s.isRoot r = true → (g.io r).Chain' (fun a c => pc a = some c)
  plast : ∀ r, s.isRoot r = true → ∀ l, (g.io r).getLast? = some l → pc l = none
  prp : ∀ a c, pc a = some c → g.rp c = some a

variable {n : Nat} {s : Heap} {g : Ghost} {pc : Nat → Option Nat}

theorem Inv.acyclic (h : Inv s g) : Acyclic g.rp :=
  ⟨g.d, fun x p hp => (h x).rank p hp⟩

theorem PInv.rsizeo_le (hP : PInv n s g pc) (a : Nat) :
    rsizeo n g.rp (pc a) + 1 ≤ rsize n g.rp a ∨ (pc a = none ∧ rsizeo n g.rp (pc a) = 0) := by
  cases h : pc a with
  | none => exact Or.inr ⟨rfl, rfl⟩
  | some c => exact Or.inl (rsize_child hP.inv.acyclic hP.iso (hP.prp a c h))

theorem PInv.W_pos (hP : PInv n s g pc) {a : Nat} (ha : a < n) : 1 ≤ W n g.rp pc a := by
  unfold W
  rcases hP.rsizeo_le a with h | ⟨_, h⟩
  · omega
  · rw [h]; exact rsize_pos hP.inv.acyclic hP.iso ha

/-- The weights along a path telescope. -/
theorem W_tele (hP : PInv n s g pc) : ∀ (l : List Nat) (hd : Nat),
    (hd :: l).Chain' (fun a c => pc a = some c) → ∀ lst, (hd :: l).getLast? = some lst →
    ((hd :: l).map (W n g.rp pc)).sum + rsizeo n g.rp (pc lst) = rsize n g.rp hd := by
  intro l
  induction l with
  | nil =>
    intro hd _ lst hl
    simp at hl; subst hl
    simp only [List.map_cons, List.map_nil, List.sum_cons, List.sum_nil, W]
    rcases hP.rsizeo_le hd with h | ⟨_, h⟩
    · omega
    · rw [h]; omega
  | cons b tl ih =>
    intro hd hc lst hl
    rw [List.chain'_cons] at hc
    rw [List.getLast?_cons_cons] at hl
    have h1 := ih b hc.2 lst hl
    have h2 := rsize_child hP.inv.acyclic hP.iso (hP.prp hd b hc.1)
    rw [List.map_cons, List.sum_cons]
    have : W n g.rp pc hd = rsize n g.rp hd - rsize n g.rp b := by
      unfold W; rw [hc.1]; rfl
    omega

/-- The weight of an auxiliary root is the size of the represented subtree of
the first node of its path. -/
theorem PInv.root_vs (hP : PInv n s g pc) {r hd : Nat} (hr : s.isRoot r = true)
    (hh : (g.io r).head? = some hd) : vs (W n g.rp pc) g r = rsize n g.rp hd := by
  obtain ⟨tl, e⟩ := List.head?_eq_some_iff.1 hh
  obtain ⟨lst, hl⟩ : ∃ lst, (g.io r).getLast? = some lst := by
    rw [e]; exact ⟨_, List.getLast?_eq_getLast _ (by simp)⟩
  have h1 := hP.pchain r hr
  have h2 := hP.plast r hr lst hl
  rw [e] at h1 hl
  have := W_tele hP tl hd h1 lst hl
  rw [h2] at this
  unfold vs
  rw [e]
  simpa [rsizeo] using this

theorem PInv.root_vs_le (hP : PInv n s g pc) {r : Nat} (hr : s.isRoot r = true) :
    vs (W n g.rp pc) g r ≤ n := by
  obtain ⟨hd, hh⟩ := hP.inv.exists_head r
  rw [hP.root_vs hr hh]
  exact rsize_le hd

theorem PInv.root_rk_le (hP : PInv n s g pc) {r : Nat} (hr : s.isRoot r = true) :
    rk (W n g.rp pc) g r ≤ Nat.log 2 n :=
  lg_mono (hP.root_vs_le hr)

/-- Every auxiliary root after a splay carries the path of a root before. -/
theorem SplayRel.root_io {t : Nat} {s1 : Heap} {g1 : Ghost} (h : Inv s g)
    (rel : SplayRel s g t s1 g1) {r1 : Nat} (hr1 : s1.isRoot r1 = true) :
    ∃ r, s.isRoot r = true ∧ g1.io r1 = g.io r := by
  obtain ⟨r0, hr0, hm0⟩ := rel.inv.exists_root _ r1 le_rfl
  have e0 : r1 = r0 := rel.inv.mem_root hm0 hr1
  obtain ⟨r, hr, hm⟩ := h.exists_root _ r1 le_rfl
  by_cases ht : t ∈ g.io r
  · obtain ⟨r2, a1, a2, a3, a4⟩ := rel.top r hr ht
    have : r1 ∈ g1.io r2 := by rw [a3]; exact hm
    have e : r1 = r2 := rel.inv.mem_root this hr1
    subst e
    exact ⟨r, hr, a3⟩
  · obtain ⟨a1, a2, a3, a4, a5⟩ := rel.frame r hr ht
    have : r1 ∈ g1.io r := by rw [a5]; exact hm
    have e : r1 = r := rel.inv.mem_root this hr1
    subst e
    exact ⟨r1, hr, a5⟩

/-- Splaying keeps the invariant of the analysis, with the same preferred
children. -/
theorem PInv.splay (hP : PInv n s g pc) {t : Nat} {s1 : Heap} {g1 : Ghost}
    (rel : SplayRel s g t s1 g1) : PInv n s1 g1 pc where
  inv := rel.inv
  iso := by rw [rel.rp]; exact hP.iso
  pchain := by
    intro r1 hr1
    obtain ⟨r, hr, e⟩ := rel.root_io hP.inv hr1
    rw [e]; exact hP.pchain r hr
  plast := by
    intro r1 hr1 l hl
    obtain ⟨r, hr, e⟩ := rel.root_io hP.inv hr1
    rw [e] at hl; exact hP.plast r hr l hl
  prp := by rw [rel.rp]; exact hP.prp

end Weights

section PreferredChange

variable {n : Nat} {rp pc pc1 : Nat → Option Nat}

theorem chain_congr_mem {R R1 : Nat → Nat → Prop} : ∀ l : List Nat, l.Chain' R →
    (∀ a ∈ l, ∀ c ∈ l, R a c → R1 a c) → l.Chain' R1 := by
  intro l
  induction l with
  | nil => intro _ _; exact List.chain'_nil
  | cons a tl ih =>
    intro hc hi
    cases tl with
    | nil => exact List.chain'_singleton a
    | cons b tl =>
      rw [List.chain'_cons] at hc ⊢
      refine ⟨hi a (by simp) b (by simp) hc.1, ih hc.2 ?_⟩
      intro x hx y hy hxy
      exact hi x (List.mem_cons_of_mem _ hx) y (List.mem_cons_of_mem _ hy) hxy

/-- Membership in the set counted by `Psi`. -/
theorem mem_Psi (c : Nat) :
    c ∈ (Finset.range n).filter (fun c => npB n rp pc c = true) ↔
    c < n ∧ heavyB n rp c = true ∧ ∃ a, rp c = some a ∧ pc a ≠ some c := by
  simp only [Finset.mem_filter, Finset.mem_range, npB, Bool.and_eq_true]
  constructor
  · rintro ⟨h1, h2, h3⟩
    refine ⟨h1, h2, ?_⟩
    cases hr : rp c with
    | none => rw [hr] at h3; cases h3
    | some a => rw [hr] at h3; exact ⟨a, rfl, by simpa using h3⟩
  · rintro ⟨h1, h2, a, ha, h3⟩
    refine ⟨h1, h2, ?_⟩
    rw [ha]; simpa using h3

/-- Giving up the preferred child `c0` of `a0` adds at most the edge of `c0`
to the heavy edges that are not preferred. -/
theorem Psi_unprefer {a0 c0 : Nat} (hpc : ∀ a, a ≠ a0 → pc1 a = pc a) (h0 : pc a0 = some c0) :
    Psi n rp pc1 ≤ Psi n rp pc + (if heavyB n rp c0 = true then 1 else 0) := by
  unfold Psi
  by_cases hh : heavyB n rp c0 = true
  · rw [if_pos hh]
    refine le_trans (Finset.card_le_card (t := insert c0 ((Finset.range n).filter (fun c => npB n rp pc c = true))) ?_) (Finset.card_insert_le _ _)
    intro c hc
    obtain ⟨h1, h2, a, ha, h3⟩ := (mem_Psi c).1 hc
    by_cases e : c = c0
    · subst e; exact Finset.mem_insert_self _ _
    · refine Finset.mem_insert_of_mem ((mem_Psi c).2 ⟨h1, h2, a, ha, ?_⟩)
      by_cases ea : a = a0
      · subst ea; rw [h0]; intro e2; cases e2; exact e rfl
      · rw [← hpc a ea]; exact h3
  · rw [if_neg hh, Nat.add_zero]
    apply Finset.card_le_card
    intro c hc
    obtain ⟨h1, h2, a, ha, h3⟩ := (mem_Psi c).1 hc
    refine (mem_Psi c).2 ⟨h1, h2, a, ha, ?_⟩
    by_cases ea : a = a0
    · subst ea; rw [h0]; intro e2; cases e2; exact hh h2
    · rw [← hpc a ea]; exact h3

/-- Making the child `h` of `a0` preferred, when `a0` had no preferred child,
removes the edge of `h` from the heavy edges that are not preferred. -/
theorem Psi_prefer {a0 h : Nat} (hpc : ∀ a, a ≠ a0 → pc1 a = pc a) (h0 : pc a0 = none)
    (h1 : pc1 a0 = some h) (hr : rp h = some a0) (hn : h < n) :
    Psi n rp pc1 + (if heavyB n rp h = true then 1 else 0) ≤ Psi n rp pc := by
  unfold Psi
  have hsub : (Finset.range n).filter (fun c => npB n rp pc1 c = true) ⊆
      ((Finset.range n).filter (fun c => npB n rp pc c = true)).erase h := by
    intro c hc
    obtain ⟨c1, c2, a, ha, c3⟩ := (mem_Psi c).1 hc
    have hch : c ≠ h := by
      intro e; subst e
      rw [hr] at ha; cases ha
      exact c3 h1
    refine Finset.mem_erase.2 ⟨hch, (mem_Psi c).2 ⟨c1, c2, a, ha, ?_⟩⟩
    by_cases ea : a = a0
    · subst ea; rw [h0]; simp
    · rw [← hpc a ea]; exact c3
  have hle := Finset.card_le_card hsub
  by_cases hh : heavyB n rp h = true
  · rw [if_pos hh]
    have hm : h ∈ (Finset.range n).filter (fun c => npB n rp pc c = true) :=
      (mem_Psi h).2 ⟨hn, hh, a0, hr, by rw [h0]; simp⟩
    rw [Finset.card_erase_of_mem hm] at hle
    have := Finset.card_pos.2 ⟨h, hm⟩
    omega
  · rw [if_neg hh, Nat.add_zero]
    exact le_trans hle (Finset.card_erase_le)

end PreferredChange

section PathChange

variable {n : Nat} {s : Heap} {g : Ghost} {pc : Nat → Option Nat}

theorem Inv.nodup (h : Inv s g) (x : Nat) : (g.io x).Nodup :=
  (h.sorted x).imp (fun hab e => by rw [e] at hab; omega)

theorem W_update_ne {rp : Nat → Option Nat} {v a : Nat} (c : Option Nat) (ha : a ≠ v) :
    W n rp (Function.update pc v c) a = W n rp pc a := by
  unfold W; rw [Function.update_noteq ha]

theorem vs_congr_on {w w1 : Nat → Nat} {g1 : Ghost} {x y : Nat} (e : g1.io x = g.io y)
    (hw : ∀ a ∈ g.io y, w1 a = w a) : vs w1 g1 x = vs w g y := by
  unfold vs; rw [e, List.map_congr_left hw]

theorem chain_update {v : Nat} {c : Option Nat} {l : List Nat}
    (hc : l.Chain' (fun a b => pc a = some b)) (hv : ∀ a ∈ l, ∀ b ∈ l, pc a = some b → a ≠ v) :
    l.Chain' (fun a b => Function.update pc v c a = some b) :=
  chain_congr_mem l hc (fun a ha b hb hab => by
    rw [Function.update_noteq (hv a ha b hb hab)]; exact hab)

/-- The preferred child of a node lies in the auxiliary tree of the node. -/
theorem PInv.pc_mem (hP : PInv n s g pc) {a c r : Nat} (hr : s.isRoot r = true)
    (ha : a ∈ g.io r) (hc : pc a = some c) : c ∈ g.io r := by
  obtain ⟨l1, l2, e⟩ := List.append_of_mem ha
  have hch := hP.pchain r hr
  cases l2 with
  | nil =>
    have := hP.plast r hr a (by rw [e]; simp)
    rw [this] at hc; cases hc
  | cons b l2 =>
    rw [e, List.chain'_split, List.chain'_cons] at hch
    have := hch.2.1
    rw [hc] at this; cases this
    rw [e]; simp

/-- Detaching the right subtree of an auxiliary root `v`: `v` gives up its
preferred child, and no weight of a subtree changes. -/
theorem PInv.cutRight (hP : PInv n s g pc) {v r : Nat} (hv : s.isRoot v = true)
    (hr : s.right v = some r) :
    ∃ c0, pc v = some c0 ∧
      PInv n ((s.setIsRoot r true).setRight v none)
        (g.setIo v (g.ioo (s.left v) ++ [v]) g.N) (Function.update pc v none) ∧
      ∀ u, vs (W n g.rp (Function.update pc v none))
          (g.setIo v (g.ioo (s.left v) ++ [v]) g.N) u = vs (W n g.rp pc) g u := by
  have h := hP.inv
  have iov : g.io v = g.ioo (s.left v) ++ v :: g.io r := by
    have := (h v).io_eq; rw [hr] at this; exact this
  have hch := hP.pchain v hv
  rw [iov, List.chain'_split] at hch
  obtain ⟨h1, h2⟩ := hch
  obtain ⟨c0, hh⟩ := h.exists_head r
  obtain ⟨tl, etl⟩ := List.head?_eq_some_iff.1 hh
  rw [etl, List.chain'_cons] at h2
  obtain ⟨hc0, h2⟩ := h2
  rw [← etl] at h2
  have hnd := h.nodup v
  rw [iov] at hnd
  have hvL : v ∉ g.ioo (s.left v) := fun hm =>
    (List.nodup_append.1 hnd).2.2 hm (by simp) 
  have hvR : v ∉ g.io r := fun hm => by
    have := (List.nodup_append.1 hnd).2.1
    rw [List.nodup_cons] at this
    exact this.1 hm
  have hc0L : c0 ∉ g.ioo (s.left v) ++ [v] := by
    intro hm
    have hc0r : c0 ∈ g.io r := by rw [etl]; simp
    rcases List.mem_append.1 hm with hm | hm
    · exact (List.nodup_append.1 hnd).2.2 hm (List.mem_cons_of_mem _ hc0r)
    · simp at hm; subst hm; exact hvR hc0r
  have hlast : (g.io v).getLast? = (g.io r).getLast? := by
    have := h.last_eq v; rw [hr] at this; exact this
  have hrv : r ≠ v := h.right_ne hr
  have hroot : ∀ x, ((s.setIsRoot r true).setRight v none).isRoot x = true → x ≠ v →
      (g.io x).Chain' (fun a b => pc a = some b) ∧ v ∉ g.io x ∧
        ∀ l, (g.io x).getLast? = some l → pc l = none := by
    intro x hx hxv
    by_cases hxr : x = r
    · subst hxr
      exact ⟨h2, hvR, fun l hl => hP.plast v hv l (by rw [hlast]; exact hl)⟩
    · have hx' : s.isRoot x = true := by
        simpa [Function.update_apply, hxr] using hx
      exact ⟨hP.pchain x hx', h.not_mem_of_root hv hxv, hP.plast x hx'⟩
  have hsize := rsize_child h.acyclic hP.iso (hP.prp v c0 hc0)
  refine ⟨c0, hc0, ⟨cutRight_inv h hv hr, hP.iso, ?_, ?_, ?_⟩, ?_⟩
  · intro x hx
    by_cases hxv : x = v
    · subst hxv
      rw [setIo_io_self]
      refine chain_update h1 ?_
      intro a ha b hb hab e
      subst e
      rw [hc0] at hab; cases hab
      exact hc0L hb
    · rw [setIo_io_ne _ _ hxv]
      obtain ⟨a1, a2, a3⟩ := hroot x hx hxv
      exact chain_update a1 (fun a ha b hb hab e => a2 (e ▸ ha))
  · intro x hx l hl
    by_cases hxv : x = v
    · subst hxv
      rw [setIo_io_self] at hl
      simp at hl; subst hl
      simp
    · rw [setIo_io_ne _ _ hxv] at hl
      obtain ⟨a1, a2, a3⟩ := hroot x hx hxv
      have hlv : l ≠ v := fun e => a2 (e ▸ List.mem_of_getLast?_eq_some hl)
      rw [Function.update_noteq hlv]
      exact a3 l hl
  · intro a c hac
    by_cases e : a = v
    · subst e; simp at hac
    · rw [Function.update_noteq e] at hac
      exact hP.prp a c hac
  · intro u
    by_cases huv : u = v
    · subst huv
      obtain ⟨lst, hl⟩ : ∃ lst, (g.io r).getLast? = some lst := by
        rw [etl]; exact ⟨_, List.getLast?_eq_getLast _ (by simp)⟩
      have hpl := hP.plast u hv lst (by rw [hlast]; exact hl)
      have htele := W_tele hP tl c0 (by rw [← etl]; exact h2) lst (by rw [← etl]; exact hl)
      rw [hpl, ← etl] at htele
      have eL : (g.ioo (s.left u)).map (W n g.rp (Function.update pc u none)) =
          (g.ioo (s.left u)).map (W n g.rp pc) :=
        List.map_congr_left (fun a ha => W_update_ne none (fun e => hvL (e ▸ ha)))
      have w1 : W n g.rp (Function.update pc u none) u = rsize n g.rp u := by
        unfold W; simp [rsizeo]
      have w2 : W n g.rp pc u = rsize n g.rp u - rsize n g.rp c0 := by
        unfold W; rw [hc0]; rfl
      unfold vs
      rw [setIo_io_self, iov]
      simp only [List.map_append, List.sum_append, List.map_cons, List.sum_cons, List.map_nil,
        List.sum_nil, eL, w1, w2]
      simp only [rsizeo] at htele
      omega
    · exact vs_congr_on (setIo_io_ne _ _ huv) (fun a ha =>
        W_update_ne none (fun e => h.not_mem_of_root hv huv (e ▸ ha)))

/-- Hanging the auxiliary tree of `v` below its path-parent `p`: the first
node of the path of `v` becomes the preferred child of `p`, and no weight of a
subtree changes. -/
theorem PInv.attach (hP : PInv n s g pc) {v p hd : Nat} (hv : s.isRoot v = true)
    (hp : s.isRoot p = true) (hvp : s.parent v = some p) (hrp : s.right p = none)
    (hh : (g.io v).head? = some hd) :
    pc p = none ∧ g.rp hd = some p ∧
      PInv n ((s.setRight p (some v)).setIsRoot v false)
        (g.setIo p (g.ioo (s.left p) ++ p :: g.io v) (g.N + g.N))
        (Function.update pc p (some hd)) ∧
      ∀ u, vs (W n g.rp (Function.update pc p (some hd)))
          (g.setIo p (g.ioo (s.left p) ++ p :: g.io v) (g.N + g.N)) u =
        vs (W n g.rp pc) g u := by
  have h := hP.inv
  have hpv : p ≠ v := fun e => h.pp_not_mem hv hvp (e ▸ h.self_mem v)
  have iop : g.io p = g.ioo (s.left p) ++ [p] := by
    have := (h p).io_eq; rw [hrp] at this; simpa using this
  have hpc : pc p = none := hP.plast p hp p (by rw [iop]; simp)
  have hrph : g.rp hd = some p := by
    have := (h v).root_pp hv hd hh; rw [hvp] at this; exact this
  obtain ⟨tl, etl⟩ := List.head?_eq_some_iff.1 hh
  have hpiv : p ∉ g.io v := h.pp_not_mem hv hvp
  have hnd := h.nodup p
  rw [iop] at hnd
  have hpL : p ∉ g.ioo (s.left p) := fun hm =>
    (List.nodup_append.1 hnd).2.2 hm (by simp) 
  have hsize := rsize_child h.acyclic hP.iso hrph
  have hroot : ∀ x, ((s.setRight p (some v)).setIsRoot v false).isRoot x = true →
      s.isRoot x = true ∧ x ≠ v := by
    intro x hx
    by_cases e : x = v
    · subst e; simp at hx
    · exact ⟨by simpa [Function.update_apply, e] using hx, e⟩
  refine ⟨hpc, hrph, ⟨attach_inv h hv hp hvp hrp, hP.iso, ?_, ?_, ?_⟩, ?_⟩
  · intro x hx
    obtain ⟨hx', hxv⟩ := hroot x hx
    by_cases hxp : x = p
    · subst hxp
      rw [setIo_io_self, List.chain'_split]
      constructor
      · have := hP.pchain x hp
        rw [iop] at this
        refine chain_update this ?_
        intro a ha b hb hab e
        subst e
        rw [hpc] at hab; cases hab
      · rw [etl, List.chain'_cons]
        refine ⟨by simp, ?_⟩
        rw [← etl]
        exact chain_update (hP.pchain v hv) (fun a ha b hb hab e => hpiv (e ▸ ha))
    · rw [setIo_io_ne _ _ hxp]
      exact chain_update (hP.pchain x hx')
        (fun a ha b hb hab e => h.not_mem_of_root hp hxp (e ▸ ha))
  · intro x hx l hl
    obtain ⟨hx', hxv⟩ := hroot x hx
    by_cases hxp : x = p
    · subst hxp
      rw [setIo_io_self] at hl
      have hl2 : (g.io v).getLast? = some l := by
        rw [List.getLast?_append_of_ne_nil _ (by simp)] at hl
        rw [etl] at hl ⊢
        rw [List.getLast?_cons_cons] at hl
        exact hl
      have hlp : l ≠ x := fun e => hpiv (e ▸ List.mem_of_getLast?_eq_some hl2)
      rw [Function.update_noteq hlp]
      exact hP.plast v hv l hl2
    · rw [setIo_io_ne _ _ hxp] at hl
      have hlp : l ≠ p := fun e => h.not_mem_of_root hp hxp (e ▸ List.mem_of_getLast?_eq_some hl)
      rw [Function.update_noteq hlp]
      exact hP.plast x hx' l hl
  · intro a c hac
    by_cases e : a = p
    · subst e; simp at hac; subst hac; exact hrph
    · rw [Function.update_noteq e] at hac
      exact hP.prp a c hac
  · intro u
    by_cases hup : u = p
    · subst hup
      have hv_vs := hP.root_vs hv hh
      unfold vs at hv_vs
      have eL : (g.ioo (s.left u)).map (W n g.rp (Function.update pc u (some hd))) =
          (g.ioo (s.left u)).map (W n g.rp pc) :=
        List.map_congr_left (fun a ha => W_update_ne _ (fun e => hpL (e ▸ ha)))
      have eR : (g.io v).map (W n g.rp (Function.update pc u (some hd))) =
          (g.io v).map (W n g.rp pc) :=
        List.map_congr_left (fun a ha => W_update_ne _ (fun e => hpiv (e ▸ ha)))
      have w1 : W n g.rp (Function.update pc u (some hd)) u =
          rsize n g.rp u - rsize n g.rp hd := by
        unfold W; simp [rsizeo]
      have w2 : W n g.rp pc u = rsize n g.rp u := by
        unfold W; rw [hpc]; rfl
      unfold vs
      rw [setIo_io_self, iop]
      simp only [List.map_append, List.sum_append, List.map_cons, List.sum_cons, List.map_nil,
        List.sum_nil, eL, eR, w1, w2, hv_vs]
      omega
    · exact vs_congr_on (setIo_io_ne _ _ hup) (fun a ha =>
        W_update_ne _ (fun e => h.not_mem_of_root hp hup (e ▸ ha)))

end PathChange

section ExposeCost

variable {n : Nat} {s : Heap} {g : Ghost} {pc : Nat → Option Nat}

/-- The potential of a state: twice the sum of the ranks plus twice the
number of heavy edges that are not preferred. -/
def Pot (n : Nat) (g : Ghost) (pc : Nat → Option Nat) : Nat :=
  2 * Phi (W n g.rp pc) n g + 2 * Psi n g.rp pc

/-- The rank of a node under the weights of the analysis. -/
def rkv (n : Nat) (g : Ghost) (pc : Nat → Option Nat) (v : Nat) : Nat :=
  rk (W n g.rp pc) g v

theorem Phi_congr {w w1 : Nat → Nat} {g1 : Ghost} (e : ∀ u, vs w1 g1 u = vs w g u) :
    Phi w1 n g1 = Phi w n g := by
  unfold Phi rk
  exact Finset.sum_congr rfl (fun u _ => by rw [e u])

theorem rsize_anc {rp : Nat → Option Nat} (hac : Acyclic rp) (hiso : Iso n rp) {a b : Nat}
    (h : Anc rp a b) : rsize n rp a ≤ rsize n rp b := by
  unfold rsize
  apply Finset.card_le_card
  intro y hy
  obtain ⟨h1, h2⟩ := (mem_rsize hac hiso y a).1 hy
  exact (mem_rsize hac hiso y b).2 ⟨h1, Relation.ReflTransGen.trans h2 h⟩

theorem heavyB_iff {rp : Nat → Option Nat} {c a : Nat} (h : rp c = some a) :
    heavyB n rp c = true ↔ rsize n rp a < 2 * rsize n rp c := by
  unfold heavyB; rw [h]; simp

/-- The body of the loop of `expose` between the two splays, in the
analysis: no weight of a subtree changes, and the number of heavy edges that
are not preferred falls by one if the edge above the path of `v` is heavy and
grows by at most one otherwise. -/
theorem PInv.join (hP : PInv n s g pc) {v p hd : Nat} (hv : s.isRoot v = true)
    (hp : s.isRoot p = true) (hvp : s.parent v = some p) (hh : (g.io v).head? = some hd) :
    ∃ g3 pc3, PInv n (joinHeap s v p) g3 pc3 ∧
      g3.rp = g.rp ∧ g3.d = g.d ∧ g.N ≤ g3.N ∧
      g3.io p = g.ioo (s.left p) ++ p :: g.io v ∧ (∀ w, w ≠ p → g3.io w = g.io w) ∧
      (∀ u, vs (W n g.rp pc3) g3 u = vs (W n g.rp pc) g u) ∧
      g.rp hd = some p ∧
      (heavyB n g.rp hd = true → Psi n g.rp pc3 + 1 ≤ Psi n g.rp pc) ∧
      Psi n g.rp pc3 ≤ Psi n g.rp pc + 1 := by
  have h := hP.inv
  have hpv : p ≠ v := fun e => h.pp_not_mem hv hvp (e ▸ h.self_mem v)
  have hvp' : v ≠ p := fun e => hpv e.symm
  have hlp : s.left p ≠ some p := fun e => h.left_ne e rfl
  have hrph : g.rp hd = some p := by
    have := (h v).root_pp hv hd hh; rw [hvp] at this; exact this
  have hdn : hd < n := (hP.iso hd p hrph).1
  have hhv : hd ∈ g.io v := List.mem_of_mem_head? hh
  cases hr : s.right p with
  | none =>
    obtain ⟨b1, b2, b3, b4⟩ := hP.attach hv hp hvp hr hh
    have hpsi := @Psi_prefer n g.rp pc (Function.update pc p (some hd)) p hd
      (fun a ha => Function.update_noteq ha _ _) b1 (by simp) hrph hdn
    have e : joinHeap s v p = (s.setRight p (some v)).setIsRoot v false := by
      unfold joinHeap; rw [hr]
    rw [e]
    refine ⟨_, _, b3, rfl, rfl, by simp, setIo_io_self _ _ _,
      fun w hw => setIo_io_ne _ _ hw, b4, hrph, ?_, ?_⟩
    · intro hy; rw [if_pos hy] at hpsi; exact hpsi
    · have : Psi n g.rp (Function.update pc p (some hd)) ≤ Psi n g.rp pc :=
        le_trans (Nat.le_add_right _ _) hpsi
      omega
  | some r =>
    have hrr : s.isRoot r = false := ((h p).right_ok r hr).2
    have hrv : r ≠ v := fun e => by rw [e, hv] at hrr; cases hrr
    have hrp : r ≠ p := fun e => by rw [e, hp] at hrr; cases hrr
    obtain ⟨c0, hc0, hP1, vs1⟩ := hP.cutRight hp hr
    have hh1 : ((g.setIo p (g.ioo (s.left p) ++ [p]) g.N).io v).head? = some hd := by
      rw [setIo_io_ne _ _ hvp']; exact hh
    obtain ⟨b1, b2, b3, b4⟩ := hP1.attach (v := v) (p := p)
      (by simp [Function.update_apply, Ne.symm hrv]; exact hv)
      (by simp [Function.update_apply, Ne.symm hrp]; exact hp)
      (by simpa using hvp) (by simp) hh1
    rw [setRight_setRight] at b3
    have e : joinHeap s v p = ((s.setIsRoot r true).setRight p (some v)).setIsRoot v false := by
      unfold joinHeap; rw [hr]
    rw [e]
    have hpsi1 := @Psi_unprefer n g.rp pc (Function.update pc p none) p c0
      (fun a ha => Function.update_noteq ha _ _) hc0
    have hpsi2 := @Psi_prefer n g.rp (Function.update pc p none)
      (Function.update (Function.update pc p none) p (some hd)) p hd
      (fun a ha => Function.update_noteq ha _ _) (by simp) (by simp) hrph hdn
    have hc0p : c0 ∈ g.io p := hP.pc_mem hp (h.self_mem p) hc0
    have hne : c0 ≠ hd := by
      intro e1
      subst e1
      exact hpv (h.root_unique _ c0 le_rfl p v hp hv hc0p hhv)
    have hch := rsize_children h.acyclic hP.iso (hP.prp p c0 hc0) hrph hne
    refine ⟨_, _, b3, rfl, rfl, by simp, ?_, ?_, ?_, hrph, ?_, ?_⟩
    · rw [setIo_io_self]
      simp [setIo_ioo _ _ hlp, setIo_io_ne _ _ hvp']
    · intro w hw
      rw [setIo_io_ne _ _ hw, setIo_io_ne _ _ hw]
    · intro u
      have := b4 u
      simp only [setIo_rp] at this
      rw [this]
      exact vs1 u
    · intro hy
      rw [if_pos hy] at hpsi2
      have hl : ¬ heavyB n g.rp c0 = true := by
        intro hc
        rw [heavyB_iff (hP.prp p c0 hc0)] at hc
        rw [heavyB_iff hrph] at hy
        omega
      rw [if_neg hl] at hpsi1
      omega
    · have : Psi n g.rp (Function.update (Function.update pc p none) p (some hd)) ≤
          Psi n g.rp (Function.update pc p none) :=
        le_trans (Nat.le_add_right _ _) hpsi2
      have : Psi n g.rp (Function.update pc p none) ≤ Psi n g.rp pc + 1 := by
        refine le_trans hpsi1 ?_
        split <;> omega
      omega

theorem lg_double {a b : Nat} (ha : 1 ≤ a) (h : 2 * a ≤ b) : Nat.log 2 a + 1 ≤ Nat.log 2 b := by
  have : Nat.log 2 (a * 2) = Nat.log 2 a + 1 := Nat.log_mul_base (by omega) (by omega)
  rw [← this]
  exact lg_mono (by omega)

/-- One iteration of the loop of `expose` with its amortized cost: the
rotations are paid by the fall of the potential and sixteen times the rise of
the rank of `v`. -/
theorem expose_iter_pot (hP : PInv n s g pc) {v p : Nat} (hv : s.isRoot v = true)
    (hvp : s.parent v = some p) (hlast : (g.io v).getLast? = some v) :
    ∃ s4 g4 pc4 c f0,
      (∀ f k k0, f0 ≤ f → exposeLoopC f (k + 1) (s, k0) v = exposeLoopC f k (s4, k0 + c) v) ∧
      PInv n s4 g4 pc4 ∧ ExposeRel s g v s4 g4 ∧ s4.isRoot v = true ∧
      (g4.io v).getLast? = some v ∧
      (∀ hd4, (g4.io v).head? = some hd4 → g.d hd4 ≤ g.d p) ∧
      c + Pot n g4 pc4 + 16 * rkv n g pc v ≤ Pot n g pc + 16 * rkv n g4 pc4 v := by
  have h := hP.inv
  have hpv : p ≠ v := fun e => h.pp_not_mem hv hvp (e ▸ h.self_mem v)
  have hdp : Desc g v p := h.pp_desc hv hvp v (h.self_mem v)
  obtain ⟨hd, hh⟩ := h.exists_head v
  have hhv : hd ∈ g.io v := List.mem_of_mem_head? hh
  have hrph : g.rp hd = some p := by
    have := (h v).root_pp hv hd hh; rw [hvp] at this; exact this
  have hdn : hd < n := (hP.iso hd p hrph).1
  have hpn : p < n := (hP.iso hd p hrph).2
  have hsz_hd : 1 ≤ rsize n g.rp hd := rsize_pos h.acyclic hP.iso hdn
  -- first splay
  obtain ⟨s1, g1, c1, eC1, e1, rel1, hp1, top1, pot1⟩ :=
    splay_pot (W n g.rp pc) n h hP.iso (fun a ha => hP.W_pos ha) p
  have hP1 : PInv n s1 g1 pc := hP.splay rel1
  obtain ⟨a1, a2, a3, a4, a5⟩ := rel1.frame v hv (h.pp_not_mem hv hvp)
  have hv1 : s1.isRoot v = true := a4.trans hv
  have hvp1 : s1.parent v = some p := a3.trans hvp
  have hh1 : (g1.io v).head? = some hd := by rw [a5]; exact hh
  -- join
  obtain ⟨g3, pc3, hP3, r3, d3, N3, io3, ion3, vs3, -, psiH, psiL⟩ := hP1.join hv1 hp1 hvp1 hh1
  have h3 := hP3.inv
  have hv3 : (joinHeap s1 v p).isRoot v = false := joinHeap_isRoot_self _ _ _
  have hp3 : (joinHeap s1 v p).isRoot p = true := joinHeap_isRoot_of_root _ hp1 hpv
  have hm3 : v ∈ g3.io p := by
    rw [io3, a5]; simp [h.self_mem v]
  have erp3 : g3.rp = g.rp := r3.trans rel1.rp
  -- second splay
  obtain ⟨s4, g4, c4, eC4, e4, rel4, hv4, top4, pot4⟩ :=
    splay_pot (s := joinHeap s1 v p) (W n g.rp pc3) n h3 (by rw [erp3]; exact hP.iso)
      (fun a ha => by have := hP3.W_pos ha; rw [erp3] at this; exact this) v
  have hP4 : PInv n s4 g4 pc3 := hP3.splay rel4
  obtain ⟨io4, par4⟩ := top4 p hp3 hm3
  have erp4 : g4.rp = g.rp := rel4.rp.trans erp3
  refine ⟨s4, g4, pc3, c1 + c4,
    max (g.N - (g.io p).length + 1) (g3.N - (g3.io v).length + 1), ?_, hP4, ?_, hv4, ?_, ?_, ?_⟩
  · intro f k k0 hf
    have f1 := eC1 f (le_trans (le_max_left _ _) hf) k0
    have f4 := eC4 f (le_trans (le_max_right _ _) hf) (k0 + c1)
    have hpm : (match s1.right p with
        | some r => s1.setIsRoot r true
        | none => s1).parent v = some p := by
      cases s1.right p <;> exact hvp1
    simp only [exposeLoopC, hvp]
    simp only [f1, hvp1, hpm, Option.bind_eq_bind, Option.some_bind]
    have f4' := f4
    unfold joinHeap at f4'
    cases hr1 : s1.right p with
    | none =>
      rw [hr1] at f4'
      simp only [hvp1, Option.some_bind] at f4' ⊢
      rw [f4', Nat.add_assoc]
      rfl
    | some r =>
      rw [hr1] at f4'
      simp only [setIsRoot_parent, hvp1, Option.some_bind] at f4' ⊢
      rw [f4', Nat.add_assoc]
      rfl
  · have r1 : ExposeRel s g v s1 g1 := rel1.toExpose hdp
    have r3' : ExposeRel s1 g1 v (joinHeap s1 v p) g3 := by
      refine ⟨h3, r3, d3, N3, by simp, by simp, ?_⟩
      intro w hw hn
      have hwv : w ≠ v := fun e => by
        subst e
        exact hn w (rel1.inv.self_mem w) Relation.ReflTransGen.refl
      have hwp : w ≠ p := fun e => by
        subst e
        exact hn w (rel1.inv.self_mem w) ((desc_congr rel1.rp v w).2 hdp)
      refine ⟨by simp, by simp [Function.update_apply, hwp], by simp,
        (joinHeap_isRoot_of_root _ hw hwv).trans hw.symm, ion3 w hwp⟩
    have r4 : ExposeRel (joinHeap s1 v p) g3 v s4 g4 :=
      rel4.toExpose Relation.ReflTransGen.refl
    exact (r1.exposeTrans r3').exposeTrans r4
  · rw [io4, io3, a5]
    have hne : p :: g.io v ≠ [] := by simp
    rw [List.getLast?_append_of_ne_nil _ hne]
    obtain ⟨a, l, e2⟩ : ∃ a l, g.io v = a :: l := by
      cases e3 : g.io v with
      | nil => exact absurd e3 (h.io_ne_nil v)
      | cons a l => exact ⟨a, l, rfl⟩
    rw [e2, List.getLast?_cons_cons, ← e2]; exact hlast
  · intro hd4 hh4
    rw [io4] at hh4
    have := h3.head_le hh4 p (h3.self_mem p)
    rw [d3, rel1.d] at this
    exact this
  · -- the accounting
    unfold Pot rkv
    rw [erp4]
    have ePhi3 : Phi (W n g.rp pc3) n g3 = Phi (W n g.rp pc) n g1 :=
      Phi_congr (fun u => by have := vs3 u; rw [rel1.rp] at this; exact this)
    have evs_v3 : vs (W n g.rp pc3) g3 v = vs (W n g.rp pc) g v := by
      have := vs3 v; rw [rel1.rp] at this; rw [this]; exact vs_congr _ a5
    have evs_p3 : vs (W n g.rp pc3) g3 p = vs (W n g.rp pc) g1 p := by
      have := vs3 p; rw [rel1.rp] at this; exact this
    have evs_4 : vs (W n g.rp pc3) g4 v = vs (W n g.rp pc) g1 p := by
      rw [vs_congr _ io4]; exact evs_p3
    have erk_v3 : rk (W n g.rp pc3) g3 v = rk (W n g.rp pc) g v := by
      unfold rk; rw [evs_v3]
    have erk_4 : rk (W n g.rp pc3) g4 v = rk (W n g.rp pc) g1 p := by
      unfold rk; rw [evs_4]
    have evs_v : vs (W n g.rp pc) g v = rsize n g.rp hd := hP.root_vs hv hh
    -- the weight of `p` exceeds the weight of the tree of `v`
    have hWp : rsize n g.rp hd + 1 ≤ W n g.rp pc p := by
      unfold W
      cases hpc : pc p with
      | none =>
        simp only [rsizeo]
        have := rsize_child h.acyclic hP.iso hrph
        omega
      | some c =>
        simp only [rsizeo]
        have hne : c ≠ hd := by
          intro e
          subst e
          obtain ⟨r0, hr0, hm0⟩ := h.exists_root _ p le_rfl
          have hc0 := hP.pc_mem hr0 hm0 hpc
          have : r0 = v := h.root_unique _ c le_rfl r0 v hr0 hv hc0 hhv
          subst this
          exact h.pp_not_mem hv hvp hm0
        have := rsize_children h.acyclic hP.iso (hP.prp p c hpc) hrph hne
        omega
    have hrk_p : rk (W n g.rp pc) g v ≤ rk (W n g.rp pc) g p := by
      unfold rk
      apply lg_mono
      have := vs_self_le (W n g.rp pc) h p
      omega
    have hrk_R : rk (W n g.rp pc) g v ≤ rk (W n g.rp pc) g1 p := by
      unfold rk
      apply lg_mono
      have := vs_self_le (W n g.rp pc) rel1.inv p
      omega
    rw [ePhi3] at pot4
    rw [erk_v3, erk_4] at pot4
    rw [erk_4]
    have hPsiCases : 2 + 2 * Psi n g.rp pc3 + 4 * rk (W n g.rp pc) g v ≤
        2 * Psi n g.rp pc + 4 * rk (W n g.rp pc) g1 p := by
      by_cases hy : heavyB n g.rp hd = true
      · have := psiH (by rw [rel1.rp]; exact hy)
        rw [rel1.rp] at this
        omega
      · have hlight : 2 * rsize n g.rp hd ≤ rsize n g.rp p := by
          rw [heavyB_iff hrph] at hy; omega
        obtain ⟨hdp1, hhp1⟩ := rel1.inv.exists_head p
        have hanc : Anc g.rp p hdp1 := by
          have := rel1.inv.desc_head hhp1 p (rel1.inv.self_mem p)
          unfold Desc at this
          rw [rel1.rp] at this
          exact this
        have hle := rsize_anc h.acyclic hP.iso hanc
        have evs1 : vs (W n g.rp pc) g1 p = rsize n g.rp hdp1 := by
          have := hP1.root_vs hp1 hhp1
          rw [rel1.rp] at this
          exact this
        have hR : rk (W n g.rp pc) g v + 1 ≤ rk (W n g.rp pc) g1 p := by
          unfold rk
          rw [evs_v, evs1]
          exact lg_double hsz_hd (by omega)
        have := psiL
        rw [rel1.rp] at this
        omega
    omega

theorem PInv.rkv_le (hP : PInv n s g pc) {r : Nat} (hr : s.isRoot r = true) :
    rkv n g pc r ≤ Nat.log 2 n := hP.root_rk_le hr

/-- The loop of `expose` with its amortized cost. -/
theorem exposeLoop_pot (v : Nat) : ∀ (m : Nat) (s : Heap) (g : Ghost) (pc : Nat → Option Nat),
    PInv n s g pc → s.isRoot v = true → (g.io v).getLast? = some v →
    (∀ hd, (g.io v).head? = some hd → g.d hd ≤ m) →
    ∃ s1 g1 pc1 c f0,
      (∀ f k k0, f0 ≤ f → m + 1 ≤ k → exposeLoopC f k (s, k0) v = some (s1, k0 + c)) ∧
      PInv n s1 g1 pc1 ∧ ExposeRel s g v s1 g1 ∧ s1.isRoot v = true ∧ s1.parent v = none ∧
      (g1.io v).getLast? = some v ∧
      c + Pot n g1 pc1 + 16 * rkv n g pc v ≤ Pot n g pc + 16 * rkv n g1 pc1 v := by
  intro m
  induction m with
  | zero =>
    intro s g pc hP hv hlast hm
    have h := hP.inv
    cases hpar : s.parent v with
    | none =>
      refine ⟨s, g, pc, 0, 0, ?_, hP, ExposeRel.exposeRefl h v, hv, hpar, hlast, by omega⟩
      intro f k k0 _ hk
      obtain ⟨k', rfl⟩ : ∃ k', k = k' + 1 := ⟨k - 1, by omega⟩
      simp [exposeLoopC, hpar]
    | some p =>
      exfalso
      obtain ⟨hd, hh⟩ := h.exists_head v
      have h1 := (h v).root_pp hv hd hh
      rw [hpar] at h1
      have := (h hd).rank p h1
      have := hm hd hh
      omega
  | succ m ih =>
    intro s g pc hP hv hlast hm
    have h := hP.inv
    cases hpar : s.parent v with
    | none =>
      refine ⟨s, g, pc, 0, 0, ?_, hP, ExposeRel.exposeRefl h v, hv, hpar, hlast, by omega⟩
      intro f k k0 _ hk
      obtain ⟨k', rfl⟩ : ∃ k', k = k' + 1 := ⟨k - 1, by omega⟩
      simp [exposeLoopC, hpar]
    | some p =>
      obtain ⟨hd, hh⟩ := h.exists_head v
      have h1 := (h v).root_pp hv hd hh
      rw [hpar] at h1
      have h2 := (h hd).rank p h1
      have h3 := hm hd hh
      obtain ⟨s4, g4, pc4, c4, fa, ea, hP4, rel, hv4, hl4, hd4, pot4⟩ :=
        expose_iter_pot hP hv hpar hlast
      obtain ⟨s5, g5, pc5, c5, fb, eb, hP5, rel5, hv5, hp5, hl5, pot5⟩ :=
        ih s4 g4 pc4 hP4 hv4 hl4 (by
          intro x hx
          have := hd4 x hx
          rw [rel.d]; omega)
      refine ⟨s5, g5, pc5, c4 + c5, max fa fb, ?_, hP5, rel.exposeTrans rel5, hv5, hp5, hl5,
        by omega⟩
      intro f k k0 hf hk
      obtain ⟨k', rfl⟩ : ∃ k', k = k' + 1 := ⟨k - 1, by omega⟩
      rw [ea f k' k0 (le_trans (le_max_left _ _) hf)]
      rw [eb f k' (k0 + c4) (le_trans (le_max_right _ _) hf) (by omega), Nat.add_assoc]

/-- `expose` with its amortized cost: the rotations of one call are paid by
the fall of the potential and `22 * log n + 3`. -/
theorem expose_pot (hP : PInv n s g pc) (v : Nat) :
    ∃ s1 g1 pc1 c f0, (∀ f k0, f0 ≤ f → exposeC f (s, k0) v = some (s1, k0 + c)) ∧
      PInv n s1 g1 pc1 ∧ ExposeRel s g v s1 g1 ∧
      s1.isRoot v = true ∧ s1.parent v = none ∧ s1.right v = none ∧
      (g1.io v).getLast? = some v ∧
      c + Pot n g1 pc1 ≤ Pot n g pc + 22 * Nat.log 2 n + 3 := by
  have h := hP.inv
  obtain ⟨s1, g1, c1, eC1, e1, rel1, hv1, -, pot1⟩ :=
    splay_pot (W n g.rp pc) n h hP.iso (fun a ha => hP.W_pos ha) v
  have hP1 : PInv n s1 g1 pc := hP.splay rel1
  have r1 : ExposeRel s g v s1 g1 := rel1.toExpose Relation.ReflTransGen.refl
  have hrk1 : rk (W n g.rp pc) g1 v ≤ Nat.log 2 n := by
    have := hP1.root_rk_le hv1
    rw [rel1.rp] at this
    exact this
  have key : ∃ g2 pc2, PInv n
      (match s1.right v with
        | some r => (s1.setIsRoot r true).setRight v none
        | none => s1) g2 pc2 ∧ ExposeRel s1 g1 v
      (match s1.right v with
        | some r => (s1.setIsRoot r true).setRight v none
        | none => s1) g2 ∧
      (match s1.right v with
        | some r => (s1.setIsRoot r true).setRight v none
        | none => s1).isRoot v = true ∧ (g2.io v).getLast? = some v ∧
      Pot n g2 pc2 ≤ Pot n g1 pc + 2 := by
    cases hr : s1.right v with
    | none =>
      refine ⟨g1, pc, hP1, ExposeRel.exposeRefl rel1.inv v, hv1, ?_, by omega⟩
      have := (rel1.inv v).io_eq
      rw [hr] at this
      rw [this]; simp
    | some r =>
      have hrr : s1.isRoot r = false := ((rel1.inv v).right_ok r hr).2
      have hrv : r ≠ v := fun e => by rw [e, hv1] at hrr; cases hrr
      obtain ⟨c0, hc0, hP2, vs2⟩ := hP1.cutRight hv1 hr
      refine ⟨_, _, hP2, ⟨cutRight_inv rel1.inv hv1 hr, rfl, rfl, le_rfl, rfl, rfl, ?_⟩, ?_, ?_,
        ?_⟩
      · intro w hw hn
        have hwv : w ≠ v := fun e => by
          subst e
          exact hn w (rel1.inv.self_mem w) Relation.ReflTransGen.refl
        have hwr : w ≠ r := fun e => by rw [e, hrr] at hw; cases hw
        exact ⟨rfl, by simp [Function.update_apply, hwv], rfl,
          by simp [Function.update_apply, hwr], setIo_io_ne _ _ hwv⟩
      · simp [Function.update_apply, Ne.symm hrv]; exact hv1
      · rw [setIo_io_self]; simp
      · unfold Pot
        simp only [setIo_rp]
        rw [Phi_congr vs2]
        have := @Psi_unprefer n g1.rp pc (Function.update pc v none) v c0
          (fun a ha => Function.update_noteq ha _ _) hc0
        have : Psi n g1.rp (Function.update pc v none) ≤ Psi n g1.rp pc + 1 := by
          refine le_trans this ?_
          split <;> omega
        omega
  obtain ⟨g2, pc2, hP2, r2, hv2, hl2, pot2⟩ := key
  obtain ⟨hd, hh⟩ := r2.inv.exists_head v
  obtain ⟨s3, g3, pc3, c3, f3, e3, hP3, r3, hv3, hp3, hl3, pot3⟩ :=
    exposeLoop_pot v (g2.d v) _ g2 pc2 hP2 hv2 hl2
      (fun x hx => r2.inv.head_le hx v (r2.inv.self_mem v))
  have hrk3 := hP3.rkv_le hv3
  refine ⟨s3, g3, pc3, c1 + c3, max (g.N - (g.io v).length + 1) (max f3 (g2.d v + 1)), ?_, hP3,
    (r1.exposeTrans r2).exposeTrans r3, hv3, hp3, r3.inv.right_none_of_last hl3, hl3, ?_⟩
  · intro f k0 hf
    have f1 := eC1 f (le_trans (le_max_left _ _) hf) k0
    have hf3 : f3 ≤ f := le_trans (le_trans (le_max_left _ _) (le_max_right _ _)) hf
    have hfk : g2.d v + 1 ≤ f := le_trans (le_trans (le_max_right _ _) (le_max_right _ _)) hf
    have := e3 f f (k0 + c1) hf3 hfk
    simp only [exposeC, f1, Option.bind_eq_bind, Option.some_bind]
    rw [Nat.add_assoc] at this
    exact this
  · have e0 : Pot n g1 pc = 2 * Phi (W n g.rp pc) n g1 + 2 * Psi n g.rp pc := by
      unfold Pot; rw [rel1.rp]
    have e00 : Pot n g pc = 2 * Phi (W n g.rp pc) n g + 2 * Psi n g.rp pc := rfl
    omega

end ExposeCost

section EdgeChange

variable {n : Nat} {rp pc : Nat → Option Nat} {v o : Nat}

theorem anc_link_mono (hv : rp v = none) {y a : Nat} (h : Anc rp y a) :
    Anc (Function.update rp v (some o)) y a := by
  refine Relation.ReflTransGen.mono ?_ h
  intro x p hx
  have : x ≠ v := fun e => by rw [e, hv] at hx; cases hx
  simp only [Function.update_noteq this]; exact hx

/-- Ancestors after the edge from `v` to `o` is added above the root `v`. -/
theorem anc_link_iff (hv : rp v = none) (y a : Nat) :
    Anc (Function.update rp v (some o)) y a ↔ Anc rp y a ∨ (Anc rp y v ∧ Anc rp o a) := by
  constructor
  · intro h
    induction h with
    | refl => exact Or.inl Relation.ReflTransGen.refl
    | @tail b a _ hba ih =>
      by_cases e : b = v
      · subst e
        simp only [Function.update_same] at hba
        cases hba
        rcases ih with ih | ih
        · exact Or.inr ⟨ih, Relation.ReflTransGen.refl⟩
        · exact Or.inr ⟨ih.1, Relation.ReflTransGen.refl⟩
      · simp only [Function.update_noteq e] at hba
        rcases ih with ih | ih
        · exact Or.inl (Relation.ReflTransGen.tail ih hba)
        · exact Or.inr ⟨ih.1, Relation.ReflTransGen.tail ih.2 hba⟩
  · rintro (h | ⟨h1, h2⟩)
    · exact anc_link_mono hv h
    · refine Relation.ReflTransGen.trans (anc_link_mono hv h1) ?_
      refine Relation.ReflTransGen.head ?_ (anc_link_mono hv h2)
      simp

theorem acyclic_of_link (hv : rp v = none) (hac : Acyclic (Function.update rp v (some o))) :
    Acyclic rp := by
  obtain ⟨d, hd⟩ := hac
  refine ⟨d, fun x p hx => hd x p ?_⟩
  have : x ≠ v := fun e => by rw [e, hv] at hx; cases hx
  simp only [Function.update_noteq this]; exact hx

theorem iso_of_link (hv : rp v = none) (hiso : Iso n (Function.update rp v (some o))) :
    Iso n rp := by
  intro x p hx
  refine hiso x p ?_
  have : x ≠ v := fun e => by rw [e, hv] at hx; cases hx
  simp only [Function.update_noteq this]; exact hx

theorem anc_of_root (hv : rp v = none) {a : Nat} (h : Anc rp v a) : a = v := by
  rcases Relation.ReflTransGen.cases_head h with h | ⟨p, hp, _⟩
  · exact h.symm
  · rw [hv] at hp; cases hp

/-- The subtree of an ancestor of `o` gains the subtree of `v`. -/
theorem rsize_link_on (hac : Acyclic (Function.update rp v (some o)))
    (hiso : Iso n (Function.update rp v (some o))) (hv : rp v = none) (hov : ¬ Anc rp o v)
    {a : Nat} (ha : Anc rp o a) :
    rsize n (Function.update rp v (some o)) a = rsize n rp a + rsize n rp v := by
  have hac0 := acyclic_of_link hv hac
  have hiso0 := iso_of_link hv hiso
  unfold rsize
  rw [← Finset.card_union_of_disjoint]
  · congr 1
    ext y
    rw [Finset.mem_union, mem_rsize hac hiso, mem_rsize hac0 hiso0, mem_rsize hac0 hiso0,
      anc_link_iff hv]
    constructor
    · rintro ⟨h1, h2 | ⟨h2, _⟩⟩
      · exact Or.inl ⟨h1, h2⟩
      · exact Or.inr ⟨h1, h2⟩
    · rintro (⟨h1, h2⟩ | ⟨h1, h2⟩)
      · exact ⟨h1, Or.inl h2⟩
      · exact ⟨h1, Or.inr ⟨h2, ha⟩⟩
  · rw [Finset.disjoint_left]
    intro y h1 h2
    have a1 := ((mem_rsize hac0 hiso0 y a).1 h1).2
    have a2 := ((mem_rsize hac0 hiso0 y v).1 h2).2
    rcases anc_total a1 a2 with h3 | h3
    · exact hov (Relation.ReflTransGen.trans ha h3)
    · have := anc_of_root hv h3
      subst this
      exact hov ha

/-- The subtree of a node that is no ancestor of `o` is unchanged. -/
theorem rsize_link_off (hac : Acyclic (Function.update rp v (some o)))
    (hiso : Iso n (Function.update rp v (some o))) (hv : rp v = none)
    {a : Nat} (ha : ¬ Anc rp o a) :
    rsize n (Function.update rp v (some o)) a = rsize n rp a := by
  have hac0 := acyclic_of_link hv hac
  have hiso0 := iso_of_link hv hiso
  unfold rsize
  congr 1
  ext y
  rw [mem_rsize hac hiso, mem_rsize hac0 hiso0, anc_link_iff hv]
  constructor
  · rintro ⟨h1, h2 | ⟨_, h2⟩⟩
    · exact ⟨h1, h2⟩
    · exact absurd h2 ha
  · rintro ⟨h1, h2⟩
    exact ⟨h1, Or.inl h2⟩

theorem rsize_link_le (hac : Acyclic (Function.update rp v (some o)))
    (hiso : Iso n (Function.update rp v (some o))) (hv : rp v = none) (hov : ¬ Anc rp o v)
    (a : Nat) : rsize n rp a ≤ rsize n (Function.update rp v (some o)) a := by
  by_cases ha : Anc rp o a
  · rw [rsize_link_on hac hiso hv hov ha]; omega
  · rw [rsize_link_off hac hiso hv ha]

/-- Adding the edge from `v` to `o` as a preferred edge, below a path whose
edges are all preferred, changes no weight. -/
theorem W_link (hac : Acyclic (Function.update rp v (some o)))
    (hiso : Iso n (Function.update rp v (some o))) (hv : rp v = none) (hov : ¬ Anc rp o v)
    (hpath : ∀ c a, Anc rp o c → rp c = some a → pc a = some c) (hpo : pc o = none)
    (hprp : ∀ a c, pc a = some c → rp c = some a) (a : Nat) :
    W n (Function.update rp v (some o)) (Function.update pc o (some v)) a = W n rp pc a := by
  unfold W
  by_cases hao : a = o
  · subst hao
    rw [Function.update_same, hpo]
    simp only [rsizeo]
    rw [rsize_link_on hac hiso hv hov Relation.ReflTransGen.refl, rsize_link_off hac hiso hv hov]
    omega
  · rw [Function.update_noteq hao]
    by_cases ha : Anc rp o a
    · rcases Relation.ReflTransGen.cases_tail ha with h | ⟨b, hb, hba⟩
      · exact absurd h hao
      · rw [hpath b a hb hba]
        simp only [rsizeo]
        rw [rsize_link_on hac hiso hv hov ha, rsize_link_on hac hiso hv hov hb]
        omega
    · rw [rsize_link_off hac hiso hv ha]
      cases hc : pc a with
      | none => rfl
      | some c =>
        simp only [rsizeo]
        have hca := hprp a c hc
        have : ¬ Anc rp o c := fun h => ha (Relation.ReflTransGen.tail h hca)
        rw [rsize_link_off hac hiso hv this]

/-- Adding a preferred edge adds no heavy edge that is not preferred. -/
theorem Psi_link (hac : Acyclic (Function.update rp v (some o)))
    (hiso : Iso n (Function.update rp v (some o))) (hv : rp v = none) (hov : ¬ Anc rp o v)
    (hpath : ∀ c a, Anc rp o c → rp c = some a → pc a = some c) (hpo : pc o = none) :
    Psi n (Function.update rp v (some o)) (Function.update pc o (some v)) ≤ Psi n rp pc := by
  unfold Psi
  apply Finset.card_le_card
  intro c hc
  obtain ⟨c1, c2, a, ha, c3⟩ := (mem_Psi c).1 hc
  by_cases hcv : c = v
  · subst hcv
    simp only [Function.update_same] at ha
    cases ha
    simp at c3
  · have ha1 : rp c = some a := by
      simpa only [Function.update_noteq hcv] using ha
    have hnot : ¬ Anc rp o c := by
      intro hoc
      have hpc := hpath c a hoc ha1
      have hao : a ≠ o := by
        intro e
        subst e
        obtain ⟨d, hd⟩ := acyclic_of_link hv hac
        have := (anc_rank hd hoc).1
        have := hd _ _ ha1
        omega
      rw [Function.update_noteq hao] at c3
      exact c3 hpc
    refine (mem_Psi c).2 ⟨c1, ?_, a, ha1, ?_⟩
    · rw [heavyB_iff ha] at c2
      rw [heavyB_iff ha1]
      rw [rsize_link_off hac hiso hv hnot] at c2
      have := rsize_link_le hac hiso hv hov a
      omega
    · by_cases hao : a = o
      · subst hao; rw [hpo]; simp
      · rw [Function.update_noteq hao] at c3; exact c3

/-- Removing the preferred edge from `v` to `o` adds at most `log n + 1`
heavy edges that are not preferred: their upper ends lie on the path above
`o`, and the sizes of two of these differ by a factor of two. -/
theorem Psi_unlink (hac : Acyclic (Function.update rp v (some o)))
    (hiso : Iso n (Function.update rp v (some o))) (hv : rp v = none) (hov : ¬ Anc rp o v)
    (hpath : ∀ c a, Anc rp o c → rp c = some a → pc a = some c) :
    Psi n rp pc ≤
      Psi n (Function.update rp v (some o)) (Function.update pc o (some v)) +
        (Nat.log 2 n + 1) := by
  have hac0 := acyclic_of_link hv hac
  have hiso0 := iso_of_link hv hiso
  unfold Psi
  refine le_trans (Finset.card_le_card_sdiff_add_card (t := (Finset.range n).filter
    (fun c => npB n (Function.update rp v (some o)) (Function.update pc o (some v)) c = true)))
    ?_
  rw [Nat.add_comm]
  apply Nat.add_le_add_left
  -- the edges that become heavy
  have key : ∀ c, c ∈ (Finset.range n).filter (fun c => npB n rp pc c = true) \
      (Finset.range n).filter
        (fun c => npB n (Function.update rp v (some o)) (Function.update pc o (some v)) c = true) →
      ∃ a, rp c = some a ∧ rsize n rp a < 2 * rsize n rp c ∧ ¬ Anc rp o c ∧ Anc rp o a := by
    intro c hc
    rw [Finset.mem_sdiff] at hc
    obtain ⟨hc1, hc2⟩ := hc
    obtain ⟨c1, c2, a, ha, c3⟩ := (mem_Psi c).1 hc1
    have hcv : c ≠ v := fun e => by rw [e, hv] at ha; cases ha
    have ha1 : Function.update rp v (some o) c = some a := by
      simp only [Function.update_noteq hcv]; exact ha
    have hnot : ¬ Anc rp o c := fun hoc => c3 (hpath c a hoc ha)
    rw [heavyB_iff ha] at c2
    refine ⟨a, ha, c2, hnot, ?_⟩
    by_contra hoa
    apply hc2
    refine (mem_Psi c).2 ⟨c1, ?_, a, ha1, ?_⟩
    · rw [heavyB_iff ha1, rsize_link_off hac hiso hv hnot, rsize_link_off hac hiso hv hoa]
      exact c2
    · by_cases hao : a = o
      · subst hao; simp only [Function.update_same]
        intro e; cases e; exact hcv rfl
      · rw [Function.update_noteq hao]; exact c3
  have below : ∀ {c a a1 : Nat}, rp c = some a → rsize n rp a < 2 * rsize n rp c →
      ¬ Anc rp o c → Anc rp o a1 → Anc rp a1 a → a1 ≠ a → a1 < n →
      Nat.log 2 (rsize n rp a1) + 1 ≤ Nat.log 2 (rsize n rp a) := by
    intro c a a1 hca hh hnc ho1 h1a hne hn1
    rcases Relation.ReflTransGen.cases_tail h1a with h | ⟨b, hb, hba⟩
    · exact absurd h.symm hne
    · have hob : Anc rp o b := Relation.ReflTransGen.trans ho1 hb
      have hbc : b ≠ c := fun e => hnc (e ▸ hob)
      have h1 := rsize_children hac0 hiso0 hba hca hbc
      have h2 := rsize_anc hac0 hiso0 hb
      exact lg_double (rsize_pos hac0 hiso0 hn1) (by omega)
  have hcard := Finset.card_le_card_of_injOn
    (s := (Finset.range n).filter (fun c => npB n rp pc c = true) \
      (Finset.range n).filter
        (fun c => npB n (Function.update rp v (some o)) (Function.update pc o (some v)) c = true))
    (t := Finset.range (Nat.log 2 n + 1))
    (fun c => Nat.log 2 (rsizeo n rp (rp c))) ?_ ?_
  · simpa using hcard
  · intro c hc
    obtain ⟨a, ha, -⟩ := key c hc
    simp only [ha, rsizeo]
    exact Finset.mem_coe.2 (Finset.mem_range.2 (Nat.lt_succ_of_le (lg_mono (rsize_le a))))
  · intro c hc c' hc' e
    obtain ⟨a, ha, hh, hnc, hoa⟩ := key c hc
    obtain ⟨a', ha', hh', hnc', hoa'⟩ := key c' hc'
    simp only [ha, ha', rsizeo] at e
    by_cases haa : a = a'
    · subst haa
      by_contra hne
      have := rsize_children hac0 hiso0 ha ha' hne
      omega
    · exfalso
      have hna : a < n := (hiso0 c a ha).2
      have hna' : a' < n := (hiso0 c' a' ha').2
      rcases anc_total hoa hoa' with h | h
      · have := below ha' hh' hnc' hoa h haa hna
        omega
      · have := below ha hh hnc hoa' h (Ne.symm haa) hna'
        omega

end EdgeChange

section LinkCutCost

variable {n : Nat} {s : Heap} {g : Ghost} {pc : Nat → Option Nat}

theorem list_pred : ∀ (l : List Nat) (c : Nat), c ∈ l → l.head? ≠ some c →
    ∃ l1 a l2, l = l1 ++ a :: c :: l2 := by
  intro l
  induction l with
  | nil => intro c hm; simp at hm
  | cons x tl ih =>
    intro c hm hh
    have hcx : c ≠ x := fun e => hh (by rw [e]; rfl)
    have hm2 : c ∈ tl := by
      rcases List.mem_cons.1 hm with e | e
      · exact absurd e hcx
      · exact e
    cases tl with
    | nil => simp at hm2
    | cons y tl =>
      by_cases hy : y = c
      · subst hy; exact ⟨[], x, tl, rfl⟩
      · obtain ⟨l1, a, l2, e⟩ := ih c hm2 (by simp [hy])
        exact ⟨x :: l1, a, l2, by rw [e]; rfl⟩

/-- In the tree of an exposed node the edge above every node is preferred. -/
theorem PInv.path_step (hP : PInv n s g pc) {o : Nat} (ho : s.isRoot o = true)
    (hop : s.parent o = none) {c a : Nat} (hc : c ∈ g.io o) (hca : g.rp c = some a) :
    a ∈ g.io o ∧ pc a = some c := by
  have h := hP.inv
  have hhead : (g.io o).head? ≠ some c := by
    intro e
    have := (h o).root_pp ho c e
    rw [hop, hca] at this; cases this
  obtain ⟨l1, a1, l2, e⟩ := list_pred _ c hc hhead
  have h1 := (h o).chain
  have h2 := hP.pchain o ho
  rw [e, List.chain'_split, List.chain'_cons] at h1 h2
  have : a1 = a := by
    have := h1.2.1; rw [hca] at this; cases this; rfl
  subst this
  exact ⟨by rw [e]; simp, h2.2.1⟩

theorem PInv.path_mem (hP : PInv n s g pc) {o : Nat} (ho : s.isRoot o = true)
    (hop : s.parent o = none) {c : Nat} (hc : Anc g.rp o c) : c ∈ g.io o := by
  induction hc with
  | refl => exact hP.inv.self_mem o
  | @tail b a _ hba ih => exact (hP.path_step ho hop ih hba).1

theorem PInv.path_pref (hP : PInv n s g pc) {o : Nat} (ho : s.isRoot o = true)
    (hop : s.parent o = none) (c a : Nat) (hc : Anc g.rp o c) (hca : g.rp c = some a) :
    pc a = some c :=
  (hP.path_step ho hop (hP.path_mem ho hop hc) hca).2

theorem PInv.ofFields {s1 : Heap} (hP : PInv n s g pc) (hl : s1.left = s.left)
    (hr : s1.right = s.right) (hp : s1.parent = s.parent) (hi : s1.isRoot = s.isRoot) :
    PInv n s1 g pc where
  inv := hP.inv.of_fields hl hr hp hi
  iso := hP.iso
  pchain := by rw [hi]; exact hP.pchain
  plast := by rw [hi]; exact hP.plast
  prp := hP.prp

theorem Phi_le {w w1 : Nat → Nat} {g1 : Ghost} (e : ∀ u, rk w1 g1 u ≤ rk w g u) :
    Phi w1 n g1 ≤ Phi w n g := by
  unfold Phi
  exact Finset.sum_le_sum (fun u _ => e u)

theorem Phi_le_one {w w1 : Nat → Nat} {g1 : Ghost} {v : Nat}
    (e : ∀ u, u ≠ v → rk w1 g1 u = rk w g u) :
    Phi w1 n g1 ≤ Phi w n g + rk w1 g1 v := by
  unfold Phi
  have h1 : ∑ u in Finset.range n, rk w1 g1 u ≤
      ∑ u in Finset.range n, (rk w g u + if u = v then rk w1 g1 v else 0) := by
    apply Finset.sum_le_sum
    intro u _
    by_cases huv : u = v
    · subst huv; simp
    · rw [e u huv]; simp
  refine le_trans h1 ?_
  rw [Finset.sum_add_distrib]
  apply Nat.add_le_add_left
  rw [Finset.sum_ite_eq']
  split <;> omega

/-- The assignments of a successful `link`, in the analysis: the new edge is
preferred, and the potential grows by at most `2 * log n`. -/
theorem PInv.linkStep (hP : PInv n s g pc) {v o : Nat} (hvn : v < n) (hon : o < n)
    (hv : s.isRoot v = true) (hvp : s.parent v = none) (hvl : s.left v = none)
    (hvr : s.right v = none) (ho : s.isRoot o = true) (hop : s.parent o = none)
    (hol : (g.io o).getLast? = some o) (hdiff : ¬ Desc g o v) (d1 : Nat → Nat)
    (hd_y : ∀ w, Desc g w v → d1 w = g.d w + g.d o + 1)
    (hd_n : ∀ w, ¬ Desc g w v → d1 w = g.d w) :
    PInv n (((s.setLeft v (some o)).setParent o (some v)).setIsRoot o false)
        (linkGhost g v o d1) (Function.update pc o (some v)) ∧
      Pot n (linkGhost g v o d1) (Function.update pc o (some v)) ≤
        Pot n g pc + 2 * Nat.log 2 n := by
  have h := hP.inv
  have h3 := link_inv h hv hvp hvl hvr ho hop hol hdiff d1 hd_y hd_n
  have hvo : v ≠ o := fun e => hdiff (e ▸ Relation.ReflTransGen.refl)
  have hov : o ≠ v := fun e => hvo e.symm
  have iov : g.io v = [v] := by
    have := (h v).io_eq; rw [hvl, hvr] at this; simpa using this
  have hrpv : g.rp v = none := (h.left_none_iff hv hvp).1 hvl
  have hpo : pc o = none := hP.plast o ho o hol
  have hpv : pc v = none := hP.plast v hv v (by rw [iov]; rfl)
  have hiso1 : Iso n (Function.update g.rp v (some o)) := by
    intro x y hxy
    by_cases e : x = v
    · subst e; simp at hxy; subst hxy; exact ⟨hvn, hon⟩
    · rw [Function.update_noteq e] at hxy; exact hP.iso x y hxy
  have hac1 : Acyclic (Function.update g.rp v (some o)) := h3.acyclic
  have hroot : ∀ x, (((s.setLeft v (some o)).setParent o (some v)).setIsRoot o false).isRoot x
      = true → s.isRoot x = true ∧ x ≠ o := by
    intro x hx
    by_cases e : x = o
    · subst e; simp at hx
    · exact ⟨by simpa [Function.update_apply, e] using hx, e⟩
  have hP3 : PInv n (((s.setLeft v (some o)).setParent o (some v)).setIsRoot o false)
      (linkGhost g v o d1) (Function.update pc o (some v)) := by
    refine ⟨h3, hiso1, ?_, ?_, ?_⟩
    · intro x hx
      obtain ⟨hx', hxo⟩ := hroot x hx
      by_cases hxv : x = v
      · subst hxv
        show (Function.update g.io x (g.io o ++ [x]) x).Chain' _
        rw [Function.update_same]
        refine List.Chain'.append ?_ (List.chain'_singleton _) ?_
        · refine chain_update (hP.pchain o ho) ?_
          intro a ha b hb hab e
          subst e; rw [hpo] at hab; cases hab
        · intro a ha b hb
          rw [hol] at ha
          simp at ha hb
          subst ha; subst hb
          simp
      · show (Function.update g.io v (g.io o ++ [v]) x).Chain' _
        rw [Function.update_noteq hxv]
        exact chain_update (hP.pchain x hx')
          (fun a ha b hb hab e => h.not_mem_of_root ho hxo (e ▸ ha))
    · intro x hx l hl
      obtain ⟨hx', hxo⟩ := hroot x hx
      by_cases hxv : x = v
      · subst hxv
        have hl' : (Function.update g.io x (g.io o ++ [x]) x).getLast? = some l := hl
        rw [Function.update_same] at hl'
        simp at hl'; subst hl'
        rw [Function.update_noteq hvo]; exact hpv
      · have hl' : (Function.update g.io v (g.io o ++ [v]) x).getLast? = some l := hl
        rw [Function.update_noteq hxv] at hl'
        have hlo : l ≠ o := fun e =>
          h.not_mem_of_root ho hxo (e ▸ List.mem_of_getLast?_eq_some hl')
        rw [Function.update_noteq hlo]
        exact hP.plast x hx' l hl'
    · intro a c hac
      show Function.update g.rp v (some o) c = some a
      by_cases e : a = o
      · subst e; simp at hac; subst hac; simp
      · rw [Function.update_noteq e] at hac
        have := hP.prp a c hac
        have hcv : c ≠ v := fun e => by rw [e, hrpv] at this; cases this
        rw [Function.update_noteq hcv]; exact this
  refine ⟨hP3, ?_⟩
  have hW := W_link (n := n) hac1 hiso1 hrpv hdiff (hP.path_pref ho hop) hpo hP.prp
  have hPsi := Psi_link (n := n) hac1 hiso1 hrpv hdiff (hP.path_pref ho hop) hpo
  have hrk := hP3.root_rk_le (r := v) (by
    simp [Function.update_apply, hvo]; exact hv)
  have hPhi : Phi (W n (Function.update g.rp v (some o)) (Function.update pc o (some v))) n
      (linkGhost g v o d1) ≤ Phi (W n g.rp pc) n g +
        rk (W n (Function.update g.rp v (some o)) (Function.update pc o (some v)))
          (linkGhost g v o d1) v := by
    apply Phi_le_one
    intro u hu
    unfold rk
    rw [@vs_congr_on g _ _ (linkGhost g v o d1) u u
      (show Function.update g.io v (g.io o ++ [v]) u = g.io u from Function.update_noteq hu _ _)
      (fun a _ => hW a)]
  unfold Pot
  show 2 * Phi (W n (Function.update g.rp v (some o)) (Function.update pc o (some v))) n
      (linkGhost g v o d1) + 2 * Psi n (Function.update g.rp v (some o))
        (Function.update pc o (some v)) ≤ _
  have hrk' : rk (W n (Function.update g.rp v (some o)) (Function.update pc o (some v)))
      (linkGhost g v o d1) v ≤ Nat.log 2 n := hrk
  omega

/-- The assignments of `cut` on a node with a represented parent, in the
analysis: the parent gives up its preferred child, and the potential grows by
at most `2 * (log n + 1)`. -/
theorem PInv.cutStep (hP : PInv n s g pc) {v l p : Nat} (hv : s.isRoot v = true)
    (hvp : s.parent v = none) (hvr : s.right v = none) (hvl : s.left v = some l)
    (hp : g.rp v = some p) :
    PInv n (((s.setIsRoot l true).setParent l none).setLeft v none) (cutGhost g v)
        (Function.update pc p none) ∧
      Pot n (cutGhost g v) (Function.update pc p none) ≤
        Pot n g pc + 2 * (Nat.log 2 n + 1) := by
  have h := hP.inv
  have h3 := cut_inv h hv hvp hvr hvl
  have hlv : l ≠ v := h.left_ne hvl
  have iov : g.io v = g.io l ++ [v] := by
    have := (h v).io_eq; rw [hvl, hvr] at this; simpa using this
  have hlr : s.isRoot l = false := ((h v).left_ok l hvl).2
  obtain ⟨z, hz⟩ : ∃ z, (g.io l).getLast? = some z := by
    rcases List.eq_nil_or_concat (g.io l) with e | ⟨l0, a, e⟩
    · exact absurd e (h.io_ne_nil l)
    · exact ⟨a, by rw [e]; simp⟩
  have hzp : z = p := by
    have hc := (h v).chain
    rw [iov, List.chain'_append] at hc
    have := hc.2.2 z hz v (by simp)
    rw [hp] at this; cases this; rfl
  subst hzp
  have hch := hP.pchain v hv
  rw [iov, List.chain'_append] at hch
  have hpcz : pc z = some v := hch.2.2 z hz v (by simp)
  have hzl : z ∈ g.io l := List.mem_of_getLast?_eq_some hz
  have hnd := h.nodup v
  rw [iov] at hnd
  have hvl' : v ∉ g.io l := fun hm => (List.nodup_append.1 hnd).2.2 hm (by simp)
  have hzv : z ≠ v := fun e => hvl' (e ▸ hzl)
  have hzv' : z ∈ g.io v := by rw [iov]; simp [hzl]
  have hlastv : (g.io v).getLast? = some v := by rw [iov]; simp
  have hpcv : pc v = none := hP.plast v hv v hlastv
  have hroot : ∀ x, (((s.setIsRoot l true).setParent l none).setLeft v none).isRoot x = true →
      x ≠ v → x ≠ l → s.isRoot x = true ∧ z ∉ g.io x := by
    intro x hx hxv hxl
    have hx' : s.isRoot x = true := by simpa [Function.update_apply, hxl] using hx
    exact ⟨hx', fun hm => hxv (h.root_unique _ z le_rfl x v hx' hv hm hzv')⟩
  have erp : Function.update (Function.update g.rp v none) v (some z) = g.rp := by
    rw [Function.update_idem, ← hp, Function.update_eq_self]
  have epc : Function.update (Function.update pc z none) z (some v) = pc := by
    rw [Function.update_idem, ← hpcz, Function.update_eq_self]
  have hiso2 : Iso n (Function.update g.rp v none) := by
    intro x y hxy
    by_cases e : x = v
    · subst e; simp at hxy
    · rw [Function.update_noteq e] at hxy; exact hP.iso x y hxy
  have hP3 : PInv n (((s.setIsRoot l true).setParent l none).setLeft v none) (cutGhost g v)
      (Function.update pc z none) := by
    refine ⟨h3, hiso2, ?_, ?_, ?_⟩
    · intro x hx
      show (Function.update g.io v [v] x).Chain' _
      by_cases hxv : x = v
      · subst hxv; rw [Function.update_same]; exact List.chain'_singleton _
      · rw [Function.update_noteq hxv]
        by_cases hxl : x = l
        · subst hxl
          refine chain_update hch.1 ?_
          intro a ha b hb hab e
          subst e
          rw [hpcz] at hab; cases hab
          exact hvl' hb
        · obtain ⟨hx', hzx⟩ := hroot x hx hxv hxl
          exact chain_update (hP.pchain x hx') (fun a ha b hb hab e => hzx (e ▸ ha))
    · intro x hx l0 hl0
      have hl' : (Function.update g.io v [v] x).getLast? = some l0 := hl0
      by_cases hxv : x = v
      · subst hxv
        rw [Function.update_same] at hl'
        simp at hl'; subst hl'
        rw [Function.update_noteq (Ne.symm hzv)]; exact hpcv
      · rw [Function.update_noteq hxv] at hl'
        by_cases hxl : x = l
        · subst hxl
          rw [hz] at hl'; cases hl'
          simp
        · obtain ⟨hx', hzx⟩ := hroot x hx hxv hxl
          have : l0 ≠ z := fun e => hzx (e ▸ List.mem_of_getLast?_eq_some hl')
          rw [Function.update_noteq this]
          exact hP.plast x hx' l0 hl'
    · intro a c hac
      show Function.update g.rp v none c = some a
      by_cases e : a = z
      · subst e; simp at hac
      · rw [Function.update_noteq e] at hac
        have := hP.prp a c hac
        have hcv : c ≠ v := fun e1 => by
          rw [e1, hp] at this; cases this; exact e rfl
        rw [Function.update_noteq hcv]; exact this
  refine ⟨hP3, ?_⟩
  -- the state after the cut, linked again, is the state before
  have hac1 : Acyclic (Function.update (Function.update g.rp v none) v (some z)) := by
    rw [erp]; exact h.acyclic
  have hiso1 : Iso n (Function.update (Function.update g.rp v none) v (some z)) := by
    rw [erp]; exact hP.iso
  have hv0 : Function.update g.rp v none v = none := by simp
  have hmono : ∀ {y a : Nat}, Anc (Function.update g.rp v none) y a → Anc g.rp y a := by
    intro y a hya
    have := anc_link_mono (o := z) hv0 hya
    rw [erp] at this; exact this
  have hov : ¬ Anc (Function.update g.rp v none) z v := by
    intro hzv1
    obtain ⟨d, hd⟩ := h.acyclic
    have := (anc_rank hd (hmono hzv1)).1
    have := hd _ _ hp
    omega
  have hpath : ∀ c a, Anc (Function.update g.rp v none) z c →
      Function.update g.rp v none c = some a → Function.update pc z none a = some c := by
    intro c a hc hca
    have hcv : c ≠ v := fun e => by rw [e] at hca; simp at hca
    rw [Function.update_noteq hcv] at hca
    have hvc : Anc g.rp v c := Relation.ReflTransGen.head hp (hmono hc)
    have hpc := hP.path_pref hv hvp c a hvc hca
    have haz : a ≠ z := fun e => by
      rw [e, hpcz] at hpc; cases hpc; exact hcv rfl
    rw [Function.update_noteq haz]; exact hpc
  have hW := @W_link n _ (Function.update pc z none) v z hac1 hiso1 hv0 hov hpath
    (by simp) hP3.prp
  rw [erp, epc] at hW
  have hPsi := @Psi_unlink n _ (Function.update pc z none) v z hac1 hiso1 hv0 hov hpath
  rw [erp, epc] at hPsi
  have hPhi : Phi (W n (Function.update g.rp v none) (Function.update pc z none)) n
      (cutGhost g v) ≤ Phi (W n g.rp pc) n g := by
    apply Phi_le
    intro u
    unfold rk
    apply lg_mono
    by_cases hu : u = v
    · subst hu
      have e1 : vs (W n (Function.update g.rp u none) (Function.update pc z none))
          (cutGhost g u) u = W n g.rp pc u := by
        unfold vs
        show ((Function.update g.io u [u] u).map _).sum = _
        rw [Function.update_same]
        simp [hW u]
      rw [e1]
      exact vs_self_le _ h u
    · exact le_of_eq (@vs_congr_on g _ _ (cutGhost g v) u u
        (show Function.update g.io v [v] u = g.io u from Function.update_noteq hu _ _)
        (fun a _ => (hW a).symm))
  unfold Pot
  show 2 * Phi (W n (Function.update g.rp v none) (Function.update pc z none)) n
      (cutGhost g v) + 2 * Psi n (Function.update g.rp v none) (Function.update pc z none) ≤ _
  omega

end LinkCutCost

section OperationCost

variable {n : Nat} {s : Heap} {g : Ghost} {pc : Nat → Option Nat}

/-- The counted `splay` rearranges the heap as `splay` does. -/
theorem splayC_fst : ∀ (f : Nat) (s : Heap) (k x : Nat),
    (splayC f (s, k) x).map Prod.fst = splay f s x := by
  intro f
  induction f with
  | zero => intro s k x; rfl
  | succ f ih =>
    intro s k x
    simp only [splayC, splay]
    by_cases hr : s.isRoot x = true
    · simp [hr]
    · simp only [hr, if_false, Bool.false_eq_true, splayStepC_eq]
      cases splayStep s x with
      | none => rfl
      | some s1 => exact ih s1 _ x

/-- The counted loop of `expose` rearranges the heap as the loop does. -/
theorem exposeLoopC_fst (f : Nat) : ∀ (m : Nat) (s : Heap) (k v : Nat),
    (exposeLoopC f m (s, k) v).map Prod.fst = exposeLoop f m s v := by
  intro m
  induction m with
  | zero => intro s k v; rfl
  | succ m ih =>
    intro s k v
    simp only [exposeLoopC, exposeLoop]
    cases hp : s.parent v with
    | none => rfl
    | some p =>
      simp only [Option.bind_eq_bind]
      have h1 := splayC_fst f s k p
      cases e1 : splayC f (s, k) p with
      | none =>
        rw [e1] at h1
        rw [← h1]; rfl
      | some sc1 =>
        rw [e1] at h1
        rw [← h1]
        simp only [Option.map_some', Option.some_bind]
        cases hp1 : sc1.1.parent v with
        | none => rfl
        | some p1 =>
          simp only [Option.some_bind]
          have key : ∀ s2 : Heap, s2.parent v = some p1 →
              Option.map Prod.fst ((s2.parent v).bind fun p =>
                (splayC f ((s2.setRight p (some v)).setIsRoot v false, sc1.2) v).bind
                  fun sc => exposeLoopC f m sc v) =
              (s2.parent v).bind fun p =>
                (splay f ((s2.setRight p (some v)).setIsRoot v false) v).bind
                  fun s => exposeLoop f m s v := by
            intro s2 hs2
            rw [hs2]
            simp only [Option.some_bind]
            have h2 := splayC_fst f ((s2.setRight p1 (some v)).setIsRoot v false) sc1.2 v
            cases e2 : splayC f ((s2.setRight p1 (some v)).setIsRoot v false, sc1.2) v with
            | none =>
              rw [e2] at h2
              rw [← h2]; rfl
            | some sc2 =>
              rw [e2] at h2
              rw [← h2]
              simp only [Option.map_some', Option.some_bind]
              exact ih sc2.1 sc2.2 v
          cases hr : sc1.1.right p1 with
          | none => exact key sc1.1 hp1
          | some r => exact key (sc1.1.setIsRoot r true) (by simpa using hp1)

/-- The counted `expose` rearranges the heap as `expose` does. -/
theorem exposeC_fst (f : Nat) (s : Heap) (k v : Nat) :
    (exposeC f (s, k) v).map Prod.fst = expose f s v := by
  simp only [exposeC, expose, Option.bind_eq_bind]
  have h1 := splayC_fst f s k v
  cases e1 : splayC f (s, k) v with
  | none =>
    rw [e1] at h1
    rw [← h1]; rfl
  | some sc1 =>
    rw [e1] at h1
    rw [← h1]
    simp only [Option.map_some', Option.some_bind]
    exact exposeLoopC_fst f f _ sc1.2 v

/-- The counted `link` rearranges the heap and answers as `link` does. -/
theorem linkC_fst (f : Nat) (s : Heap) (k v o : Nat) :
    (linkC f (s, k) v o).map (fun r => (r.1.1, r.2)) = link f s v o := by
  simp only [linkC, link, Option.bind_eq_bind]
  have h1 := exposeC_fst f s k v
  cases e1 : exposeC f (s, k) v with
  | none =>
    rw [e1] at h1
    rw [← h1]; rfl
  | some sc1 =>
    rw [e1] at h1
    rw [← h1]
    simp only [Option.map_some', Option.some_bind]
    by_cases hl : (sc1.1.left v).isSome = true
    · simp [hl]
    · simp only [hl, if_false, Bool.false_eq_true]
      have h2 := exposeC_fst f sc1.1 sc1.2 o
      cases e2 : exposeC f sc1 o with
      | none =>
        have e2' : exposeC f (sc1.1, sc1.2) o = none := e2
        rw [e2'] at h2
        rw [← h2]; rfl
      | some sc2 =>
        have e2' : exposeC f (sc1.1, sc1.2) o = some sc2 := e2
        rw [e2'] at h2
        rw [← h2]
        rfl

/-- `cutC` in terms of the flag statements. -/
theorem cutC_eq (f : Nat) (sc : Heap × Nat) (v : Nat) :
    cutC f sc v = (exposeC f sc v).bind fun sc1 =>
      match sc1.1.left v with
      | none => some sc1
      | some _ => (findParent f sc1.1 v).bind fun r => r.bind fun lParent =>
          (((cutFlagHeap sc1.1 v lParent).left v).bind fun l =>
            (((cutFlagHeap sc1.1 v lParent).setIsRoot l true).left v).bind fun l1 =>
              some ((((cutFlagHeap sc1.1 v lParent).setIsRoot l true).setParent l1 none).setLeft
                v none, sc1.2)) := by
  unfold cutC cutFlagHeap
  cases exposeC f sc v with
  | none => rfl
  | some sc1 =>
    simp only [Option.bind_eq_bind, Option.some_bind]
    cases sc1.1.left v with
    | none => rfl
    | some l =>
      simp only
      cases findParent f sc1.1 v with
      | none => rfl
      | some r =>
        cases r with
        | none => rfl
        | some lp => rfl

/-- The counted `cut` rearranges the heap as `cut` does. -/
theorem cutC_fst (f : Nat) (s : Heap) (k v : Nat) :
    (cutC f (s, k) v).map Prod.fst = cut f s v := by
  rw [cutC_eq, cut_eq]
  have h1 := exposeC_fst f s k v
  cases e1 : exposeC f (s, k) v with
  | none =>
    rw [e1] at h1
    rw [← h1]; rfl
  | some sc1 =>
    rw [e1] at h1
    rw [← h1]
    simp only [Option.map_some', Option.some_bind]
    cases sc1.1.left v with
    | none => rfl
    | some l =>
      simp only
      cases findParent f sc1.1 v with
      | none => rfl
      | some r =>
        cases r with
        | none => rfl
        | some lp =>
          simp only [Option.some_bind]
          cases (cutFlagHeap sc1.1 v lp).left v with
          | none => rfl
          | some l2 =>
            simp only [Option.some_bind]
            cases ((cutFlagHeap sc1.1 v lp).setIsRoot l2 true).left v with
            | none => rfl
            | some l3 => rfl

/-- `link` with its amortized cost, for both outcomes. -/
theorem link_pot (hP : PInv n s g pc) {v o : Nat} (hvn : v < n) (hon : o < n)
    (hdiff : g.rp v = none → ¬ Desc g o v) :
    ∃ s1 g1 pc1 b c f0,
      (∀ f k0, f0 ≤ f → linkC f (s, k0) v o = some ((s1, k0 + c), b)) ∧
      PInv n s1 g1 pc1 ∧ c + Pot n g1 pc1 ≤ Pot n g pc + 46 * Nat.log 2 n + 6 := by
  obtain ⟨s1, g1, pc1, c1, f1, e1, hP1, r1, hv1, hp1, hr1, hl1, pot1⟩ := expose_pot hP v
  cases hrp : g.rp v with
  | some p =>
    have hl : s1.left v ≠ none := fun e => by
      have := (r1.inv.left_none_iff hv1 hp1).1 e
      rw [r1.rp, hrp] at this; cases this
    obtain ⟨y, hy⟩ := Option.ne_none_iff_exists'.1 hl
    refine ⟨s1, g1, pc1, false, c1, f1, ?_, hP1, by omega⟩
    intro f k0 hf
    simp [linkC, e1 f k0 hf, hy]
  | none =>
    have hl : s1.left v = none := by
      apply (r1.inv.left_none_iff hv1 hp1).2
      rw [r1.rp]; exact hrp
    have iov : g1.io v = [v] := by
      have := (r1.inv v).io_eq; rw [hl, hr1] at this; simpa using this
    obtain ⟨s2, g2, pc2, c2, f2, e2, hP2, r2, ho2, hop2, hor2, hol2, pot2⟩ := expose_pot hP1 o
    have hdiff1 : ¬ Desc g1 o v := fun hd => hdiff hrp ((desc_congr r1.rp o v).1 hd)
    obtain ⟨a1, a2, a3, a4, a5⟩ := r2.frame v hv1 (by
      intro a ha hd
      rw [iov] at ha; simp at ha; subst ha
      exact hdiff1 hd)
    have hdiff2 : ¬ Desc g2 o v := fun hd => hdiff1 ((desc_congr r2.rp o v).1 hd)
    obtain ⟨d1, hdy, hdn⟩ := exists_lifted_rank g2 v o
    obtain ⟨hP3, pot3⟩ := hP2.linkStep hvn hon (a4.trans hv1) (a3.trans hp1) (a1.trans hl)
      (a2.trans hr1) ho2 hop2 hol2 hdiff2 d1 hdy hdn
    refine ⟨_, _, _, true, c1 + c2, max f1 f2, ?_, hP3, by omega⟩
    intro f k0 hf
    have b1 := e1 f k0 (le_trans (le_max_left _ _) hf)
    have b2 := e2 f (k0 + c1) (le_trans (le_max_right _ _) hf)
    simp [linkC, b1, hl, b2, Nat.add_assoc]

/-- `cut` with its amortized cost. -/
theorem cut_pot (hP : PInv n s g pc) (v : Nat) :
    ∃ s1 g1 pc1 c f0, (∀ f k0, f0 ≤ f → cutC f (s, k0) v = some (s1, k0 + c)) ∧
      PInv n s1 g1 pc1 ∧ c + Pot n g1 pc1 ≤ Pot n g pc + 46 * Nat.log 2 n + 6 := by
  obtain ⟨s1, g1, pc1, c1, f1, e1, hP1, r1, hv1, hp1, hr1, hl1, pot1⟩ := expose_pot hP v
  cases hl : s1.left v with
  | none =>
    refine ⟨s1, g1, pc1, c1, f1, ?_, hP1, by omega⟩
    intro f k0 hf
    rw [cutC_eq, e1 f k0 hf]
    simp only [Option.some_bind, hl]
  | some l =>
    have hne : g1.rp v ≠ none := fun e => by
      have := (r1.inv.left_none_iff hv1 hp1).2 e
      rw [hl] at this; cases this
    obtain ⟨p, hp⟩ := Option.ne_none_iff_exists'.1 hne
    obtain ⟨a1, a2, a3, a4, -⟩ := cutFlagHeap_fields s1 v p
    have hF : PInv n (cutFlagHeap s1 v p) g1 pc1 := hP1.ofFields a1 a2 a3 a4
    obtain ⟨hP3, pot3⟩ := hF.cutStep (v := v) (l := l) (p := p) (by rw [a4]; exact hv1)
      (by rw [a3]; exact hp1) (by rw [a2]; exact hr1) (by rw [a1]; exact hl) hp
    refine ⟨_, _, _, c1, max f1 (g1.N + 1), ?_, hP3, by omega⟩
    intro f k0 hf
    have b1 := e1 f k0 (le_trans (le_max_left _ _) hf)
    have b2 := findParent_spec r1.inv v f (le_trans (le_max_right _ _) hf)
    rw [cutC_eq, b1]
    simp [b2, hp, a1, hl]

/-- Freshly constructed nodes satisfy the invariant of the analysis, with no
preferred child anywhere. -/
theorem fresh_pinv (n : Nat) :
    PInv n fresh ⟨fun _ => none, fun _ => 0, fun x => [x], 1⟩ (fun _ => none) where
  inv := fresh_inv
  iso := by intro u v h; cases h
  pchain := by intro r _; exact List.chain'_singleton _
  plast := by intro r _ l _; rfl
  prp := by intro a c h; cases h

/-- The potential of freshly constructed nodes is zero. -/
theorem fresh_pot (n : Nat) :
    Pot n ⟨fun _ => none, fun _ => 0, fun x => [x], 1⟩ (fun _ => none) = 0 := by
  have hP := fresh_pinv n
  have hphi : Phi (W n (fun _ => none) (fun _ => none)) n
      ⟨fun _ => none, fun _ => 0, fun x => [x], 1⟩ = 0 := by
    unfold Phi
    apply Finset.sum_eq_zero
    intro u _
    unfold rk
    have h1 : vs (W n (fun _ => none) (fun _ => none))
        ⟨fun _ => none, fun _ => 0, fun x => [x], 1⟩ u = rsize n (fun _ => none) u :=
      @PInv.root_vs n _ _ _ hP u u rfl rfl
    rw [h1]
    have h2 : rsize n (fun _ => none) u ≤ 1 := by
      unfold rsize
      rw [Finset.card_le_one]
      intro a ha b hb
      have ea := @anc_of_root (fun _ => none) a rfl u
        ((mem_rsize hP.inv.acyclic hP.iso a u).1 ha).2
      have eb := @anc_of_root (fun _ => none) b rfl u
        ((mem_rsize hP.inv.acyclic hP.iso b u).1 hb).2
      rw [← ea, ← eb]
    rcases Nat.le_one_iff_eq_zero_or_eq_one.1 h2 with e | e <;> rw [e] <;> simp
  have hpsi : Psi n (fun _ => none) (fun _ => none) = 0 := by
    unfold Psi
    rw [Finset.card_eq_zero, Finset.filter_eq_empty_iff]
    intro c _
    simp [npB, heavyB]
  unfold Pot
  show 2 * Phi (W n (fun _ => none) (fun _ => none)) n _ + 2 * Psi n (fun _ => none) _ = 0
  rw [hphi, hpsi]

/-- A workload with its amortized cost: every operation is paid by the fall
of the potential and `46 * log n + 6`. -/
theorem run_pot : ∀ (ops : List Op) (s : Heap) (g : Ghost) (pc : Nat → Option Nat),
    PInv n s g pc → (∀ op ∈ ops, op.Below n) → Valid s ops →
    ∃ s1 g1 pc1 c f0, (∀ f k0, f0 ≤ f → runC f (s, k0) ops = some (s1, k0 + c)) ∧
      PInv n s1 g1 pc1 ∧
      c + Pot n g1 pc1 ≤ Pot n g pc + ops.length * (46 * Nat.log 2 n + 6) := by
  intro ops
  induction ops with
  | nil =>
    intro s g pc hP _ _
    exact ⟨s, g, pc, 0, 0, fun f k0 _ => rfl, hP, by simp⟩
  | cons op ops ih =>
    intro s g pc hP hb hval
    have hop : op.Below n := hb op (by simp)
    have hb2 : ∀ op1 ∈ ops, op1.Below n := fun op1 h1 => hb op1 (List.mem_cons_of_mem _ h1)
    obtain ⟨hpre, hnext⟩ := hval
    have step : ∃ s1 g1 pc1 c f0, (∀ f k0, f0 ≤ f → stepC f (s, k0) op = some (s1, k0 + c)) ∧
        PInv n s1 g1 pc1 ∧ c + Pot n g1 pc1 ≤ Pot n g pc + 46 * Nat.log 2 n + 6 := by
      cases op with
      | link v o =>
        obtain ⟨s1, g1, pc1, b, c, f0, e, hP1, pot⟩ := link_pot hP hop.1 hop.2
          (fun hv => not_desc_of_not_sameTree hP.inv
            (hpre ((isParent_iff hP.inv v none).2 hv.symm)) hv)
        refine ⟨s1, g1, pc1, c, f0, ?_, hP1, pot⟩
        intro f k0 hf
        simp [stepC, e f k0 hf]
      | cut v =>
        obtain ⟨s1, g1, pc1, c, f0, e, hP1, pot⟩ := cut_pot hP v
        exact ⟨s1, g1, pc1, c, f0, e, hP1, pot⟩
      | expose v =>
        obtain ⟨s1, g1, pc1, c, f0, e, hP1, -, -, -, -, -, pot⟩ := expose_pot hP v
        exact ⟨s1, g1, pc1, c, f0, e, hP1, by omega⟩
    obtain ⟨s1, g1, pc1, c1, f1, e1, hP1, pot1⟩ := step
    have hval1 : Valid s1 ops := hnext f1 0 (s1, 0 + c1) (e1 f1 0 le_rfl)
    obtain ⟨s2, g2, pc2, c2, f2, e2, hP2, pot2⟩ := ih s1 g1 pc1 hP1 hb2 hval1
    refine ⟨s2, g2, pc2, c1 + c2, max f1 f2, ?_, hP2, ?_⟩
    · intro f k0 hf
      have b1 := e1 f k0 (le_trans (le_max_left _ _) hf)
      have b2 := e2 f (k0 + c1) (le_trans (le_max_right _ _) hf)
      simp only [runC, b1, Option.some_bind]
      rw [b2, Nat.add_assoc]
    · have e : (op :: ops).length * (46 * Nat.log 2 n + 6) =
          ops.length * (46 * Nat.log 2 n + 6) + (46 * Nat.log 2 n + 6) := by
        rw [List.length_cons, Nat.succ_mul]
      rw [e]
      omega

end OperationCost

section Workload

/-- One counted operation rearranges the heap as the operation does. -/
theorem stepC_fst (f : Nat) (s : Heap) (k : Nat) (op : Op) :
    (stepC f (s, k) op).map Prod.fst = step f s op := by
  cases op with
  | link v o =>
    simp only [stepC, step]
    rw [← linkC_fst f s k v o]
    cases linkC f (s, k) v o <;> rfl
  | cut v => exact cutC_fst f s k v
  | expose v => exact exposeC_fst f s k v

/-- The counted run of a workload rearranges the heap as the workload does. -/
theorem runC_fst (f : Nat) : ∀ (ops : List Op) (s : Heap) (k : Nat),
    (runC f (s, k) ops).map Prod.fst = run f s ops := by
  intro ops
  induction ops with
  | nil => intro s k; rfl
  | cons op ops ih =>
    intro s k
    simp only [runC, run]
    have h1 := stepC_fst f s k op
    cases e1 : stepC f (s, k) op with
    | none =>
      rw [e1] at h1
      rw [← h1]; rfl
    | some sc1 =>
      rw [e1] at h1
      rw [← h1]
      simp only [Option.map_some', Option.some_bind]
      exact ih sc1.1 sc1.2

/-- The counter counts: a workload on four nodes with eight rotations. -/
theorem runC_example :
    (runC 8 (fresh, 0) [Op.link 1 0, Op.link 2 1, Op.link 3 2, Op.expose 0, Op.expose 3,
      Op.cut 2, Op.expose 3, Op.expose 1]).map Prod.snd = some 8 := by
  decide

end Workload

/-! ## Concrete forests -/

section Examples

/-- The forest after `A.link(R)` on fresh nodes `R = 0`, `A = 1`. -/
def heapRA : Heap :=
  ((fresh.setLeft 1 (some 0)).setParent 0 (some 1)).setIsRoot 0 false

/-- The chain `R <- A <- C` after `A.link(R); C.link(A)` with `R = 0`,
`A = 1`, `C = 2`. -/
def heapRAC : Heap :=
  ((heapRA.setLeft 2 (some 1)).setParent 1 (some 2)).setIsRoot 1 false

/-- The tree of the specification: root `R = 0`, children `A = 1` and
`B = 3` of `R`, child `C = 2` of `A`, built by
`A.link(R); C.link(A); B.link(R)`. -/
def heapRABC (fuel : Nat) : Option Heap :=
  (link fuel heapRAC 3 0).map Prod.fst

theorem heapRA_link : link 1 fresh 1 0 = some (heapRA, true) := rfl

theorem heapRAC_link : link 1 heapRA 2 1 = some (heapRAC, true) := rfl

theorem fresh_reprRoot (v : Nat) : ReprRoot fresh v v :=
  ⟨Relation.ReflTransGen.refl, ⟨0, rfl⟩⟩

theorem heapRA_reachable : Reachable heapRA :=
  Reachable.link Reachable.fresh
    (not_sameTree_of_roots Reachable.fresh (fresh_reprRoot 1) (fresh_reprRoot 0) (by decide))
    heapRA_link

theorem heapRA_parent_A : IsParent heapRA 1 (some 0) := ⟨1, by decide⟩
theorem heapRA_parent_R : IsParent heapRA 0 none := ⟨2, by decide⟩
theorem heapRA_parent_C : IsParent heapRA 2 none := ⟨0, by decide⟩

theorem heapRA_root_A : ReprRoot heapRA 1 0 :=
  ⟨Relation.ReflTransGen.single heapRA_parent_A, heapRA_parent_R⟩

theorem heapRA_root_C : ReprRoot heapRA 2 2 :=
  ⟨Relation.ReflTransGen.refl, heapRA_parent_C⟩

theorem heapRAC_reachable : Reachable heapRAC :=
  Reachable.link heapRA_reachable
    (not_sameTree_of_roots heapRA_reachable heapRA_root_C heapRA_root_A (by decide))
    heapRAC_link

theorem heapRAC_parent_C : IsParent heapRAC 2 (some 1) := ⟨2, by decide⟩
theorem heapRAC_parent_A : IsParent heapRAC 1 (some 0) := ⟨2, by decide⟩
theorem heapRAC_parent_R : IsParent heapRAC 0 none := ⟨3, by decide⟩
theorem heapRAC_parent_B : IsParent heapRAC 3 none := ⟨0, by decide⟩

theorem heapRAC_root_C : ReprRoot heapRAC 2 0 :=
  ⟨Relation.ReflTransGen.head heapRAC_parent_C (Relation.ReflTransGen.single heapRAC_parent_A),
    heapRAC_parent_R⟩

theorem heapRAC_root_B : ReprRoot heapRAC 3 3 :=
  ⟨Relation.ReflTransGen.refl, heapRAC_parent_B⟩

/-- The forest after `A.linkLeft(R)` on fresh nodes `R = 0`, `A = 1`. -/
def heapLeft : Heap :=
  (heapRA.setFlag 0 .HAS_LEFT_CHILD true).setFlag 1 .IS_LEFT_CHILD true

/-- The forest after `A.linkLeft(R)` on fresh `OpTreeNode` objects `R = 0`,
`A = 1`. -/
def opHeapLeft : Heap :=
  (heapRA.setOpFlag 0 .HAS_LEFT_CHILD true).setOpFlag 1 .IS_LEFT_CHILD true

theorem heapLeft_link : linkLeft 1 fresh 1 0 = some (heapLeft, true) := rfl

theorem opHeapLeft_link : opLinkLeft 1 fresh 1 0 = some (opHeapLeft, true) := rfl

theorem fresh_A_R_diff : ¬ SameTree fresh 1 0 :=
  not_sameTree_of_roots Reachable.fresh (fresh_reprRoot 1) (fresh_reprRoot 0) (by decide)

theorem heapLeft_reachable : Reachable heapLeft :=
  Reachable.linkLeft Reachable.fresh fresh_A_R_diff heapLeft_link

theorem opHeapLeft_reachable : Reachable opHeapLeft :=
  Reachable.opLinkLeft Reachable.fresh fresh_A_R_diff opHeapLeft_link

theorem heapLeft_dirReachable : DirReachable heapLeft :=
  DirReachable.linkLeft DirReachable.fresh fresh_A_R_diff heapLeft_link

theorem opHeapLeft_dirReachable : OpDirReachable opHeapLeft :=
  OpDirReachable.linkLeft OpDirReachable.fresh fresh_A_R_diff opHeapLeft_link

theorem heapLeft_parent_A : IsParent heapLeft 1 (some 0) := ⟨1, by decide⟩
theorem heapLeft_parent_C : IsParent heapLeft 2 none := ⟨0, by decide⟩
theorem opHeapLeft_parent_A : IsParent opHeapLeft 1 (some 0) := ⟨1, by decide⟩
theorem opHeapLeft_parent_C : IsParent opHeapLeft 2 none := ⟨0, by decide⟩

/-- A `link` whose reported result is known, with the heap it leaves named by
evaluation. -/
theorem link_getD {f : Nat} {s : Heap} {v o : Nat} {b : Bool}
    (h : (link f s v o).map Prod.snd = some b) :
    link f s v o = some (((link f s v o).map Prod.fst).getD fresh, b) := by
  cases e : link f s v o with
  | none => rw [e] at h; cases h
  | some r =>
    obtain ⟨s1, b⟩ := r
    rw [e] at h
    simp only [Option.map_some', Option.some.injEq] at h
    subst h
    rfl

/-- The forest after `A.link(R); B.link(R)` with `R = 0`, `A = 1`, `B = 3`:
the heap left by `B.link(R)` on `heapRA`. -/
def heapRAB : Heap := ((link 2 heapRA 3 0).map Prod.fst).getD fresh

/-- The tree of the specification, built by `A.link(R); B.link(R); C.link(A)`
with `R = 0`, `A = 1`, `C = 2`, `B = 3`: root `R`, children `A` and `B` of `R`,
child `C` of `A`. -/
def heapTree : Heap := ((link 2 heapRAB 2 1).map Prod.fst).getD fresh

theorem heapRAB_link : link 2 heapRA 3 0 = some (heapRAB, true) := link_getD (by decide)

theorem heapTree_link : link 2 heapRAB 2 1 = some (heapTree, true) := link_getD (by decide)

theorem heapRA_parent_B : IsParent heapRA 3 none := ⟨0, by decide⟩

theorem heapRAB_reachable : Reachable heapRAB :=
  Reachable.link heapRA_reachable
    (not_sameTree_of_roots heapRA_reachable ⟨Relation.ReflTransGen.refl, heapRA_parent_B⟩
      ⟨Relation.ReflTransGen.refl, heapRA_parent_R⟩ (by decide))
    heapRAB_link

theorem heapRAB_parent_A : IsParent heapRAB 1 (some 0) := ⟨2, by decide⟩
theorem heapRAB_parent_R : IsParent heapRAB 0 none := ⟨2, by decide⟩
theorem heapRAB_parent_C : IsParent heapRAB 2 none := ⟨2, by decide⟩

theorem heapTree_reachable : Reachable heapTree :=
  Reachable.link heapRAB_reachable
    (not_sameTree_of_roots heapRAB_reachable ⟨Relation.ReflTransGen.refl, heapRAB_parent_C⟩
      ⟨Relation.ReflTransGen.single heapRAB_parent_A, heapRAB_parent_R⟩ (by decide))
    heapTree_link

theorem heapTree_parent_A : IsParent heapTree 1 (some 0) := ⟨3, by decide⟩
theorem heapTree_parent_B : IsParent heapTree 3 (some 0) := ⟨3, by decide⟩
theorem heapTree_parent_C : IsParent heapTree 2 (some 1) := ⟨3, by decide⟩
theorem heapTree_parent_R : IsParent heapTree 0 none := ⟨3, by decide⟩

/-- The heap left by the rejected call `A.link(B)` on the chain `R <- A <- C`
(`A = 1` has the represented parent `R = 0`). -/
def heapRACfail : Heap := ((link 2 heapRAC 1 3).map Prod.fst).getD fresh

theorem heapRACfail_link : link 2 heapRAC 1 3 = some (heapRACfail, false) :=
  link_getD (by decide)

theorem heapLeft_nodeReachable : NodeReachable heapLeft :=
  NodeReachable.linkLeft NodeReachable.fresh fresh_A_R_diff heapLeft_link

theorem opHeapLeft_opNodeReachable : OpNodeReachable opHeapLeft :=
  OpNodeReachable.linkLeft OpNodeReachable.fresh fresh_A_R_diff opHeapLeft_link

end Examples

/-! ## The claims of the specification -/

section Claims

theorem Mono.map {α β : Type} {m : Nat → Option α} (hm : Mono m) (g : α → β) :
    Mono (fun f => (m f).map g) := by
  intro f r h
  simp only [Option.map_eq_some'] at h ⊢
  obtain ⟨a, ha, e⟩ := h
  exact ⟨a, hm f a ha, e⟩

/-- C1, refuted by the code: on the well-formed chain `R <- A <- C`
(`findParent(C) = A`, `findParent(A) = R`, `findParent(R) = nullptr`) the lowest
common ancestor of `A` and `C` is `A`, a proper non-root ancestor of the
argument, yet `A.lowestCommonAncestor(C)` returns `nullptr`, with every
amount of fuel from 5 on. -/
theorem lowestCommonAncestor_ancestor_receiver_null :
    Reachable heapRAC ∧ IsParent heapRAC 2 (some 1) ∧ IsParent heapRAC 1 (some 0) ∧
      IsParent heapRAC 0 none ∧
      ∀ k, (lowestCommonAncestor (5 + k) heapRAC 1 2).map Prod.snd = some none :=
  ⟨heapRAC_reachable, heapRAC_parent_C, heapRAC_parent_A, heapRAC_parent_R, fun k =>
    ((lowestCommonAncestor_mono heapRAC 1 2).map Prod.snd).le
      (by decide : (lowestCommonAncestor 5 heapRAC 1 2).map Prod.snd = some none)
      (Nat.le_add_right 5 k)⟩

/-- C2: on every well-formed forest `findRoot(v)` terminates and returns the
root of the represented tree of `v`, the unique node reached from `v` by
`findParent` steps whose own `findParent` is `nullptr`. -/
theorem findRoot_returns_root (s : Heap) (hs : Reachable s) (v : Nat) :
    ∃ s1 r, (∃ f0, ∀ f, f0 ≤ f → findRoot f s v = some (s1, r)) ∧ ReprRoot s v r ∧
      ∀ r1, ReprRoot s v r1 → r1 = r := by
  obtain ⟨s1, r, e, hr, -⟩ := findRoot_wf hs v
  exact ⟨s1, r, e, hr, fun r1 h1 => reprRoot_unique hs h1 hr⟩

theorem findRoot_returns_root_witness :
    Reachable heapRAC ∧
      ∃ s1 r, (∃ f0, ∀ f, f0 ≤ f → findRoot f heapRAC 2 = some (s1, r)) ∧
        ReprRoot heapRAC 2 r ∧ ∀ r1, ReprRoot heapRAC 2 r1 → r1 = r :=
  ⟨heapRAC_reachable, findRoot_returns_root heapRAC heapRAC_reachable 2⟩

/-- C3: on a well-formed forest, for a represented root `v` and a node `other`
of a different represented tree, `v.link(other)` returns `true`; afterwards
`findParent(v) = other`, the represented parent of every other node is as
before, and `v` and `other` both have the former root of `other` as root. -/
theorem link_attaches_root (s : Heap) (hs : Reachable s) (v other : Nat)
    (hroot : IsParent s v none) (hdiff : ¬ SameTree s v other) :
    ∃ s1, (∃ f0, ∀ f, f0 ≤ f → link f s v other = some (s1, true)) ∧
      IsParent s1 v (some other) ∧
      (∀ w, w ≠ v → ∀ p, IsParent s1 w p ↔ IsParent s w p) ∧
      (∀ r, ReprRoot s other r → ReprRoot s1 v r ∧ ReprRoot s1 other r) := by
  obtain ⟨s1, e, hp, hfr, hroots, -⟩ := link_ok_wf hs v other hroot hdiff
  exact ⟨s1, e, hp, hfr, fun r hr => ⟨(hroots r hr).2, (hroots r hr).1⟩⟩

theorem heapRAC_B_R_diff : ¬ SameTree heapRAC 3 0 :=
  not_sameTree_of_roots heapRAC_reachable heapRAC_root_B
    ⟨Relation.ReflTransGen.refl, heapRAC_parent_R⟩ (by decide)

theorem link_attaches_root_witness :
    Reachable heapRAC ∧ IsParent heapRAC 3 none ∧ ¬ SameTree heapRAC 3 0 ∧
      ∃ s1, (∃ f0, ∀ f, f0 ≤ f → link f heapRAC 3 0 = some (s1, true)) ∧
        IsParent s1 3 (some 0) ∧
        (∀ w, w ≠ 3 → ∀ p, IsParent s1 w p ↔ IsParent heapRAC w p) ∧
        (∀ r, ReprRoot heapRAC 0 r → ReprRoot s1 3 r ∧ ReprRoot s1 0 r) :=
  ⟨heapRAC_reachable, heapRAC_parent_B, heapRAC_B_R_diff,
    link_attaches_root heapRAC heapRAC_reachable 3 0 heapRAC_parent_B heapRAC_B_R_diff⟩

/-- C4: on a well-formed forest, when `a` already has a represented parent,
`a.link(b)` returns `false` for every `b`, and the represented forest is as
before: every `findParent` and every `findRoot` returns what it returned
before the call. -/
theorem link_rejects_nonroot (s : Heap) (hs : Reachable s) (a b c : Nat)
    (hpar : IsParent s a (some c)) :
    ∃ s1, (∃ f0, ∀ f, f0 ≤ f → link f s a b = some (s1, false)) ∧
      (∀ w p, IsParent s1 w p ↔ IsParent s w p) ∧
      (∀ w r, ReprRoot s1 w r ↔ ReprRoot s w r) ∧
      (∀ w r, (∃ f s2, findRoot f s1 w = some (s2, r)) ↔
        (∃ f s2, findRoot f s w = some (s2, r))) := by
  obtain ⟨s1, ⟨f0, e⟩, hp, -⟩ := link_fail_wf hs a b c hpar
  have hs1 : Reachable s1 := Reachable.expose hs (link_false_expose (e f0 le_rfl))
  refine ⟨s1, ⟨f0, e⟩, hp, reprRoot_congr hp, ?_⟩
  intro w r
  rw [findRoot_returns_iff hs1, findRoot_returns_iff hs, reprRoot_congr hp]

theorem link_rejects_nonroot_witness :
    Reachable heapRAC ∧ IsParent heapRAC 2 (some 1) ∧
      ∃ s1, (∃ f0, ∀ f, f0 ≤ f → link f heapRAC 2 3 = some (s1, false)) ∧
        (∀ w p, IsParent s1 w p ↔ IsParent heapRAC w p) ∧
        (∀ w r, ReprRoot s1 w r ↔ ReprRoot heapRAC w r) ∧
        (∀ w r, (∃ f s2, findRoot f s1 w = some (s2, r)) ↔
          (∃ f s2, findRoot f heapRAC w = some (s2, r))) :=
  ⟨heapRAC_reachable, heapRAC_parent_C,
    link_rejects_nonroot heapRAC heapRAC_reachable 2 3 1 heapRAC_parent_C⟩

/-- C5: on a well-formed forest `v.cut()` terminates; afterwards `v` is a
represented root (`findParent(v) = nullptr`, root of its own tree) and the
represented parent of every other node is as before; when `v` was a
represented root already, every represented parent is as before. -/
theorem cut_makes_root (s : Heap) (hs : Reachable s) (v : Nat) :
    ∃ s1, (∃ f0, ∀ f, f0 ≤ f → cut f s v = some s1) ∧ IsParent s1 v none ∧
      ReprRoot s1 v v ∧ (∀ w, w ≠ v → ∀ p, IsParent s1 w p ↔ IsParent s w p) ∧
      (IsParent s v none → ∀ w p, IsParent s1 w p ↔ IsParent s w p) := by
  obtain ⟨s1, e, hp, hr, hfr⟩ := cut_wf hs v
  refine ⟨s1, e, hp, hr, hfr, ?_⟩
  intro hroot w p
  by_cases hw : w = v
  · subst hw
    constructor
    · intro h1; rw [isParent_unique h1 hp]; exact hroot
    · intro h1; rw [isParent_unique h1 hroot]; exact hp
  · exact hfr w hw p

theorem cut_makes_root_witness :
    Reachable heapRAC ∧
      ∃ s1, (∃ f0, ∀ f, f0 ≤ f → cut f heapRAC 1 = some s1) ∧ IsParent s1 1 none ∧
        ReprRoot s1 1 1 ∧ (∀ w, w ≠ 1 → ∀ p, IsParent s1 w p ↔ IsParent heapRAC w p) ∧
        (IsParent heapRAC 1 none → ∀ w p, IsParent s1 w p ↔ IsParent heapRAC w p) :=
  ⟨heapRAC_reachable, cut_makes_root heapRAC heapRAC_reachable 1⟩

/-- C6: link followed by cut is a round trip on the represented forest. On a
well-formed forest, for a represented root `a` and a node `b` of a different
tree, `a.link(b)` succeeds and then `a` and `b` have the same root; after the
following `a.cut()`, `a` is its own root, `b` has the root it had before the
link, and every represented parent is what it was before the link. -/
theorem link_cut_roundtrip (s : Heap) (hs : Reachable s) (a b : Nat)
    (hroot : IsParent s a none) (hdiff : ¬ SameTree s a b) :
    ∃ s1 s2, (∃ f0, ∀ f, f0 ≤ f → link f s a b = some (s1, true)) ∧
      (∃ f0, ∀ f, f0 ≤ f → cut f s1 a = some s2) ∧
      (∀ r, ReprRoot s1 a r ↔ ReprRoot s1 b r) ∧
      ReprRoot s2 a a ∧ (∀ r, ReprRoot s2 b r ↔ ReprRoot s b r) ∧
      (∀ w p, IsParent s2 w p ↔ IsParent s w p) := by
  obtain ⟨s1, ⟨f0, e⟩, hp, hfr, hroots, -⟩ := link_ok_wf hs a b hroot hdiff
  have hs1 : Reachable s1 := Reachable.link hs hdiff (e f0 le_rfl)
  obtain ⟨s2, e2, hp2, hr2, hfr2⟩ := cut_wf hs1 a
  obtain ⟨r0, hr0⟩ := exists_reprRoot hs b
  have hpar : ∀ w p, IsParent s2 w p ↔ IsParent s w p := by
    intro w p
    by_cases hw : w = a
    · subst hw
      constructor
      · intro h1; rw [isParent_unique h1 hp2]; exact hroot
      · intro h1; rw [isParent_unique h1 hroot]; exact hp2
    · exact (hfr2 w hw p).trans (hfr w hw p)
  refine ⟨s1, s2, ⟨f0, e⟩, e2, ?_, hr2, reprRoot_congr hpar b, hpar⟩
  intro r
  constructor
  · intro h1
    rw [reprRoot_unique hs1 h1 (hroots r0 hr0).2]; exact (hroots r0 hr0).1
  · intro h1
    rw [reprRoot_unique hs1 h1 (hroots r0 hr0).1]; exact (hroots r0 hr0).2

theorem link_cut_roundtrip_witness :
    Reachable heapRAC ∧ IsParent heapRAC 3 none ∧ ¬ SameTree heapRAC 3 0 ∧
      ∃ s1 s2, (∃ f0, ∀ f, f0 ≤ f → link f heapRAC 3 0 = some (s1, true)) ∧
        (∃ f0, ∀ f, f0 ≤ f → cut f s1 3 = some s2) ∧
        (∀ r, ReprRoot s1 3 r ↔ ReprRoot s1 0 r) ∧
        ReprRoot s2 3 3 ∧ (∀ r, ReprRoot s2 0 r ↔ ReprRoot heapRAC 0 r) ∧
        (∀ w p, IsParent s2 w p ↔ IsParent heapRAC w p) :=
  ⟨heapRAC_reachable, heapRAC_parent_B, heapRAC_B_R_diff,
    link_cut_roundtrip heapRAC heapRAC_reachable 3 0 heapRAC_parent_B heapRAC_B_R_diff⟩

/-- C7: on a well-formed forest `v.path(visitor)` terminates and calls the
visitor on the list `[v, findParent(v), findParent(findParent(v)), ...]`: it
starts with `v`, each node is followed by its represented parent, it ends
with the represented root of `v`, no node occurs twice, and its length is
`depth(v) + 1`. -/
theorem path_visits_ancestors (s : Heap) (hs : Reachable s) (v : Nat) :
    ∃ l, (∃ f0, ∀ f, f0 ≤ f → path f s v = some l) ∧ l.head? = some v ∧
      l.Chain' (fun a b => IsParent s a (some b)) ∧
      (∃ r, l.getLast? = some r ∧ ReprRoot s v r) ∧ l.Nodup ∧
      ∃ d, (∃ f0, ∀ f, f0 ≤ f → depth f s v = some d) ∧ l.length = d + 1 := by
  obtain ⟨l, ⟨f0, e⟩, hh, hc, hr, hnd, hne⟩ := path_wf hs v
  refine ⟨l, ⟨f0, fun f hf => (e f hf).1⟩, hh, hc, hr, hnd, l.length - 1,
    ⟨f0, fun f hf => (e f hf).2⟩, ?_⟩
  have : 0 < l.length := List.length_pos.2 hne
  omega

theorem path_visits_ancestors_witness :
    Reachable heapRAC ∧ path 5 heapRAC 2 = some [2, 1, 0] ∧
      ∃ l, (∃ f0, ∀ f, f0 ≤ f → path f heapRAC 2 = some l) ∧ l.head? = some 2 ∧
        l.Chain' (fun a b => IsParent heapRAC a (some b)) ∧
        (∃ r, l.getLast? = some r ∧ ReprRoot heapRAC 2 r) ∧ l.Nodup ∧
        ∃ d, (∃ f0, ∀ f, f0 ≤ f → depth f heapRAC 2 = some d) ∧ l.length = d + 1 :=
  ⟨heapRAC_reachable, by decide, path_visits_ancestors heapRAC heapRAC_reachable 2⟩

/-- C8: on a well-formed forest, for nodes `u`, `v` of different represented
trees, `u.lowestCommonAncestor(v)` terminates and returns `nullptr`. -/
theorem lowestCommonAncestor_diff_null (s : Heap) (hs : Reachable s) (u v : Nat)
    (hdiff : ¬ SameTree s u v) :
    ∃ s1, ∃ f0, ∀ f, f0 ≤ f → lowestCommonAncestor f s u v = some (s1, none) :=
  lowestCommonAncestor_diff_wf hs u v hdiff

theorem lowestCommonAncestor_diff_null_witness :
    Reachable fresh ∧ ¬ SameTree fresh 0 1 ∧
      ∃ s1, ∃ f0, ∀ f, f0 ≤ f → lowestCommonAncestor f fresh 0 1 = some (s1, none) :=
  ⟨Reachable.fresh,
    not_sameTree_of_roots Reachable.fresh (fresh_reprRoot 0) (fresh_reprRoot 1) (by decide),
    lowestCommonAncestor_diff_null fresh Reachable.fresh 0 1
      (not_sameTree_of_roots Reachable.fresh (fresh_reprRoot 0) (fresh_reprRoot 1)
        (by decide))⟩

/-- C9: directional exclusivity, for `Node<T>` and for `OpTreeNode<T>`. In
every state `s` in which `p` has its `HAS_LEFT_CHILD` flag set, `y.linkLeft(p)`
returns `false` for every node `y` and the heap after the call is `s` itself:
no pointer, root flag or direction flag has changed. In particular, when `s`
is the state after a successful `x.linkLeft(p)`, a following `y.linkLeft(p)`
fails. The same holds for `linkRight` with `HAS_RIGHT_CHILD`. On a well-formed
forest a represented root `y` therefore still has `findRoot(y) = y` after the
rejected call. -/
theorem directional_exclusivity (s : Heap) (y p f : Nat) :
    (s.getFlag p .HAS_LEFT_CHILD = true → linkLeft f s y p = some (s, false)) ∧
    (s.getFlag p .HAS_RIGHT_CHILD = true → linkRight f s y p = some (s, false)) ∧
    (s.getOpFlag p .HAS_LEFT_CHILD = true → opLinkLeft f s y p = some (s, false)) ∧
    (s.getOpFlag p .HAS_RIGHT_CHILD = true → opLinkRight f s y p = some (s, false)) ∧
    (∀ s0 f0 x, linkLeft f0 s0 x p = some (s, true) →
      s.getFlag p .HAS_LEFT_CHILD = true ∧ linkLeft f s y p = some (s, false)) ∧
    (∀ s0 f0 x, linkRight f0 s0 x p = some (s, true) →
      s.getFlag p .HAS_RIGHT_CHILD = true ∧ linkRight f s y p = some (s, false)) ∧
    (∀ s0 f0 x, opLinkLeft f0 s0 x p = some (s, true) →
      s.getOpFlag p .HAS_LEFT_CHILD = true ∧ opLinkLeft f s y p = some (s, false)) ∧
    (∀ s0 f0 x, opLinkRight f0 s0 x p = some (s, true) →
      s.getOpFlag p .HAS_RIGHT_CHILD = true ∧ opLinkRight f s y p = some (s, false)) ∧
    (Reachable s → IsParent s y none →
      ∃ s2, ∃ f0, ∀ f1, f0 ≤ f1 → findRoot f1 s y = some (s2, y)) := by
  have a1 : s.getFlag p .HAS_LEFT_CHILD = true → linkLeft f s y p = some (s, false) :=
    fun h => by rw [linkLeft_eq]; exact linkDir_occupied _ _ f s y p h
  have a2 : s.getFlag p .HAS_RIGHT_CHILD = true → linkRight f s y p = some (s, false) :=
    fun h => by rw [linkRight_eq]; exact linkDir_occupied _ _ f s y p h
  have a3 : s.getOpFlag p .HAS_LEFT_CHILD = true → opLinkLeft f s y p = some (s, false) :=
    fun h => by rw [opLinkLeft_eq]; exact linkDir_occupied _ _ f s y p h
  have a4 : s.getOpFlag p .HAS_RIGHT_CHILD = true → opLinkRight f s y p = some (s, false) :=
    fun h => by rw [opLinkRight_eq]; exact linkDir_occupied _ _ f s y p h
  refine ⟨a1, a2, a3, a4, ?_, ?_, ?_, ?_, fun hs hy => findRoot_of_root hs hy⟩
  · intro s0 f0 x h
    rw [linkLeft_eq] at h
    have := linkDir_true_occupied _ _
      (fun s o v => setFlag_occupied .HAS_LEFT_CHILD .IS_LEFT_CHILD (by decide) s o v) h
    exact ⟨this, a1 this⟩
  · intro s0 f0 x h
    rw [linkRight_eq] at h
    have := linkDir_true_occupied _ _
      (fun s o v => setFlag_occupied .HAS_RIGHT_CHILD .IS_RIGHT_CHILD (by decide) s o v) h
    exact ⟨this, a2 this⟩
  · intro s0 f0 x h
    rw [opLinkLeft_eq] at h
    have := linkDir_true_occupied _ _
      (fun s o v => setOpFlag_occupied .HAS_LEFT_CHILD .IS_LEFT_CHILD (by decide) s o v) h
    exact ⟨this, a3 this⟩
  · intro s0 f0 x h
    rw [opLinkRight_eq] at h
    have := linkDir_true_occupied _ _
      (fun s o v => setOpFlag_occupied .HAS_RIGHT_CHILD .IS_RIGHT_CHILD (by decide) s o v) h
    exact ⟨this, a4 this⟩

theorem directional_exclusivity_witness :
    linkLeft 1 fresh 1 0 = some (heapLeft, true) ∧
      heapLeft.getFlag 0 .HAS_LEFT_CHILD = true ∧
      Reachable heapLeft ∧ IsParent heapLeft 2 none ∧
      linkLeft 3 heapLeft 2 0 = some (heapLeft, false) ∧
      ∃ s2, ∃ f0, ∀ f1, f0 ≤ f1 → findRoot f1 heapLeft 2 = some (s2, 2) :=
  ⟨heapLeft_link, rfl, heapLeft_reachable, heapLeft_parent_C,
    ((directional_exclusivity heapLeft 2 0 3).2.2.2.2.1 fresh 1 1 heapLeft_link).2,
    (directional_exclusivity heapLeft 2 0 3).2.2.2.2.2.2.2.2 heapLeft_reachable
      heapLeft_parent_C⟩

/-- C10: the directional shape invariant. In every state reached from fresh
nodes by `linkLeft`, `linkRight` and `cut` calls of `Node<T>`, the links
between nodes of different represented trees, every node `p` has at most one
represented child carrying `IS_LEFT_CHILD` and at most one carrying
`IS_RIGHT_CHILD`, the flag `HAS_LEFT_CHILD` (`HAS_RIGHT_CHILD`) of `p` is set
exactly when such a child exists, and no node carries both role flags. The
same holds for `OpTreeNode<T>` with its own methods and its own flags. -/
theorem directional_shape_invariant (s : Heap) :
    (DirReachable s →
      DirShape (fun x => s.getFlag x .IS_LEFT_CHILD) (fun x => s.getFlag x .IS_RIGHT_CHILD)
        (fun x => s.getFlag x .HAS_LEFT_CHILD) (fun x => s.getFlag x .HAS_RIGHT_CHILD)
        (IsParent s)) ∧
    (OpDirReachable s →
      DirShape (fun x => s.getOpFlag x .IS_LEFT_CHILD)
        (fun x => s.getOpFlag x .IS_RIGHT_CHILD)
        (fun x => s.getOpFlag x .HAS_LEFT_CHILD)
        (fun x => s.getOpFlag x .HAS_RIGHT_CHILD) (IsParent s)) := by
  constructor
  · intro hs
    obtain ⟨g, h, hd⟩ := hs.dirInv
    exact hd.shape h
  · intro hs
    obtain ⟨g, h, hd⟩ := hs.opDirInv
    exact hd.shape h

theorem directional_shape_invariant_witness :
    (DirReachable heapLeft ∧ IsParent heapLeft 1 (some 0) ∧
      heapLeft.getFlag 1 .IS_LEFT_CHILD = true ∧ heapLeft.getFlag 0 .HAS_LEFT_CHILD = true ∧
      DirShape (fun x => heapLeft.getFlag x .IS_LEFT_CHILD)
        (fun x => heapLeft.getFlag x .IS_RIGHT_CHILD)
        (fun x => heapLeft.getFlag x .HAS_LEFT_CHILD)
        (fun x => heapLeft.getFlag x .HAS_RIGHT_CHILD) (IsParent heapLeft)) ∧
    (OpDirReachable opHeapLeft ∧ IsParent opHeapLeft 1 (some 0) ∧
      opHeapLeft.getOpFlag 1 .IS_LEFT_CHILD = true ∧
      opHeapLeft.getOpFlag 0 .HAS_LEFT_CHILD = true ∧
      DirShape (fun x => opHeapLeft.getOpFlag x .IS_LEFT_CHILD)
        (fun x => opHeapLeft.getOpFlag x .IS_RIGHT_CHILD)
        (fun x => opHeapLeft.getOpFlag x .HAS_LEFT_CHILD)
        (fun x => opHeapLeft.getOpFlag x .HAS_RIGHT_CHILD) (IsParent opHeapLeft)) :=
  ⟨⟨heapLeft_dirReachable, heapLeft_parent_A, rfl, rfl,
      (directional_shape_invariant heapLeft).1 heapLeft_dirReachable⟩,
    ⟨opHeapLeft_dirReachable, opHeapLeft_parent_A, rfl, rfl,
      (directional_shape_invariant opHeapLeft).2 opHeapLeft_dirReachable⟩⟩

/-- C11: on the forest built from fresh nodes `R = 0`, `A = 1`, `C = 2`,
`B = 3` by `A.link(R); B.link(R); C.link(A)` (all three links succeed; `R` is
the root, `A` and `B` are children of `R`, `C` is a child of `A`),
`C.lowestCommonAncestor(B)` returns `R`, `C.lowestCommonAncestor(A)` returns
`A` and `A.lowestCommonAncestor(A)` returns `A`, each called on the forest as
built and also when the three calls are made one after the other, with every
amount of fuel from 5 on. -/
theorem lowestCommonAncestor_spec_tree :
    link 1 fresh 1 0 = some (heapRA, true) ∧ link 2 heapRA 3 0 = some (heapRAB, true) ∧
      link 2 heapRAB 2 1 = some (heapTree, true) ∧ Reachable heapTree ∧
      IsParent heapTree 0 none ∧ IsParent heapTree 1 (some 0) ∧
      IsParent heapTree 3 (some 0) ∧ IsParent heapTree 2 (some 1) ∧
      ∀ k,
        (lowestCommonAncestor (5 + k) heapTree 2 3).map Prod.snd = some (some 0) ∧
        (lowestCommonAncestor (5 + k) heapTree 2 1).map Prod.snd = some (some 1) ∧
        (lowestCommonAncestor (5 + k) heapTree 1 1).map Prod.snd = some (some 1) ∧
        ((lowestCommonAncestor (5 + k) heapTree 2 3).bind fun r1 =>
          (lowestCommonAncestor (5 + k) r1.1 2 1).bind fun r2 =>
            (lowestCommonAncestor (5 + k) r2.1 1 1).map fun r3 => (r1.2, r2.2, r3.2))
          = some (some 0, some 1, some 1) := by
  refine ⟨heapRA_link, heapRAB_link, heapTree_link, heapTree_reachable, heapTree_parent_R,
    heapTree_parent_A, heapTree_parent_B, heapTree_parent_C, fun k => ⟨?_, ?_, ?_, ?_⟩⟩
  · exact ((lowestCommonAncestor_mono heapTree 2 3).map Prod.snd).le
      (by decide : (lowestCommonAncestor 5 heapTree 2 3).map Prod.snd = some (some 0))
      (Nat.le_add_right 5 k)
  · exact ((lowestCommonAncestor_mono heapTree 2 1).map Prod.snd).le
      (by decide : (lowestCommonAncestor 5 heapTree 2 1).map Prod.snd = some (some 1))
      (Nat.le_add_right 5 k)
  · exact ((lowestCommonAncestor_mono heapTree 1 1).map Prod.snd).le
      (by decide : (lowestCommonAncestor 5 heapTree 1 1).map Prod.snd = some (some 1))
      (Nat.le_add_right 5 k)
  · have hm : Mono (fun f => (lowestCommonAncestor f heapTree 2 3).bind fun r1 =>
        (lowestCommonAncestor f r1.1 2 1).bind fun r2 =>
          (lowestCommonAncestor f r2.1 1 1).map fun r3 => (r1.2, r2.2, r3.2)) :=
      (lowestCommonAncestor_mono heapTree 2 3).bind fun r1 =>
        (lowestCommonAncestor_mono r1.1 2 1).bind fun r2 =>
          (lowestCommonAncestor_mono r2.1 1 1).map fun r3 => (r1.2, r2.2, r3.2)
    exact hm.le (by decide) (Nat.le_add_right 5 k)

/-- C12: root idempotence. On a well-formed forest `findRoot(v)` terminates
with a node `r`, and `findRoot(r)`, called on the state the first call has
left behind, terminates and returns `r` again. -/
theorem findRoot_idempotent (s : Heap) (hs : Reachable s) (v : Nat) :
    ∃ s1 r, (∃ f0, ∀ f, f0 ≤ f → findRoot f s v = some (s1, r)) ∧
      ∃ s2, ∃ f0, ∀ f, f0 ≤ f → findRoot f s1 r = some (s2, r) := by
  obtain ⟨s1, r, ⟨f0, e⟩, hr, hp⟩ := findRoot_wf hs v
  have hs1 : Reachable s1 := Reachable.findRoot hs (e f0 le_rfl)
  exact ⟨s1, r, ⟨f0, e⟩, findRoot_of_root hs1 ((hp r none).2 hr.2)⟩

theorem findRoot_idempotent_witness :
    Reachable heapTree ∧
      (findRoot 5 heapTree 2).map Prod.snd = some 0 ∧
      ((findRoot 5 heapTree 2).bind fun r => (findRoot 5 r.1 r.2).map Prod.snd) = some 0 ∧
      ∃ s1 r, (∃ f0, ∀ f, f0 ≤ f → findRoot f heapTree 2 = some (s1, r)) ∧
        ∃ s2, ∃ f0, ∀ f, f0 ≤ f → findRoot f s1 r = some (s2, r) :=
  ⟨heapTree_reachable, by decide, by decide,
    findRoot_idempotent heapTree heapTree_reachable 2⟩

/-- C13, counterexample: on the well-formed chain `R <- A <- C` the node
`A = 1` has the represented parent `R = 0`, and `A.link(B)`, `A.linkLeft(B)`
and `A.linkRight(B)` with `B = 3` all report failure, yet they have changed
fields: `C->_left` was `A` and is `nullptr` afterwards, `A->_parent` was `C` and
is `nullptr`, `A->_isRoot` was `false` and is `true`. -/
theorem failed_link_mutates :
    Reachable heapRAC ∧ IsParent heapRAC 1 (some 0) ∧
      link 2 heapRAC 1 3 = some (heapRACfail, false) ∧
      linkLeft 2 heapRAC 1 3 = some (heapRACfail, false) ∧
      linkRight 2 heapRAC 1 3 = some (heapRACfail, false) ∧
      heapRAC.left 2 = some 1 ∧ heapRACfail.left 2 = none ∧
      heapRAC.parent 1 = some 2 ∧ heapRACfail.parent 1 = none ∧
      heapRAC.isRoot 1 = false ∧ heapRACfail.isRoot 1 = true := by
  refine ⟨heapRAC_reachable, heapRAC_parent_A, heapRACfail_link, ?_, ?_, by decide, by decide,
    by decide, by decide, by decide, by decide⟩
  · rw [linkLeft_eq]; unfold linkDir
    rw [if_neg (by decide), heapRACfail_link]; rfl
  · rw [linkRight_eq]; unfold linkDir
    rw [if_neg (by decide), heapRACfail_link]; rfl

/-- C13, amended: on a well-formed forest a `link`, `linkLeft` or `linkRight`
call (of `Node<T>` or `OpTreeNode<T>`) that reports failure leaves every
direction flag and the represented forest as they were: `findParent(w)` is
the same for every node `w`. When the failure is an occupied side of the
target, the heap is untouched. When the failure is that the receiver is not a
represented-tree root, which is the only way `link` fails, the heap after the
call is the heap after `expose()` on the receiver. A `link` on a node with a
represented parent terminates and reports failure. -/
theorem failed_link_keeps_forest (s : Heap) (hs : Reachable s) (v o f : Nat) (s1 : Heap) :
    (link f s v o = some (s1, false) →
      expose f s v = some s1 ∧ (∃ c, IsParent s v (some c)) ∧
      s1.flags = s.flags ∧ s1.opFlags = s.opFlags ∧
      ∀ w p, IsParent s1 w p ↔ IsParent s w p) ∧
    (linkLeft f s v o = some (s1, false) →
      (s.getFlag o .HAS_LEFT_CHILD = true ∧ s1 = s ∨
        s.getFlag o .HAS_LEFT_CHILD = false ∧ expose f s v = some s1 ∧
          ∃ c, IsParent s v (some c)) ∧
      s1.flags = s.flags ∧ s1.opFlags = s.opFlags ∧
      ∀ w p, IsParent s1 w p ↔ IsParent s w p) ∧
    (linkRight f s v o = some (s1, false) →
      (s.getFlag o .HAS_RIGHT_CHILD = true ∧ s1 = s ∨
        s.getFlag o .HAS_RIGHT_CHILD = false ∧ expose f s v = some s1 ∧
          ∃ c, IsParent s v (some c)) ∧
      s1.flags = s.flags ∧ s1.opFlags = s.opFlags ∧
      ∀ w p, IsParent s1 w p ↔ IsParent s w p) ∧
    (opLinkLeft f s v o = some (s1, false) →
      (s.getOpFlag o .HAS_LEFT_CHILD = true ∧ s1 = s ∨
        s.getOpFlag o .HAS_LEFT_CHILD = false ∧ expose f s v = some s1 ∧
          ∃ c, IsParent s v (some c)) ∧
      s1.flags = s.flags ∧ s1.opFlags = s.opFlags ∧
      ∀ w p, IsParent s1 w p ↔ IsParent s w p) ∧
    (opLinkRight f s v o = some (s1, false) →
      (s.getOpFlag o .HAS_RIGHT_CHILD = true ∧ s1 = s ∨
        s.getOpFlag o .HAS_RIGHT_CHILD = false ∧ expose f s v = some s1 ∧
          ∃ c, IsParent s v (some c)) ∧
      s1.flags = s.flags ∧ s1.opFlags = s.opFlags ∧
      ∀ w p, IsParent s1 w p ↔ IsParent s w p) ∧
    (∀ c, IsParent s v (some c) →
      ∃ s2, ∃ f0, ∀ f1, f0 ≤ f1 → link f1 s v o = some (s2, false)) := by
  refine ⟨?_, ?_, ?_, ?_, ?_, ?_⟩
  · intro e
    have e1 := link_false_expose e
    obtain ⟨a, b, c, -⟩ := expose_frame hs e1
    exact ⟨e1, link_false_nonroot hs e, a, b, c⟩
  · intro e; rw [linkLeft_eq] at e; exact linkDir_false_frame hs e
  · intro e; rw [linkRight_eq] at e; exact linkDir_false_frame hs e
  · intro e; rw [opLinkLeft_eq] at e; exact linkDir_false_frame hs e
  · intro e; rw [opLinkRight_eq] at e; exact linkDir_false_frame hs e
  · intro c hc
    obtain ⟨s2, e, -⟩ := link_fail_wf hs v o c hc
    exact ⟨s2, e⟩

theorem failed_link_keeps_forest_witness :
    Reachable heapRAC ∧ link 2 heapRAC 1 3 = some (heapRACfail, false) ∧
      expose 2 heapRAC 1 = some heapRACfail ∧ (∃ c, IsParent heapRAC 1 (some c)) ∧
      heapRACfail.flags = heapRAC.flags ∧ heapRACfail.opFlags = heapRAC.opFlags ∧
      ∀ w p, IsParent heapRACfail w p ↔ IsParent heapRAC w p :=
  ⟨heapRAC_reachable, heapRACfail_link,
    (failed_link_keeps_forest heapRAC heapRAC_reachable 1 3 2 heapRACfail).1
      heapRACfail_link⟩

/-- C15: the postcondition of `expose`. On a well-formed forest `v.expose()`
terminates; afterwards `v` is an auxiliary root with no path-parent and no
auxiliary-right child, and the in-order sequence of the auxiliary tree rooted
at `v` is the represented path from the root of the represented tree of `v`
down to `v`: it is the reverse of the sequence `v.path(...)` visits, starts
with the represented root, ends with `v`, and each node is the represented
parent of the next. -/
theorem expose_postcondition (s : Heap) (hs : Reachable s) (v : Nat) :
    ∃ s1, (∃ f0, ∀ f, f0 ≤ f → expose f s v = some s1) ∧
      s1.isRoot v = true ∧ s1.parent v = none ∧ s1.right v = none ∧
      ∃ l, (∃ f0, ∀ f, f0 ≤ f → inorder f s1 (some v) = some l) ∧
        (∃ f0, ∀ f, f0 ≤ f → path f s v = some l.reverse) ∧
        l.getLast? = some v ∧ (∃ r, l.head? = some r ∧ ReprRoot s v r) ∧
        l.Chain' (fun a b => IsParent s b (some a)) ∧ l.Nodup := by
  obtain ⟨s1, e, a, b, c, l, h1, h2, h3, h4, h5, h6⟩ := expose_inorder_wf hs v
  exact ⟨s1, e, a, b, c, l, h1, h2, h3, h4, h5, h6⟩

theorem expose_postcondition_witness :
    Reachable heapTree ∧
      ((expose 5 heapTree 2).bind fun s1 => inorder 5 s1 (some 2)) = some [0, 1, 2] ∧
      ∃ s1, (∃ f0, ∀ f, f0 ≤ f → expose f heapTree 2 = some s1) ∧
        s1.isRoot 2 = true ∧ s1.parent 2 = none ∧ s1.right 2 = none ∧
        ∃ l, (∃ f0, ∀ f, f0 ≤ f → inorder f s1 (some 2) = some l) ∧
          (∃ f0, ∀ f, f0 ≤ f → path f heapTree 2 = some l.reverse) ∧
          l.getLast? = some 2 ∧ (∃ r, l.head? = some r ∧ ReprRoot heapTree 2 r) ∧
          l.Chain' (fun a b => IsParent heapTree b (some a)) ∧ l.Nodup :=
  ⟨heapTree_reachable, by decide, expose_postcondition heapTree heapTree_reachable 2⟩

/-- C16: only `link` and `cut` change represented-tree edges. On a well-formed
forest each of `u.expose()`, `u.findRoot()` and `u.lowestCommonAncestor(x)`
terminates and leaves `findParent(w)` as it was for every node `w`;
`u.findParent()` and `u.path(f)` terminate as well, and they write no field at
all (their embedding returns no heap), so the state after them is the state
before. -/
theorem queries_keep_parents (s : Heap) (hs : Reachable s) (u x : Nat) :
    (∃ s1, (∃ f0, ∀ f, f0 ≤ f → expose f s u = some s1) ∧
      ∀ w p, IsParent s1 w p ↔ IsParent s w p) ∧
    (∃ s1 r, (∃ f0, ∀ f, f0 ≤ f → findRoot f s u = some (s1, r)) ∧
      ∀ w p, IsParent s1 w p ↔ IsParent s w p) ∧
    (∃ s1 res, (∃ f0, ∀ f, f0 ≤ f → lowestCommonAncestor f s u x = some (s1, res)) ∧
      ∀ w p, IsParent s1 w p ↔ IsParent s w p) ∧
    (∃ p, ∃ f0, ∀ f, f0 ≤ f → findParent f s u = some p) ∧
    (∃ l, ∃ f0, ∀ f, f0 ≤ f → path f s u = some l) := by
  obtain ⟨g, h⟩ := hs.inv
  obtain ⟨s1, e1, k1, -⟩ := expose_wf hs u
  obtain ⟨s2, r, e2, -, k2⟩ := findRoot_wf hs u
  obtain ⟨s3, res, e3, k3⟩ := lowestCommonAncestor_frame_wf hs u x
  obtain ⟨l, ⟨f0, e4⟩, -⟩ := path_wf hs u
  exact ⟨⟨s1, e1, k1⟩, ⟨s2, r, e2, k2⟩, ⟨s3, res, e3, k3⟩,
    ⟨g.rp u, g.N + 1, findParent_spec h u⟩, ⟨l, f0, fun f hf => (e4 f hf).1⟩⟩

theorem queries_keep_parents_witness :
    Reachable heapTree ∧
      ((expose 5 heapTree 2).bind fun s1 => findParent 5 s1 3) = some (some 0) ∧
      (∃ s1, (∃ f0, ∀ f, f0 ≤ f → expose f heapTree 2 = some s1) ∧
        ∀ w p, IsParent s1 w p ↔ IsParent heapTree w p) ∧
      (∃ s1 r, (∃ f0, ∀ f, f0 ≤ f → findRoot f heapTree 2 = some (s1, r)) ∧
        ∀ w p, IsParent s1 w p ↔ IsParent heapTree w p) ∧
      (∃ s1 res, (∃ f0, ∀ f, f0 ≤ f → lowestCommonAncestor f heapTree 2 3 = some (s1, res)) ∧
        ∀ w p, IsParent s1 w p ↔ IsParent heapTree w p) ∧
      (∃ p, ∃ f0, ∀ f, f0 ≤ f → findParent f heapTree 2 = some p) ∧
      (∃ l, ∃ f0, ∀ f, f0 ≤ f → path f heapTree 2 = some l) :=
  ⟨heapTree_reachable, by decide, queries_keep_parents heapTree heapTree_reachable 2 3⟩

/-- C17: the auxiliary-root invariant. In every state reached from fresh
nodes by the public methods (`expose`, `findRoot`, `lowestCommonAncestor`,
`cut`, the links under their precondition), every auxiliary tree has exactly
one node with `_isRoot = true`, and it is its top node: from every node `x` the
walk `while (!_isRoot) x = x->_parent` ends at a node `t` of the auxiliary tree
of `x` that is no child of any node, and `t` is the only node of that tree with
`_isRoot = true`. A node has `_isRoot = false` exactly when it is the `_left`
or `_right` child of its `_parent`; the `_parent` of a `_left` or `_right` child
is the node that points to it; and a node with `_isRoot = true` is not the
`_left` or `_right` child of its path-parent. -/
theorem aux_root_invariant (s : Heap) (hs : Reachable s) :
    (∀ x, ∃ t, SameAux s x t ∧ s.isRoot t = true ∧
      (∀ t1, SameAux s x t1 → s.isRoot t1 = true → t1 = t) ∧
      (∃ f0, ∀ f, f0 ≤ f → auxTop f s x = some t) ∧
      Relation.ReflTransGen (AuxChild s) x t ∧ ∀ p, ¬ AuxChild s t p) ∧
    (∀ x, s.isRoot x = false ↔ ∃ p, s.parent x = some p ∧ AuxChild s x p) ∧
    (∀ p x, AuxChild s x p → s.parent x = some p) ∧
    (∀ x p, s.isRoot x = true → s.parent x = some p → ¬ AuxChild s x p) := by
  obtain ⟨h1, h2, h3, h4⟩ := aux_root_wf hs
  exact ⟨h1, h2, h3, h4⟩

theorem aux_root_invariant_witness :
    Reachable heapTree ∧ auxTop 3 heapTree 0 = some 2 ∧ heapTree.isRoot 2 = true ∧
      heapTree.isRoot 3 = true ∧ heapTree.parent 3 = some 0 ∧
      (∀ x, ∃ t, SameAux heapTree x t ∧ heapTree.isRoot t = true ∧
        (∀ t1, SameAux heapTree x t1 → heapTree.isRoot t1 = true → t1 = t) ∧
        (∃ f0, ∀ f, f0 ≤ f → auxTop f heapTree x = some t) ∧
        Relation.ReflTransGen (AuxChild heapTree) x t ∧ ∀ p, ¬ AuxChild heapTree t p) ∧
      (∀ x, heapTree.isRoot x = false ↔
        ∃ p, heapTree.parent x = some p ∧ AuxChild heapTree x p) ∧
      (∀ p x, AuxChild heapTree x p → heapTree.parent x = some p) ∧
      (∀ x p, heapTree.isRoot x = true → heapTree.parent x = some p →
        ¬ AuxChild heapTree x p) :=
  ⟨heapTree_reachable, by decide, by decide, by decide, by decide,
    aux_root_invariant heapTree heapTree_reachable⟩

/-- C18: `findParent` in any auxiliary configuration. On a well-formed forest,
without a prior `expose`, `v.findParent()` terminates; it writes no field (its
embedding returns no heap). With `t` the top of the auxiliary tree of `v` and
`l` the in-order sequence of that tree, the call returns the element just
before `v` in `l` when `v` is not the first element of `l` (there is one, so
the result is not `nullptr`), and the path-parent `t->_parent` when `v` is the
first. The result is `nullptr` exactly when `v` is a represented-tree root,
that is when `findRoot(v)` returns `v`. -/
theorem findParent_any_configuration (s : Heap) (hs : Reachable s) (v : Nat) :
    ∃ t l, (∃ f0, ∀ f, f0 ≤ f → auxTop f s v = some t) ∧ s.isRoot t = true ∧
      (∃ f0, ∀ f, f0 ≤ f → inorder f s (some t) = some l) ∧ v ∈ l ∧ l.Nodup ∧
      (∃ f0, ∀ f, f0 ≤ f →
        findParent f s v = some (if l.head? = some v then s.parent t else predIn l v)) ∧
      (l.head? ≠ some v → predIn l v ≠ none) ∧
      ((if l.head? = some v then s.parent t else predIn l v) = none ↔
        ∃ f s2, findRoot f s v = some (s2, v)) := by
  obtain ⟨t, l, h1, h2, h3, h4, h5, h6, h7, h8⟩ := findParent_inorder_wf hs v
  exact ⟨t, l, h1, h2, h3, h4, h5, h6, h7, h8⟩

theorem findParent_any_configuration_witness :
    Reachable heapTree ∧ auxTop 3 heapTree 1 = some 2 ∧
      inorder 3 heapTree (some 2) = some [0, 1, 2] ∧ predIn [0, 1, 2] 1 = some 0 ∧
      findParent 3 heapTree 1 = some (some 0) ∧
      auxTop 3 heapTree 3 = some 3 ∧ inorder 3 heapTree (some 3) = some [3] ∧
      heapTree.parent 3 = some 0 ∧ findParent 3 heapTree 3 = some (some 0) ∧
      ∃ t l, (∃ f0, ∀ f, f0 ≤ f → auxTop f heapTree 1 = some t) ∧ heapTree.isRoot t = true ∧
        (∃ f0, ∀ f, f0 ≤ f → inorder f heapTree (some t) = some l) ∧ 1 ∈ l ∧ l.Nodup ∧
        (∃ f0, ∀ f, f0 ≤ f → findParent f heapTree 1
          = some (if l.head? = some 1 then heapTree.parent t else predIn l 1)) ∧
        (l.head? ≠ some 1 → predIn l 1 ≠ none) ∧
        ((if l.head? = some 1 then heapTree.parent t else predIn l 1) = none ↔
          ∃ f s2, findRoot f heapTree 1 = some (s2, 1)) :=
  ⟨heapTree_reachable, by decide, by decide, by decide, by decide, by decide, by decide,
    by decide, by decide, findParent_any_configuration heapTree heapTree_reachable 1⟩

/-- C19: `cut` releases the directional slot. Let `x.linkLeft(p)` have
succeeded on a well-formed forest of `Node<T>` objects, followed by any calls
of public methods other than `x.cut()` (so `x` is still the child of `p`).
Then `x.cut()` terminates and clears `HAS_LEFT_CHILD` of `p` and
`IS_LEFT_CHILD` of `x`; every other direction flag of every node,
`HAS_RIGHT_CHILD` of `p` included, is as before; and a following
`y.linkLeft(p)` succeeds for every represented-tree root `y` of another tree.
The same holds for `linkRight` with `HAS_RIGHT_CHILD` and `IS_RIGHT_CHILD`, and
for `OpTreeNode<T>` with its own `cut`, `linkLeft`, `linkRight` and flags. -/
theorem cut_releases_slot (s : Heap) (x p : Nat) :
    (∀ s0 sA f, NodeReachable s0 → ¬ SameTree s0 x p → linkLeft f s0 x p = some (sA, true) →
      Relation.ReflTransGen (NodeCall x) sA s →
      IsParent s x (some p) ∧
      ∃ s1, (∃ f0, ∀ f, f0 ≤ f → cut f s x = some s1) ∧
        s1.getFlag p .HAS_LEFT_CHILD = false ∧ s1.getFlag x .IS_LEFT_CHILD = false ∧
        (∀ w t, ¬ (w = p ∧ t = .HAS_LEFT_CHILD) → ¬ (w = x ∧ t = .IS_LEFT_CHILD) →
          s1.getFlag w t = s.getFlag w t) ∧
        ∀ y, IsParent s1 y none → ¬ SameTree s1 y p →
          ∃ s2, ∃ f0, ∀ f, f0 ≤ f → linkLeft f s1 y p = some (s2, true)) ∧
    (∀ s0 sA f, NodeReachable s0 → ¬ SameTree s0 x p → linkRight f s0 x p = some (sA, true) →
      Relation.ReflTransGen (NodeCall x) sA s →
      IsParent s x (some p) ∧
      ∃ s1, (∃ f0, ∀ f, f0 ≤ f → cut f s x = some s1) ∧
        s1.getFlag p .HAS_RIGHT_CHILD = false ∧ s1.getFlag x .IS_RIGHT_CHILD = false ∧
        (∀ w t, ¬ (w = p ∧ t = .HAS_RIGHT_CHILD) → ¬ (w = x ∧ t = .IS_RIGHT_CHILD) →
          s1.getFlag w t = s.getFlag w t) ∧
        ∀ y, IsParent s1 y none → ¬ SameTree s1 y p →
          ∃ s2, ∃ f0, ∀ f, f0 ≤ f → linkRight f s1 y p = some (s2, true)) ∧
    (∀ s0 sA f, OpNodeReachable s0 → ¬ SameTree s0 x p → opLinkLeft f s0 x p = some (sA, true) →
      Relation.ReflTransGen (OpNodeCall x) sA s →
      IsParent s x (some p) ∧
      ∃ s1, (∃ f0, ∀ f, f0 ≤ f → opCut f s x = some s1) ∧
        s1.getOpFlag p .HAS_LEFT_CHILD = false ∧ s1.getOpFlag x .IS_LEFT_CHILD = false ∧
        (∀ w t, ¬ (w = p ∧ t = .HAS_LEFT_CHILD) → ¬ (w = x ∧ t = .IS_LEFT_CHILD) →
          s1.getOpFlag w t = s.getOpFlag w t) ∧
        ∀ y, IsParent s1 y none → ¬ SameTree s1 y p →
          ∃ s2, ∃ f0, ∀ f, f0 ≤ f → opLinkLeft f s1 y p = some (s2, true)) ∧
    (∀ s0 sA f, OpNodeReachable s0 → ¬ SameTree s0 x p → opLinkRight f s0 x p = some (sA, true) →
      Relation.ReflTransGen (OpNodeCall x) sA s →
      IsParent s x (some p) ∧
      ∃ s1, (∃ f0, ∀ f, f0 ≤ f → opCut f s x = some s1) ∧
        s1.getOpFlag p .HAS_RIGHT_CHILD = false ∧ s1.getOpFlag x .IS_RIGHT_CHILD = false ∧
        (∀ w t, ¬ (w = p ∧ t = .HAS_RIGHT_CHILD) → ¬ (w = x ∧ t = .IS_RIGHT_CHILD) →
          s1.getOpFlag w t = s.getOpFlag w t) ∧
        ∀ y, IsParent s1 y none → ¬ SameTree s1 y p →
          ∃ s2, ∃ f0, ∀ f, f0 ≤ f → opLinkRight f s1 y p = some (s2, true)) := by
  refine ⟨?_, ?_, ?_, ?_⟩
  · intro s0 sA f hs0 hdiff e hcalls
    obtain ⟨hA, hparA, hflA⟩ := linkLeft_true_state hs0 hdiff e
    obtain ⟨hs, hpar, c, d⟩ := NodeCall.keeps_star hcalls hA hparA
    obtain ⟨s1, e1, -, a1, b1, c1, d1⟩ := cut_releases_left hs hpar (c hflA)
    exact ⟨hpar, s1, e1, a1, b1, c1, d1⟩
  · intro s0 sA f hs0 hdiff e hcalls
    obtain ⟨hA, hparA, hflA⟩ := linkRight_true_state hs0 hdiff e
    obtain ⟨hs, hpar, c, d⟩ := NodeCall.keeps_star hcalls hA hparA
    obtain ⟨s1, e1, -, a1, b1, c1, d1⟩ := cut_releases_right hs hpar (d hflA)
    exact ⟨hpar, s1, e1, a1, b1, c1, d1⟩
  · intro s0 sA f hs0 hdiff e hcalls
    obtain ⟨hA, hparA, hflA⟩ := opLinkLeft_true_state hs0 hdiff e
    obtain ⟨hs, hpar, c, d⟩ := OpNodeCall.opKeeps_star hcalls hA hparA
    obtain ⟨s1, e1, -, a1, b1, c1, d1⟩ := opCut_releases_left hs hpar (c hflA)
    exact ⟨hpar, s1, e1, a1, b1, c1, d1⟩
  · intro s0 sA f hs0 hdiff e hcalls
    obtain ⟨hA, hparA, hflA⟩ := opLinkRight_true_state hs0 hdiff e
    obtain ⟨hs, hpar, c, d⟩ := OpNodeCall.opKeeps_star hcalls hA hparA
    obtain ⟨s1, e1, -, a1, b1, c1, d1⟩ := opCut_releases_right hs hpar (d hflA)
    exact ⟨hpar, s1, e1, a1, b1, c1, d1⟩

theorem cut_releases_slot_witness :
    NodeReachable fresh ∧ ¬ SameTree fresh 1 0 ∧
      linkLeft 1 fresh 1 0 = some (heapLeft, true) ∧
      ((cut 3 heapLeft 1).map fun s1 =>
        (s1.getFlag 0 .HAS_LEFT_CHILD, s1.getFlag 1 .IS_LEFT_CHILD)) = some (false, false) ∧
      ((cut 3 heapLeft 1).bind fun s1 => (linkLeft 3 s1 2 0).map Prod.snd) = some true ∧
      IsParent heapLeft 1 (some 0) ∧
      ∃ s1, (∃ f0, ∀ f, f0 ≤ f → cut f heapLeft 1 = some s1) ∧
        s1.getFlag 0 .HAS_LEFT_CHILD = false ∧ s1.getFlag 1 .IS_LEFT_CHILD = false ∧
        (∀ w t, ¬ (w = 0 ∧ t = .HAS_LEFT_CHILD) → ¬ (w = 1 ∧ t = .IS_LEFT_CHILD) →
          s1.getFlag w t = heapLeft.getFlag w t) ∧
        ∀ y, IsParent s1 y none → ¬ SameTree s1 y 0 →
          ∃ s2, ∃ f0, ∀ f, f0 ≤ f → linkLeft f s1 y 0 = some (s2, true) :=
  ⟨NodeReachable.fresh, fresh_A_R_diff, heapLeft_link, by decide, by decide,
    (cut_releases_slot heapLeft 1 0).1 fresh heapLeft 1 NodeReachable.fresh fresh_A_R_diff
      heapLeft_link Relation.ReflTransGen.refl⟩

/-- C20: totality. On a well-formed forest, for all nodes `u`, `v`, each of
`v.splay()`, `v.expose()`, `v.findRoot()`, `v.findParent()`,
`u.lowestCommonAncestor(v)` and `v.path(...)` returns a result whenever the
fuel is large enough. The embedding yields `none` both when a loop runs out of
fuel and when the code would follow a null `_parent`, grandparent or child
pointer, so every loop terminates and no null pointer is followed. -/
theorem operations_total (s : Heap) (hs : Reachable s) (u v : Nat) :
    (∃ s1, ∃ f0, ∀ f, f0 ≤ f → splay f s v = some s1) ∧
    (∃ s1, ∃ f0, ∀ f, f0 ≤ f → expose f s v = some s1) ∧
    (∃ s1 r, ∃ f0, ∀ f, f0 ≤ f → findRoot f s v = some (s1, r)) ∧
    (∃ p, ∃ f0, ∀ f, f0 ≤ f → findParent f s v = some p) ∧
    (∃ s1 res, ∃ f0, ∀ f, f0 ≤ f → lowestCommonAncestor f s u v = some (s1, res)) ∧
    (∃ l, ∃ f0, ∀ f, f0 ≤ f → path f s v = some l) := by
  obtain ⟨g, h⟩ := hs.inv
  obtain ⟨s0, g0, e0, -⟩ := splay_spec h v
  obtain ⟨s1, e1, -⟩ := expose_wf hs v
  obtain ⟨s2, r, e2, -⟩ := findRoot_wf hs v
  obtain ⟨s3, res, e3, -⟩ := lowestCommonAncestor_frame_wf hs u v
  obtain ⟨l, ⟨f0, e4⟩, -⟩ := path_wf hs v
  exact ⟨⟨s0, _, e0⟩, ⟨s1, e1⟩, ⟨s2, r, e2⟩, ⟨g.rp v, g.N + 1, findParent_spec h v⟩,
    ⟨s3, res, e3⟩, ⟨l, f0, fun f hf => (e4 f hf).1⟩⟩

theorem operations_total_witness :
    Reachable heapTree ∧ (splay 5 heapTree 0).isSome = true ∧
      (expose 5 heapTree 0).isSome = true ∧ (findRoot 5 heapTree 2).isSome = true ∧
      findParent 5 heapTree 2 = some (some 1) ∧
      (lowestCommonAncestor 5 heapTree 3 2).isSome = true ∧
      path 5 heapTree 2 = some [2, 1, 0] ∧
      (∃ s1, ∃ f0, ∀ f, f0 ≤ f → splay f heapTree 0 = some s1) ∧
      (∃ s1, ∃ f0, ∀ f, f0 ≤ f → expose f heapTree 0 = some s1) ∧
      (∃ s1 r, ∃ f0, ∀ f, f0 ≤ f → findRoot f heapTree 0 = some (s1, r)) ∧
      (∃ p, ∃ f0, ∀ f, f0 ≤ f → findParent f heapTree 0 = some p) ∧
      (∃ s1 res, ∃ f0, ∀ f, f0 ≤ f → lowestCommonAncestor f heapTree 3 0 = some (s1, res)) ∧
      (∃ l, ∃ f0, ∀ f, f0 ≤ f → path f heapTree 0 = some l) :=
  ⟨heapTree_reachable, by decide, by decide, by decide, by decide, by decide, by decide,
    operations_total heapTree heapTree_reachable 3 0⟩

/-- C14: amortized cost bound. Every workload of `N` operations `link`, `cut`
and `expose` on nodes below `n`, with `n` at most `N`, started on freshly
constructed nodes and never linking a root below a node of its own tree, runs
to completion, and the number `c` of calls of `rotR` and `rotL` it performs is
at most `46 * N * (log n + 1)`, hence at most `46 * N * (log N + 1)`: the
total is `O(N log N)`. -/
theorem rotations_amortized (n N : Nat) (ops : List Op) (hn : n ≤ N) (hlen : ops.length = N)
    (hb : ∀ op ∈ ops, op.Below n) (hvalid : Valid fresh ops) :
    ∃ s1 c f0, (∀ f, f0 ≤ f → runC f (fresh, 0) ops = some (s1, c)) ∧
      (∀ f, f0 ≤ f → run f fresh ops = some s1) ∧
      c ≤ 46 * N * (Nat.log 2 n + 1) ∧ c ≤ 46 * N * (Nat.log 2 N + 1) := by
  obtain ⟨s1, g1, pc1, c, f0, e, -, pot⟩ := run_pot ops fresh _ _ (fresh_pinv n) hb hvalid
  rw [fresh_pot, hlen] at pot
  have h1 : c ≤ 46 * N * (Nat.log 2 n + 1) := by
    have : N * (46 * Nat.log 2 n + 6) ≤ N * (46 * (Nat.log 2 n + 1)) :=
      Nat.mul_le_mul_left _ (by omega)
    rw [Nat.mul_comm 46 N, Nat.mul_assoc]
    omega
  have h2 : 46 * N * (Nat.log 2 n + 1) ≤ 46 * N * (Nat.log 2 N + 1) :=
    Nat.mul_le_mul_left _ (Nat.succ_le_succ (Nat.log_mono_right hn))
  refine ⟨s1, c, f0, ?_, ?_, h1, le_trans h1 h2⟩
  · intro f hf
    have := e f 0 hf
    rw [Nat.zero_add] at this
    exact this
  · intro f hf
    have := e f 0 hf
    rw [← runC_fst f ops fresh 0, this]
    rfl

theorem rotations_amortized_witness :
    ∃ s1 c f0,
      (∀ f, f0 ≤ f → runC f (fresh, 0) [Op.link 1 0, Op.expose 0, Op.cut 1] = some (s1, c)) ∧
      (∀ f, f0 ≤ f → run f fresh [Op.link 1 0, Op.expose 0, Op.cut 1] = some s1) ∧
      c ≤ 46 * 3 * (Nat.log 2 2 + 1) ∧ c ≤ 46 * 3 * (Nat.log 2 3 + 1) :=
  rotations_amortized 2 3 [Op.link 1 0, Op.expose 0, Op.cut 1] (by decide) rfl
    (fun op hop => by
      simp only [List.mem_cons, List.mem_singleton, List.not_mem_nil, or_false] at hop
      rcases hop with rfl | rfl | rfl <;> simp [Op.Below])
    ⟨fun _ => fresh_A_R_diff, fun _ _ _ _ => ⟨trivial, fun _ _ _ _ => ⟨trivial, fun _ _ _ _ => trivial⟩⟩⟩

end Claims

end LinkCutTree
